import Mathlib

/-!
A verification development for the Monkey interpreter (lexer, parser, evaluator).

The C++ sources are embedded shallowly:

* `token`   : `src/token/token.h`
* `lexer`   : `src/lexer/lexer.cpp`
* `ast`     : `src/ast/ast.h`
* `parser`  : `src/parser/parser.cpp`
* `object`  : `src/object/object.h`, `src/environment/environment.h`
* `evaluator` : `src/evaluator/evaluator.cpp`

Conventions of the embedding.

* A `std::string` is a list of characters; one `Char` stands for one `char`.
  The byte `0` is `Char.ofNat 0`.
* A `std::shared_ptr<T>` that may be null is an `Option T`.
* The `int` cursors of the lexer are natural numbers: the embedding does not follow
  them beyond the range of `int`, which more than `2^31` characters of input or calls
  of `nextToken` would take. `Lexer.InRange` says that the cursors of a state are at
  most `INT_MAX`; what is stated about every later call of `nextToken` is stated for
  the calls that leave the lexer in such a state. The loops of the lexer run
  `input.length + 1` times at most, which is enough for them to end by their own
  condition (`Lexer.readWhile_complete`).
* The methods and loops of the parser take fuel, and so does `eval` (one unit for
  every nested call); the result `none` (parser) or `Result.timeout` (evaluator)
  means that the fuel given was not enough. A computation that exhausts every
  amount of fuel does not terminate.
* Objects carry the address at which `std::make_shared` created them, so pointer
  equality is equality of addresses. An environment pointer is the address of the
  store of the environment together with its `outer` pointer; the stores live in
  the memory `Heap`.
* Where C++ gives no result (a null pointer dereferenced, an index past the end of a
  vector, a division by zero or of `INT64_MIN` by -1) the evaluator returns
  `Result.crash`. Signed 64-bit addition, subtraction, multiplication and negation
  wrap.
-/

namespace token

/-- The token kinds of `enum class TokenType`. -/
inductive TokenType where
  | ILLEGAL | EOF_TOKEN
  | IDENT | INT
  | ASSIGN | PLUS | MINUS | BANG | ASTERISK | SLASH
  | LT | GT | EQ | NOT_EQ
  | COMMA | SEMICOLON
  | LPAREN | RPAREN | LBRACE | RBRACE
  | FUNCTION | LET | TRUE | FALSE | IF | ELSE | RETURN
  deriving DecidableEq, Repr

/-- A token: `struct Token { TokenType type; std::string literal; }`. -/
structure Token where
  type : TokenType := TokenType.ILLEGAL
  literal : String := ""
  deriving DecidableEq, Repr

/-- The keyword table of `lookupIdent`. -/
def lookupIdent (ident : String) : TokenType :=
  if ident = "fn" then TokenType.FUNCTION
  else if ident = "let" then TokenType.LET
  else if ident = "true" then TokenType.TRUE
  else if ident = "false" then TokenType.FALSE
  else if ident = "if" then TokenType.IF
  else if ident = "else" then TokenType.ELSE
  else if ident = "return" then TokenType.RETURN
  else TokenType.IDENT

/-- The names of the token kinds, `tokenTypeToString`. -/
def tokenTypeToString : TokenType → String
  | .ILLEGAL => "ILLEGAL"
  | .EOF_TOKEN => "EOF"
  | .IDENT => "IDENT"
  | .INT => "INT"
  | .ASSIGN => "ASSIGN"
  | .PLUS => "PLUS"
  | .MINUS => "MINUS"
  | .BANG => "BANG"
  | .ASTERISK => "ASTERISK"
  | .SLASH => "SLASH"
  | .LT => "LT"
  | .GT => "GT"
  | .EQ => "EQ"
  | .NOT_EQ => "NOT_EQ"
  | .COMMA => "COMMA"
  | .SEMICOLON => "SEMICOLON"
  | .LPAREN => "LPAREN"
  | .RPAREN => "RPAREN"
  | .LBRACE => "LBRACE"
  | .RBRACE => "RBRACE"
  | .FUNCTION => "FUNCTION"
  | .LET => "LET"
  | .TRUE => "TRUE"
  | .FALSE => "FALSE"
  | .IF => "IF"
  | .ELSE => "ELSE"
  | .RETURN => "RETURN"

end token

namespace lexer

open token

/-- The byte `0`, which `readChar` stores at the end of the input. -/
def NUL : Char := Char.ofNat 0

/-- The function `std::isspace` in the "C" locale: space, `\t`, `\n`, `\v`, `\f`, `\r`. -/
def isSpace (ch : Char) : Bool :=
  ch.toNat = 32 || (9 ≤ ch.toNat && ch.toNat ≤ 13)

/-- The function `std::isalpha` in the "C" locale. -/
def isAlpha (ch : Char) : Bool :=
  (65 ≤ ch.toNat && ch.toNat ≤ 90) || (97 ≤ ch.toNat && ch.toNat ≤ 122)

/-- The helper `isLetter`: `std::isalpha(ch) || ch == '_'`. -/
def isLetter (ch : Char) : Bool :=
  isAlpha ch || ch = '_'

/-- The helper `isDigit`: `std::isdigit(ch)`. -/
def isDigit (ch : Char) : Bool :=
  48 ≤ ch.toNat && ch.toNat ≤ 57

/-- The helper `newToken`: a token whose literal is the single character `ch`. -/
def newToken (type : TokenType) (ch : Char) : Token :=
  { type := type, literal := String.mk [ch] }

/-- The state of `class Lexer`. The cursors `position` and `readPosition`, declared
`int`, are natural numbers here: the embedding agrees with the source on the states whose
cursors are at most `INT_MAX` (`Lexer.InRange`), and statements about calls of
`nextToken` without a bound on their number carry this condition. -/
structure Lexer where
  input : List Char
  position : Nat := 0
  readPosition : Nat := 0
  ch : Char := NUL

namespace Lexer

/-- The method `Lexer::readChar`. The increment `readPosition++` is that of the natural
numbers; on the `int` of the source it is defined while `readPosition` is below
`INT_MAX`, which holds in every state that `Lexer.InRange` holds of after the call. -/
def readChar (l : Lexer) : Lexer :=
  { l with
    ch := if l.readPosition ≥ l.input.length then NUL else l.input.getD l.readPosition NUL
    position := l.readPosition
    readPosition := l.readPosition + 1 }

/-- The constructor `Lexer::Lexer`: store the input and read the first character. -/
def new (input : List Char) : Lexer :=
  readChar { input := input }

/-- The method `Lexer::peekChar`. -/
def peekChar (l : Lexer) : Char :=
  if l.readPosition ≥ l.input.length then NUL else l.input.getD l.readPosition NUL

/-- A loop `while (pred(ch)) readChar();` with a bound `n` on its iterations. From any
state `input.length + 1` iterations reach the end of the loop, because `readChar` stores
the byte `0` once the input is exhausted and none of the loops goes on at `0`. -/
def readWhile (pred : Char → Bool) : Nat → Lexer → Lexer
  | 0, l => l
  | n + 1, l => if pred l.ch then readWhile pred n (readChar l) else l

/-- The method `Lexer::skipWhitespace`: `while (std::isspace(ch)) readChar();`. -/
def skipWhitespace (l : Lexer) : Lexer :=
  readWhile isSpace (l.input.length + 1) l

/-- The method `Lexer::readIdentifier`, `while (isLetter(ch)) readChar();`: the text
read and the lexer after it. -/
def readIdentifier (l : Lexer) : String × Lexer :=
  let start := l.position
  let l1 := readWhile isLetter (l.input.length + 1) l
  (String.mk ((l.input.drop start).take (l1.position - start)), l1)

/-- The method `Lexer::readNumber`, `while (isDigit(ch)) readChar();`: the text read
and the lexer after it. -/
def readNumber (l : Lexer) : String × Lexer :=
  let start := l.position
  let l1 := readWhile isDigit (l.input.length + 1) l
  (String.mk ((l.input.drop start).take (l1.position - start)), l1)

/-- The method `Lexer::nextToken`: the token returned and the lexer after the call. -/
def nextToken (l0 : Lexer) : Token × Lexer :=
  let l := skipWhitespace l0
  if l.ch = '=' then
    if peekChar l = '=' then
      let c := l.ch
      let l1 := readChar l
      ({ type := TokenType.EQ, literal := String.mk [c, l1.ch] }, readChar l1)
    else (newToken TokenType.ASSIGN l.ch, readChar l)
  else if l.ch = '+' then (newToken TokenType.PLUS l.ch, readChar l)
  else if l.ch = '-' then (newToken TokenType.MINUS l.ch, readChar l)
  else if l.ch = '!' then
    if peekChar l = '=' then
      let c := l.ch
      let l1 := readChar l
      ({ type := TokenType.NOT_EQ, literal := String.mk [c, l1.ch] }, readChar l1)
    else (newToken TokenType.BANG l.ch, readChar l)
  else if l.ch = '/' then (newToken TokenType.SLASH l.ch, readChar l)
  else if l.ch = '*' then (newToken TokenType.ASTERISK l.ch, readChar l)
  else if l.ch = '<' then (newToken TokenType.LT l.ch, readChar l)
  else if l.ch = '>' then (newToken TokenType.GT l.ch, readChar l)
  else if l.ch = ';' then (newToken TokenType.SEMICOLON l.ch, readChar l)
  else if l.ch = '(' then (newToken TokenType.LPAREN l.ch, readChar l)
  else if l.ch = ')' then (newToken TokenType.RPAREN l.ch, readChar l)
  else if l.ch = ',' then (newToken TokenType.COMMA l.ch, readChar l)
  else if l.ch = '{' then (newToken TokenType.LBRACE l.ch, readChar l)
  else if l.ch = '}' then (newToken TokenType.RBRACE l.ch, readChar l)
  else if l.ch = NUL then ({ type := TokenType.EOF_TOKEN, literal := "" }, readChar l)
  else if isLetter l.ch then
    let r := readIdentifier l
    ({ type := lookupIdent r.1, literal := r.1 }, r.2)
  else if isDigit l.ch then
    let r := readNumber l
    ({ type := TokenType.INT, literal := r.1 }, r.2)
  else (newToken TokenType.ILLEGAL l.ch, readChar l)

/-- The tokens returned by the first `n` calls of `nextToken`. -/
def tokens : Nat → Lexer → List Token
  | 0, _ => []
  | n + 1, l => (nextToken l).1 :: tokens n (nextToken l).2

/-- The lexer after `n` calls of `nextToken`. -/
def afterCalls : Nat → Lexer → Lexer
  | 0, l => l
  | n + 1, l => afterCalls n (nextToken l).2

/-- The token returned by call number `n + 1` of `nextToken`. -/
def nthToken (l : Lexer) (n : Nat) : Token :=
  (nextToken (afterCalls n l)).1

end Lexer

end lexer

namespace ast

open token

/-- The node `ast::Identifier`. -/
structure Identifier where
  token : Token
  value : String
  deriving DecidableEq, Repr

mutual
/-- The subclasses of `ast::Expression`; a child held by a `shared_ptr` may be null. -/
inductive Expression where
  | identifier (id : Identifier)
  | integerLiteral (token : Token) (value : Int)
  | boolean (token : Token) (value : Bool)
  | prefixExpression (token : Token) (op : String) (right : Option Expression)
  | infixExpression (token : Token) (left : Option Expression) (op : String)
      (right : Option Expression)
  | ifExpression (token : Token) (condition : Option Expression)
      (consequence : Option BlockStatement) (alternative : Option BlockStatement)
  | functionLiteral (token : Token) (parameters : List Identifier)
      (body : Option BlockStatement)
  | callExpression (token : Token) (function : Option Expression)
      (arguments : List (Option Expression))
/-- The statements `ast::LetStatement`, `ast::ReturnStatement`, `ast::ExpressionStatement`. -/
inductive Statement where
  | letStatement (token : Token) (name : Option Identifier) (value : Option Expression)
  | returnStatement (token : Token) (returnValue : Option Expression)
  | expressionStatement (token : Token) (expression : Option Expression)
/-- The node `ast::BlockStatement`; the parser only stores non-null statements. -/
inductive BlockStatement where
  | mk (token : Token) (statements : List Statement)
end

/-- The root node `ast::Program`; the parser only stores non-null statements. -/
structure Program where
  statements : List Statement

/-- What a `shared_ptr<ast::Node>` can point to. -/
inductive Node where
  | program (p : Program)
  | statement (s : Statement)
  | blockStatement (b : BlockStatement)
  | expression (e : Expression)

/-- The 32-bit `int` that a 64-bit value is converted to (modulo `2^32`). -/
def toInt32 (v : Int) : Int :=
  (v + 2147483648) % 4294967296 - 2147483648

/-- The constructor `IntegerLiteral(token::Token token, int value)`: its parameter is an
`int`, so the value passed is converted to 32 bits before it is stored in the
`int64_t` field. -/
def IntegerLiteral.new (token : Token) (value : Int) : Expression :=
  Expression.integerLiteral token (toInt32 value)

/-- The statements of a block. -/
def BlockStatement.statements : BlockStatement → List Statement
  | .mk _ statements => statements

/-- Join the rendered parameters or arguments with `", "`. -/
def joinComma : List String → String
  | [] => ""
  | [s] => s
  | s :: rest => s ++ ", " ++ joinComma rest

mutual
/-- The methods `toString` of the expression nodes; `none` when a null child is
dereferenced. -/
def Expression.toString : Expression → Option String
  | .identifier id => some id.value
  | .integerLiteral token _ => some token.literal
  | .boolean token _ => some token.literal
  | .prefixExpression _ op (some right) =>
    match right.toString with
    | some r => some ("(" ++ op ++ r ++ ")")
    | none => none
  | .prefixExpression _ _ none => none
  | .infixExpression _ (some left) op (some right) =>
    match left.toString, right.toString with
    | some l, some r => some ("(" ++ l ++ " " ++ op ++ " " ++ r ++ ")")
    | _, _ => none
  | .infixExpression _ _ _ _ => none
  | .ifExpression _ (some condition) (some consequence) alternative =>
    match condition.toString, consequence.toString with
    | some c, some b =>
      match alternative with
      | none => some ("if" ++ c ++ " " ++ b)
      | some alt =>
        match alt.toString with
        | some a => some ("if" ++ c ++ " " ++ b ++ "else" ++ a)
        | none => none
    | _, _ => none
  | .ifExpression _ _ _ _ => none
  | .functionLiteral token parameters (some body) =>
    match body.toString with
    | some b =>
      some (token.literal ++ "(" ++ joinComma (parameters.map (fun p => p.value)) ++ ") " ++ b)
    | none => none
  | .functionLiteral _ _ none => none
  | .callExpression _ (some function) arguments =>
    match function.toString, argumentsToString arguments with
    | some f, some args => some (f ++ "(" ++ joinComma args ++ ")")
    | _, _ => none
  | .callExpression _ none _ => none
/-- The renderings of the arguments of a call. -/
def argumentsToString : List (Option Expression) → Option (List String)
  | [] => some []
  | some a :: rest =>
    match a.toString, argumentsToString rest with
    | some s, some ss => some (s :: ss)
    | _, _ => none
  | none :: _ => none
/-- The methods `toString` of the statement nodes. -/
def Statement.toString : Statement → Option String
  | .letStatement token (some name) (some value) =>
    match value.toString with
    | some v => some (token.literal ++ " " ++ name.value ++ " = " ++ v ++ ";")
    | none => none
  | .letStatement token (some name) none =>
    some (token.literal ++ " " ++ name.value ++ " = " ++ ";")
  | .letStatement _ none _ => none
  | .returnStatement token (some returnValue) =>
    match returnValue.toString with
    | some v => some (token.literal ++ " " ++ v ++ ";")
    | none => none
  | .returnStatement token none => some (token.literal ++ " " ++ ";")
  | .expressionStatement _ (some expression) => expression.toString
  | .expressionStatement _ none => some ""
/-- The method `BlockStatement::toString`. -/
def BlockStatement.toString : BlockStatement → Option String
  | .mk _ statements => statementsToString statements
/-- The concatenation of the renderings of a list of statements. -/
def statementsToString : List Statement → Option String
  | [] => some ""
  | s :: rest =>
    match s.toString, statementsToString rest with
    | some a, some b => some (a ++ b)
    | _, _ => none
end

/-- The method `Program::toString`. -/
def Program.toString (p : Program) : Option String :=
  statementsToString p.statements

end ast

namespace parser

open token lexer ast

/-- The levels of `enum Precedence`, compared as the `int`s they convert to. -/
abbrev LOWEST : Nat := 0
/-- The precedence of `==` and `!=`. -/
abbrev EQUALS : Nat := 1
/-- The precedence of `<` and `>`. -/
abbrev LESSGREATER : Nat := 2
/-- The precedence of `+` and `-`. -/
abbrev SUM : Nat := 3
/-- The precedence of `*` and `/`. -/
abbrev PRODUCT : Nat := 4
/-- The precedence of the unary operators `!` and `-`. -/
abbrev PREFIX : Nat := 5
/-- The precedence of a call, `(` in infix position. -/
abbrev CALL : Nat := 6

/-- The table `precedences`; `none` where the map has no entry. -/
def precedences : TokenType → Option Nat
  | .EQ => some EQUALS
  | .NOT_EQ => some EQUALS
  | .LT => some LESSGREATER
  | .GT => some LESSGREATER
  | .PLUS => some SUM
  | .MINUS => some SUM
  | .SLASH => some PRODUCT
  | .ASTERISK => some PRODUCT
  | .LPAREN => some CALL
  | _ => none

/-- The functions that the constructor registers in `prefixParseFns`. -/
inductive PrefixParseFn where
  | parseIdentifier | parseIntegerLiteral | parsePrefixExpression | parseBoolean
  | parseGroupedExpression | parseIfExpression | parseFunctionLiteral
  deriving DecidableEq, Repr

/-- The functions that the constructor registers in `infixParseFns`. -/
inductive InfixParseFn where
  | parseInfixExpression | parseCallExpression
  deriving DecidableEq, Repr

/-- The map `prefixParseFns` after the constructor has run. -/
def prefixParseFns : TokenType → Option PrefixParseFn
  | .IDENT => some .parseIdentifier
  | .INT => some .parseIntegerLiteral
  | .BANG => some .parsePrefixExpression
  | .MINUS => some .parsePrefixExpression
  | .TRUE => some .parseBoolean
  | .FALSE => some .parseBoolean
  | .LPAREN => some .parseGroupedExpression
  | .IF => some .parseIfExpression
  | .FUNCTION => some .parseFunctionLiteral
  | _ => none

/-- The map `infixParseFns` after the constructor has run. -/
def infixParseFns : TokenType → Option InfixParseFn
  | .PLUS => some .parseInfixExpression
  | .MINUS => some .parseInfixExpression
  | .ASTERISK => some .parseInfixExpression
  | .SLASH => some .parseInfixExpression
  | .EQ => some .parseInfixExpression
  | .NOT_EQ => some .parseInfixExpression
  | .LT => some .parseInfixExpression
  | .GT => some .parseInfixExpression
  | .LPAREN => some .parseCallExpression
  | _ => none

/-- The function `std::stoll` on a literal: skip leading white space, read an optional
sign and the decimal digits; `none` stands for the exception thrown when there is no
digit (`std::invalid_argument`) or the number does not fit in 64 bits
(`std::out_of_range`). -/
def stoll (s : String) : Option Int :=
  let cs := s.toList.dropWhile isSpace
  let neg := cs.head? = some '-'
  let ds := if cs.head? = some '-' ∨ cs.head? = some '+' then cs.tail else cs
  let digits := ds.takeWhile isDigit
  if digits = [] then none
  else
    let n : Nat := digits.foldl (fun acc c => acc * 10 + (c.toNat - 48)) 0
    let v : Int := if neg then -(n : Int) else (n : Int)
    if v < -9223372036854775808 ∨ 9223372036854775807 < v then none else some v

/-- The state of `class Parser`: the lexer it reads from, the error list and the two
tokens of lookahead. -/
structure Parser where
  l : Lexer
  errorMessages : List String := []
  curToken : Token := {}
  peekToken : Token := {}

namespace Parser

/-- The method `Parser::nextToken`. -/
def nextToken (p : Parser) : Parser :=
  { p with curToken := p.peekToken, peekToken := (p.l.nextToken).1, l := (p.l.nextToken).2 }

/-- The constructor `Parser::Parser`: read two tokens. -/
def new (l : Lexer) : Parser :=
  nextToken (nextToken { l := l })

/-- The method `Parser::errors`. -/
def errors (p : Parser) : List String :=
  p.errorMessages

/-- The method `Parser::peekPrecedence`. -/
def peekPrecedence (p : Parser) : Nat :=
  match precedences p.peekToken.type with
  | some x => x
  | none => LOWEST

/-- The method `Parser::curPrecedence`. -/
def curPrecedence (p : Parser) : Nat :=
  match precedences p.curToken.type with
  | some x => x
  | none => LOWEST

/-- The method `Parser::curTokenIs`. -/
def curTokenIs (p : Parser) (t : TokenType) : Bool :=
  p.curToken.type = t

/-- The method `Parser::peekTokenIs`. -/
def peekTokenIs (p : Parser) (t : TokenType) : Bool :=
  p.peekToken.type = t

/-- The method `Parser::peekError`. -/
def peekError (p : Parser) (t : TokenType) : Parser :=
  { p with errorMessages := p.errorMessages ++
      ["expected next token to be " ++ tokenTypeToString t ++ ", got " ++
        tokenTypeToString p.peekToken.type ++ " instead."] }

/-- The method `Parser::noPrefixParseFnError`. -/
def noPrefixParseFnError (p : Parser) (t : TokenType) : Parser :=
  { p with errorMessages := p.errorMessages ++
      ["no prefix parse function found for " ++ tokenTypeToString t] }

/-- The method `Parser::expectPeek`: the boolean returned and the parser after the call. -/
def expectPeek (p : Parser) (t : TokenType) : Bool × Parser :=
  if p.peekTokenIs t then (true, p.nextToken) else (false, p.peekError t)

/-- The method `Parser::parseIdentifier`. -/
def parseIdentifier (p : Parser) : Option Expression × Parser :=
  (some (Expression.identifier { token := p.curToken, value := p.curToken.literal }), p)

/-- The method `Parser::parseBoolean`. -/
def parseBoolean (p : Parser) : Option Expression × Parser :=
  (some (Expression.boolean p.curToken (p.curTokenIs TokenType.TRUE)), p)

/-- The method `Parser::parseIntegerLiteral`. -/
def parseIntegerLiteral (p : Parser) : Option Expression × Parser :=
  match stoll p.curToken.literal with
  | some value => (some (IntegerLiteral.new p.curToken value), p)
  | none =>
    (none, { p with errorMessages := p.errorMessages ++
      ["could not parse " ++ p.curToken.literal ++ " as integer"] })

/-- The loop `while (!curTokenIs(SEMICOLON)) nextToken();` that ends `parseLetStatement`
and `parseReturnStatement`; `none` when the fuel does not suffice. -/
def skipToSemicolon : Nat → Parser → Option Parser
  | 0, _ => none
  | fuel + 1, p =>
    if !p.curTokenIs TokenType.SEMICOLON then skipToSemicolon fuel p.nextToken else some p

/-- The loop `while (peekTokenIs(COMMA))` of `parseFunctionParameters`. -/
def parseFunctionParametersLoop :
    Nat → List Identifier → Parser → Option (List Identifier × Parser)
  | 0, _, _ => none
  | fuel + 1, identifiers, p =>
    if p.peekTokenIs TokenType.COMMA then
      let p1 := p.nextToken.nextToken
      parseFunctionParametersLoop fuel
        (identifiers ++ [{ token := p1.curToken, value := p1.curToken.literal }]) p1
    else some (identifiers, p)

/-- The method `Parser::parseFunctionParameters`. -/
def parseFunctionParameters (fuel : Nat) (p : Parser) : Option (List Identifier × Parser) :=
  if p.peekTokenIs TokenType.RPAREN then some ([], p.nextToken)
  else
    let p1 := p.nextToken
    match parseFunctionParametersLoop fuel
        [{ token := p1.curToken, value := p1.curToken.literal }] p1 with
    | none => none
    | some (identifiers, p2) =>
      if (p2.expectPeek TokenType.RPAREN).1 then
        some (identifiers, (p2.expectPeek TokenType.RPAREN).2)
      else some ([], (p2.expectPeek TokenType.RPAREN).2)

mutual
/-- The method `Parser::parseExpression`. -/
def parseExpression : Nat → Nat → Parser → Option (Option Expression × Parser)
  | 0, _, _ => none
  | fuel + 1, precedence, p =>
    match prefixParseFns p.curToken.type with
    | none => some (none, p.noPrefixParseFnError p.curToken.type)
    | some fn =>
      match callPrefixParseFn fuel fn p with
      | none => none
      | some (leftExp, p1) => parseExpressionLoop fuel precedence leftExp p1
/-- The call `prefix->second()` of the function found in `prefixParseFns`. -/
def callPrefixParseFn :
    Nat → PrefixParseFn → Parser → Option (Option Expression × Parser)
  | 0, _, _ => none
  | fuel + 1, fn, p =>
    match fn with
    | .parseIdentifier => some p.parseIdentifier
    | .parseIntegerLiteral => some p.parseIntegerLiteral
    | .parsePrefixExpression => parsePrefixExpression fuel p
    | .parseBoolean => some p.parseBoolean
    | .parseGroupedExpression => parseGroupedExpression fuel p
    | .parseIfExpression => parseIfExpression fuel p
    | .parseFunctionLiteral => parseFunctionLiteral fuel p
/-- The loop `while (!peekTokenIs(SEMICOLON) && precedence < peekPrecedence())` of
`parseExpression`. -/
def parseExpressionLoop :
    Nat → Nat → Option Expression → Parser → Option (Option Expression × Parser)
  | 0, _, _, _ => none
  | fuel + 1, precedence, leftExp, p =>
    if !p.peekTokenIs TokenType.SEMICOLON && decide (precedence < p.peekPrecedence) then
      match infixParseFns p.peekToken.type with
      | none => some (leftExp, p)
      | some fn =>
        match callInfixParseFn fuel fn leftExp p.nextToken with
        | none => none
        | some (leftExp1, p1) => parseExpressionLoop fuel precedence leftExp1 p1
    else some (leftExp, p)
/-- The call `infix->second(leftExp)` of the function found in `infixParseFns`. -/
def callInfixParseFn :
    Nat → InfixParseFn → Option Expression → Parser → Option (Option Expression × Parser)
  | 0, _, _, _ => none
  | fuel + 1, fn, left, p =>
    match fn with
    | .parseInfixExpression => parseInfixExpression fuel left p
    | .parseCallExpression => parseCallExpression fuel left p
/-- The method `Parser::parsePrefixExpression`. -/
def parsePrefixExpression : Nat → Parser → Option (Option Expression × Parser)
  | 0, _ => none
  | fuel + 1, p =>
    match parseExpression fuel PREFIX p.nextToken with
    | none => none
    | some (right, p1) =>
      some (some (Expression.prefixExpression p.curToken p.curToken.literal right), p1)
/-- The method `Parser::parseInfixExpression`. -/
def parseInfixExpression :
    Nat → Option Expression → Parser → Option (Option Expression × Parser)
  | 0, _, _ => none
  | fuel + 1, left, p =>
    match parseExpression fuel p.curPrecedence p.nextToken with
    | none => none
    | some (right, p1) =>
      some (some (Expression.infixExpression p.curToken left p.curToken.literal right), p1)
/-- The method `Parser::parseGroupedExpression`. -/
def parseGroupedExpression : Nat → Parser → Option (Option Expression × Parser)
  | 0, _ => none
  | fuel + 1, p =>
    match parseExpression fuel LOWEST p.nextToken with
    | none => none
    | some (exp, p1) =>
      if (p1.expectPeek TokenType.RPAREN).1 then some (exp, (p1.expectPeek TokenType.RPAREN).2)
      else some (none, (p1.expectPeek TokenType.RPAREN).2)
/-- The method `Parser::parseIfExpression`. -/
def parseIfExpression : Nat → Parser → Option (Option Expression × Parser)
  | 0, _ => none
  | fuel + 1, p =>
    if (p.expectPeek TokenType.LPAREN).1 then
      match parseExpression fuel LOWEST (p.expectPeek TokenType.LPAREN).2.nextToken with
      | none => none
      | some (condition, p1) =>
        if (p1.expectPeek TokenType.RPAREN).1 then
          let p2 := (p1.expectPeek TokenType.RPAREN).2
          if (p2.expectPeek TokenType.LBRACE).1 then
            match parseBlockStatement fuel (p2.expectPeek TokenType.LBRACE).2 with
            | none => none
            | some (consequence, p3) =>
              if p3.peekTokenIs TokenType.ELSE then
                let p4 := p3.nextToken
                if (p4.expectPeek TokenType.LBRACE).1 then
                  match parseBlockStatement fuel (p4.expectPeek TokenType.LBRACE).2 with
                  | none => none
                  | some (alternative, p5) =>
                    some (some (Expression.ifExpression p.curToken condition
                      (some consequence) (some alternative)), p5)
                else some (none, (p4.expectPeek TokenType.LBRACE).2)
              else
                some (some (Expression.ifExpression p.curToken condition
                  (some consequence) none), p3)
          else some (none, (p2.expectPeek TokenType.LBRACE).2)
        else some (none, (p1.expectPeek TokenType.RPAREN).2)
    else some (none, (p.expectPeek TokenType.LPAREN).2)
/-- The method `Parser::parseBlockStatement`. -/
def parseBlockStatement : Nat → Parser → Option (BlockStatement × Parser)
  | 0, _ => none
  | fuel + 1, p => parseBlockStatementLoop fuel p.curToken [] p.nextToken
/-- The loop `while (!curTokenIs(RBRACE) && !curTokenIs(EOF_TOKEN))` of
`parseBlockStatement`. -/
def parseBlockStatementLoop :
    Nat → Token → List Statement → Parser → Option (BlockStatement × Parser)
  | 0, _, _, _ => none
  | fuel + 1, token, statements, p =>
    if !p.curTokenIs TokenType.RBRACE && !p.curTokenIs TokenType.EOF_TOKEN then
      match parseStatement fuel p with
      | none => none
      | some (some stmt, p1) =>
        parseBlockStatementLoop fuel token (statements ++ [stmt]) p1.nextToken
      | some (none, p1) => parseBlockStatementLoop fuel token statements p1.nextToken
    else some (BlockStatement.mk token statements, p)
/-- The method `Parser::parseFunctionLiteral`. -/
def parseFunctionLiteral : Nat → Parser → Option (Option Expression × Parser)
  | 0, _ => none
  | fuel + 1, p =>
    if (p.expectPeek TokenType.LPAREN).1 then
      match parseFunctionParameters fuel (p.expectPeek TokenType.LPAREN).2 with
      | none => none
      | some (parameters, p1) =>
        if (p1.expectPeek TokenType.LBRACE).1 then
          match parseBlockStatement fuel (p1.expectPeek TokenType.LBRACE).2 with
          | none => none
          | some (body, p2) =>
            some (some (Expression.functionLiteral p.curToken parameters (some body)), p2)
        else some (none, (p1.expectPeek TokenType.LBRACE).2)
    else some (none, (p.expectPeek TokenType.LPAREN).2)
/-- The method `Parser::parseCallExpression`. -/
def parseCallExpression :
    Nat → Option Expression → Parser → Option (Option Expression × Parser)
  | 0, _, _ => none
  | fuel + 1, function, p =>
    match parseCallArguments fuel p with
    | none => none
    | some (arguments, p1) =>
      some (some (Expression.callExpression p.curToken function arguments), p1)
/-- The method `Parser::parseCallArguments`. -/
def parseCallArguments : Nat → Parser → Option (List (Option Expression) × Parser)
  | 0, _ => none
  | fuel + 1, p =>
    if p.peekTokenIs TokenType.RPAREN then some ([], p.nextToken)
    else
      match parseExpression fuel LOWEST p.nextToken with
      | none => none
      | some (arg, p1) =>
        match parseCallArgumentsLoop fuel [arg] p1 with
        | none => none
        | some (args, p2) =>
          if (p2.expectPeek TokenType.RPAREN).1 then
            some (args, (p2.expectPeek TokenType.RPAREN).2)
          else some ([], (p2.expectPeek TokenType.RPAREN).2)
/-- The loop `while (peekTokenIs(COMMA))` of `parseCallArguments`. -/
def parseCallArgumentsLoop :
    Nat → List (Option Expression) → Parser → Option (List (Option Expression) × Parser)
  | 0, _, _ => none
  | fuel + 1, args, p =>
    if p.peekTokenIs TokenType.COMMA then
      match parseExpression fuel LOWEST p.nextToken.nextToken with
      | none => none
      | some (arg, p1) => parseCallArgumentsLoop fuel (args ++ [arg]) p1
    else some (args, p)
/-- The method `Parser::parseStatement`. -/
def parseStatement : Nat → Parser → Option (Option Statement × Parser)
  | 0, _ => none
  | fuel + 1, p =>
    if p.curToken.type = TokenType.LET then parseLetStatement fuel p
    else if p.curToken.type = TokenType.RETURN then parseReturnStatement fuel p
    else parseExpressionStatement fuel p
/-- The method `Parser::parseLetStatement`. -/
def parseLetStatement : Nat → Parser → Option (Option Statement × Parser)
  | 0, _ => none
  | fuel + 1, p =>
    if (p.expectPeek TokenType.IDENT).1 then
      let p1 := (p.expectPeek TokenType.IDENT).2
      if (p1.expectPeek TokenType.ASSIGN).1 then
        match parseExpression fuel LOWEST (p1.expectPeek TokenType.ASSIGN).2.nextToken with
        | none => none
        | some (value, p2) =>
          match skipToSemicolon fuel p2 with
          | none => none
          | some p3 =>
            some (some (Statement.letStatement p.curToken
              (some { token := p1.curToken, value := p1.curToken.literal }) value), p3)
      else some (none, (p1.expectPeek TokenType.ASSIGN).2)
    else some (none, (p.expectPeek TokenType.IDENT).2)
/-- The method `Parser::parseReturnStatement`. -/
def parseReturnStatement : Nat → Parser → Option (Option Statement × Parser)
  | 0, _ => none
  | fuel + 1, p =>
    match parseExpression fuel LOWEST p.nextToken with
    | none => none
    | some (returnValue, p1) =>
      match skipToSemicolon fuel p1 with
      | none => none
      | some p2 => some (some (Statement.returnStatement p.curToken returnValue), p2)
/-- The method `Parser::parseExpressionStatement`. -/
def parseExpressionStatement : Nat → Parser → Option (Option Statement × Parser)
  | 0, _ => none
  | fuel + 1, p =>
    match parseExpression fuel LOWEST p with
    | none => none
    | some (expression, p1) =>
      if p1.peekTokenIs TokenType.SEMICOLON then
        some (some (Statement.expressionStatement p.curToken expression), p1.nextToken)
      else some (some (Statement.expressionStatement p.curToken expression), p1)
end

/-- The loop `while (curToken.type != EOF_TOKEN)` of `parseProgram`. -/
def parseProgramLoop : Nat → List Statement → Parser → Option (Program × Parser)
  | 0, _, _ => none
  | fuel + 1, statements, p =>
    if p.curToken.type ≠ TokenType.EOF_TOKEN then
      match parseStatement fuel p with
      | none => none
      | some (some stmt, p1) => parseProgramLoop fuel (statements ++ [stmt]) p1.nextToken
      | some (none, p1) => parseProgramLoop fuel statements p1.nextToken
    else some ({ statements := statements }, p)

/-- The method `Parser::parseProgram`: the program and the parser after the call, whose
`errors` are the errors of the parse; `none` when the fuel does not suffice. -/
def parseProgram (fuel : Nat) (p : Parser) : Option (Program × Parser) :=
  parseProgramLoop fuel [] p

end Parser

/-- Parse a source text: construct the lexer and the parser and call `parseProgram`. -/
def parseSource (fuel : Nat) (input : String) : Option (Program × Parser) :=
  Parser.parseProgram fuel (Parser.new (Lexer.new input.toList))

end parser

namespace object

open ast

/-- The kinds of `enum class ObjectType`. -/
inductive ObjectType where
  | INTEGER_OBJ | BOOLEAN_OBJ | NULL_OBJ | RETURN_VALUE_OBJ | ERROR_OBJ | FUNCTION_OBJ
  deriving DecidableEq, Repr

/-- The names of the object kinds, `objectTypeToString`. -/
def objectTypeToString : ObjectType → String
  | .INTEGER_OBJ => "INTEGER"
  | .BOOLEAN_OBJ => "BOOLEAN"
  | .NULL_OBJ => "NULL"
  | .RETURN_VALUE_OBJ => "RETURN_VALUE"
  | .ERROR_OBJ => "ERROR"
  | .FUNCTION_OBJ => "FUNCTION"

/-- A non-null `shared_ptr<Environment>`: the address of the store of the environment
pointed to, and its `outer` pointer, which never changes after construction. -/
inductive Environment where
  | mk (store : Nat) (outer : Option Environment)

/-- An object as seen through a non-null `shared_ptr<Object>`: the address at which it
was created and the fields of its class. -/
inductive Object where
  | integer (addr : Nat) (value : Int)
  | boolean (addr : Nat) (value : Bool)
  | null (addr : Nat)
  | returnValue (addr : Nat) (value : Option Object)
  | error (addr : Nat) (message : String)
  | function (addr : Nat) (parameters : List Identifier) (body : Option BlockStatement)
      (env : Environment)

namespace Object

/-- The address of an object. -/
def addr : Object → Nat
  | .integer a _ => a
  | .boolean a _ => a
  | .null a => a
  | .returnValue a _ => a
  | .error a _ => a
  | .function a _ _ _ => a

/-- The method `type()` of each object class. -/
def type : Object → ObjectType
  | .integer _ _ => .INTEGER_OBJ
  | .boolean _ _ => .BOOLEAN_OBJ
  | .null _ => .NULL_OBJ
  | .returnValue _ _ => .RETURN_VALUE_OBJ
  | .error _ _ => .ERROR_OBJ
  | .function _ _ _ _ => .FUNCTION_OBJ

/-- The method `inspect()` of each object class; `none` when a null pointer is
dereferenced. -/
def inspect : Object → Option String
  | .integer _ value => some (toString value)
  | .boolean _ value => some (if value then "true" else "false")
  | .null _ => some "null"
  | .returnValue _ (some value) => value.inspect
  | .returnValue _ none => none
  | .error _ message => some ("ERROR: " ++ message)
  | .function _ parameters (some body) _ =>
    match body.toString with
    | some b => some ("fn(" ++ joinComma (parameters.map (fun p => p.value)) ++ ") \x7b\n" ++ b ++ "\n\x7d")
    | none => none
  | .function _ _ none _ => none

end Object

/-- Equality of two `shared_ptr<Object>`: both null, or both the same address. -/
def pointerEq : Option Object → Option Object → Bool
  | none, none => true
  | some a, some b => a.addr = b.addr
  | _, _ => false

/-- The map `store` of an environment, as the list of its bindings (unique keys). -/
abbrev Store := List (String × Option Object)

/-- The assignment `store[name] = val`: insert the binding or overwrite it. -/
def Store.set (store : Store) (name : String) (val : Option Object) : Store :=
  (name, val) :: store.filter (fun b => b.1 ≠ name)

/-- The memory the evaluator works on: the next free object address and the store of
every environment created so far, by address. -/
structure Heap where
  nextAddr : Nat
  stores : List Store

/-- Replace the element at index `i` of a list by its image under `f`. -/
def updateAt {α : Type} (f : α → α) : Nat → List α → List α
  | _, [] => []
  | 0, x :: xs => f x :: xs
  | i + 1, x :: xs => x :: updateAt f i xs

namespace Environment

/-- The address of the store of an environment. -/
def store : Environment → Nat
  | .mk a _ => a

/-- The pointer `outer` of an environment. -/
def outer : Environment → Option Environment
  | .mk _ o => o

/-- The method `Environment::get`: the local binding, else the outer chain, else null. -/
def get (h : Heap) : Environment → String → Option Object
  | .mk a (some o), name =>
    match (h.stores.getD a []).lookup name with
    | some val => val
    | none => get h o name
  | .mk a none, name =>
    match (h.stores.getD a []).lookup name with
    | some val => val
    | none => none

/-- The method `Environment::set`: bind `name` in the local store. -/
def set (h : Heap) (env : Environment) (name : String) (val : Option Object) : Heap :=
  { h with stores := updateAt (fun s => Store.set s name val) env.store h.stores }

end Environment

/-- The function `newEnvironment`: an environment with an empty store and no outer. -/
def newEnvironment (h : Heap) : Environment × Heap :=
  (Environment.mk h.stores.length none, { h with stores := h.stores ++ [[]] })

/-- The function `newEnclosedEnvironment`: an environment with an empty store whose
outer is `outer`. -/
def newEnclosedEnvironment (outer : Environment) (h : Heap) : Environment × Heap :=
  (Environment.mk h.stores.length (some outer), { h with stores := h.stores ++ [[]] })

end object

namespace evaluator

open ast object

/-- What goes wrong when the C++ program has no defined result. -/
inductive Crash where
  | nullDereference
  | indexOutOfRange
  | divisionByZero
  | divisionOverflow
  deriving DecidableEq, Repr

/-- The outcome of an evaluation: a value and the memory after it, a crash, or not
enough fuel. -/
inductive Result (α : Type) where
  | ok (value : α) (h : Heap)
  | crash (c : Crash)
  | timeout

/-- Sequencing of evaluations: continue with the value and the memory of the first. -/
def Result.bind {α β : Type} (r : Result α) (k : α → Heap → Result β) : Result β :=
  match r with
  | .ok value h => k value h
  | .crash c => .crash c
  | .timeout => .timeout

/-- The singleton `TRUE`. -/
def TRUE : Object := Object.boolean 0 true
/-- The singleton `FALSE`. -/
def FALSE : Object := Object.boolean 1 false
/-- The singleton `NULL_OBJ`. -/
def NULL_OBJ : Object := Object.null 2

/-- The memory in which only the three singletons exist. -/
def Heap.initial : Heap := { nextAddr := 3, stores := [] }

/-- The 64-bit two's complement value of an integer (signed overflow wraps). -/
def wrap64 (v : Int) : Int :=
  (v + 9223372036854775808) % 18446744073709551616 - 9223372036854775808

/-- The call `std::make_shared<Integer>(value)`. -/
def newInteger (value : Int) (h : Heap) : Result (Option Object) :=
  .ok (some (Object.integer h.nextAddr (wrap64 value))) { h with nextAddr := h.nextAddr + 1 }

/-- The call `std::make_shared<Error>(message)`. -/
def newError (message : String) (h : Heap) : Result (Option Object) :=
  .ok (some (Object.error h.nextAddr message)) { h with nextAddr := h.nextAddr + 1 }

/-- The function `nativeBoolToBooleanObject`. -/
def nativeBoolToBooleanObject (input : Bool) : Object :=
  if input then TRUE else FALSE

/-- The function `isError`. -/
def isError : Option Object → Bool
  | some obj => obj.type = ObjectType.ERROR_OBJ
  | none => false

/-- The function `evalPrefixExpression`. -/
def evalPrefixExpression (op : String) (right : Option Object) (h : Heap) :
    Result (Option Object) :=
  if op = "!" then
    if pointerEq right (some FALSE) then .ok (some TRUE) h else .ok (some FALSE) h
  else
    match right with
    | none => .crash .nullDereference
    | some r =>
      if op = "-" then
        match r with
        | .integer _ value => newInteger (-value) h
        | _ => newError ("unknown operator: -" ++ objectTypeToString r.type) h
      else newError ("unknown operator: " ++ op ++ objectTypeToString r.type) h

/-- The part of `evalInfixExpression` after the block for two integers. -/
def evalInfixRest (op : String) (l : Object) (right : Option Object) (h : Heap) :
    Result (Option Object) :=
  if op = "==" then .ok (some (nativeBoolToBooleanObject (pointerEq (some l) right))) h
  else if op = "!=" then .ok (some (nativeBoolToBooleanObject (!pointerEq (some l) right))) h
  else
    match right with
    | none => .crash .nullDereference
    | some r =>
      if l.type ≠ r.type then
        newError ("type mismatch: " ++ objectTypeToString l.type ++ " " ++ op ++ " " ++
          objectTypeToString l.type) h
      else
        newError ("unknown operator: " ++ objectTypeToString l.type ++ op ++
          objectTypeToString r.type) h

/-- The function `evalInfixExpression`. -/
def evalInfixExpression (op : String) (left right : Option Object) (h : Heap) :
    Result (Option Object) :=
  match left with
  | none => .crash .nullDereference
  | some (.integer la leftVal) =>
    match right with
    | none => .crash .nullDereference
    | some (.integer _ rightVal) =>
      if op = "+" then newInteger (leftVal + rightVal) h
      else if op = "-" then newInteger (leftVal - rightVal) h
      else if op = "*" then newInteger (leftVal * rightVal) h
      else if op = "/" then
        if rightVal = 0 then .crash .divisionByZero
        else if leftVal = -9223372036854775808 ∧ rightVal = -1 then .crash .divisionOverflow
        else newInteger (Int.tdiv leftVal rightVal) h
      else if op = "<" then .ok (some (nativeBoolToBooleanObject (decide (leftVal < rightVal)))) h
      else if op = ">" then .ok (some (nativeBoolToBooleanObject (decide (leftVal > rightVal)))) h
      else evalInfixRest op (.integer la leftVal) right h
    | some r => evalInfixRest op (.integer la leftVal) (some r) h
  | some l => evalInfixRest op l right h

/-- The function `isTruthy`. -/
def isTruthy (obj : Option Object) : Bool :=
  if pointerEq obj (some NULL_OBJ) || pointerEq obj (some FALSE) then false
  else if pointerEq obj (some TRUE) then true
  else true

/-- The function `evalIdentifier`. -/
def evalIdentifier (node : Identifier) (env : Environment) (h : Heap) :
    Result (Option Object) :=
  match env.get h node.value with
  | some val => .ok (some val) h
  | none => newError ("identifier not found: " ++ node.value) h

/-- The loop of `extendFunctionEnv`: bind parameter `i` to `args[i]`; `none` when
`args` is too short, where `args[i]` reads past the end of the vector. -/
def bindParameters (env : Environment) :
    List Identifier → List (Option Object) → Heap → Option Heap
  | [], _, h => some h
  | _ :: _, [], _ => none
  | param :: params, arg :: args, h => bindParameters env params args (env.set h param.value arg)

/-- The function `extendFunctionEnv`. -/
def extendFunctionEnv (parameters : List Identifier) (fnEnv : Environment)
    (args : List (Option Object)) (h : Heap) : Option (Environment × Heap) :=
  match bindParameters (newEnclosedEnvironment fnEnv h).1 parameters args
      (newEnclosedEnvironment fnEnv h).2 with
  | some h1 => some ((newEnclosedEnvironment fnEnv h).1, h1)
  | none => none

/-- The function `unwrapReturnValue`. -/
def unwrapReturnValue (obj : Option Object) (h : Heap) : Result (Option Object) :=
  match obj with
  | none => .crash .nullDereference
  | some (.returnValue _ value) => .ok value h
  | some o => .ok (some o) h

/-- The conversion of a `shared_ptr<ast::Expression>` to a `shared_ptr<ast::Node>`. -/
def exprNode (e : Option Expression) : Option Node :=
  e.map Node.expression

/-- The type of `eval` once its fuel is fixed. -/
abbrev Eval := Option Node → Environment → Heap → Result (Option Object)

/-- The loop of `evalProgram` over the statements, which calls `eval` through `ev`;
`result` is the value of the last statement evaluated (null before the first). -/
def evalProgramWith (ev : Eval) :
    List Statement → Option Object → Environment → Heap → Result (Option Object)
  | [], result, _, h => .ok result h
  | stmt :: rest, _, env, h =>
    (ev (some (.statement stmt)) env h).bind fun result h1 =>
      match result with
      | some (.returnValue _ value) => .ok value h1
      | some (.error a message) => .ok (some (.error a message)) h1
      | _ => evalProgramWith ev rest result env h1

/-- The loop of `evalBlockStatement` over the statements, which calls `eval` through
`ev`; `result` is the value of the last statement evaluated (null before the first). -/
def evalBlockStatementWith (ev : Eval) :
    List Statement → Option Object → Environment → Heap → Result (Option Object)
  | [], result, _, h => .ok result h
  | stmt :: rest, _, env, h =>
    (ev (some (.statement stmt)) env h).bind fun result h1 =>
      match result with
      | some (.returnValue a value) => .ok (some (.returnValue a value)) h1
      | some (.error a message) => .ok (some (.error a message)) h1
      | _ => evalBlockStatementWith ev rest result env h1

/-- The function `evalIfExpression`, which calls `eval` through `ev`. -/
def evalIfExpressionWith (ev : Eval) (condition : Option Expression)
    (consequence alternative : Option BlockStatement) (env : Environment) (h : Heap) :
    Result (Option Object) :=
  (ev (exprNode condition) env h).bind fun condition h1 =>
    if isError condition then .ok condition h1
    else if isTruthy condition then ev (consequence.map Node.blockStatement) env h1
    else
      match alternative with
      | some alt => ev (some (.blockStatement alt)) env h1
      | none => .ok (some NULL_OBJ) h1

/-- The loop of `evalExpressions` over the expressions, which calls `eval` through `ev`;
`result` is the vector of the values so far. -/
def evalExpressionsWith (ev : Eval) : List (Option Expression) → List (Option Object) →
    Environment → Heap → Result (List (Option Object))
  | [], result, _, h => .ok result h
  | e :: rest, result, env, h =>
    (ev (exprNode e) env h).bind fun evaluated h1 =>
      if isError evaluated then .ok [evaluated] h1
      else evalExpressionsWith ev rest (result ++ [evaluated]) env h1

/-- The function `applyFunction`, which calls `eval` through `ev`. -/
def applyFunctionWith (ev : Eval) :
    Option Object → List (Option Object) → Heap → Result (Option Object)
  | none, _, _ => .crash .nullDereference
  | some (.function _ parameters body fnEnv), args, h =>
    match extendFunctionEnv parameters fnEnv args h with
    | none => .crash .indexOutOfRange
    | some (extendedEnv, h1) =>
      (ev (body.map Node.blockStatement) extendedEnv h1).bind unwrapReturnValue
  | some fn, _, h => newError ("not a function: " ++ objectTypeToString fn.type) h

/-- The function `eval`. Every call of `eval` from `eval` or from one of the functions
it calls uses one unit of fuel. -/
def eval : Nat → Eval
  | 0, _, _, _ => .timeout
  | _ + 1, none, _, h => .ok none h
  | fuel + 1, some (.program program), env, h =>
    evalProgramWith (eval fuel) program.statements none env h
  | fuel + 1, some (.statement (.expressionStatement _ expression)), env, h =>
    eval fuel (exprNode expression) env h
  | _ + 1, some (.expression (.integerLiteral _ value)), _, h => newInteger value h
  | _ + 1, some (.expression (.boolean _ value)), _, h =>
    .ok (some (nativeBoolToBooleanObject value)) h
  | fuel + 1, some (.expression (.prefixExpression _ op right)), env, h =>
    (eval fuel (exprNode right) env h).bind fun right h1 =>
      if isError right then .ok right h1 else evalPrefixExpression op right h1
  | fuel + 1, some (.expression (.infixExpression _ left op right)), env, h =>
    (eval fuel (exprNode left) env h).bind fun left h1 =>
      if isError left then .ok left h1
      else
        (eval fuel (exprNode right) env h1).bind fun right h2 =>
          if isError right then .ok right h2 else evalInfixExpression op left right h2
  | fuel + 1, some (.expression (.ifExpression _ condition consequence alternative)), env, h =>
    evalIfExpressionWith (eval fuel) condition consequence alternative env h
  | fuel + 1, some (.blockStatement block), env, h =>
    evalBlockStatementWith (eval fuel) block.statements none env h
  | fuel + 1, some (.statement (.returnStatement _ returnValue)), env, h =>
    (eval fuel (exprNode returnValue) env h).bind fun val h1 =>
      if isError val then .ok val h1
      else .ok (some (Object.returnValue h1.nextAddr val)) { h1 with nextAddr := h1.nextAddr + 1 }
  | fuel + 1, some (.statement (.letStatement _ name value)), env, h =>
    (eval fuel (exprNode value) env h).bind fun val h1 =>
      if isError val then .ok val h1
      else
        match name with
        | none => .crash .nullDereference
        | some name => .ok val (env.set h1 name.value val)
  | _ + 1, some (.expression (.identifier ident)), env, h => evalIdentifier ident env h
  | _ + 1, some (.expression (.functionLiteral _ parameters body)), env, h =>
    .ok (some (Object.function h.nextAddr parameters body env))
      { h with nextAddr := h.nextAddr + 1 }
  | fuel + 1, some (.expression (.callExpression _ function arguments)), env, h =>
    (eval fuel (exprNode function) env h).bind fun function h1 =>
      if isError function then .ok function h1
      else
        (evalExpressionsWith (eval fuel) arguments [] env h1).bind fun args h2 =>
          if args.length = 1 ∧ isError (args.headD none) then .ok (args.headD none) h2
          else applyFunctionWith (eval fuel) function args h2

/-- The function `evalProgram`, whose calls of `eval` have `fuel` units of fuel. -/
def evalProgram (fuel : Nat) (stmts : List Statement) (env : Environment) (h : Heap) :
    Result (Option Object) :=
  evalProgramWith (eval fuel) stmts none env h

/-- The function `evalBlockStatement`, whose calls of `eval` have `fuel` units of fuel. -/
def evalBlockStatement (fuel : Nat) (block : BlockStatement) (env : Environment) (h : Heap) :
    Result (Option Object) :=
  evalBlockStatementWith (eval fuel) block.statements none env h

/-- The function `evalIfExpression`, whose calls of `eval` have `fuel` units of fuel. -/
def evalIfExpression (fuel : Nat) (condition : Option Expression)
    (consequence alternative : Option BlockStatement) (env : Environment) (h : Heap) :
    Result (Option Object) :=
  evalIfExpressionWith (eval fuel) condition consequence alternative env h

/-- The function `applyFunction`, whose calls of `eval` have `fuel` units of fuel. -/
def applyFunction (fuel : Nat) (fn : Option Object) (args : List (Option Object)) (h : Heap) :
    Result (Option Object) :=
  applyFunctionWith (eval fuel) fn args h

/-- The top-level environment of the REPL, `std::make_shared<object::Environment>()`,
in the memory that holds only the singletons. -/
def freshEnv : Environment × Heap :=
  newEnvironment Heap.initial

/-- Parse a source text and, as the REPL does when the parser reports no error,
evaluate the program in a fresh environment. `none` when the fuel does not suffice for
the parser or the parser reports an error. -/
def run (fuel : Nat) (input : String) : Option (Result (Option Object)) :=
  match parser.parseSource fuel input with
  | none => none
  | some (program, p) =>
    if p.errors = [] then some (eval fuel (some (Node.program program)) freshEnv.1 freshEnv.2)
    else none

/-- The text the REPL prints for an outcome: `inspect()` of the object returned. -/
def Result.inspect : Result (Option Object) → Option String
  | .ok (some obj) _ => obj.inspect
  | _ => none

end evaluator

/-! ## Definitions used in the statements of the theorems -/

namespace lexer

open token

namespace Lexer

/-- The cursors agree: `readPosition` is one past `position` and `ch` is the character at
`position`, or `0` past the end. Every state produced by `readChar` is of this form. -/
def Consistent (l : Lexer) : Prop :=
  l.readPosition = l.position + 1 ∧
    l.ch = (if l.position ≥ l.input.length then NUL else l.input.getD l.position NUL)

/-- The lexer on `input` whose current character is the one at index `i`. -/
def atPos (input : List Char) (i : Nat) : Lexer :=
  { input := input, position := i, readPosition := i + 1,
    ch := if i ≥ input.length then NUL else input.getD i NUL }

instance (l : Lexer) : Decidable (Consistent l) := by
  unfold Consistent
  infer_instance

end Lexer

end lexer

namespace parser

open token lexer

namespace Parser

/-- The parser has reached the end of the input and sees no semicolon: neither of its
two tokens is a semicolon and its lexer has consumed the whole input. -/
def AtEndNoSemicolon (p : Parser) : Prop :=
  p.curToken.type ≠ TokenType.SEMICOLON ∧ p.peekToken.type ≠ TokenType.SEMICOLON ∧
    Lexer.Consistent p.l ∧ p.l.input.length ≤ p.l.position

instance (p : Parser) : Decidable (AtEndNoSemicolon p) := by
  unfold AtEndNoSemicolon
  infer_instance

end Parser

end parser


namespace evaluator

open ast object

/-- The kind `type()` of the object an evaluation returned, when it returned one. -/
def Result.objectType : Result (Option Object) → Option ObjectType
  | .ok (some obj) _ => some obj.type
  | _ => none

/-- The crash an evaluation ended in, when it did. -/
def Result.crashed {α : Type} : Result α → Option Crash
  | .crash c => some c
  | _ => none

end evaluator

namespace parser

open ast

/-- The `value` field of the integer literal that is the expression of the first
statement of a program. -/
def firstIntegerValue (program : Program) : Option Int :=
  match program.statements with
  | Statement.expressionStatement _ (some (Expression.integerLiteral _ value)) :: _ => some value
  | _ => none

end parser

namespace parser

open token lexer ast

/-- The tokens of the eight binary operators `+ - * / == != < >`. -/
def binaryOperatorTokens : List Token :=
  [{ type := TokenType.PLUS, literal := "+" }, { type := TokenType.MINUS, literal := "-" },
   { type := TokenType.ASTERISK, literal := "*" }, { type := TokenType.SLASH, literal := "/" },
   { type := TokenType.EQ, literal := "==" }, { type := TokenType.NOT_EQ, literal := "!=" },
   { type := TokenType.LT, literal := "<" }, { type := TokenType.GT, literal := ">" }]

/-- The tokens of the two unary operators `!` and `-`. -/
def prefixOperatorTokens : List Token :=
  [{ type := TokenType.BANG, literal := "!" }, { type := TokenType.MINUS, literal := "-" }]

/-- The precedence of a token in the table `precedences`, `LOWEST` without an entry. -/
def precedenceOf (t : Token) : Nat :=
  match precedences t.type with
  | some x => x
  | none => LOWEST

/-- The token of an identifier. -/
def identToken (name : String) : Token :=
  { type := TokenType.IDENT, literal := name }

/-- The node the parser builds for an identifier. -/
def identNode (name : String) : Option Expression :=
  some (Expression.identifier { token := identToken name, value := name })

/-- The node the parser builds for a binary operator between two operands. -/
def infixNode (left : Option Expression) (op : Token) (right : Option Expression) :
    Option Expression :=
  some (Expression.infixExpression op left op.literal right)

/-- The node the parser builds for a unary operator before an operand. -/
def prefixNode (op : Token) (right : Option Expression) : Option Expression :=
  some (Expression.prefixExpression op op.literal right)

/-- The rendering `(<left> <op> <right>)` of an infix expression. -/
def infixText (left op right : String) : String :=
  "(" ++ left ++ " " ++ op ++ " " ++ right ++ ")"

/-- The rendering `(<op><right>)` of a prefix expression. -/
def prefixText (op right : String) : String :=
  "(" ++ op ++ right ++ ")"

/-- The token `EOF` with the empty literal. -/
def eofToken : Token :=
  { type := TokenType.EOF_TOKEN, literal := "" }

end parser

namespace parser

open token lexer ast

/-- The parser that has read from lexer `l`, has recorded no error, and whose current
token is the token of call number `k + 1` of `nextToken` on `l`. -/
def Parser.atToken (l : Lexer) (k : Nat) : Parser :=
  { l := Lexer.afterCalls (k + 2) l, errorMessages := [],
    curToken := Lexer.nthToken l k, peekToken := Lexer.nthToken l (k + 1) }

end parser

namespace evaluator

open ast object

/-- The loops of `evalProgram` and `evalBlockStatement` stop at a value of type
`RETURN_VALUE` or `ERROR`. -/
def stopsLoop : Option Object → Bool
  | some (.returnValue _ _) => true
  | some (.error _ _) => true
  | _ => false

/-- The statements `stmts`, evaluated in order from memory `h`, each return a value at
which the statement loops go on, and leave memory `h1`. -/
def StatementsPass (ev : Eval) : List Statement → Environment → Heap → Heap → Prop
  | [], _, h, h1 => h1 = h
  | stmt :: rest, env, h, h1 =>
    ∃ r h0, ev (some (.statement stmt)) env h = .ok r h0 ∧ stopsLoop r = false ∧
      StatementsPass ev rest env h0 h1

/-- The expressions `exps`, evaluated in order from memory `h`, each return a value
that is no error, and leave memory `h1`. -/
def ExpressionsPass (ev : Eval) : List (Option Expression) → Environment → Heap → Heap → Prop
  | [], _, h, h1 => h1 = h
  | e :: rest, env, h, h1 =>
    ∃ r h0, ev (exprNode e) env h = .ok r h0 ∧ isError r = false ∧
      ExpressionsPass ev rest env h0 h1

end evaluator

namespace object

/-- Every store address on the chain of an environment is allocated in the memory. -/
def Environment.ValidIn (h : Heap) : Environment → Prop
  | .mk a none => a < h.stores.length
  | .mk a (some o) => a < h.stores.length ∧ o.ValidIn h

end object

namespace evaluator

open object

/-- The value of the Integer object an evaluation returned, when it returned one. -/
def Result.integerValue : Result (Option Object) → Option Int
  | .ok (some (.integer _ value)) _ => some value
  | _ => none

end evaluator

namespace lexer

open token

/-- The characters that `nextToken` turns into a token on their own, whatever follows,
with the kind of that token. -/
def singleCharTokens : List (Char × TokenType) :=
  [('+', TokenType.PLUS), ('-', TokenType.MINUS), ('/', TokenType.SLASH),
   ('*', TokenType.ASTERISK), ('<', TokenType.LT), ('>', TokenType.GT),
   (';', TokenType.SEMICOLON), ('(', TokenType.LPAREN), (')', TokenType.RPAREN),
   (',', TokenType.COMMA), ('{', TokenType.LBRACE), ('}', TokenType.RBRACE)]

/-- The text of an identifier: a non-empty run of letters and underscores that is no
keyword. -/
def IsIdentifierName (name : String) : Prop :=
  name.toList ≠ [] ∧ (∀ c ∈ name.toList, isLetter c = true) ∧
    lookupIdent name = TokenType.IDENT

end lexer

namespace lexer

open token

/-- Wherever the rest of the input is `suffix`, `nextToken` returns `tok` and leaves
`suffix1` as the rest of the input. -/
def Lexer.Reads (suffix : List Char) (tok : Token) (suffix1 : List Char) : Prop :=
  ∀ (s : List Char) (i : Nat), s.drop i = suffix →
    ∃ j, Lexer.nextToken (Lexer.atPos s i) = (tok, Lexer.atPos s j) ∧ s.drop j = suffix1

end lexer

namespace parser

open token lexer ast

/-- The token of `(`. -/
def lparenToken : Token :=
  { type := TokenType.LPAREN, literal := "(" }

/-- The token of `)`. -/
def rparenToken : Token :=
  { type := TokenType.RPAREN, literal := ")" }

/-- The node the parser builds for a call. -/
def callNode (function : Option Expression) (arguments : List (Option Expression)) :
    Option Expression :=
  some (Expression.callExpression lparenToken function arguments)

end parser

namespace evaluator

/-- The integers a 64-bit signed integer (`int64_t`) holds. -/
def IsInt64 (v : Int) : Prop :=
  -9223372036854775808 ≤ v ∧ v ≤ 9223372036854775807

end evaluator

namespace parser

open token

/-- The token of an integer literal. -/
def intToken (literal : String) : Token :=
  { type := TokenType.INT, literal := literal }

/-- The token of `!`. -/
def bangToken : Token :=
  { type := TokenType.BANG, literal := "!" }

/-- The token of `if`. -/
def ifToken : Token :=
  { type := TokenType.IF, literal := "if" }

/-- The token of `true`. -/
def trueToken : Token :=
  { type := TokenType.TRUE, literal := "true" }

/-- The token of `false`. -/
def falseToken : Token :=
  { type := TokenType.FALSE, literal := "false" }

/-- The token of an opening brace. -/
def lbraceToken : Token :=
  { type := TokenType.LBRACE, literal := "\x7b" }

end parser

namespace object

/-- The addresses of the stores of an environment and of the environments its `outer`
pointers lead to. -/
def Environment.chain : Environment → List Nat
  | .mk a none => [a]
  | .mk a (some o) => a :: chain o

end object

namespace evaluator

open ast object parser

/-- The inductive `EarlyReturn env fuel block h a v hf` describes a block that reaches a
return statement through blocks nested in statement position. Evaluated in `env` from
memory `h`, the statements of `block` before one statement `s` each return a value at
which the loop goes on, and `s` is
* a return statement whose value evaluates to `v`, no error (`executed`: the ReturnValue
  object gets the next address `a`, and `hf` is the memory after its allocation), or
* an if-expression as an expression statement, whose condition evaluates to a value
  that is no error and whose branch chosen by that value is a block of which
  `EarlyReturn` holds in turn (`expressionStatement`), or
* a let statement whose value is such an if-expression (`letStatement`: the statement
  binds its name to the ReturnValue object, so `hf` is the memory after that).
The number `fuel` counts the calls of `eval` below the block: three for each level of
nesting. -/
inductive EarlyReturn (env : Environment) :
    Nat → BlockStatement → Heap → Nat → Option Object → Heap → Prop
  | executed (fuel : Nat) (block : BlockStatement) (h h1 h2 : Heap) (v : Option Object)
      (pre post : List Statement) (tok : token.Token) (returnValue : Option Expression) :
      block.statements = pre ++ .returnStatement tok returnValue :: post →
      StatementsPass (eval (fuel + 1)) pre env h h1 →
      eval fuel (exprNode returnValue) env h1 = .ok v h2 →
      isError v = false →
      EarlyReturn env (fuel + 1) block h h2.nextAddr v { h2 with nextAddr := h2.nextAddr + 1 }
  | expressionStatement (fuel : Nat) (block inner : BlockStatement) (h h1 h2 hf : Heap)
      (a : Nat) (v c : Option Object) (pre post : List Statement) (tok ifTok : token.Token)
      (condition : Option Expression) (consequence alternative : Option BlockStatement) :
      block.statements = pre ++ .expressionStatement tok
        (some (.ifExpression ifTok condition consequence alternative)) :: post →
      StatementsPass (eval (fuel + 3)) pre env h h1 →
      eval (fuel + 1) (exprNode condition) env h1 = .ok c h2 →
      isError c = false →
      (isTruthy c = true ∧ consequence = some inner ∨
        isTruthy c = false ∧ alternative = some inner) →
      EarlyReturn env fuel inner h2 a v hf →
      EarlyReturn env (fuel + 3) block h a v hf
  | letStatement (fuel : Nat) (block inner : BlockStatement) (h h1 h2 hf : Heap)
      (a : Nat) (v c : Option Object) (pre post : List Statement) (tok ifTok : token.Token)
      (name : Identifier) (condition : Option Expression)
      (consequence alternative : Option BlockStatement) :
      block.statements = pre ++ .letStatement tok (some name)
        (some (.ifExpression ifTok condition consequence alternative)) :: post →
      StatementsPass (eval (fuel + 3)) pre env h h1 →
      eval (fuel + 1) (exprNode condition) env h1 = .ok c h2 →
      isError c = false →
      (isTruthy c = true ∧ consequence = some inner ∨
        isTruthy c = false ∧ alternative = some inner) →
      EarlyReturn env fuel inner h2 a v hf →
      EarlyReturn env (fuel + 3) block h a v
        (env.set hf name.value (some (.returnValue a v)))

end evaluator

namespace parser

open token

/-- The token of `return`. -/
def returnToken : Token :=
  { type := TokenType.RETURN, literal := "return" }

end parser

namespace parser

open token

/-- The token of `let`. -/
def letToken : Token :=
  { type := TokenType.LET, literal := "let" }

end parser

namespace evaluator

open ast object

/-- The expressions `exps`, evaluated in order from memory `h`, each in the memory the
one before left, return the values `vals`, none of them an error, and leave memory
`h1`. -/
def ExpressionsYield (ev : Eval) (env : Environment) :
    List (Option Expression) → Heap → List (Option Object) → Heap → Prop
  | [], h, vals, h1 => vals = [] ∧ h1 = h
  | e :: rest, h, vals, h1 =>
    ∃ v h0 vs, ev (exprNode e) env h = .ok v h0 ∧ isError v = false ∧ vals = v :: vs ∧
      ExpressionsYield ev env rest h0 vs h1

end evaluator

namespace evaluator

open ast object

/-- The memory `h1` still has the stores that `h` has at the addresses below `n`, with
the bindings they have in `h`. -/
def StoresKept (n : Nat) (h h1 : Heap) : Prop :=
  n ≤ h1.stores.length ∧ ∀ a : Nat, a < n → h1.stores.getD a [] = h.stores.getD a []

/-- Evaluating with `ev` in an environment whose store is at `n` or above keeps the
stores below `n`. -/
def KeepsStores (n : Nat) (ev : Eval) : Prop :=
  ∀ (node : Option Node) (env : Environment) (h : Heap) (r : Option Object) (h1 : Heap),
    n ≤ h.stores.length → n ≤ env.store → ev node env h = .ok r h1 → StoresKept n h h1

end evaluator

namespace lexer

open token

/-- The texts of the keyword table of `lookupIdent`. -/
def keywords : List String :=
  ["fn", "let", "true", "false", "if", "else", "return"]

/-- The characters for which `nextToken` has a case of its own, the byte 0 apart. -/
def punctuation : List Char :=
  ['=', '+', '-', '!', '/', '*', '<', '>', ';', '(', ')', ',', '{', '}']

/-- The six characters for which `std::isspace` holds: space, `\t`, `\n`, `\v`, `\f`,
`\r`. -/
def whitespace : List Char :=
  [' ', '\t', '\n', '\x0b', '\x0c', '\r']

/-- The tokens that the first `n` calls of `nextToken` return before the first `EOF`. -/
def Lexer.tokensBeforeEOF (n : Nat) (l : Lexer) : List Token :=
  (Lexer.tokens n l).takeWhile (fun t => t.type != TokenType.EOF_TOKEN)

/-- The literals of a list of tokens, one after the other. -/
def literals : List Token → List Char
  | [] => []
  | t :: ts => t.literal.toList ++ literals ts

end lexer

namespace parser

open token ast

/-- The parameters of the function literal that is the expression of the first
statement of a program. -/
def firstFunctionParameters (program : Program) : Option (List Identifier) :=
  match program.statements with
  | Statement.expressionStatement _ (some (Expression.functionLiteral _ parameters _)) :: _ =>
    some parameters
  | _ => none

end parser

namespace parser

open token lexer ast

/-- The token of `,`. -/
def commaToken : Token :=
  { type := TokenType.COMMA, literal := "," }

mutual
/-- An expression without if-expression and function literal, made the way the parser
makes its nodes: an identifier with its `IDENT` token, an integer literal with its
`INT` token and the value `parseIntegerLiteral` stores for it, a boolean literal, a
unary or binary operator with its token and operands of this kind, a call with the token
`(`, a callee and arguments of this kind. -/
def Plain : Expression → Prop
  | .identifier id => id.token = identToken id.value ∧ IsIdentifierName id.value
  | .integerLiteral tok v =>
    tok.type = TokenType.INT ∧ tok.literal.toList ≠ [] ∧
      (∀ c ∈ tok.literal.toList, isDigit c = true) ∧
      ∃ n, stoll tok.literal = some n ∧ v = toInt32 n
  | .boolean tok v => (tok = trueToken ∧ v = true) ∨ (tok = falseToken ∧ v = false)
  | .prefixExpression tok op (some right) =>
    tok ∈ prefixOperatorTokens ∧ op = tok.literal ∧ Plain right
  | .prefixExpression _ _ none => False
  | .infixExpression tok (some left) op (some right) =>
    tok ∈ binaryOperatorTokens ∧ op = tok.literal ∧ Plain left ∧ Plain right
  | .infixExpression _ _ _ _ => False
  | .ifExpression _ _ _ _ => False
  | .functionLiteral _ _ _ => False
  | .callExpression tok (some function) arguments =>
    tok = lparenToken ∧ Plain function ∧ PlainArguments arguments
  | .callExpression _ none _ => False
/-- Arguments that are expressions of the kind `Plain`. -/
def PlainArguments : List (Option Expression) → Prop
  | [] => True
  | some a :: rest => Plain a ∧ PlainArguments rest
  | none :: _ => False
end

mutual
/-- The tokens of the rendering `toString` of an expression of the kind `Plain`. -/
def exprTokens : Expression → List Token
  | .identifier id => [id.token]
  | .integerLiteral tok _ => [tok]
  | .boolean tok _ => [tok]
  | .prefixExpression tok _ (some right) => [lparenToken, tok] ++ exprTokens right ++ [rparenToken]
  | .prefixExpression _ _ none => []
  | .infixExpression tok (some left) _ (some right) =>
    [lparenToken] ++ exprTokens left ++ [tok] ++ exprTokens right ++ [rparenToken]
  | .infixExpression _ _ _ _ => []
  | .ifExpression _ _ _ _ => []
  | .functionLiteral _ _ _ => []
  | .callExpression _ (some function) arguments =>
    exprTokens function ++ [lparenToken] ++ argumentsTokens arguments ++ [rparenToken]
  | .callExpression _ none _ => []
/-- The tokens of the rendering of the arguments of a call, with the commas between
them. -/
def argumentsTokens : List (Option Expression) → List Token
  | [] => []
  | some a :: rest =>
    match rest with
    | [] => exprTokens a
    | _ :: _ => exprTokens a ++ [commaToken] ++ argumentsTokens rest
  | none :: _ => []
end

end parser

namespace lexer

open token

/-- Reading from an input whose rest is `suffix`, the calls of `nextToken` return the
tokens `toks` one after the other and leave `suffix1` as the rest of the input. -/
def Lexer.ReadsAll : List Char → List Token → List Char → Prop
  | suffix, [], suffix1 => suffix = suffix1
  | suffix, tok :: toks, suffix1 =>
    ∃ mid, Lexer.Reads suffix tok mid ∧ Lexer.ReadsAll mid toks suffix1

/-- The calls number `k + 1`, `k + 2`, ... of `nextToken` on the lexer `l` return the
tokens `toks`. -/
def Lexer.TokensAt (l : Lexer) : Nat → List Token → Prop
  | _, [] => True
  | k, tok :: toks => Lexer.nthToken l k = tok ∧ Lexer.TokensAt l (k + 1) toks

end lexer

namespace lexer

/-- A text that starts with a letter, an underscore, a digit or `(`, as the rendering of
an expression without if-expression and function literal does. -/
def StartsExpression (txt : List Char) : Prop :=
  ∃ c r, txt = c :: r ∧ (isLetter c = true ∨ isDigit c = true ∨ c = '(')

/-- A text that does not go on with a letter, an underscore or a digit. -/
def Boundary (rest : List Char) : Prop :=
  ∀ c r, rest = c :: r → isLetter c = false ∧ isDigit c = false

end lexer

namespace parser

open token lexer ast

/-- With enough fuel, `f` returns `r`: there is an amount of fuel from which on the
result is `some r`. -/
def Returns {α : Type} (f : Nat → Option α) (r : α) : Prop :=
  ∃ F, ∀ G, F ≤ G → f G = some r

/-- The tokens of the second and the later arguments of a call, with the comma before
each. -/
def restTokens : List (Option Expression) → List Token
  | [] => []
  | some a :: rest => commaToken :: (exprTokens a ++ restTokens rest)
  | none :: _ => []

end parser

namespace lexer

open token

/-- The literal of the tokens whose kind fixes it, for the kinds that the nodes of
operators, boolean literals and calls hold. -/
def fixedLiteral : TokenType → Option String
  | .PLUS => some "+"
  | .MINUS => some "-"
  | .ASTERISK => some "*"
  | .SLASH => some "/"
  | .EQ => some "=="
  | .NOT_EQ => some "!="
  | .LT => some "<"
  | .GT => some ">"
  | .BANG => some "!"
  | .LPAREN => some "("
  | .TRUE => some "true"
  | .FALSE => some "false"
  | _ => none

/-- A token as `nextToken` makes it: an `IDENT` holds a name, an `INT` holds digits, and
an operator, a parenthesis or a boolean literal holds its text. -/
def LexerToken (t : Token) : Prop :=
  (t.type = TokenType.IDENT → IsIdentifierName t.literal) ∧
    (t.type = TokenType.INT →
      t.literal.toList ≠ [] ∧ ∀ c ∈ t.literal.toList, isDigit c = true) ∧
    ∀ lit, fixedLiteral t.type = some lit → t.literal = lit

end lexer

namespace parser

open token lexer ast

mutual
/-- An expression that holds no if-expression and no function literal. -/
def IfFree : Expression → Prop
  | .identifier _ => True
  | .integerLiteral _ _ => True
  | .boolean _ _ => True
  | .prefixExpression _ _ (some right) => IfFree right
  | .prefixExpression _ _ none => True
  | .infixExpression _ (some left) _ (some right) => IfFree left ∧ IfFree right
  | .infixExpression _ (some left) _ none => IfFree left
  | .infixExpression _ none _ (some right) => IfFree right
  | .infixExpression _ none _ none => True
  | .ifExpression _ _ _ _ => False
  | .functionLiteral _ _ _ => False
  | .callExpression _ (some function) arguments => IfFree function ∧ IfFreeArguments arguments
  | .callExpression _ none arguments => IfFreeArguments arguments
/-- Arguments that hold no if-expression and no function literal. -/
def IfFreeArguments : List (Option Expression) → Prop
  | [] => True
  | some a :: rest => IfFree a ∧ IfFreeArguments rest
  | none :: rest => IfFreeArguments rest
end

/-- The expression of a statement: the value of a let statement, the return value of a
return statement, the expression of an expression statement. -/
def statementExpression : Statement → Option Expression
  | .letStatement _ _ value => value
  | .returnStatement _ returnValue => returnValue
  | .expressionStatement _ expression => expression

/-- The parser reads from a lexer in a consistent state and its two tokens of lookahead
are tokens as the lexer makes them. -/
def Parser.ReadsLexer (p : Parser) : Prop :=
  Lexer.Consistent p.l ∧ LexerToken p.curToken ∧ LexerToken p.peekToken

/-- A node that is present and, when it holds no if-expression and no function literal,
is of the kind `Plain`. -/
def PlainIfFree (oe : Option Expression) : Prop :=
  ∃ e, oe = some e ∧ (IfFree e → Plain e)

end parser

namespace parser

open token lexer ast

/-- The expression of the first statement of a program. -/
def firstExpression (program : Program) : Option Expression :=
  match program.statements with
  | s :: _ => statementExpression s
  | [] => none

/-- The token of `+`. -/
def plusToken : Token :=
  { type := TokenType.PLUS, literal := "+" }

/-- The token of `-`. -/
def minusToken : Token :=
  { type := TokenType.MINUS, literal := "-" }

end parser

namespace parser

open token lexer ast

mutual
/-- An expression in which no required child is absent: a prefix expression has its
right operand, an infix expression both operands, an if-expression its condition and
its consequence (the alternative may be absent), a function literal its body, a call its
callee and only arguments that are present; and the same holds of every node below. -/
def WellFormed : Expression → Prop
  | .identifier _ => True
  | .integerLiteral _ _ => True
  | .boolean _ _ => True
  | .prefixExpression _ _ (some right) => WellFormed right
  | .prefixExpression _ _ none => False
  | .infixExpression _ (some left) _ (some right) => WellFormed left ∧ WellFormed right
  | .infixExpression _ _ _ _ => False
  | .ifExpression _ (some condition) (some consequence) (some alternative) =>
    WellFormed condition ∧ WellFormedBlock consequence ∧ WellFormedBlock alternative
  | .ifExpression _ (some condition) (some consequence) none =>
    WellFormed condition ∧ WellFormedBlock consequence
  | .ifExpression _ _ _ _ => False
  | .functionLiteral _ _ (some body) => WellFormedBlock body
  | .functionLiteral _ _ none => False
  | .callExpression _ (some function) arguments =>
    WellFormed function ∧ WellFormedArguments arguments
  | .callExpression _ none _ => False
/-- Arguments that are all present and well formed. -/
def WellFormedArguments : List (Option Expression) → Prop
  | [] => True
  | some a :: rest => WellFormed a ∧ WellFormedArguments rest
  | none :: _ => False
/-- A statement in which no required child is absent: a let statement has its name and
its value, a return statement its return value, an expression statement its expression,
and these are well formed. -/
def WellFormedStatement : Statement → Prop
  | .letStatement _ (some _) (some value) => WellFormed value
  | .letStatement _ _ _ => False
  | .returnStatement _ (some returnValue) => WellFormed returnValue
  | .returnStatement _ none => False
  | .expressionStatement _ (some expression) => WellFormed expression
  | .expressionStatement _ none => False
/-- A block whose statements are well formed. -/
def WellFormedBlock : BlockStatement → Prop
  | .mk _ statements => WellFormedStatements statements
/-- Statements that are all well formed. -/
def WellFormedStatements : List Statement → Prop
  | [] => True
  | s :: rest => WellFormedStatement s ∧ WellFormedStatements rest
end

/-- A node that is present and well formed. -/
def Present (oe : Option Expression) : Prop :=
  ∃ e, oe = some e ∧ WellFormed e

end parser

namespace lexer

namespace Lexer

/-- The largest value of an `int`, the type of the cursors `position` and
`readPosition`. -/
def INT_MAX : Nat := 2147483647

/-- The cursors are values of an `int`: the state is one the lexer of the source can be
in. Wherever `readChar` has run, `readPosition` is the larger of the two, and a call of
`readChar` that is made with `readPosition` equal to `INT_MAX` has no defined result in
the source (`readPosition++` overflows). -/
def InRange (l : Lexer) : Prop :=
  l.position ≤ INT_MAX ∧ l.readPosition ≤ INT_MAX

end Lexer

end lexer

namespace parser

open token lexer ast

/-- The token at index `i` of the stream of `l` is one that the loop
`while (!curTokenIs(SEMICOLON)) nextToken();` of a let or return statement passes: a
let statement (`let`, an identifier, `=`) or a return statement begins at an index `k`,
`parseExpression` parses its value up to the token at index `e`, and `i` lies after `e`
with no semicolon from `e` to `i`. -/
def InSkip (l : Lexer) (i : Nat) : Prop :=
  ∃ (k e fuel : Nat) (value : Option Expression), k < i ∧ e < i ∧
    (((Lexer.nthToken l k).type = TokenType.LET ∧
        (Lexer.nthToken l (k + 1)).type = TokenType.IDENT ∧
        (Lexer.nthToken l (k + 2)).type = TokenType.ASSIGN ∧
        Parser.parseExpression fuel LOWEST (Parser.atToken l (k + 3)) =
          some (value, Parser.atToken l e)) ∨
      ((Lexer.nthToken l k).type = TokenType.RETURN ∧
        Parser.parseExpression fuel LOWEST (Parser.atToken l (k + 1)) =
          some (value, Parser.atToken l e))) ∧
    ∀ j, e ≤ j → j ≤ i → (Lexer.nthToken l j).type ≠ TokenType.SEMICOLON

/-- The token at index `i` of the stream of `l` stands where `parseFunctionParameters`
takes a parameter without a test of its type: after `fn (`, where no `)` follows at
once, it is the first token or the token after one of the commas that follow the
parameters before it. -/
def InParams (l : Lexer) (i : Nat) : Prop :=
  ∃ k n : Nat, (Lexer.nthToken l k).type = TokenType.FUNCTION ∧
    (Lexer.nthToken l (k + 1)).type = TokenType.LPAREN ∧
    (Lexer.nthToken l (k + 2)).type ≠ TokenType.RPAREN ∧ i = k + 2 + 2 * n ∧
    ∀ m, m < n → (Lexer.nthToken l (k + 3 + 2 * m)).type = TokenType.COMMA

/-- Every ILLEGAL token of the stream of `l` from index `a` to index `b` is one that a
skip loop passes or one in the place of a parameter. -/
def Clean (l : Lexer) (a b : Nat) : Prop :=
  ∀ i, a ≤ i → i ≤ b → (Lexer.nthToken l i).type = TokenType.ILLEGAL →
    InSkip l i ∨ InParams l i

end parser
/-! # Theorems -/

namespace lexer

open token

namespace Lexer

/-- A property of both branches of a conditional holds of the conditional. -/
theorem ite_prop {α : Type} (P : α → Prop) (c : Prop) [Decidable c] (a b : α)
    (ha : c → P a) (hb : ¬c → P b) : P (if c then a else b) := by
  split
  · exact ha (by assumption)
  · exact hb (by assumption)

theorem readChar_consistent (l : Lexer) : Consistent (readChar l) := by
  simp [Consistent, readChar]

theorem new_consistent (input : List Char) : Consistent (new input) :=
  readChar_consistent _

theorem readChar_input (l : Lexer) : (readChar l).input = l.input := rfl

theorem readChar_position (l : Lexer) (h : Consistent l) :
    (readChar l).position = l.position + 1 := by
  simp [readChar, h.1]

theorem isSpace_NUL : isSpace NUL = false := by decide
theorem isLetter_NUL : isLetter NUL = false := by decide
theorem isDigit_NUL : isDigit NUL = false := by decide

theorem readWhile_spec (pred : Char → Bool) (n : Nat) : ∀ l : Lexer, Consistent l →
    Consistent (readWhile pred n l) ∧ (readWhile pred n l).input = l.input ∧
      l.position ≤ (readWhile pred n l).position := by
  induction n with
  | zero => intro l h; exact ⟨h, rfl, le_refl _⟩
  | succ n ih =>
    intro l h
    unfold readWhile
    split
    · obtain ⟨h1, h2, h3⟩ := ih (readChar l) (readChar_consistent l)
      refine ⟨h1, by rw [h2, readChar_input], ?_⟩
      rw [readChar_position l h] at h3
      omega
    · exact ⟨h, rfl, le_refl _⟩

/-- The bound `input.length + 1` on the iterations of a loop
`while (pred(ch)) readChar();` is never what ends it: after the bounded loop the
current character does not satisfy `pred`. -/
theorem readWhile_complete (pred : Char → Bool) (hN : pred NUL = false) (l : Lexer)
    (hc : Consistent l) : pred (readWhile pred (l.input.length + 1) l).ch = false := by
  have key : ∀ (n : Nat) (l : Lexer), Consistent l → l.input.length < l.position + n →
      pred (readWhile pred n l).ch = false := by
    intro n
    induction n with
    | zero =>
      intro l hc hlen
      have hge : l.position ≥ l.input.length := by omega
      rw [readWhile, hc.2, if_pos hge]
      exact hN
    | succ n ih =>
      intro l hc hlen
      rw [readWhile]
      split
      · apply ih _ (readChar_consistent l)
        rw [readChar_input, readChar_position l hc]
        omega
      · rename_i hp
        simpa using hp
  exact key _ l hc (by omega)

/-- Reading one character keeps the state consistent, keeps the input and moves
`position` forward by one. -/
theorem readChar_step (l : Lexer) (h : Consistent l) :
    Consistent (readChar l) ∧ (readChar l).input = l.input ∧
      l.position + 1 ≤ (readChar l).position :=
  ⟨readChar_consistent l, rfl, by rw [readChar_position l h]⟩

theorem readIdentifier_step (l : Lexer) (h : Consistent l) (hl : isLetter l.ch = true) :
    Consistent (readIdentifier l).2 ∧ (readIdentifier l).2.input = l.input ∧
      l.position + 1 ≤ (readIdentifier l).2.position := by
  simp only [readIdentifier, readWhile, hl, if_true]
  obtain ⟨h1, h2, h3⟩ := readWhile_spec isLetter l.input.length (readChar l)
    (readChar_consistent l)
  refine ⟨h1, by rw [h2, readChar_input], ?_⟩
  rw [readChar_position l h] at h3
  exact h3

theorem readNumber_step (l : Lexer) (h : Consistent l) (hl : isDigit l.ch = true) :
    Consistent (readNumber l).2 ∧ (readNumber l).2.input = l.input ∧
      l.position + 1 ≤ (readNumber l).2.position := by
  simp only [readNumber, readWhile, hl, if_true]
  obtain ⟨h1, h2, h3⟩ := readWhile_spec isDigit l.input.length (readChar l)
    (readChar_consistent l)
  refine ⟨h1, by rw [h2, readChar_input], ?_⟩
  rw [readChar_position l h] at h3
  exact h3

/-- Every call of `nextToken` keeps the state consistent, keeps the input and moves
`position` forward by at least one. -/
theorem nextToken_step (l : Lexer) (h : Consistent l) :
    Consistent (nextToken l).2 ∧ (nextToken l).2.input = l.input ∧
      l.position + 1 ≤ (nextToken l).2.position := by
  obtain ⟨w1, w2, w3⟩ : Consistent (skipWhitespace l) ∧ (skipWhitespace l).input = l.input ∧
      l.position ≤ (skipWhitespace l).position :=
    readWhile_spec isSpace (l.input.length + 1) l h
  have one : ∀ l1 : Lexer, Consistent l1 → l1.input = l.input → l.position ≤ l1.position →
      Consistent (readChar l1) ∧ (readChar l1).input = l.input ∧
        l.position + 1 ≤ (readChar l1).position := by
    intro l1 c1 i1 p1
    obtain ⟨a, b, c⟩ := readChar_step l1 c1
    exact ⟨a, by rw [b, i1], by omega⟩
  have s1 := one _ w1 w2 w3
  have s2 := one _ s1.1 s1.2.1 (by omega)
  have id1 : isLetter (skipWhitespace l).ch = true →
      Consistent (readIdentifier (skipWhitespace l)).2 ∧
        (readIdentifier (skipWhitespace l)).2.input = l.input ∧
        l.position + 1 ≤ (readIdentifier (skipWhitespace l)).2.position := by
    intro hl
    obtain ⟨a, b, c⟩ := readIdentifier_step _ w1 hl
    exact ⟨a, by rw [b]; exact w2, by omega⟩
  have nm1 : isDigit (skipWhitespace l).ch = true →
      Consistent (readNumber (skipWhitespace l)).2 ∧
        (readNumber (skipWhitespace l)).2.input = l.input ∧
        l.position + 1 ≤ (readNumber (skipWhitespace l)).2.position := by
    intro hl
    obtain ⟨a, b, c⟩ := readNumber_step _ w1 hl
    exact ⟨a, by rw [b]; exact w2, by omega⟩
  unfold nextToken
  repeat' first
    | apply ite_prop (fun r : Token × Lexer =>
        Consistent r.2 ∧ r.2.input = l.input ∧ l.position + 1 ≤ r.2.position)
    | intro _
  all_goals first
    | exact s1
    | exact s2
    | exact id1 (by assumption)
    | exact nm1 (by assumption)

theorem afterCalls_spec (n : Nat) : ∀ l : Lexer, Consistent l →
    Consistent (afterCalls n l) ∧ (afterCalls n l).input = l.input ∧
      l.position + n ≤ (afterCalls n l).position := by
  induction n with
  | zero => intro l h; exact ⟨h, rfl, le_refl _⟩
  | succ n ih =>
    intro l h
    obtain ⟨a, b, c⟩ := nextToken_step l h
    obtain ⟨a1, b1, c1⟩ := ih _ a
    exact ⟨a1, by rw [afterCalls, b1, b], by rw [afterCalls]; omega⟩

/-- At the end of the input `nextToken` returns `EOF` with the empty literal. -/
theorem nextToken_at_end (l : Lexer) (h : Consistent l) (hp : l.input.length ≤ l.position) :
    (nextToken l).1 = { type := TokenType.EOF_TOKEN, literal := "" } := by
  have hch : l.ch = NUL := by rw [h.2]; simp [hp]
  have hs : skipWhitespace l = l := by
    simp [skipWhitespace, readWhile, hch, isSpace_NUL]
  unfold nextToken
  simp only [hs, hch]
  simp [NUL]

end Lexer

end lexer

namespace parser

open token lexer ast

namespace Parser

theorem nextToken_atEndNoSemicolon (p : Parser) (h : AtEndNoSemicolon p) :
    AtEndNoSemicolon p.nextToken := by
  obtain ⟨_, h2, h3, h4⟩ := h
  obtain ⟨a, b, c⟩ := Lexer.nextToken_step p.l h3
  refine ⟨h2, ?_, a, ?_⟩
  · show (p.l.nextToken).1.type ≠ TokenType.SEMICOLON
    rw [Lexer.nextToken_at_end p.l h3 h4]
    decide
  · show (p.l.nextToken).2.input.length ≤ (p.l.nextToken).2.position
    rw [b]
    omega

/-- Once the input is exhausted without a semicolon in sight, the loop
`while (!curTokenIs(SEMICOLON)) nextToken();` exhausts every amount of fuel. -/
theorem skipToSemicolon_diverges (fuel : Nat) :
    ∀ p : Parser, AtEndNoSemicolon p → skipToSemicolon fuel p = none := by
  induction fuel with
  | zero => intro p _; rfl
  | succ n ih =>
    intro p h
    have hc : p.curTokenIs TokenType.SEMICOLON = false := by
      simp [curTokenIs, h.1]
    rw [skipToSemicolon, hc]
    exact ih _ (nextToken_atEndNoSemicolon p h)

theorem parseIntegerLiteral_tokens (p : Parser) :
    p.parseIntegerLiteral.2.peekToken = p.peekToken ∧
      p.parseIntegerLiteral.2.curToken = p.curToken ∧ p.parseIntegerLiteral.2.l = p.l := by
  unfold parseIntegerLiteral
  split <;> exact ⟨rfl, rfl, rfl⟩

/-- An integer literal that is followed by a semicolon or by a token that does not bind
tighter than `precedence` is an expression on its own. -/
theorem parseExpression_integer (fuel precedence : Nat) (p : Parser)
    (hc : prefixParseFns p.curToken.type = some PrefixParseFn.parseIntegerLiteral)
    (hstop : (!p.peekTokenIs TokenType.SEMICOLON &&
      decide (precedence < p.peekPrecedence)) = false) :
    parseExpression (fuel + 3) precedence p = some p.parseIntegerLiteral := by
  have ht := parseIntegerLiteral_tokens p
  have hstop2 : (!p.parseIntegerLiteral.2.peekTokenIs TokenType.SEMICOLON &&
      decide (precedence < p.parseIntegerLiteral.2.peekPrecedence)) = false := by
    simpa [peekTokenIs, peekPrecedence, ht.1] using hstop
  rw [parseExpression, hc]
  simp only [callPrefixParseFn]
  rw [parseExpressionLoop, hstop2]
  rfl

end Parser

end parser

namespace Spec

open token lexer ast parser

/-- C1 (parser totality fails). On the inputs `let x = 5` and `return 5`, where no
semicolon follows the statement before the end of the input, `parseProgram` exhausts
every amount of fuel: the loop `while (!curTokenIs(SEMICOLON)) nextToken();` never
ends, because the lexer returns `EOF` for ever. -/
theorem C1_parseProgram_diverges (fuel : Nat) :
    parseSource fuel "let x = 5" = none ∧ parseSource fuel "return 5" = none := by
  constructor
  · rcases fuel with _ | _ | _ | _ | _ | _ | fuel
    · rfl
    all_goals try exact Option.isNone_iff_eq_none.mp (by decide!)
    have e : Parser.parseExpression (fuel + 3) LOWEST
        (((Parser.new (Lexer.new "let x = 5".toList)).expectPeek TokenType.IDENT).2.expectPeek
          TokenType.ASSIGN).2.nextToken = some _ :=
      Parser.parseExpression_integer fuel LOWEST _ (by decide!) (by decide!)
    have d := Parser.skipToSemicolon_diverges (fuel + 3) _
      (show Parser.AtEndNoSemicolon
        ((((Parser.new (Lexer.new "let x = 5".toList)).expectPeek TokenType.IDENT).2.expectPeek
          TokenType.ASSIGN).2.nextToken.parseIntegerLiteral).2 by decide!)
    have h1 : (Parser.new (Lexer.new "let x = 5".toList)).curToken.type ≠ TokenType.EOF_TOKEN := by
      decide!
    have h2 : (Parser.new (Lexer.new "let x = 5".toList)).curToken.type = TokenType.LET := by
      decide!
    have h3 : ((Parser.new (Lexer.new "let x = 5".toList)).expectPeek TokenType.IDENT).1 = true := by
      decide!
    have h4 : (((Parser.new (Lexer.new "let x = 5".toList)).expectPeek TokenType.IDENT).2.expectPeek
          TokenType.ASSIGN).1 = true := by
      decide!
    unfold parseSource Parser.parseProgram
    rw [Parser.parseProgramLoop, if_pos h1, Parser.parseStatement, if_pos h2,
      Parser.parseLetStatement, if_pos h3]
    simp only [h4, if_true, e, d]
  · rcases fuel with _ | _ | _ | _ | _ | _ | fuel
    · rfl
    all_goals try exact Option.isNone_iff_eq_none.mp (by decide!)
    have e : Parser.parseExpression (fuel + 3) LOWEST
        (Parser.new (Lexer.new "return 5".toList)).nextToken = some _ :=
      Parser.parseExpression_integer fuel LOWEST _ (by decide!) (by decide!)
    have d := Parser.skipToSemicolon_diverges (fuel + 3) _
      (show Parser.AtEndNoSemicolon
        ((Parser.new (Lexer.new "return 5".toList)).nextToken.parseIntegerLiteral).2 by decide!)
    have h1 : (Parser.new (Lexer.new "return 5".toList)).curToken.type ≠ TokenType.EOF_TOKEN := by
      decide!
    have h2 : (Parser.new (Lexer.new "return 5".toList)).curToken.type ≠ TokenType.LET := by
      decide!
    have h3 : (Parser.new (Lexer.new "return 5".toList)).curToken.type = TokenType.RETURN := by
      decide!
    unfold parseSource Parser.parseProgram
    rw [Parser.parseProgramLoop, if_pos h1, Parser.parseStatement, if_neg h2, if_pos h3,
      Parser.parseReturnStatement]
    simp only [e, d]

end Spec

namespace Spec

open token lexer ast parser object evaluator

/-- C7 (integer literals are cut to 32 bits). The source text `2147483648` (that is
`2^31`, which fits in 64 bits) parses without error, but the `value` field of its
`IntegerLiteral` node is `-2147483648`, because the constructor takes its value as an
`int`; evaluating the program prints `-2147483648`. A literal above `2^63 - 1` yields
no node and exactly the message `could not parse <literal> as integer`. -/
theorem C7_integer_literal_narrowed :
    (parseSource 10 "2147483648").map (fun r => (firstIntegerValue r.1, r.2.errors)) =
        some (some (-2147483648), []) ∧
      (run 10 "2147483648").bind Result.inspect = some "-2147483648" ∧
      (parseSource 10 "9223372036854775808").map (fun r => (firstIntegerValue r.1, r.2.errors)) =
        some (none, ["could not parse 9223372036854775808 as integer"]) := by
  decide!

/-- C2 (a `ReturnValue` leaks). The program `return if (true) { return 1; };` parses
without error and `evalProgram` returns an object of type `RETURN_VALUE`: the inner
`return` wraps `1`, the outer `return` wraps that wrapper again, and `evalProgram`
removes one wrapper only. In the same way `applyFunction` returns an object of type
`RETURN_VALUE` for the body `{ return if (true) { return 1; }; }`, as the operand of
the unary minus shows. -/
theorem C2_return_value_leaks :
    (run 50 "return if (true) \x7b return 1; \x7d;").bind Result.objectType =
        some ObjectType.RETURN_VALUE_OBJ ∧
      (run 50 "-fn() \x7b return if (true) \x7b return 1; \x7d; \x7d()").bind Result.inspect =
        some "ERROR: unknown operator: -RETURN_VALUE" := by
  decide!

/-- Null pointers are dereferenced (a defect beside the unchecked division and argument
count). Each of these programs parses without error and its evaluation dereferences a
null pointer: `fn() {}()` (a call of a function with an empty body: `unwrapReturnValue`
reads the type of the null result of the block, without the test for null that
`isError`, `evalProgram` and `evalBlockStatement` make), `-if (true) {}` and
`1 + if (true) {}` (an operator applied to the null value of an if-expression with an
empty block). -/
theorem null_dereference_on_empty_block :
    (run 50 "fn() \x7b\x7d()").bind Result.crashed = some Crash.nullDereference ∧
      (run 50 "-if (true) \x7b\x7d").bind Result.crashed = some Crash.nullDereference ∧
      (run 50 "1 + if (true) \x7b\x7d").bind Result.crashed = some Crash.nullDereference := by
  decide!

end Spec

namespace parser

open token lexer ast

namespace Parser

section Preservation

variable (Inv : Parser → Prop)

theorem expectPeek_preserves (hnext : ∀ p, Inv p → Inv p.nextToken)
    (herr : ∀ p m, Inv p → Inv { p with errorMessages := p.errorMessages ++ [m] })
    (p : Parser) (t : TokenType) (hp : Inv p) : Inv (p.expectPeek t).2 := by
  unfold expectPeek
  split
  · exact hnext p hp
  · exact herr p _ hp

theorem parseIntegerLiteral_preserves
    (herr : ∀ p m, Inv p → Inv { p with errorMessages := p.errorMessages ++ [m] })
    (p : Parser) (hp : Inv p) : Inv p.parseIntegerLiteral.2 := by
  unfold parseIntegerLiteral
  split
  · exact hp
  · exact herr p _ hp

theorem skipToSemicolon_preserves (hnext : ∀ p, Inv p → Inv p.nextToken) (fuel : Nat) :
    ∀ p r, Inv p → skipToSemicolon fuel p = some r → Inv r := by
  induction fuel with
  | zero => intro p r _ h; simp [skipToSemicolon] at h
  | succ n ih =>
    intro p r hp h
    rw [skipToSemicolon] at h
    split at h
    · exact ih _ _ (hnext p hp) h
    · cases h; exact hp

theorem parseFunctionParametersLoop_preserves (hnext : ∀ p, Inv p → Inv p.nextToken)
    (fuel : Nat) : ∀ ids p r, Inv p → parseFunctionParametersLoop fuel ids p = some r →
      Inv r.2 := by
  induction fuel with
  | zero => intro ids p r _ h; simp [parseFunctionParametersLoop] at h
  | succ n ih =>
    intro ids p r hp h
    rw [parseFunctionParametersLoop] at h
    split at h
    · exact ih _ _ _ (hnext _ (hnext p hp)) h
    · cases h; exact hp

theorem parseFunctionParameters_preserves (hnext : ∀ p, Inv p → Inv p.nextToken)
    (herr : ∀ p m, Inv p → Inv { p with errorMessages := p.errorMessages ++ [m] })
    (fuel : Nat) (p : Parser) (r : List Identifier × Parser) (hp : Inv p)
    (h : parseFunctionParameters fuel p = some r) : Inv r.2 := by
  unfold parseFunctionParameters at h
  split at h
  · cases h; exact hnext p hp
  · try simp only at h
    split at h
    · cases h
    · rename_i ids p2 heq
      have h2 := parseFunctionParametersLoop_preserves Inv hnext fuel _ _ _ (hnext p hp) heq
      split at h <;> cases h <;> exact expectPeek_preserves Inv hnext herr _ _ h2

/-- Every property of the parser state that `nextToken` and the recording of an error
message preserve is preserved by every parsing method that returns. -/
theorem preserves (hnext : ∀ p, Inv p → Inv p.nextToken)
    (herr : ∀ p m, Inv p → Inv { p with errorMessages := p.errorMessages ++ [m] })
    (fuel : Nat) :
    (∀ prec p r, Inv p → parseExpression fuel prec p = some r → Inv r.2) ∧
    (∀ fn p r, Inv p → callPrefixParseFn fuel fn p = some r → Inv r.2) ∧
    (∀ prec left p r, Inv p → parseExpressionLoop fuel prec left p = some r → Inv r.2) ∧
    (∀ fn left p r, Inv p → callInfixParseFn fuel fn left p = some r → Inv r.2) ∧
    (∀ p r, Inv p → parsePrefixExpression fuel p = some r → Inv r.2) ∧
    (∀ left p r, Inv p → parseInfixExpression fuel left p = some r → Inv r.2) ∧
    (∀ p r, Inv p → parseGroupedExpression fuel p = some r → Inv r.2) ∧
    (∀ p r, Inv p → parseIfExpression fuel p = some r → Inv r.2) ∧
    (∀ p r, Inv p → parseBlockStatement fuel p = some r → Inv r.2) ∧
    (∀ tok stmts p r, Inv p → parseBlockStatementLoop fuel tok stmts p = some r → Inv r.2) ∧
    (∀ p r, Inv p → parseFunctionLiteral fuel p = some r → Inv r.2) ∧
    (∀ f p r, Inv p → parseCallExpression fuel f p = some r → Inv r.2) ∧
    (∀ p r, Inv p → parseCallArguments fuel p = some r → Inv r.2) ∧
    (∀ args p r, Inv p → parseCallArgumentsLoop fuel args p = some r → Inv r.2) ∧
    (∀ p r, Inv p → parseStatement fuel p = some r → Inv r.2) ∧
    (∀ p r, Inv p → parseLetStatement fuel p = some r → Inv r.2) ∧
    (∀ p r, Inv p → parseReturnStatement fuel p = some r → Inv r.2) ∧
    (∀ p r, Inv p → parseExpressionStatement fuel p = some r → Inv r.2) := by
  have hexp := fun p t hp => expectPeek_preserves Inv hnext herr p t hp
  induction fuel with
  | zero =>
    refine ⟨?_, ?_, ?_, ?_, ?_, ?_, ?_, ?_, ?_, ?_, ?_, ?_, ?_, ?_, ?_, ?_, ?_, ?_⟩
    all_goals intros
    all_goals rename_i h
    · simp [parseExpression] at h
    · simp [callPrefixParseFn] at h
    · simp [parseExpressionLoop] at h
    · simp [callInfixParseFn] at h
    · simp [parsePrefixExpression] at h
    · simp [parseInfixExpression] at h
    · simp [parseGroupedExpression] at h
    · simp [parseIfExpression] at h
    · simp [parseBlockStatement] at h
    · simp [parseBlockStatementLoop] at h
    · simp [parseFunctionLiteral] at h
    · simp [parseCallExpression] at h
    · simp [parseCallArguments] at h
    · simp [parseCallArgumentsLoop] at h
    · simp [parseStatement] at h
    · simp [parseLetStatement] at h
    · simp [parseReturnStatement] at h
    · simp [parseExpressionStatement] at h
  | succ n ih =>
    obtain ⟨ihE, ihCP, ihL, ihCI, ihPre, ihInf, ihG, ihIf, ihB, ihBL, ihF, ihCall, ihArgs,
      ihArgsL, ihS, ihLet, ihRet, ihES⟩ := ih
    refine ⟨?_, ?_, ?_, ?_, ?_, ?_, ?_, ?_, ?_, ?_, ?_, ?_, ?_, ?_, ?_, ?_, ?_, ?_⟩
    · intro prec p r hp h
      rw [parseExpression] at h
      split at h
      · cases h; exact herr p _ hp
      · split at h
        · cases h
        · rename_i heq
          exact ihL _ _ _ _ (ihCP _ _ _ hp heq) h
    · intro fn p r hp h
      cases fn <;> simp only [callPrefixParseFn] at h
      · cases h; exact hp
      · cases h; exact parseIntegerLiteral_preserves Inv herr p hp
      · exact ihPre _ _ hp h
      · cases h; exact hp
      · exact ihG _ _ hp h
      · exact ihIf _ _ hp h
      · exact ihF _ _ hp h
    · intro prec left p r hp h
      rw [parseExpressionLoop] at h
      split at h
      · split at h
        · cases h; exact hp
        · split at h
          · cases h
          · rename_i heq
            exact ihL _ _ _ _ (ihCI _ _ _ _ (hnext p hp) heq) h
      · cases h; exact hp
    · intro fn left p r hp h
      cases fn <;> simp only [callInfixParseFn] at h
      · exact ihInf _ _ _ hp h
      · exact ihCall _ _ _ hp h
    · intro p r hp h
      rw [parsePrefixExpression] at h
      split at h
      · cases h
      · rename_i heq
        cases h
        exact (ihE _ _ _ (hnext p hp) heq : _)
    · intro left p r hp h
      rw [parseInfixExpression] at h
      split at h
      · cases h
      · rename_i heq
        cases h
        exact (ihE _ _ _ (hnext p hp) heq : _)
    · intro p r hp h
      rw [parseGroupedExpression] at h
      split at h
      · cases h
      · rename_i heq
        have h1 := ihE _ _ _ (hnext p hp) heq
        split at h <;> cases h <;> exact hexp _ _ h1
    · intro p r hp h
      rw [parseIfExpression] at h
      split at h
      · split at h
        · cases h
        · rename_i heq
          have h1 := ihE _ _ _ (hnext _ (hexp p _ hp)) heq
          split at h
          · try simp only at h
            split at h
            · split at h
              · cases h
              · rename_i heq2
                have h3 := ihB _ _ (hexp _ _ (hexp _ _ h1)) heq2
                split at h
                · try simp only at h
                  split at h
                  · split at h
                    · cases h
                    · rename_i heq3
                      cases h
                      exact (ihB _ _ (hexp _ _ (hnext _ h3)) heq3 : _)
                  · cases h; exact hexp _ _ (hnext _ h3)
                · cases h; exact h3
            · cases h; exact hexp _ _ (hexp _ _ h1)
          · cases h; exact hexp _ _ h1
      · cases h; exact hexp _ _ hp
    · intro p r hp h
      rw [parseBlockStatement] at h
      exact ihBL _ _ _ _ (hnext p hp) h
    · intro tok stmts p r hp h
      rw [parseBlockStatementLoop] at h
      split at h
      · split at h
        · cases h
        · rename_i heq
          exact ihBL _ _ _ _ (hnext _ (ihS _ _ hp heq)) h
        · rename_i heq
          exact ihBL _ _ _ _ (hnext _ (ihS _ _ hp heq)) h
      · cases h; exact hp
    · intro p r hp h
      rw [parseFunctionLiteral] at h
      split at h
      · split at h
        · cases h
        · rename_i heq
          have h1 := parseFunctionParameters_preserves Inv hnext herr _ _ _ (hexp p _ hp) heq
          split at h
          · split at h
            · cases h
            · rename_i heq2
              cases h
              exact (ihB _ _ (hexp _ _ h1) heq2 : _)
          · cases h; exact hexp _ _ h1
      · cases h; exact hexp _ _ hp
    · intro f p r hp h
      rw [parseCallExpression] at h
      split at h
      · cases h
      · rename_i heq
        cases h
        exact (ihArgs _ _ hp heq : _)
    · intro p r hp h
      rw [parseCallArguments] at h
      split at h
      · cases h; exact hnext p hp
      · split at h
        · cases h
        · rename_i heq
          have h1 := ihE _ _ _ (hnext p hp) heq
          split at h
          · cases h
          · rename_i heq2
            have h2 := ihArgsL _ _ _ h1 heq2
            split at h <;> cases h <;> exact hexp _ _ h2
    · intro args p r hp h
      rw [parseCallArgumentsLoop] at h
      split at h
      · split at h
        · cases h
        · rename_i heq
          exact ihArgsL _ _ _ (ihE _ _ _ (hnext _ (hnext p hp)) heq) h
      · cases h; exact hp
    · intro p r hp h
      rw [parseStatement] at h
      split at h
      · exact ihLet _ _ hp h
      · split at h
        · exact ihRet _ _ hp h
        · exact ihES _ _ hp h
    · intro p r hp h
      rw [parseLetStatement] at h
      split at h
      · try simp only at h
        split at h
        · split at h
          · cases h
          · rename_i heq
            have h1 := ihE _ _ _ (hnext _ (hexp _ _ (hexp p _ hp))) heq
            split at h
            · cases h
            · rename_i heq2
              cases h
              exact (skipToSemicolon_preserves Inv hnext _ _ _ h1 heq2 : _)
        · cases h; exact hexp _ _ (hexp p _ hp)
      · cases h; exact hexp p _ hp
    · intro p r hp h
      rw [parseReturnStatement] at h
      split at h
      · cases h
      · rename_i heq
        have h1 := ihE _ _ _ (hnext p hp) heq
        split at h
        · cases h
        · rename_i heq2
          cases h
          exact (skipToSemicolon_preserves Inv hnext _ _ _ h1 heq2 : _)
    · intro p r hp h
      rw [parseExpressionStatement] at h
      split at h
      · cases h
      · rename_i heq
        have h1 := ihE _ _ _ hp heq
        split at h
        · cases h; exact hnext _ h1
        · cases h; exact h1

theorem parseProgramLoop_preserves (hnext : ∀ p, Inv p → Inv p.nextToken)
    (herr : ∀ p m, Inv p → Inv { p with errorMessages := p.errorMessages ++ [m] })
    (fuel : Nat) : ∀ stmts p r, Inv p → parseProgramLoop fuel stmts p = some r → Inv r.2 := by
  induction fuel with
  | zero => intro stmts p r _ h; simp [parseProgramLoop] at h
  | succ n ih =>
    intro stmts p r hp h
    have hS := (preserves Inv hnext herr n).2.2.2.2.2.2.2.2.2.2.2.2.2.2.1
    rw [parseProgramLoop] at h
    split at h
    · split at h
      · cases h
      · rename_i heq
        exact ih _ _ _ (hnext _ (hS _ _ hp heq)) h
      · rename_i heq
        exact ih _ _ _ (hnext _ (hS _ _ hp heq)) h
    · cases h; exact hp

end Preservation

end Parser

end parser

namespace lexer

open token

namespace Lexer

/-! ## The lexer at a position of its input -/

theorem new_eq_atPos (s : List Char) : Lexer.new s = atPos s 0 := rfl

theorem readChar_atPos (s : List Char) (i : Nat) : readChar (atPos s i) = atPos s (i + 1) := rfl

theorem atPos_ch_cons (s : List Char) (i : Nat) (c : Char) (r : List Char)
    (hd : s.drop i = c :: r) : (atPos s i).ch = c := by
  have hlt : i < s.length := by
    by_contra hge
    rw [List.drop_of_length_le (by omega)] at hd
    cases hd
  have hget : s[i]? = some c := by
    rw [← List.head?_drop, hd]; rfl
  simp only [atPos, ge_iff_le, List.getD_eq_getElem?_getD, hget, Option.getD_some]
  rw [if_neg (by omega)]

theorem atPos_ch_nil (s : List Char) (i : Nat) (hd : s.drop i = []) : (atPos s i).ch = NUL := by
  have hge : s.length ≤ i := List.drop_eq_nil_iff.mp hd
  simp only [atPos, ge_iff_le, hge, if_true]

theorem drop_add_of_append (s : List Char) (i : Nat) (w r : List Char)
    (hd : s.drop i = w ++ r) : s.drop (i + w.length) = r := by
  rw [← List.drop_drop, hd, List.drop_left]

theorem drop_succ_of_cons (s : List Char) (i : Nat) (c : Char) (r : List Char)
    (hd : s.drop i = c :: r) : s.drop (i + 1) = r :=
  drop_add_of_append s i [c] r hd

theorem length_le_of_drop (s : List Char) (i : Nat) (w r : List Char)
    (hd : s.drop i = w ++ r) : w.length ≤ s.length := by
  have := congrArg List.length hd
  simp only [List.length_drop, List.length_append] at this
  omega

/-- A loop `while (pred(ch)) readChar();` that starts at the beginning of a run `w` of
characters with `pred`, followed by a character without `pred` or by the end of the
input, stops right behind the run. -/
theorem readWhile_run (pred : Char → Bool) (hN : pred NUL = false) (s rest : List Char)
    (hrest : ∀ c r, rest = c :: r → pred c = false) :
    ∀ (w : List Char) (n i : Nat), s.drop i = w ++ rest → (∀ c ∈ w, pred c = true) →
      w.length < n → readWhile pred n (atPos s i) = atPos s (i + w.length) := by
  intro w
  induction w with
  | nil =>
    intro n i hd _ hn
    obtain ⟨m, rfl⟩ : ∃ m, n = m + 1 := ⟨n - 1, by simp at hn; omega⟩
    have hch : pred (atPos s i).ch = false := by
      cases hr : rest with
      | nil => rw [atPos_ch_nil s i (by rw [hd, hr]; rfl)]; exact hN
      | cons c r => rw [atPos_ch_cons s i c r (by rw [hd, hr]; rfl)]; exact hrest c r hr
    rw [readWhile, hch]
    rfl
  | cons c w ih =>
    intro n i hd hw hn
    obtain ⟨m, rfl⟩ : ∃ m, n = m + 1 := ⟨n - 1, by simp at hn; omega⟩
    have hch : pred (atPos s i).ch = true := by
      rw [atPos_ch_cons s i c (w ++ rest) hd]
      exact hw c (List.mem_cons_self _ _)
    rw [readWhile, hch, if_pos rfl, readChar_atPos,
      ih m (i + 1) (drop_succ_of_cons s i c (w ++ rest) hd)
        (fun d hd1 => hw d (List.mem_cons_of_mem _ hd1)) (by simpa using hn)]
    simp only [List.length_cons]
    congr 1
    omega

/-- No white space is skipped before a character that is none. -/
theorem skipWhitespace_none (s : List Char) (i : Nat)
    (hch : isSpace (atPos s i).ch = false) : skipWhitespace (atPos s i) = atPos s i := by
  simp only [skipWhitespace, readWhile, hch, Bool.false_eq_true, if_false]

/-- One blank before a character that is no white space is skipped. -/
theorem skipWhitespace_blank (s : List Char) (i : Nat) (c : Char) (r : List Char)
    (hd : s.drop i = ' ' :: c :: r) (hc : isSpace c = false) :
    skipWhitespace (atPos s i) = atPos s (i + 1) := by
  have h := readWhile_run isSpace isSpace_NUL s (c :: r)
    (fun d r1 e => by cases e; exact hc) [' '] (s.length + 1) i hd
    (fun d hd1 => by rw [List.mem_singleton] at hd1; subst hd1; rfl)
    (by
      have := length_le_of_drop s i [' '] (c :: r) hd
      simp only [List.length_singleton] at this ⊢
      omega)
  exact h

theorem nextToken_congr (l l1 : Lexer) (h1 : skipWhitespace l = l1)
    (h2 : skipWhitespace l1 = l1) : nextToken l = nextToken l1 := by
  unfold nextToken
  simp only [h1, h2]

/-- A blank before a token is skipped. -/
theorem nextToken_blank (s : List Char) (i : Nat) (c : Char) (r : List Char)
    (hd : s.drop i = ' ' :: c :: r) (hc : isSpace c = false) :
    nextToken (atPos s i) = nextToken (atPos s (i + 1)) := by
  refine nextToken_congr _ _ (skipWhitespace_blank s i c r hd hc) ?_
  apply skipWhitespace_none
  rw [atPos_ch_cons s (i + 1) c r (drop_succ_of_cons s i ' ' (c :: r) hd)]
  exact hc

end Lexer

end lexer

namespace lexer

open token

namespace Lexer

theorem isSpace_of_isLetter (c : Char) (h : isLetter c = true) : isSpace c = false := by
  have h95 : c = '_' → c.toNat = 95 := by intro e; subst e; rfl
  simp only [isLetter, isAlpha, Bool.or_eq_true, Bool.and_eq_true, decide_eq_true_eq] at h
  simp only [isSpace, Bool.or_eq_false_iff, decide_eq_false_iff_not, Bool.and_eq_false_iff,
    not_le]
  rcases h with (h | h) | h
  · omega
  · omega
  · have := h95 h; omega

theorem ne_of_isLetter (c p : Char) (h : isLetter c = true) (hp : isLetter p = false) :
    c ≠ p := by
  intro e; subst e; rw [h] at hp; cases hp

/-- The characters of an identifier are read as one token. -/
theorem nextToken_letters (s : List Char) (i : Nat) (w rest : List Char)
    (hd : s.drop i = w ++ rest) (hne : w ≠ []) (hw : ∀ c ∈ w, isLetter c = true)
    (hrest : ∀ c r, rest = c :: r → isLetter c = false) :
    nextToken (atPos s i) =
      ({ type := lookupIdent (String.mk w), literal := String.mk w }, atPos s (i + w.length)) := by
  obtain ⟨c, w1, rfl⟩ : ∃ c w1, w = c :: w1 := by
    cases w with
    | nil => exact absurd rfl hne
    | cons c w1 => exact ⟨c, w1, rfl⟩
  have hc : isLetter c = true := hw c (List.mem_cons_self _ _)
  have hch : (atPos s i).ch = c := atPos_ch_cons s i c (w1 ++ rest) hd
  have hskip : skipWhitespace (atPos s i) = atPos s i :=
    skipWhitespace_none s i (by rw [hch]; exact isSpace_of_isLetter c hc)
  have hrun := readWhile_run isLetter isLetter_NUL s rest hrest (c :: w1) (s.length + 1) i hd hw
    (by have := length_le_of_drop s i (c :: w1) rest hd; omega)
  have hread : readIdentifier (atPos s i) =
      (String.mk (c :: w1), atPos s (i + (c :: w1).length)) := by
    have hin : (atPos s i).input = s := rfl
    have hpos : (atPos s i).position = i := rfl
    have hpos2 : (atPos s (i + (c :: w1).length)).position = i + (c :: w1).length := rfl
    simp only [readIdentifier, hin, hpos, hrun, hpos2, hd, Nat.add_sub_cancel_left,
      List.take_left]
  unfold nextToken
  simp only [hskip, hch]
  rw [if_neg (ne_of_isLetter c _ hc (by decide)), if_neg (ne_of_isLetter c _ hc (by decide)),
    if_neg (ne_of_isLetter c _ hc (by decide)), if_neg (ne_of_isLetter c _ hc (by decide)),
    if_neg (ne_of_isLetter c _ hc (by decide)), if_neg (ne_of_isLetter c _ hc (by decide)),
    if_neg (ne_of_isLetter c _ hc (by decide)), if_neg (ne_of_isLetter c _ hc (by decide)),
    if_neg (ne_of_isLetter c _ hc (by decide)), if_neg (ne_of_isLetter c _ hc (by decide)),
    if_neg (ne_of_isLetter c _ hc (by decide)), if_neg (ne_of_isLetter c _ hc (by decide)),
    if_neg (ne_of_isLetter c _ hc (by decide)), if_neg (ne_of_isLetter c _ hc (by decide)),
    if_neg (ne_of_isLetter c _ hc (by decide)), if_pos hc, hread]

/-- An identifier is read as the token `IDENT` with its text as literal. -/
theorem nextToken_identifier (s : List Char) (i : Nat) (name : String) (rest : List Char)
    (hname : IsIdentifierName name) (hd : s.drop i = name.toList ++ rest)
    (hrest : ∀ c r, rest = c :: r → isLetter c = false) :
    nextToken (atPos s i) =
      ({ type := TokenType.IDENT, literal := name }, atPos s (i + name.length)) := by
  have h := nextToken_letters s i name.toList rest hd hname.1 hname.2.1 hrest
  have e : String.mk name.toList = name := rfl
  rw [e, hname.2.2] at h
  exact h

/-- A character of `singleCharTokens` is read as a token on its own. -/
theorem nextToken_singleChar (s : List Char) (i : Nat) (c : Char) (type : TokenType)
    (rest : List Char) (hc : (c, type) ∈ singleCharTokens) (hd : s.drop i = c :: rest) :
    nextToken (atPos s i) = (newToken type c, atPos s (i + 1)) := by
  have hch : (atPos s i).ch = c := atPos_ch_cons s i c rest hd
  simp only [singleCharTokens, List.mem_cons, List.mem_singleton, List.not_mem_nil, or_false,
    Prod.mk.injEq] at hc
  rcases hc with h | h | h | h | h | h | h | h | h | h | h | h <;> obtain ⟨rfl, rfl⟩ := h
  all_goals
    have hskip : skipWhitespace (atPos s i) = atPos s i :=
      skipWhitespace_none s i (by rw [hch]; decide)
    unfold nextToken
    simp only [hskip, hch, readChar_atPos]
    simp

/-- The two characters `==` are read as the token `EQ`, and `!=` as `NOT_EQ`. -/
theorem nextToken_twoChar (s : List Char) (i : Nat) (rest : List Char) :
    (s.drop i = '=' :: '=' :: rest →
      nextToken (atPos s i) = ({ type := TokenType.EQ, literal := "==" }, atPos s (i + 2))) ∧
    (s.drop i = '!' :: '=' :: rest →
      nextToken (atPos s i) = ({ type := TokenType.NOT_EQ, literal := "!=" }, atPos s (i + 2))) := by
  constructor
  all_goals
    intro hd
    have hch := atPos_ch_cons s i _ _ hd
    have hpk : peekChar (atPos s i) = '=' :=
      atPos_ch_cons s (i + 1) _ _ (drop_succ_of_cons s i _ _ hd)
    have hch1 : (atPos s (i + 1)).ch = '=' :=
      atPos_ch_cons s (i + 1) _ _ (drop_succ_of_cons s i _ _ hd)
    have hskip : skipWhitespace (atPos s i) = atPos s i :=
      skipWhitespace_none s i (by rw [hch]; decide)
    unfold nextToken
    simp only [hskip, hch, hpk, readChar_atPos, hch1]
    simp

/-- The character `!` before a character other than `=` is read as the token `BANG`. -/
theorem nextToken_bang (s : List Char) (i : Nat) (c : Char) (rest : List Char)
    (hd : s.drop i = '!' :: c :: rest) (hc : c ≠ '=') :
    nextToken (atPos s i) = ({ type := TokenType.BANG, literal := "!" }, atPos s (i + 1)) := by
  have hch := atPos_ch_cons s i _ _ hd
  have hpk : peekChar (atPos s i) = c :=
    atPos_ch_cons s (i + 1) _ _ (drop_succ_of_cons s i _ _ hd)
  have hskip : skipWhitespace (atPos s i) = atPos s i :=
    skipWhitespace_none s i (by rw [hch]; decide)
  unfold nextToken
  simp only [hskip, hch, hpk, readChar_atPos]
  simp [hc]
  rfl

/-- At the end of the input `nextToken` returns `EOF` and stays at the end. -/
theorem nextToken_end (s : List Char) (i : Nat) (hd : s.drop i = []) :
    nextToken (atPos s i) = ({ type := TokenType.EOF_TOKEN, literal := "" }, atPos s (i + 1)) := by
  have hch := atPos_ch_nil s i hd
  have hskip : skipWhitespace (atPos s i) = atPos s i :=
    skipWhitespace_none s i (by rw [hch]; decide)
  unfold nextToken
  simp only [hskip, hch, readChar_atPos]
  simp [NUL]

theorem drop_succ_of_nil (s : List Char) (i : Nat) (hd : s.drop i = []) :
    s.drop (i + 1) = [] := by
  rw [List.drop_eq_nil_iff] at hd ⊢
  omega

end Lexer

end lexer

namespace lexer

open token

namespace Lexer

theorem reads_blank (c : Char) (r : List Char) (tok : Token) (suffix1 : List Char)
    (hc : isSpace c = false) (h : Reads (c :: r) tok suffix1) :
    Reads (' ' :: c :: r) tok suffix1 := by
  intro s i hd
  obtain ⟨j, e, d⟩ := h s (i + 1) (drop_succ_of_cons s i ' ' (c :: r) hd)
  exact ⟨j, by rw [nextToken_blank s i c r hd hc, e], d⟩

theorem reads_identifier (name : String) (rest : List Char) (hname : IsIdentifierName name)
    (hrest : ∀ c r, rest = c :: r → isLetter c = false) :
    Reads (name.toList ++ rest) { type := TokenType.IDENT, literal := name } rest := by
  intro s i hd
  exact ⟨i + name.length, nextToken_identifier s i name rest hname hd hrest,
    drop_add_of_append s i name.toList rest hd⟩

theorem reads_blank_identifier (name : String) (rest : List Char)
    (hname : IsIdentifierName name) (hrest : ∀ c r, rest = c :: r → isLetter c = false) :
    Reads (' ' :: (name.toList ++ rest)) { type := TokenType.IDENT, literal := name } rest := by
  have h1 := hname.1
  have h2 := hname.2.1
  cases hn : name.toList with
  | nil => exact absurd hn h1
  | cons c w =>
    have := reads_identifier name rest hname hrest
    rw [hn] at this
    exact reads_blank c (w ++ rest) _ rest
      (isSpace_of_isLetter c (h2 c (by rw [hn]; exact List.mem_cons_self _ _))) this

theorem reads_singleChar (c : Char) (type : TokenType) (rest : List Char)
    (hc : (c, type) ∈ singleCharTokens) : Reads (c :: rest) (newToken type c) rest := by
  intro s i hd
  exact ⟨i + 1, nextToken_singleChar s i c type rest hc hd, drop_succ_of_cons s i c rest hd⟩

theorem reads_end : Reads [] { type := TokenType.EOF_TOKEN, literal := "" } [] := by
  intro s i hd
  exact ⟨i + 1, nextToken_end s i hd, drop_succ_of_nil s i hd⟩

end Lexer

end lexer

namespace parser

open token lexer

/-- A binary operator is read as its token, also after a blank. -/
theorem reads_binaryOperator (o : Token) (ho : o ∈ binaryOperatorTokens) (rest : List Char) :
    Lexer.Reads (o.literal.toList ++ rest) o rest ∧
      Lexer.Reads (' ' :: (o.literal.toList ++ rest)) o rest := by
  have two : ∀ (c : Char) (t : TokenType), (c, t) ∈ singleCharTokens → isSpace c = false →
      Lexer.Reads (c :: rest) (newToken t c) rest ∧
        Lexer.Reads (' ' :: c :: rest) (newToken t c) rest := fun c t hc hs =>
    ⟨Lexer.reads_singleChar c t rest hc, Lexer.reads_blank c rest _ rest hs
      (Lexer.reads_singleChar c t rest hc)⟩
  have eq2 : Lexer.Reads ('=' :: '=' :: rest) { type := TokenType.EQ, literal := "==" } rest :=
    fun s i hd => ⟨i + 2, (Lexer.nextToken_twoChar s i rest).1 hd,
      Lexer.drop_add_of_append s i ['=', '='] rest hd⟩
  have ne2 : Lexer.Reads ('!' :: '=' :: rest) { type := TokenType.NOT_EQ, literal := "!=" } rest :=
    fun s i hd => ⟨i + 2, (Lexer.nextToken_twoChar s i rest).2 hd,
      Lexer.drop_add_of_append s i ['!', '='] rest hd⟩
  simp only [binaryOperatorTokens, List.mem_cons, List.mem_singleton, List.not_mem_nil,
    or_false] at ho
  rcases ho with h | h | h | h | h | h | h | h <;> subst h
  · exact two '+' TokenType.PLUS (by decide) (by decide)
  · exact two '-' TokenType.MINUS (by decide) (by decide)
  · exact two '*' TokenType.ASTERISK (by decide) (by decide)
  · exact two '/' TokenType.SLASH (by decide) (by decide)
  · exact ⟨eq2, Lexer.reads_blank '=' ('=' :: rest) _ rest (by decide) eq2⟩
  · exact ⟨ne2, Lexer.reads_blank '!' ('=' :: rest) _ rest (by decide) ne2⟩
  · exact two '<' TokenType.LT (by decide) (by decide)
  · exact two '>' TokenType.GT (by decide) (by decide)

end parser

namespace parser

open token lexer ast

namespace Parser

theorem binaryOperator_facts (o : Token) (ho : o ∈ binaryOperatorTokens) :
    infixParseFns o.type = some InfixParseFn.parseInfixExpression ∧
      o.type ≠ TokenType.SEMICOLON ∧ precedences o.type = some (precedenceOf o) ∧
      0 < precedenceOf o ∧ precedenceOf o < PREFIX := by
  simp only [binaryOperatorTokens, List.mem_cons, List.mem_singleton, List.not_mem_nil,
    or_false] at ho
  rcases ho with h | h | h | h | h | h | h | h <;> subst h <;> decide

/-- An identifier that is followed by a semicolon or by a token that does not bind
tighter than `precedence` is an expression on its own. -/
theorem parseExpression_identifier (fuel precedence : Nat) (p : Parser)
    (hc : p.curToken.type = TokenType.IDENT)
    (hstop : p.peekToken.type = TokenType.SEMICOLON ∨ p.peekPrecedence ≤ precedence) :
    parseExpression (fuel + 3) precedence p = some p.parseIdentifier := by
  have hstop2 : (!p.peekTokenIs TokenType.SEMICOLON &&
      decide (precedence < p.peekPrecedence)) = false := by
    rcases hstop with h | h
    · simp [peekTokenIs, h]
    · simp [h]
  rw [parseExpression, hc]
  simp only [prefixParseFns, callPrefixParseFn, parseIdentifier]
  rw [parseExpressionLoop, hstop2]
  rfl

end Parser

end parser
namespace lexer

namespace Lexer

theorem afterCalls_succ (n : Nat) : ∀ l : Lexer,
    afterCalls (n + 1) l = (nextToken (afterCalls n l)).2 := by
  induction n with
  | zero => intro l; rfl
  | succ n ih => intro l; rw [afterCalls, ih (nextToken l).2]; rfl

theorem tokens_eq_map (n : Nat) : ∀ l : Lexer,
    tokens n l = (List.range n).map (nthToken l) := by
  induction n with
  | zero => intro l; rfl
  | succ n ih =>
    intro l
    rw [tokens, ih, List.range_succ_eq_map, List.map_cons, List.map_map]
    rfl

end Lexer

end lexer

namespace parser

open token lexer ast

namespace Parser

theorem new_eq_atToken (l : Lexer) : Parser.new l = atToken l 0 := rfl

theorem atToken_nextToken (l : Lexer) (k : Nat) :
    (atToken l k).nextToken = atToken l (k + 1) := by
  simp only [atToken, nextToken, Lexer.nthToken, Lexer.afterCalls_succ (k + 2)]

/-- One round of the loop of `parseExpression` on a binary operator that binds tighter
than `precedence`: the operator and its right operand, parsed at the precedence of the
operator, are joined to the left operand. -/
theorem parseExpressionLoop_infixStep (fuel precedence : Nat) (left right : Option Expression)
    (p p1 : Parser) (ho : p.peekToken ∈ binaryOperatorTokens)
    (hlt : precedence < precedenceOf p.peekToken)
    (hr : parseExpression fuel (precedenceOf p.peekToken) p.nextToken.nextToken =
      some (right, p1)) :
    parseExpressionLoop (fuel + 3) precedence left p =
      parseExpressionLoop (fuel + 2) precedence (infixNode left p.peekToken right) p1 := by
  obtain ⟨h1, h2, h3, _, _⟩ := binaryOperator_facts _ ho
  have hcur : p.nextToken.curPrecedence = precedenceOf p.peekToken := rfl
  have hcond : (!p.peekTokenIs TokenType.SEMICOLON &&
      decide (precedence < p.peekPrecedence)) = true := by
    have : p.peekPrecedence = precedenceOf p.peekToken := rfl
    simp [peekTokenIs, h2, this, hlt]
  rw [parseExpressionLoop, hcond]
  simp only [h1, callInfixParseFn, parseInfixExpression, hcur, hr, if_true]
  rfl

end Parser

end parser
namespace parser

open token lexer ast

namespace Parser

/-- The loop of `parseExpression` stops at a semicolon and at a token that does not bind
tighter than `precedence`. -/
theorem parseExpressionLoop_stop (fuel precedence : Nat) (left : Option Expression)
    (p : Parser)
    (hstop : p.peekToken.type = TokenType.SEMICOLON ∨ p.peekPrecedence ≤ precedence) :
    parseExpressionLoop (fuel + 1) precedence left p = some (left, p) := by
  have hstop2 : (!p.peekTokenIs TokenType.SEMICOLON &&
      decide (precedence < p.peekPrecedence)) = false := by
    rcases hstop with h | h
    · simp [peekTokenIs, h]
    · simp [h]
  rw [parseExpressionLoop, hstop2]
  rfl

/-- With an identifier as current token `parseExpression` enters its loop with the
node of the identifier as left operand. -/
theorem parseExpression_identifier_loop (fuel precedence : Nat) (p : Parser)
    (hc : p.curToken.type = TokenType.IDENT) :
    parseExpression (fuel + 2) precedence p =
      parseExpressionLoop (fuel + 1) precedence p.parseIdentifier.1 p := by
  rw [parseExpression, hc]
  simp only [prefixParseFns, callPrefixParseFn, parseIdentifier]

/-- A program that is one expression statement without semicolon, followed by the end
of the input. -/
theorem parseProgram_expression (fuel : Nat) (p p1 : Parser) (e : Option Expression)
    (hc1 : p.curToken.type ≠ TokenType.EOF_TOKEN) (hc2 : p.curToken.type ≠ TokenType.LET)
    (hc3 : p.curToken.type ≠ TokenType.RETURN)
    (hr : parseExpression fuel LOWEST p = some (e, p1))
    (hpk : p1.peekToken.type = TokenType.EOF_TOKEN) :
    parseProgram (fuel + 3) p =
      some ({ statements := [Statement.expressionStatement p.curToken e] }, p1.nextToken) := by
  have hs : p1.peekTokenIs TokenType.SEMICOLON = false := by simp [peekTokenIs, hpk]
  have hn : p1.nextToken.curToken.type = TokenType.EOF_TOKEN := hpk
  unfold parseProgram
  rw [parseProgramLoop, if_pos hc1, parseStatement, if_neg hc2, if_neg hc3,
    parseExpressionStatement]
  simp only [hr, hs]
  simp [parseProgramLoop, hn]

theorem atToken_identifier (l : Lexer) (k : Nat) (a : String)
    (h : Lexer.nthToken l k = identToken a) :
    (atToken l k).parseIdentifier = (identNode a, atToken l k) := by
  simp only [parseIdentifier, atToken, h, identNode, identToken]

theorem atToken_peekPrecedence (l : Lexer) (k : Nat) :
    (atToken l k).peekPrecedence = precedenceOf (Lexer.nthToken l (k + 1)) := rfl

/-- An identifier followed by a token that does not bind tighter than `precedence`. -/
theorem atToken_parse_identifier (fuel precedence : Nat) (l : Lexer) (k : Nat) (a : String)
    (hk : Lexer.nthToken l k = identToken a)
    (hstop : precedenceOf (Lexer.nthToken l (k + 1)) ≤ precedence) :
    parseExpression (fuel + 3) precedence (atToken l k) = some (identNode a, atToken l k) := by
  have hc : (atToken l k).curToken.type = TokenType.IDENT := by
    show (Lexer.nthToken l k).type = _
    rw [hk]; rfl
  rw [parseExpression_identifier fuel precedence _ hc (Or.inr hstop),
    atToken_identifier l k a hk]

/-- An identifier as the left operand of what follows. -/
theorem atToken_identifier_loop (fuel precedence : Nat) (l : Lexer) (k : Nat) (a : String)
    (hk : Lexer.nthToken l k = identToken a) :
    parseExpression (fuel + 2) precedence (atToken l k) =
      parseExpressionLoop (fuel + 1) precedence (identNode a) (atToken l k) := by
  have hc : (atToken l k).curToken.type = TokenType.IDENT := by
    show (Lexer.nthToken l k).type = _
    rw [hk]; rfl
  rw [parseExpression_identifier_loop fuel precedence _ hc, atToken_identifier l k a hk]

/-- A binary operator that binds tighter than `precedence` takes the next expression,
parsed at its own precedence, as right operand. -/
theorem atToken_infixStep (fuel precedence : Nat) (left right : Option Expression) (l : Lexer)
    (k : Nat) (o : Token) (p1 : Parser) (hk : Lexer.nthToken l (k + 1) = o)
    (ho : o ∈ binaryOperatorTokens) (hlt : precedence < precedenceOf o)
    (hr : parseExpression fuel (precedenceOf o) (atToken l (k + 2)) = some (right, p1)) :
    parseExpressionLoop (fuel + 3) precedence left (atToken l k) =
      parseExpressionLoop (fuel + 2) precedence (infixNode left o right) p1 := by
  have hpk : (atToken l k).peekToken = o := hk
  have hn : (atToken l k).nextToken.nextToken = atToken l (k + 2) := by
    rw [atToken_nextToken, atToken_nextToken]
  have := parseExpressionLoop_infixStep fuel precedence left right (atToken l k) p1
    (hpk.symm ▸ ho) (hpk.symm ▸ hlt) (by rw [hpk, hn]; exact hr)
  rw [this, hpk]

/-- The loop of `parseExpression` stops before a token that does not bind tighter than
`precedence`. -/
theorem atToken_stop (fuel precedence : Nat) (left : Option Expression) (l : Lexer) (k : Nat)
    (hstop : precedenceOf (Lexer.nthToken l (k + 1)) ≤ precedence) :
    parseExpressionLoop (fuel + 1) precedence left (atToken l k) = some (left, atToken l k) :=
  parseExpressionLoop_stop fuel precedence left _ (Or.inr hstop)

/-- The expression `a o1 b o2 c` on the level of tokens: the right operand of `o1` is
`b o2 c` when `o2` binds tighter than `o1`, and `b` otherwise. -/
theorem parseExpression_two_operators (fuel : Nat) (l : Lexer) (a b c : String)
    (o1 o2 : Token) (ho1 : o1 ∈ binaryOperatorTokens) (ho2 : o2 ∈ binaryOperatorTokens)
    (h0 : Lexer.nthToken l 0 = identToken a) (h1 : Lexer.nthToken l 1 = o1)
    (h2 : Lexer.nthToken l 2 = identToken b) (h3 : Lexer.nthToken l 3 = o2)
    (h4 : Lexer.nthToken l 4 = identToken c) (h5 : Lexer.nthToken l 5 = eofToken) :
    parseExpression (fuel + 12) LOWEST (atToken l 0) =
      some (if precedenceOf o1 < precedenceOf o2
        then infixNode (identNode a) o1 (infixNode (identNode b) o2 (identNode c))
        else infixNode (infixNode (identNode a) o1 (identNode b)) o2 (identNode c),
        atToken l 4) := by
  obtain ⟨_, _, _, hp1, _⟩ := binaryOperator_facts _ ho1
  obtain ⟨_, _, _, hp2, _⟩ := binaryOperator_facts _ ho2
  have s4 : ∀ n, precedenceOf (Lexer.nthToken l (4 + 1)) ≤ n := by
    intro n
    rw [h5]
    exact Nat.zero_le n
  have pc : ∀ f n, parseExpression (f + 3) n (atToken l 4) = some (identNode c, atToken l 4) :=
    fun f n => atToken_parse_identifier f n l 4 c h4 (s4 n)
  rw [atToken_identifier_loop (fuel + 10) LOWEST l 0 a h0]
  by_cases hlt : precedenceOf o1 < precedenceOf o2
  · rw [if_pos hlt]
    have inner : parseExpression (fuel + 8) (precedenceOf o1) (atToken l 2) =
        some (infixNode (identNode b) o2 (identNode c), atToken l 4) := by
      rw [atToken_identifier_loop (fuel + 6) _ l 2 b h2,
        atToken_infixStep (fuel + 4) _ _ (identNode c) l 2 o2 (atToken l 4) h3 ho2 hlt (pc _ _)]
      exact atToken_stop _ _ _ l 4 (s4 _)
    rw [atToken_infixStep (fuel + 8) _ _ _ l 0 o1 (atToken l 4) h1 ho1 hp1 inner]
    exact atToken_stop _ _ _ l 4 (s4 _)
  · rw [if_neg hlt]
    have s2 : precedenceOf (Lexer.nthToken l (2 + 1)) ≤ precedenceOf o1 := by
      rw [h3]; omega
    have inner : parseExpression (fuel + 8) (precedenceOf o1) (atToken l 2) =
        some (identNode b, atToken l 2) :=
      atToken_parse_identifier (fuel + 5) _ l 2 b h2 s2
    rw [atToken_infixStep (fuel + 8) _ _ _ l 0 o1 (atToken l 2) h1 ho1 hp1 inner,
      atToken_infixStep (fuel + 7) _ _ (identNode c) l 2 o2 (atToken l 4) h3 ho2 hp2 (pc _ _)]
    exact atToken_stop _ _ _ l 4 (s4 _)

end Parser

end parser
namespace lexer

namespace Lexer

theorem nthToken_zero_of (l l1 : Lexer) (t : token.Token) (h : nextToken l = (t, l1)) :
    nthToken l 0 = t := by
  show (nextToken l).1 = t
  rw [h]

theorem nthToken_succ_of (l l1 : Lexer) (t : token.Token) (h : nextToken l = (t, l1))
    (k : Nat) : nthToken l (k + 1) = nthToken l1 k := by
  show (nextToken (afterCalls k (nextToken l).2)).1 = _
  rw [h]
  rfl

end Lexer

end lexer

namespace Spec

open token lexer ast parser

/-- C5 (binary operator precedence and left-associativity). For all identifiers `a`,
`b`, `c` and all binary operators `o1`, `o2` among `+ - * / == != < >`, the source
text `a o1 b o2 c` parses without error into one expression statement whose expression
is `a o1 (b o2 c)`, rendered `(a o1 (b o2 c))`, when `o2` has the higher precedence,
and `(a o1 b) o2 c`, rendered `((a o1 b) o2 c)`, otherwise. In particular `a + b * c`
gives `(a + (b * c))` and `a == b != c` gives `((a == b) != c)`. The precedences of
`+ - * / == != < >` are `SUM SUM PRODUCT PRODUCT EQUALS EQUALS LESSGREATER LESSGREATER`,
with `EQUALS < LESSGREATER < SUM < PRODUCT`. -/
theorem C5_binary_precedence (fuel : Nat) (a b c : String) (o1 o2 : Token)
    (ha : IsIdentifierName a) (hb : IsIdentifierName b) (hc : IsIdentifierName c)
    (ho1 : o1 ∈ binaryOperatorTokens) (ho2 : o2 ∈ binaryOperatorTokens) :
    (∃ p, parseSource (fuel + 15)
          (a ++ " " ++ o1.literal ++ " " ++ b ++ " " ++ o2.literal ++ " " ++ c) =
        some ({ statements := [Statement.expressionStatement (identToken a)
          (if precedenceOf o1 < precedenceOf o2
            then infixNode (identNode a) o1 (infixNode (identNode b) o2 (identNode c))
            else infixNode (infixNode (identNode a) o1 (identNode b)) o2 (identNode c))] }, p) ∧
        p.errors = []) ∧
      (Statement.expressionStatement (identToken a)
          (if precedenceOf o1 < precedenceOf o2
            then infixNode (identNode a) o1 (infixNode (identNode b) o2 (identNode c))
            else infixNode (infixNode (identNode a) o1 (identNode b)) o2 (identNode c))).toString =
        some (if precedenceOf o1 < precedenceOf o2
          then infixText a o1.literal (infixText b o2.literal c)
          else infixText (infixText a o1.literal b) o2.literal c) ∧
      (parseSource 20 "a + b * c").bind (fun r => r.1.toString) = some "(a + (b * c))" ∧
      (parseSource 20 "a == b != c").bind (fun r => r.1.toString) = some "((a == b) != c)" ∧
      (binaryOperatorTokens.map precedenceOf = [SUM, SUM, PRODUCT, PRODUCT, EQUALS, EQUALS,
          LESSGREATER, LESSGREATER] ∧
        EQUALS < LESSGREATER ∧ LESSGREATER < SUM ∧ SUM < PRODUCT) := by
  refine ⟨?_, ?_, by decide!, by decide!, by decide⟩
  · have hS : (a ++ " " ++ o1.literal ++ " " ++ b ++ " " ++ o2.literal ++ " " ++ c).toList =
        a.toList ++ (' ' :: (o1.literal.toList ++ (' ' :: (b.toList ++
          (' ' :: (o2.literal.toList ++ (' ' :: (c.toList ++ [])))))))) := by
      simp [String.toList]
    have blank : ∀ (r : List Char) (c1 : Char) (r1 : List Char),
        ' ' :: r = c1 :: r1 → isLetter c1 = false := by
      intro r c1 r1 e
      cases e
      decide
    show ∃ p, Parser.parseProgram (fuel + 15) (Parser.new (Lexer.new
      (a ++ " " ++ o1.literal ++ " " ++ b ++ " " ++ o2.literal ++ " " ++ c).toList)) = _ ∧ _
    rw [hS]
    generalize hL : a.toList ++ (' ' :: (o1.literal.toList ++ (' ' :: (b.toList ++
      (' ' :: (o2.literal.toList ++ (' ' :: (c.toList ++ [])))))))) = S
    have d0 : S.drop 0 = a.toList ++ (' ' :: (o1.literal.toList ++ (' ' :: (b.toList ++
      (' ' :: (o2.literal.toList ++ (' ' :: (c.toList ++ [])))))))) := hL.symm
    obtain ⟨j1, e1, d1⟩ := Lexer.reads_identifier a _ ha (blank _) S 0 d0
    obtain ⟨j2, e2, d2⟩ := (reads_binaryOperator o1 ho1 _).2 S j1 d1
    obtain ⟨j3, e3, d3⟩ := Lexer.reads_blank_identifier b _ hb (blank _) S j2 d2
    obtain ⟨j4, e4, d4⟩ := (reads_binaryOperator o2 ho2 _).2 S j3 d3
    obtain ⟨j5, e5, d5⟩ := Lexer.reads_blank_identifier c [] hc
      (fun _ _ e => by cases e) S j4 d4
    obtain ⟨j6, e6, _⟩ := Lexer.reads_end S j5 d5
    have n1 := Lexer.nthToken_succ_of (Lexer.atPos S 0) (Lexer.atPos S j1) _ e1
    have n2 := Lexer.nthToken_succ_of (Lexer.atPos S j1) (Lexer.atPos S j2) _ e2
    have n3 := Lexer.nthToken_succ_of (Lexer.atPos S j2) (Lexer.atPos S j3) _ e3
    have n4 := Lexer.nthToken_succ_of (Lexer.atPos S j3) (Lexer.atPos S j4) _ e4
    have n5 := Lexer.nthToken_succ_of (Lexer.atPos S j4) (Lexer.atPos S j5) _ e5
    have z1 := Lexer.nthToken_zero_of (Lexer.atPos S 0) (Lexer.atPos S j1) _ e1
    have z2 := Lexer.nthToken_zero_of (Lexer.atPos S j1) (Lexer.atPos S j2) _ e2
    have z3 := Lexer.nthToken_zero_of (Lexer.atPos S j2) (Lexer.atPos S j3) _ e3
    have z4 := Lexer.nthToken_zero_of (Lexer.atPos S j3) (Lexer.atPos S j4) _ e4
    have z5 := Lexer.nthToken_zero_of (Lexer.atPos S j4) (Lexer.atPos S j5) _ e5
    have z6 := Lexer.nthToken_zero_of (Lexer.atPos S j5) (Lexer.atPos S j6) _ e6
    have h0 : Lexer.nthToken (Lexer.atPos S 0) 0 = identToken a := z1
    have h1 : Lexer.nthToken (Lexer.atPos S 0) 1 = o1 := (n1 0).trans z2
    have h2 : Lexer.nthToken (Lexer.atPos S 0) 2 = identToken b :=
      (n1 1).trans ((n2 0).trans z3)
    have h3 : Lexer.nthToken (Lexer.atPos S 0) 3 = o2 :=
      (n1 2).trans ((n2 1).trans ((n3 0).trans z4))
    have h4 : Lexer.nthToken (Lexer.atPos S 0) 4 = identToken c :=
      (n1 3).trans ((n2 2).trans ((n3 1).trans ((n4 0).trans z5)))
    have h5 : Lexer.nthToken (Lexer.atPos S 0) 5 = eofToken :=
      (n1 4).trans ((n2 3).trans ((n3 2).trans ((n4 1).trans ((n5 0).trans z6))))
    have hexpr := Parser.parseExpression_two_operators fuel (Lexer.atPos S 0) a b c o1 o2 ho1 ho2
      h0 h1 h2 h3 h4 h5
    have hcur : (Parser.atToken (Lexer.atPos S 0) 0).curToken = identToken a := h0
    have hprog := Parser.parseProgram_expression (fuel + 12) (Parser.atToken (Lexer.atPos S 0) 0)
      (Parser.atToken (Lexer.atPos S 0) 4) _ (by rw [hcur]; simp [identToken]) (by rw [hcur]; simp [identToken])
      (by rw [hcur]; simp [identToken]) hexpr
      (by show (Lexer.nthToken (Lexer.atPos S 0) 5).type = _; rw [h5]; rfl)
    refine ⟨(Parser.atToken (Lexer.atPos S 0) 4).nextToken, ?_, rfl⟩
    rw [hcur] at hprog
    exact hprog
  · by_cases hlt : precedenceOf o1 < precedenceOf o2
    · rw [if_pos hlt, if_pos hlt]; rfl
    · rw [if_neg hlt, if_neg hlt]; rfl

end Spec

namespace parser

open token lexer ast

namespace Parser

theorem prefixOperator_facts (o : Token) (ho : o ∈ prefixOperatorTokens) :
    prefixParseFns o.type = some PrefixParseFn.parsePrefixExpression ∧
      o.type ≠ TokenType.EOF_TOKEN ∧ o.type ≠ TokenType.LET ∧ o.type ≠ TokenType.RETURN := by
  simp only [prefixOperatorTokens, List.mem_cons, List.mem_singleton, List.not_mem_nil,
    or_false] at ho
  rcases ho with h | h <;> subst h <;> decide

/-- A unary operator takes the next expression, parsed at the precedence `PREFIX`, as
its operand. -/
theorem atToken_prefixStep (fuel precedence : Nat) (right : Option Expression) (l : Lexer)
    (k : Nat) (o : Token) (p1 : Parser) (hk : Lexer.nthToken l k = o)
    (ho : o ∈ prefixOperatorTokens)
    (hr : parseExpression fuel PREFIX (atToken l (k + 1)) = some (right, p1)) :
    parseExpression (fuel + 3) precedence (atToken l k) =
      parseExpressionLoop (fuel + 2) precedence (prefixNode o right) p1 := by
  have hcur : (atToken l k).curToken = o := hk
  rw [parseExpression, hcur, (prefixOperator_facts o ho).1]
  simp only [callPrefixParseFn, parsePrefixExpression, atToken_nextToken, hr, hcur]
  rfl

/-- A left parenthesis after an expression, where calls bind tighter than `precedence`,
makes a call of it; here with one argument, an identifier. -/
theorem atToken_call (fuel precedence : Nat) (left : Option Expression) (l : Lexer) (k : Nat)
    (x : String) (hlt : precedence < CALL) (h1 : Lexer.nthToken l (k + 1) = lparenToken)
    (h2 : Lexer.nthToken l (k + 2) = identToken x)
    (h3 : Lexer.nthToken l (k + 3) = rparenToken) :
    parseExpressionLoop (fuel + 7) precedence left (atToken l k) =
      parseExpressionLoop (fuel + 6) precedence (callNode left [identNode x])
        (atToken l (k + 3)) := by
  have hpk : (atToken l k).peekToken = lparenToken := h1
  have hpk1 : (atToken l (k + 1)).peekToken = identToken x := h2
  have hcur1 : (atToken l (k + 1)).curToken = lparenToken := h1
  have hpk2 : (atToken l (k + 2)).peekToken = rparenToken := h3
  have harg : parseExpression (fuel + 3) LOWEST (atToken l (k + 2)) =
      some (identNode x, atToken l (k + 2)) :=
    atToken_parse_identifier fuel LOWEST l (k + 2) x h2 (by rw [h3]; decide)
  have hcond : (!(atToken l k).peekTokenIs TokenType.SEMICOLON &&
      decide (precedence < (atToken l k).peekPrecedence)) = true := by
    have : (atToken l k).peekPrecedence = CALL := by
      show precedenceOf (atToken l k).peekToken = _
      rw [hpk]; rfl
    simp [peekTokenIs, hpk, this, hlt, lparenToken]
  rw [parseExpressionLoop, hcond, if_pos rfl, hpk]
  simp only [lparenToken, infixParseFns, callInfixParseFn, parseCallExpression,
    parseCallArguments, atToken_nextToken, peekTokenIs, hpk1, identToken, harg,
    parseCallArgumentsLoop, hpk2, rparenToken, expectPeek, hcur1]
  simp [callNode, lparenToken, identToken, hpk2, rparenToken, atToken_nextToken]

/-- The expression `p a o b` on the level of tokens. -/
theorem parseExpression_unary_binary (fuel : Nat) (l : Lexer) (a b : String) (p o : Token)
    (hp : p ∈ prefixOperatorTokens) (ho : o ∈ binaryOperatorTokens)
    (h0 : Lexer.nthToken l 0 = p) (h1 : Lexer.nthToken l 1 = identToken a)
    (h2 : Lexer.nthToken l 2 = o) (h3 : Lexer.nthToken l 3 = identToken b)
    (h4 : Lexer.nthToken l 4 = eofToken) :
    parseExpression (fuel + 12) LOWEST (atToken l 0) =
      some (infixNode (prefixNode p (identNode a)) o (identNode b), atToken l 3) := by
  obtain ⟨_, _, _, hpos, hpre⟩ := binaryOperator_facts _ ho
  have s3 : ∀ n, precedenceOf (Lexer.nthToken l (3 + 1)) ≤ n := by
    intro n; rw [h4]; exact Nat.zero_le n
  have ra : parseExpression (fuel + 9) PREFIX (atToken l 1) = some (identNode a, atToken l 1) :=
    atToken_parse_identifier (fuel + 6) PREFIX l 1 a h1 (by rw [h2]; omega)
  have rb : parseExpression (fuel + 8) (precedenceOf o) (atToken l 3) =
      some (identNode b, atToken l 3) :=
    atToken_parse_identifier (fuel + 5) _ l 3 b h3 (s3 _)
  rw [atToken_prefixStep (fuel + 9) LOWEST _ l 0 p _ h0 hp ra,
    atToken_infixStep (fuel + 8) LOWEST _ _ l 1 o _ h2 ho hpos rb]
  exact atToken_stop _ _ _ l 3 (s3 _)

/-- The expression `p f ( x )` on the level of tokens. -/
theorem parseExpression_unary_call (fuel : Nat) (l : Lexer) (f x : String) (p : Token)
    (hp : p ∈ prefixOperatorTokens) (h0 : Lexer.nthToken l 0 = p)
    (h1 : Lexer.nthToken l 1 = identToken f) (h2 : Lexer.nthToken l 2 = lparenToken)
    (h3 : Lexer.nthToken l 3 = identToken x) (h4 : Lexer.nthToken l 4 = rparenToken)
    (h5 : Lexer.nthToken l 5 = eofToken) :
    parseExpression (fuel + 12) LOWEST (atToken l 0) =
      some (prefixNode p (callNode (identNode f) [identNode x]), atToken l 4) := by
  have s4 : ∀ n, precedenceOf (Lexer.nthToken l (4 + 1)) ≤ n := by
    intro n; rw [h5]; exact Nat.zero_le n
  have inner : parseExpression (fuel + 9) PREFIX (atToken l 1) =
      some (callNode (identNode f) [identNode x], atToken l 4) := by
    rw [atToken_identifier_loop (fuel + 7) PREFIX l 1 f h1,
      atToken_call (fuel + 1) PREFIX _ l 1 x (by decide) h2 h3 h4]
    exact atToken_stop _ _ _ l 4 (s4 _)
  rw [atToken_prefixStep (fuel + 9) LOWEST _ l 0 p _ h0 hp inner]
  exact atToken_stop _ _ _ l 4 (s4 _)

end Parser

end parser

namespace parser

open token lexer ast

/-- A unary operator directly before an identifier is read as its token. -/
theorem reads_prefixOperator (p : Token) (hp : p ∈ prefixOperatorTokens) (name : String)
    (hname : IsIdentifierName name) (rest : List Char) :
    Lexer.Reads (p.literal.toList ++ (name.toList ++ rest)) p (name.toList ++ rest) := by
  simp only [prefixOperatorTokens, List.mem_cons, List.mem_singleton, List.not_mem_nil,
    or_false] at hp
  rcases hp with h | h <;> subst h
  · cases hn : name.toList with
    | nil => exact absurd hn hname.1
    | cons c w =>
      have hc : isLetter c = true := hname.2.1 c (by rw [hn]; exact List.mem_cons_self _ _)
      intro s i hd
      exact ⟨i + 1, Lexer.nextToken_bang s i c (w ++ rest) hd
        (Lexer.ne_of_isLetter c '=' hc (by decide)),
        Lexer.drop_succ_of_cons s i '!' _ hd⟩
  · exact Lexer.reads_singleChar '-' TokenType.MINUS _ (by decide)

end parser

namespace Spec

open token lexer ast parser

/-- C6 (prefix operators bind tighter than binary operators and looser than calls). For
every unary operator `p` among `! -`, every binary operator `o` among
`+ - * / == != < >` and all identifiers `a`, `b`, `f`, `x`, the source text `pa o b`
parses without error into `(pa) o b`, rendered `((pa) o b)`, and the source text
`pf(x)` parses without error into `p` applied to the call `f(x)`, rendered `(pf(x))`.
In particular `-a * b` gives `((-a) * b)`. -/
theorem C6_prefix_precedence (fuel : Nat) (a b f x : String) (p o : Token)
    (ha : IsIdentifierName a) (hb : IsIdentifierName b) (hf : IsIdentifierName f)
    (hx : IsIdentifierName x) (hp : p ∈ prefixOperatorTokens)
    (ho : o ∈ binaryOperatorTokens) :
    (∃ q, parseSource (fuel + 15) (p.literal ++ a ++ " " ++ o.literal ++ " " ++ b) =
        some ({ statements := [Statement.expressionStatement p
          (infixNode (prefixNode p (identNode a)) o (identNode b))] }, q) ∧ q.errors = []) ∧
      (Statement.expressionStatement p
          (infixNode (prefixNode p (identNode a)) o (identNode b))).toString =
        some (infixText (prefixText p.literal a) o.literal b) ∧
      (∃ q, parseSource (fuel + 15) (p.literal ++ f ++ "(" ++ x ++ ")") =
        some ({ statements := [Statement.expressionStatement p
          (prefixNode p (callNode (identNode f) [identNode x]))] }, q) ∧ q.errors = []) ∧
      (Statement.expressionStatement p
          (prefixNode p (callNode (identNode f) [identNode x]))).toString =
        some (prefixText p.literal (f ++ "(" ++ x ++ ")")) ∧
      (parseSource 20 "-a * b").bind (fun r => r.1.toString) = some "((-a) * b)" := by
  have blank : ∀ (r : List Char) (c1 : Char) (r1 : List Char),
      ' ' :: r = c1 :: r1 → isLetter c1 = false := by
    intro r c1 r1 e; cases e; decide
  have hp3 := Parser.prefixOperator_facts p hp
  refine ⟨?_, rfl, ?_, rfl, by decide!⟩
  · have hS : (p.literal ++ a ++ " " ++ o.literal ++ " " ++ b).toList =
        p.literal.toList ++ (a.toList ++ (' ' :: (o.literal.toList ++
          (' ' :: (b.toList ++ []))))) := by
      simp [String.toList]
    show ∃ q, Parser.parseProgram (fuel + 15) (Parser.new (Lexer.new
      (p.literal ++ a ++ " " ++ o.literal ++ " " ++ b).toList)) = _ ∧ _
    rw [hS]
    generalize hL : p.literal.toList ++ (a.toList ++ (' ' :: (o.literal.toList ++
      (' ' :: (b.toList ++ []))))) = S
    have d0 : S.drop 0 = p.literal.toList ++ (a.toList ++ (' ' :: (o.literal.toList ++
      (' ' :: (b.toList ++ []))))) := hL.symm
    obtain ⟨j1, e1, d1⟩ := reads_prefixOperator p hp a ha _ S 0 d0
    obtain ⟨j2, e2, d2⟩ := Lexer.reads_identifier a _ ha (blank _) S j1 d1
    obtain ⟨j3, e3, d3⟩ := (reads_binaryOperator o ho _).2 S j2 d2
    obtain ⟨j4, e4, d4⟩ := Lexer.reads_blank_identifier b [] hb
      (fun _ _ e => by cases e) S j3 d3
    obtain ⟨j5, e5, _⟩ := Lexer.reads_end S j4 d4
    have n1 := Lexer.nthToken_succ_of (Lexer.atPos S 0) (Lexer.atPos S j1) _ e1
    have n2 := Lexer.nthToken_succ_of (Lexer.atPos S j1) (Lexer.atPos S j2) _ e2
    have n3 := Lexer.nthToken_succ_of (Lexer.atPos S j2) (Lexer.atPos S j3) _ e3
    have n4 := Lexer.nthToken_succ_of (Lexer.atPos S j3) (Lexer.atPos S j4) _ e4
    have z1 := Lexer.nthToken_zero_of (Lexer.atPos S 0) (Lexer.atPos S j1) _ e1
    have z2 := Lexer.nthToken_zero_of (Lexer.atPos S j1) (Lexer.atPos S j2) _ e2
    have z3 := Lexer.nthToken_zero_of (Lexer.atPos S j2) (Lexer.atPos S j3) _ e3
    have z4 := Lexer.nthToken_zero_of (Lexer.atPos S j3) (Lexer.atPos S j4) _ e4
    have z5 := Lexer.nthToken_zero_of (Lexer.atPos S j4) (Lexer.atPos S j5) _ e5
    have h0 : Lexer.nthToken (Lexer.atPos S 0) 0 = p := z1
    have h1 : Lexer.nthToken (Lexer.atPos S 0) 1 = identToken a := (n1 0).trans z2
    have h2 : Lexer.nthToken (Lexer.atPos S 0) 2 = o := (n1 1).trans ((n2 0).trans z3)
    have h3 : Lexer.nthToken (Lexer.atPos S 0) 3 = identToken b :=
      (n1 2).trans ((n2 1).trans ((n3 0).trans z4))
    have h4 : Lexer.nthToken (Lexer.atPos S 0) 4 = eofToken :=
      (n1 3).trans ((n2 2).trans ((n3 1).trans ((n4 0).trans z5)))
    have hexpr := Parser.parseExpression_unary_binary fuel (Lexer.atPos S 0) a b p o hp ho
      h0 h1 h2 h3 h4
    have hcur : (Parser.atToken (Lexer.atPos S 0) 0).curToken = p := h0
    have hprog := Parser.parseProgram_expression (fuel + 12) (Parser.atToken (Lexer.atPos S 0) 0)
      (Parser.atToken (Lexer.atPos S 0) 3) _ (by rw [hcur]; exact hp3.2.1)
      (by rw [hcur]; exact hp3.2.2.1) (by rw [hcur]; exact hp3.2.2.2) hexpr
      (by show (Lexer.nthToken (Lexer.atPos S 0) 4).type = _; rw [h4]; rfl)
    refine ⟨(Parser.atToken (Lexer.atPos S 0) 3).nextToken, ?_, rfl⟩
    rw [hcur] at hprog
    exact hprog
  · have hS : (p.literal ++ f ++ "(" ++ x ++ ")").toList =
        p.literal.toList ++ (f.toList ++ ('(' :: (x.toList ++ (')' :: [])))) := by
      simp [String.toList]
    show ∃ q, Parser.parseProgram (fuel + 15) (Parser.new (Lexer.new
      (p.literal ++ f ++ "(" ++ x ++ ")").toList)) = _ ∧ _
    rw [hS]
    generalize hL : p.literal.toList ++ (f.toList ++ ('(' :: (x.toList ++ (')' :: [])))) = S
    have d0 : S.drop 0 = p.literal.toList ++ (f.toList ++ ('(' :: (x.toList ++ (')' :: [])))) :=
      hL.symm
    obtain ⟨j1, e1, d1⟩ := reads_prefixOperator p hp f hf _ S 0 d0
    obtain ⟨j2, e2, d2⟩ := Lexer.reads_identifier f _ hf
      (fun c1 r1 e => by cases e; decide) S j1 d1
    obtain ⟨j3, e3, d3⟩ := Lexer.reads_singleChar '(' TokenType.LPAREN _ (by decide) S j2 d2
    obtain ⟨j4, e4, d4⟩ := Lexer.reads_identifier x _ hx
      (fun c1 r1 e => by cases e; decide) S j3 d3
    obtain ⟨j5, e5, d5⟩ := Lexer.reads_singleChar ')' TokenType.RPAREN _ (by decide) S j4 d4
    obtain ⟨j6, e6, _⟩ := Lexer.reads_end S j5 d5
    have n1 := Lexer.nthToken_succ_of (Lexer.atPos S 0) (Lexer.atPos S j1) _ e1
    have n2 := Lexer.nthToken_succ_of (Lexer.atPos S j1) (Lexer.atPos S j2) _ e2
    have n3 := Lexer.nthToken_succ_of (Lexer.atPos S j2) (Lexer.atPos S j3) _ e3
    have n4 := Lexer.nthToken_succ_of (Lexer.atPos S j3) (Lexer.atPos S j4) _ e4
    have n5 := Lexer.nthToken_succ_of (Lexer.atPos S j4) (Lexer.atPos S j5) _ e5
    have z1 := Lexer.nthToken_zero_of (Lexer.atPos S 0) (Lexer.atPos S j1) _ e1
    have z2 := Lexer.nthToken_zero_of (Lexer.atPos S j1) (Lexer.atPos S j2) _ e2
    have z3 := Lexer.nthToken_zero_of (Lexer.atPos S j2) (Lexer.atPos S j3) _ e3
    have z4 := Lexer.nthToken_zero_of (Lexer.atPos S j3) (Lexer.atPos S j4) _ e4
    have z5 := Lexer.nthToken_zero_of (Lexer.atPos S j4) (Lexer.atPos S j5) _ e5
    have z6 := Lexer.nthToken_zero_of (Lexer.atPos S j5) (Lexer.atPos S j6) _ e6
    have h0 : Lexer.nthToken (Lexer.atPos S 0) 0 = p := z1
    have h1 : Lexer.nthToken (Lexer.atPos S 0) 1 = identToken f := (n1 0).trans z2
    have h2 : Lexer.nthToken (Lexer.atPos S 0) 2 = lparenToken := (n1 1).trans ((n2 0).trans z3)
    have h3 : Lexer.nthToken (Lexer.atPos S 0) 3 = identToken x :=
      (n1 2).trans ((n2 1).trans ((n3 0).trans z4))
    have h4 : Lexer.nthToken (Lexer.atPos S 0) 4 = rparenToken :=
      (n1 3).trans ((n2 2).trans ((n3 1).trans ((n4 0).trans z5)))
    have h5 : Lexer.nthToken (Lexer.atPos S 0) 5 = eofToken :=
      (n1 4).trans ((n2 3).trans ((n3 2).trans ((n4 1).trans ((n5 0).trans z6))))
    have hexpr := Parser.parseExpression_unary_call fuel (Lexer.atPos S 0) f x p hp
      h0 h1 h2 h3 h4 h5
    have hcur : (Parser.atToken (Lexer.atPos S 0) 0).curToken = p := h0
    have hprog := Parser.parseProgram_expression (fuel + 12) (Parser.atToken (Lexer.atPos S 0) 0)
      (Parser.atToken (Lexer.atPos S 0) 4) _ (by rw [hcur]; exact hp3.2.1)
      (by rw [hcur]; exact hp3.2.2.1) (by rw [hcur]; exact hp3.2.2.2) hexpr
      (by show (Lexer.nthToken (Lexer.atPos S 0) 5).type = _; rw [h5]; rfl)
    refine ⟨(Parser.atToken (Lexer.atPos S 0) 4).nextToken, ?_, rfl⟩
    rw [hcur] at hprog
    exact hprog

end Spec

namespace evaluator

open ast object

theorem Result.ok_bind {α β : Type} (v : α) (h : Heap) (k : α → Heap → Result β) :
    (Result.ok v h).bind k = k v h := rfl

theorem isError_error (a : Nat) (msg : String) : isError (some (Object.error a msg)) = true := rfl

theorem evalProgramWith_pass (ev : Eval) (env : Environment) (s : Statement)
    (post : List Statement) : ∀ (pre : List Statement) (acc : Option Object) (h h1 : Heap),
    StatementsPass ev pre env h h1 →
      evalProgramWith ev (pre ++ s :: post) acc env h =
        evalProgramWith ev (s :: post) none env h1 := by
  intro pre
  induction pre with
  | nil => intro acc h h1 hp; cases hp; rfl
  | cons t pre ih =>
    intro acc h h1 hp
    obtain ⟨r, h0, e1, e2, e3⟩ := hp
    rw [List.cons_append, evalProgramWith, e1, Result.ok_bind]
    have := ih r h0 h1 e3
    cases r with
    | none => exact this
    | some o => cases o <;> first | exact this | simp [stopsLoop] at e2

theorem evalBlockStatementWith_pass (ev : Eval) (env : Environment) (s : Statement)
    (post : List Statement) : ∀ (pre : List Statement) (acc : Option Object) (h h1 : Heap),
    StatementsPass ev pre env h h1 →
      evalBlockStatementWith ev (pre ++ s :: post) acc env h =
        evalBlockStatementWith ev (s :: post) none env h1 := by
  intro pre
  induction pre with
  | nil => intro acc h h1 hp; cases hp; rfl
  | cons t pre ih =>
    intro acc h h1 hp
    obtain ⟨r, h0, e1, e2, e3⟩ := hp
    rw [List.cons_append, evalBlockStatementWith, e1, Result.ok_bind]
    have := ih r h0 h1 e3
    cases r with
    | none => exact this
    | some o => cases o <;> first | exact this | simp [stopsLoop] at e2

theorem evalExpressionsWith_error (ev : Eval) (env : Environment) (x : Option Expression)
    (post : List (Option Expression)) (a : Nat) (msg : String) (h1 h2 : Heap)
    (hx : ev (exprNode x) env h1 = .ok (some (.error a msg)) h2) :
    ∀ (pre : List (Option Expression)) (acc : List (Option Object)) (h : Heap),
    ExpressionsPass ev pre env h h1 →
      evalExpressionsWith ev (pre ++ x :: post) acc env h = .ok [some (.error a msg)] h2 := by
  intro pre
  induction pre with
  | nil =>
    intro acc h hp
    cases hp
    rw [List.nil_append, evalExpressionsWith, hx, Result.ok_bind, isError_error]
    rfl
  | cons t pre ih =>
    intro acc h hp
    obtain ⟨r, h0, e1, e2, e3⟩ := hp
    rw [List.cons_append, evalExpressionsWith, e1, Result.ok_bind, e2]
    exact ih _ h0 e3

end evaluator

namespace Spec

open ast object evaluator

/-- C4 (error short-circuit). When the evaluation of a sub-node (an expression `x`, a
statement `s`) returns an Error object and leaves memory `h1`, every composite that
reaches this sub-node returns the same Error object and leaves the same memory `h1`, so
nothing is evaluated, bound or applied after it: a let or return statement and a prefix
expression over `x`, an infix expression with `x` as left operand or as right operand
(after a left operand that is no error), an if-expression with condition `x`, a call
with callee `x` or with `x` among its arguments (after a callee and earlier arguments
that are no errors), and a program or block with `s` among its statements (after
statements at which the loop goes on). -/
theorem C4_error_short_circuit (fuel : Nat) (env : Environment) (h h1 : Heap) (a : Nat)
    (msg : String) (x : Option Expression) (s : Statement)
    (hx : eval fuel (exprNode x) env h = .ok (some (.error a msg)) h1)
    (hs : eval fuel (some (.statement s)) env h = .ok (some (.error a msg)) h1) :
    (∀ tok name, eval (fuel + 1) (some (.statement (.letStatement tok name x))) env h =
        .ok (some (.error a msg)) h1) ∧
    (∀ tok, eval (fuel + 1) (some (.statement (.returnStatement tok x))) env h =
        .ok (some (.error a msg)) h1) ∧
    (∀ tok op, eval (fuel + 1) (some (.expression (.prefixExpression tok op x))) env h =
        .ok (some (.error a msg)) h1) ∧
    (∀ tok op right, eval (fuel + 1) (some (.expression (.infixExpression tok x op right))) env h =
        .ok (some (.error a msg)) h1) ∧
    (∀ tok op left lv h0, eval fuel (exprNode left) env h0 = .ok lv h → isError lv = false →
      eval (fuel + 1) (some (.expression (.infixExpression tok left op x))) env h0 =
        .ok (some (.error a msg)) h1) ∧
    (∀ tok consequence alternative,
      eval (fuel + 1) (some (.expression (.ifExpression tok x consequence alternative))) env h =
        .ok (some (.error a msg)) h1) ∧
    (∀ tok arguments, eval (fuel + 1) (some (.expression (.callExpression tok x arguments))) env h =
        .ok (some (.error a msg)) h1) ∧
    (∀ tok function fv pre post h0 h2, eval fuel (exprNode function) env h0 = .ok fv h2 →
      isError fv = false → ExpressionsPass (eval fuel) pre env h2 h →
      eval (fuel + 1) (some (.expression (.callExpression tok function (pre ++ x :: post)))) env h0 =
        .ok (some (.error a msg)) h1) ∧
    (∀ pre post h0, StatementsPass (eval fuel) pre env h0 h →
      eval (fuel + 1) (some (.program { statements := pre ++ s :: post })) env h0 =
        .ok (some (.error a msg)) h1) ∧
    (∀ tok pre post h0, StatementsPass (eval fuel) pre env h0 h →
      eval (fuel + 1) (some (.blockStatement (.mk tok (pre ++ s :: post)))) env h0 =
        .ok (some (.error a msg)) h1) := by
  refine ⟨?_, ?_, ?_, ?_, ?_, ?_, ?_, ?_, ?_, ?_⟩
  · intro tok name
    rw [eval, hx, Result.ok_bind, isError_error]; rfl
  · intro tok
    rw [eval, hx, Result.ok_bind, isError_error]; rfl
  · intro tok op
    rw [eval, hx, Result.ok_bind, isError_error]; rfl
  · intro tok op right
    rw [eval, hx, Result.ok_bind, isError_error]; rfl
  · intro tok op left lv h0 hl hle
    rw [eval, hl, Result.ok_bind, hle]
    simp only [Bool.false_eq_true, if_false]
    rw [hx, Result.ok_bind, isError_error]; rfl
  · intro tok consequence alternative
    rw [eval, evalIfExpressionWith, hx, Result.ok_bind, isError_error]; rfl
  · intro tok arguments
    rw [eval, hx, Result.ok_bind, isError_error]; rfl
  · intro tok function fv pre post h0 h2 hf hfe hpre
    rw [eval, hf, Result.ok_bind, hfe]
    simp only [Bool.false_eq_true, if_false]
    rw [evalExpressionsWith_error (eval fuel) env x post a msg h h1 hx pre [] h2 hpre,
      Result.ok_bind]
    simp [isError_error]
  · intro pre post h0 hpre
    rw [eval]
    show evalProgramWith (eval fuel) (pre ++ s :: post) none env h0 = _
    rw [evalProgramWith_pass (eval fuel) env s post pre none h0 h hpre, evalProgramWith, hs,
      Result.ok_bind]
  · intro tok pre post h0 hpre
    rw [eval]
    show evalBlockStatementWith (eval fuel) (pre ++ s :: post) none env h0 = _
    rw [evalBlockStatementWith_pass (eval fuel) env s post pre none h0 h hpre,
      evalBlockStatementWith, hs, Result.ok_bind]

end Spec

namespace Spec

open ast object evaluator

/-- Witness of C4: the identifier `foobar` is unbound in a fresh environment, so the
expression `foobar` and the statement `foobar;` evaluate to the same Error object, and
with them every composite around them. -/
theorem C4_error_short_circuit_witness :
    eval 2 (exprNode (parser.identNode "foobar")) freshEnv.1 freshEnv.2 =
        .ok (some (.error 3 "identifier not found: foobar")) { nextAddr := 4, stores := [[]] } ∧
      eval 2 (some (.statement (.expressionStatement (parser.identToken "foobar")
          (parser.identNode "foobar")))) freshEnv.1 freshEnv.2 =
        .ok (some (.error 3 "identifier not found: foobar")) { nextAddr := 4, stores := [[]] } ∧
      (∀ tok name, eval 3 (some (.statement (.letStatement tok name
          (parser.identNode "foobar")))) freshEnv.1 freshEnv.2 =
        .ok (some (.error 3 "identifier not found: foobar")) { nextAddr := 4, stores := [[]] }) :=
  ⟨rfl, rfl, (C4_error_short_circuit 2 freshEnv.1 freshEnv.2 { nextAddr := 4, stores := [[]] } 3
    "identifier not found: foobar" (parser.identNode "foobar")
    (.expressionStatement (parser.identToken "foobar") (parser.identNode "foobar")) rfl rfl).1⟩

end Spec

namespace object

open ast

theorem updateAt_append_length {α : Type} (f : α → α) (y : α) : ∀ xs : List α,
    updateAt f xs.length (xs ++ [y]) = xs ++ [f y] := by
  intro xs
  induction xs with
  | nil => rfl
  | cons x xs ih =>
    show x :: updateAt f xs.length (xs ++ [y]) = x :: (xs ++ [f y])
    rw [ih]

theorem lookup_filter_ne (name n : String) (hne : n ≠ name) : ∀ s : Store,
    List.lookup name (s.filter (fun b => b.1 ≠ n)) = List.lookup name s := by
  intro s
  induction s with
  | nil => rfl
  | cons b s ih =>
    obtain ⟨k, v⟩ := b
    by_cases hk : k = n
    · have hkn : (name == k) = false := by
        simp only [beq_eq_false_iff_ne, ne_eq]
        intro e; exact hne (hk ▸ e.symm)
      simp only [List.filter, hk, ne_eq, not_true_eq_false, decide_False]
      rw [ih, List.lookup, ← hk, hkn]
    · simp only [List.filter, ne_eq, hk, not_false_eq_true, decide_True]
      cases hb : name == k
      · simp only [List.lookup, hb, ih]
      · simp only [List.lookup, hb]

theorem Store.lookup_set_ne (s : Store) (name n : String) (v : Option Object) (hne : n ≠ name) :
    List.lookup name (Store.set s n v) = List.lookup name s := by
  have hkn : (name == n) = false := by
    simp only [beq_eq_false_iff_ne, ne_eq]
    intro e; exact hne e.symm
  simp only [Store.set, List.lookup, hkn]
  exact lookup_filter_ne name n hne s

/-- Looking a name up from a valid environment does not depend on the stores allocated
later nor on the next free address. -/
theorem Environment.get_append (S T : List Store) (n n1 : Nat) (name : String) :
    ∀ E : Environment, E.ValidIn { nextAddr := n, stores := S } →
      E.get { nextAddr := n1, stores := S ++ T } name = E.get { nextAddr := n, stores := S } name
  | .mk a none, hv => by
    have ha : a < S.length := hv
    simp only [Environment.get, List.getD_eq_getElem?_getD, List.getElem?_append_left ha]
  | .mk a (some o), hv => by
    have ha : a < S.length := hv.1
    simp only [Environment.get, List.getD_eq_getElem?_getD, List.getElem?_append_left ha,
      Environment.get_append S T n n1 name o hv.2]

end object

namespace evaluator

open ast object

/-- Binding the parameters in the store at the last address changes that store only,
and only at the names of the parameters. -/
theorem bindParameters_last (S : List Store) (outer : Option Environment) (n : Nat) :
    ∀ (params : List Identifier) (args : List (Option Object)) (st : Store),
      params.length ≤ args.length →
      ∃ st1, bindParameters (Environment.mk S.length outer) params args
          { nextAddr := n, stores := S ++ [st] } = some { nextAddr := n, stores := S ++ [st1] } ∧
        ∀ name, (∀ p ∈ params, p.value ≠ name) → List.lookup name st1 = List.lookup name st := by
  intro params
  induction params with
  | nil => intro args st _; exact ⟨st, rfl, fun _ _ => rfl⟩
  | cons p params ih =>
    intro args st hlen
    cases args with
    | nil => simp at hlen
    | cons arg args =>
      have hlen1 : params.length ≤ args.length := by simpa using hlen
      obtain ⟨st1, e1, e2⟩ := ih args (Store.set st p.value arg) hlen1
      refine ⟨st1, ?_, ?_⟩
      · rw [bindParameters]
        simp only [Environment.set, Environment.store, updateAt_append_length]
        exact e1
      · intro name hname
        rw [e2 name (fun q hq => hname q (List.mem_cons_of_mem _ hq))]
        exact Store.lookup_set_ne st name p.value arg (hname p (List.mem_cons_self _ _))

end evaluator

namespace Spec

open token ast object evaluator

/-- C3 (closure capture). Evaluating a function literal in environment `E` creates a
Function object that holds `E`. Applying such an object, in whatever memory `h` and to
whatever arguments (at least as many as parameters), evaluates the body in a newly
allocated environment whose `outer` is `E`, and unwraps the result; in that
environment every name that is not a parameter resolves to what `E` resolves it to.
The environment of the call site is no argument of `applyFunction`. The program
`let newAdder = fn(x) { fn(y) { x + y }; }; let addTwo = newAdder(2); addTwo(3);`
evaluates to the Integer 5, and in
`let x = 1; let f = fn() { x }; let g = fn(x) { f() }; g(2);` the body of `f`, called
where `x` is 2, finds the `x` of its defining environment: the result is the Integer 1. -/
theorem C3_closure_capture (fuel : Nat) (tok : Token) (params : List Identifier)
    (body : BlockStatement) (E : Environment) (h : Heap) (args : List (Option Object))
    (addr : Nat) (name : String) (hE : E.ValidIn h) (hargs : params.length ≤ args.length)
    (hname : ∀ p ∈ params, p.value ≠ name) :
    eval (fuel + 1) (some (.expression (.functionLiteral tok params (some body)))) E h =
        .ok (some (.function h.nextAddr params (some body) E))
          { h with nextAddr := h.nextAddr + 1 } ∧
      (∃ h1, extendFunctionEnv params E args h =
          some (Environment.mk h.stores.length (some E), h1) ∧
        applyFunction fuel (some (.function addr params (some body) E)) args h =
          (eval fuel (some (.blockStatement body)) (Environment.mk h.stores.length (some E))
            h1).bind unwrapReturnValue ∧
        (Environment.mk h.stores.length (some E)).get h1 name = E.get h name) ∧
      (run 50 ("let newAdder = fn(x) \x7b fn(y) \x7b x + y \x7d; \x7d; " ++
        "let addTwo = newAdder(2); addTwo(3);")).bind Result.integerValue = some 5 ∧
      (run 50 ("let x = 1; let f = fn() \x7b x \x7d; let g = fn(x) \x7b f() \x7d; " ++
        "g(2);")).bind Result.integerValue = some 1 := by
  refine ⟨by rw [eval], ?_, by decide!, by decide!⟩
  obtain ⟨n, S⟩ := h
  obtain ⟨st1, e1, e2⟩ := bindParameters_last S (some E) n params args [] hargs
  refine ⟨{ nextAddr := n, stores := S ++ [st1] }, ?_, ?_, ?_⟩
  · simp only [extendFunctionEnv, newEnclosedEnvironment, e1]
  · simp only [applyFunction, applyFunctionWith, extendFunctionEnv, newEnclosedEnvironment, e1,
      Option.map]
  · have hl : List.lookup name st1 = none := by rw [e2 name hname]; rfl
    simp only [Environment.get, List.getD_eq_getElem?_getD, List.getElem?_concat_length,
      Option.getD_some, hl]
    exact Environment.get_append S [st1] n n name E hE

end Spec

namespace Spec

open token ast object evaluator

/-- Witness of C3: the function `fn(x) { y }`, created in the top-level environment and
applied to the Integer 2, looks `y` up in the top-level environment. -/
theorem C3_closure_capture_witness :
    freshEnv.1.ValidIn freshEnv.2 ∧
      [({ token := parser.identToken "x", value := "x" } : Identifier)].length ≤
        [some (Object.integer 3 2)].length ∧
      (∀ p ∈ [({ token := parser.identToken "x", value := "x" } : Identifier)], p.value ≠ "y") ∧
      (∃ h1, extendFunctionEnv [{ token := parser.identToken "x", value := "x" }] freshEnv.1
            [some (Object.integer 3 2)] freshEnv.2 =
          some (Environment.mk freshEnv.2.stores.length (some freshEnv.1), h1) ∧
        applyFunction 3 (some (.function 4 [{ token := parser.identToken "x", value := "x" }]
            (some (.mk { type := TokenType.LBRACE, literal := "\x7b" }
              [.expressionStatement (parser.identToken "y") (parser.identNode "y")]))
            freshEnv.1)) [some (Object.integer 3 2)] freshEnv.2 =
          (eval 3 (some (.blockStatement (.mk { type := TokenType.LBRACE, literal := "\x7b" }
              [.expressionStatement (parser.identToken "y") (parser.identNode "y")])))
            (Environment.mk freshEnv.2.stores.length (some freshEnv.1)) h1).bind
            unwrapReturnValue ∧
        (Environment.mk freshEnv.2.stores.length (some freshEnv.1)).get h1 "y" =
          freshEnv.1.get freshEnv.2 "y") :=
  have hv : freshEnv.1.ValidIn freshEnv.2 := Nat.zero_lt_one
  have hl : [({ token := parser.identToken "x", value := "x" } : Identifier)].length ≤
      [some (Object.integer 3 2)].length := Nat.le_refl 1
  have hn : ∀ p ∈ [({ token := parser.identToken "x", value := "x" } : Identifier)],
      p.value ≠ "y" := by
    intro p hp
    rw [List.mem_singleton] at hp
    subst hp
    decide
  ⟨hv, hl, hn,
    (C3_closure_capture 3 { type := TokenType.FUNCTION, literal := "fn" }
      [{ token := parser.identToken "x", value := "x" }]
      (.mk { type := TokenType.LBRACE, literal := "\x7b" }
        [.expressionStatement (parser.identToken "y") (parser.identNode "y")])
      freshEnv.1 freshEnv.2 [some (Object.integer 3 2)] 4 "y" hv hl hn).2.1⟩

end Spec

namespace evaluator

open ast object

/-- With fewer arguments than parameters the loop of `extendFunctionEnv` reads an
argument past the end of the vector. -/
theorem bindParameters_short (env : Environment) :
    ∀ (params : List Identifier) (args : List (Option Object)) (h : Heap),
      args.length < params.length → bindParameters env params args h = none := by
  intro params
  induction params with
  | nil => intro args h hlt; simp at hlt
  | cons p params ih =>
    intro args h hlt
    cases args with
    | nil => rfl
    | cons arg args =>
      rw [bindParameters]
      exact ih args _ (by simpa using hlt)

end evaluator

namespace Spec

open token ast object evaluator

/-- C8, as stated, fails: the programs `1/0` and `fn(x) { x }()` parse without error;
evaluating the first divides by zero and evaluating the second reads the first element
of an empty argument list. -/
theorem C8_unchecked_division_and_arity :
    (run 50 "1/0").bind Result.crashed = some Crash.divisionByZero ∧
      (run 50 "fn(x) \x7b x \x7d()").bind Result.crashed = some Crash.indexOutOfRange := by
  decide!

/-- C8, amended. The evaluator checks neither the number of arguments of a call nor the
divisor of `/`. Applying a function to at least as many arguments as it has parameters
binds every parameter (no argument is read past the end of the list), and applying it
to fewer arguments reads past the end; dividing an Integer by an Integer other than 0
(the quotient `INT64_MIN / -1` apart) returns the quotient truncated toward zero, and
dividing by the Integer 0 divides by zero. -/
theorem C8_unchecked_amended (ev : Eval) (addr : Nat) (params : List Identifier)
    (body : Option BlockStatement) (fnEnv : Environment) (args short : List (Option Object))
    (h : Heap) (la ra : Nat) (a b : Int)
    (hargs : params.length ≤ args.length) (hshort : short.length < params.length)
    (hb : b ≠ 0) (hmin : ¬(a = -9223372036854775808 ∧ b = -1)) :
    (∃ r, extendFunctionEnv params fnEnv args h = some r) ∧
      applyFunctionWith ev (some (.function addr params body fnEnv)) short h =
        .crash .indexOutOfRange ∧
      evalInfixExpression "/" (some (.integer la a)) (some (.integer ra b)) h =
        newInteger (Int.tdiv a b) h ∧
      evalInfixExpression "/" (some (.integer la a)) (some (.integer ra 0)) h =
        .crash .divisionByZero := by
  refine ⟨?_, ?_, ?_, ?_⟩
  · obtain ⟨n, S⟩ := h
    obtain ⟨st1, e1, _⟩ := bindParameters_last S (some fnEnv) n params args [] hargs
    refine ⟨(Environment.mk S.length (some fnEnv), { nextAddr := n, stores := S ++ [st1] }), ?_⟩
    simp only [extendFunctionEnv, newEnclosedEnvironment, e1]
  · simp only [applyFunctionWith, extendFunctionEnv, bindParameters_short _ params short _ hshort]
  · simp [evalInfixExpression, hb, hmin]
  · simp [evalInfixExpression]

/-- Witness of the amended C8: the function `fn(x) { }` applied to one argument and to
none, and the divisions `7 / 2` and `7 / 0`. -/
theorem C8_unchecked_amended_witness :
    [({ token := parser.identToken "x", value := "x" } : Identifier)].length ≤
        [some (Object.integer 3 2)].length ∧
      ([] : List (Option Object)).length <
        [({ token := parser.identToken "x", value := "x" } : Identifier)].length ∧
      (2 : Int) ≠ 0 ∧ ¬((7 : Int) = -9223372036854775808 ∧ (2 : Int) = -1) ∧
      applyFunctionWith (eval 3) (some (.function 4
          [{ token := parser.identToken "x", value := "x" }] none freshEnv.1)) [] freshEnv.2 =
        .crash .indexOutOfRange ∧
      evalInfixExpression "/" (some (.integer 3 7)) (some (.integer 4 2)) freshEnv.2 =
        newInteger (Int.tdiv 7 2) freshEnv.2 :=
  have h1 : [({ token := parser.identToken "x", value := "x" } : Identifier)].length ≤
      [some (Object.integer 3 2)].length := Nat.le_refl 1
  have h2 : ([] : List (Option Object)).length <
      [({ token := parser.identToken "x", value := "x" } : Identifier)].length := Nat.zero_lt_one
  have h3 : (2 : Int) ≠ 0 := by decide
  have h4 : ¬((7 : Int) = -9223372036854775808 ∧ (2 : Int) = -1) := by decide
  have key := C8_unchecked_amended (eval 3) 4 [{ token := parser.identToken "x", value := "x" }]
    none freshEnv.1 [some (Object.integer 3 2)] [] freshEnv.2 3 4 7 2 h1 h2 h3 h4
  ⟨h1, h2, h3, h4, key.2.1, key.2.2.1⟩

end Spec

namespace Spec

open token lexer ast parser

/-- Witness of C5: the identifiers `a`, `b`, `c` with the operators `+` and `*`. -/
theorem C5_binary_precedence_witness :
    IsIdentifierName "a" ∧ IsIdentifierName "b" ∧ IsIdentifierName "c" ∧
      ({ type := TokenType.PLUS, literal := "+" } : Token) ∈ binaryOperatorTokens ∧
      ({ type := TokenType.ASTERISK, literal := "*" } : Token) ∈ binaryOperatorTokens ∧
      (Statement.expressionStatement (identToken "a")
          (if precedenceOf { type := TokenType.PLUS, literal := "+" } <
              precedenceOf { type := TokenType.ASTERISK, literal := "*" }
            then infixNode (identNode "a") { type := TokenType.PLUS, literal := "+" }
              (infixNode (identNode "b") { type := TokenType.ASTERISK, literal := "*" }
                (identNode "c"))
            else infixNode (infixNode (identNode "a") { type := TokenType.PLUS, literal := "+" }
              (identNode "b")) { type := TokenType.ASTERISK, literal := "*" }
                (identNode "c"))).toString =
        some (if precedenceOf { type := TokenType.PLUS, literal := "+" } <
              precedenceOf { type := TokenType.ASTERISK, literal := "*" }
          then infixText "a" "+" (infixText "b" "*" "c")
          else infixText (infixText "a" "+" "b") "*" "c") :=
  have hA : IsIdentifierName "a" := by unfold IsIdentifierName; decide
  have hB : IsIdentifierName "b" := by unfold IsIdentifierName; decide
  have hC : IsIdentifierName "c" := by unfold IsIdentifierName; decide
  have h1 : ({ type := TokenType.PLUS, literal := "+" } : Token) ∈ binaryOperatorTokens := by
    decide
  have h2 : ({ type := TokenType.ASTERISK, literal := "*" } : Token) ∈ binaryOperatorTokens := by
    decide
  ⟨hA, hB, hC, h1, h2, (C5_binary_precedence 0 "a" "b" "c" _ _ hA hB hC h1 h2).2.1⟩

/-- Witness of C6: the identifiers `a`, `b`, `f`, `x` with the operators `-` and `*`. -/
theorem C6_prefix_precedence_witness :
    IsIdentifierName "a" ∧ IsIdentifierName "b" ∧ IsIdentifierName "f" ∧
      IsIdentifierName "x" ∧
      ({ type := TokenType.MINUS, literal := "-" } : Token) ∈ prefixOperatorTokens ∧
      ({ type := TokenType.ASTERISK, literal := "*" } : Token) ∈ binaryOperatorTokens ∧
      (Statement.expressionStatement { type := TokenType.MINUS, literal := "-" }
          (infixNode (prefixNode { type := TokenType.MINUS, literal := "-" } (identNode "a"))
            { type := TokenType.ASTERISK, literal := "*" } (identNode "b"))).toString =
        some (infixText (prefixText "-" "a") "*" "b") ∧
      (Statement.expressionStatement { type := TokenType.MINUS, literal := "-" }
          (prefixNode { type := TokenType.MINUS, literal := "-" }
            (callNode (identNode "f") [identNode "x"]))).toString =
        some (prefixText "-" ("f" ++ "(" ++ "x" ++ ")")) :=
  have hA : IsIdentifierName "a" := by unfold IsIdentifierName; decide
  have hB : IsIdentifierName "b" := by unfold IsIdentifierName; decide
  have hF : IsIdentifierName "f" := by unfold IsIdentifierName; decide
  have hX : IsIdentifierName "x" := by unfold IsIdentifierName; decide
  have h1 : ({ type := TokenType.MINUS, literal := "-" } : Token) ∈ prefixOperatorTokens := by
    decide
  have h2 : ({ type := TokenType.ASTERISK, literal := "*" } : Token) ∈ binaryOperatorTokens := by
    decide
  have key := C6_prefix_precedence 0 "a" "b" "f" "x" _ _ hA hB hF hX h1 h2
  ⟨hA, hB, hF, hX, h1, h2, key.2.1, key.2.2.2.1⟩

end Spec

namespace evaluator

open ast object

/-- A value that fits in 64 bits is not changed by the wrap-around. -/
theorem wrap64_of_isInt64 (v : Int) (hv : IsInt64 v) : wrap64 v = v := by
  unfold IsInt64 at hv
  unfold wrap64
  omega

/-- The quotient of two 64-bit integers fits in 64 bits, `INT64_MIN / -1` apart. -/
theorem isInt64_tdiv (a b : Int) (ha : IsInt64 a) (hb : b ≠ 0)
    (hmin : ¬(a = -9223372036854775808 ∧ b = -1)) : IsInt64 (Int.tdiv a b) := by
  unfold IsInt64 at *
  have h1 : (Int.tdiv a b).natAbs = a.natAbs / b.natAbs := Int.natAbs_tdiv a b
  by_cases hb1 : b = 1
  · subst hb1; rw [Int.tdiv_one]; exact ha
  by_cases hb2 : b = -1
  · subst hb2
    have : Int.tdiv a (-1) = -a := by rw [Int.tdiv_neg, Int.tdiv_one]
    rw [this]; omega
  have h2 : 2 ≤ b.natAbs := by omega
  have h3 : a.natAbs / b.natAbs ≤ a.natAbs / 2 := Nat.div_le_div_left h2 (by decide)
  omega

/-- An Integer made from a value that fits in 64 bits holds that value at a new
address. -/
theorem newInteger_of_isInt64 (v : Int) (h : Heap) (hv : IsInt64 v) :
    newInteger v h =
      .ok (some (Object.integer h.nextAddr v)) { h with nextAddr := h.nextAddr + 1 } := by
  rw [newInteger, wrap64_of_isInt64 v hv]

end evaluator

namespace Spec

open token ast object evaluator

/-- C11, as stated, fails for `/`: the divisor -1 is not 0, and yet the division of
`INT64_MIN` by -1 has no quotient in 64 bits and no defined result; the program
`(0-2147483647-1)*(0-2147483647-1)*(0-2)/(0-1)` parses without error and performs this
division. -/
theorem C11_division_overflow :
    IsInt64 (-9223372036854775808) ∧ IsInt64 (-1) ∧ (-1 : Int) ≠ 0 ∧
      evalInfixExpression "/" (some (.integer 3 (-9223372036854775808)))
          (some (.integer 4 (-1))) Heap.initial = .crash .divisionOverflow ∧
      (run 50 "(0-2147483647-1)*(0-2147483647-1)*(0-2)/(0-1)").bind Result.crashed =
        some Crash.divisionOverflow := by
  refine ⟨by unfold IsInt64; decide, by unfold IsInt64; decide, by decide, rfl, ?_⟩
  decide!

/-- C11, amended. For Integer operands `a` and `b`, `evalInfixExpression` returns a new
Integer holding `a + b`, `a - b`, `a * b` for `+`, `-`, `*` when that value fits in 64
bits, a new Integer holding the quotient truncated toward zero for `/` when `b` is not 0
and the operands are not `INT64_MIN` and -1, and the singleton `TRUE` or `FALSE` for `<`
and `>`; the program `5 + 5 * 2;` evaluates to an object printed as `15`. -/
theorem C11_integer_arithmetic (la ra : Nat) (a b : Int) (h : Heap)
    (ha : IsInt64 a) :
    (IsInt64 (a + b) →
      evalInfixExpression "+" (some (.integer la a)) (some (.integer ra b)) h =
        .ok (some (.integer h.nextAddr (a + b))) { h with nextAddr := h.nextAddr + 1 }) ∧
    (IsInt64 (a - b) →
      evalInfixExpression "-" (some (.integer la a)) (some (.integer ra b)) h =
        .ok (some (.integer h.nextAddr (a - b))) { h with nextAddr := h.nextAddr + 1 }) ∧
    (IsInt64 (a * b) →
      evalInfixExpression "*" (some (.integer la a)) (some (.integer ra b)) h =
        .ok (some (.integer h.nextAddr (a * b))) { h with nextAddr := h.nextAddr + 1 }) ∧
    (b ≠ 0 → ¬(a = -9223372036854775808 ∧ b = -1) →
      evalInfixExpression "/" (some (.integer la a)) (some (.integer ra b)) h =
        .ok (some (.integer h.nextAddr (Int.tdiv a b)))
          { h with nextAddr := h.nextAddr + 1 }) ∧
    evalInfixExpression "<" (some (.integer la a)) (some (.integer ra b)) h =
      .ok (some (if a < b then TRUE else FALSE)) h ∧
    evalInfixExpression ">" (some (.integer la a)) (some (.integer ra b)) h =
      .ok (some (if a > b then TRUE else FALSE)) h ∧
    (run 50 "5 + 5 * 2;").bind Result.inspect = some "15" := by
  refine ⟨?_, ?_, ?_, ?_, ?_, ?_, ?_⟩
  · intro hv
    rw [← newInteger_of_isInt64 _ h hv]
    rfl
  · intro hv
    rw [← newInteger_of_isInt64 _ h hv]
    rfl
  · intro hv
    rw [← newInteger_of_isInt64 _ h hv]
    rfl
  · intro hb hmin
    rw [← newInteger_of_isInt64 _ h (isInt64_tdiv a b ha hb hmin)]
    simp [evalInfixExpression, hb, hmin]
  · simp [evalInfixExpression, nativeBoolToBooleanObject]
  · simp [evalInfixExpression, nativeBoolToBooleanObject]
  · decide!

/-- Witness of the amended C11: the operands 7 and -2. -/
theorem C11_integer_arithmetic_witness :
    IsInt64 7 ∧ IsInt64 (7 + -2) ∧ IsInt64 (7 * -2) ∧ (-2 : Int) ≠ 0 ∧
      evalInfixExpression "+" (some (.integer 3 7)) (some (.integer 4 (-2))) Heap.initial =
        .ok (some (.integer 3 5)) { nextAddr := 4, stores := [] } ∧
      evalInfixExpression "*" (some (.integer 3 7)) (some (.integer 4 (-2))) Heap.initial =
        .ok (some (.integer 3 (-14))) { nextAddr := 4, stores := [] } ∧
      evalInfixExpression "/" (some (.integer 3 7)) (some (.integer 4 (-2))) Heap.initial =
        .ok (some (.integer 3 (-3))) { nextAddr := 4, stores := [] } ∧
      evalInfixExpression "<" (some (.integer 3 7)) (some (.integer 4 (-2))) Heap.initial =
        .ok (some FALSE) Heap.initial :=
  have h7 : IsInt64 7 := by unfold IsInt64; decide
  have h5 : IsInt64 (7 + -2) := by unfold IsInt64; decide
  have h14 : IsInt64 (7 * -2) := by unfold IsInt64; decide
  have h2 : (-2 : Int) ≠ 0 := by decide
  have key := C11_integer_arithmetic 3 4 7 (-2) Heap.initial h7
  ⟨h7, h5, h14, h2, key.1 h5, key.2.2.1 h14, key.2.2.2.1 h2 (by decide), key.2.2.2.2.1⟩

end Spec
namespace Spec

open token ast object evaluator parser

/-- C12. For every operator `op` other than `==` and `!=` and every two objects whose
types differ, `evalInfixExpression` returns a new Error whose message is
`type mismatch: `, the type of the left operand, a blank, `op`, a blank and the type of
the left operand once more, where the types are named `INTEGER`, `BOOLEAN`, `NULL`,
`RETURN_VALUE`, `ERROR` and `FUNCTION`; the program `5 + true;` evaluates to an object
printed as `ERROR: type mismatch: INTEGER + INTEGER`, and with a Boolean, a Function and
the null object on the left the programs `true + 5;`, `fn(x) { x } + 5;` and
`if (false) { 1 } + 5;` are printed with `BOOLEAN + BOOLEAN`, `FUNCTION + FUNCTION` and
`NULL + NULL`. -/
theorem C12_type_mismatch (op : String) (l r : Object) (h : Heap)
    (heq : op ≠ "==") (hne : op ≠ "!=") (ht : l.type ≠ r.type) :
    evalInfixExpression op (some l) (some r) h =
        .ok (some (.error h.nextAddr ("type mismatch: " ++ objectTypeToString l.type ++ " " ++
          op ++ " " ++ objectTypeToString l.type))) { h with nextAddr := h.nextAddr + 1 } ∧
      (objectTypeToString ObjectType.INTEGER_OBJ = "INTEGER" ∧
        objectTypeToString ObjectType.BOOLEAN_OBJ = "BOOLEAN" ∧
        objectTypeToString ObjectType.NULL_OBJ = "NULL" ∧
        objectTypeToString ObjectType.RETURN_VALUE_OBJ = "RETURN_VALUE" ∧
        objectTypeToString ObjectType.ERROR_OBJ = "ERROR" ∧
        objectTypeToString ObjectType.FUNCTION_OBJ = "FUNCTION") ∧
      (run 50 "5 + true;").bind Result.inspect =
        some "ERROR: type mismatch: INTEGER + INTEGER" ∧
      (run 50 "true + 5;").bind Result.inspect =
        some "ERROR: type mismatch: BOOLEAN + BOOLEAN" ∧
      (run 50 "fn(x) \x7b x \x7d + 5;").bind Result.inspect =
        some "ERROR: type mismatch: FUNCTION + FUNCTION" ∧
      (run 50 "if (false) \x7b 1 \x7d + 5;").bind Result.inspect =
        some "ERROR: type mismatch: NULL + NULL" ∧
      (run 50 "true - if (false) \x7b 1 \x7d;").bind Result.inspect =
        some "ERROR: type mismatch: BOOLEAN - BOOLEAN" := by
  refine ⟨?_, ⟨rfl, rfl, rfl, rfl, rfl, rfl⟩, by decide!, by decide!, by decide!, by decide!,
    by decide!⟩
  have rest : evalInfixRest op l (some r) h =
      .ok (some (.error h.nextAddr ("type mismatch: " ++ objectTypeToString l.type ++ " " ++
        op ++ " " ++ objectTypeToString l.type))) { h with nextAddr := h.nextAddr + 1 } := by
    simp only [evalInfixRest, if_neg heq, if_neg hne, if_pos ht, newError]
  cases l <;> cases r <;> first
    | exact absurd rfl ht
    | exact rest

/-- Witness of C12: the operator `+` between the Integer 5 and `TRUE`, and between
`TRUE` and the Integer 5. -/
theorem C12_type_mismatch_witness :
    "+" ≠ "==" ∧ "+" ≠ "!=" ∧ (Object.integer 3 5).type ≠ TRUE.type ∧
      evalInfixExpression "+" (some (.integer 3 5)) (some TRUE) Heap.initial =
        .ok (some (.error 3 "type mismatch: INTEGER + INTEGER"))
          { nextAddr := 4, stores := [] } ∧
      TRUE.type ≠ (Object.integer 3 5).type ∧
      evalInfixExpression "+" (some TRUE) (some (.integer 3 5)) Heap.initial =
        .ok (some (.error 3 "type mismatch: BOOLEAN + BOOLEAN"))
          { nextAddr := 4, stores := [] } :=
  have h1 : "+" ≠ "==" := by decide
  have h2 : "+" ≠ "!=" := by decide
  have h3 : (Object.integer 3 5).type ≠ TRUE.type := by decide
  have h4 : TRUE.type ≠ (Object.integer 3 5).type := by decide
  ⟨h1, h2, h3, (C12_type_mismatch "+" (.integer 3 5) TRUE Heap.initial h1 h2 h3).1,
    h4, (C12_type_mismatch "+" TRUE (.integer 3 5) Heap.initial h1 h2 h4).1⟩

/-- C13. For every operator `op` other than `==` and `!=` and every two objects of one
type other than INTEGER, `evalInfixExpression` returns a new Error whose message is
`unknown operator: `, the type of the left operand, `op` and the type of the right
operand, without blanks; for two Integers and each of the operators the parser builds an
infix expression for, `==` and `!=` apart, it returns no Error at all. The types are
named `INTEGER`, `BOOLEAN`, `NULL`, `RETURN_VALUE`, `ERROR` and `FUNCTION`: the program
`true + false` evaluates to an object printed as
`ERROR: unknown operator: BOOLEAN+BOOLEAN`, and the programs
`fn(x) { x } - fn(y) { y }`, `if (false) { 1 } * if (false) { 1 }` and `true < false`
are printed with `FUNCTION-FUNCTION`, `NULL*NULL` and `BOOLEAN<BOOLEAN`. -/
theorem C13_unknown_operator (op : String) (l r : Object) (h : Heap)
    (heq : op ≠ "==") (hne : op ≠ "!=") (ht : l.type = r.type)
    (hi : l.type ≠ ObjectType.INTEGER_OBJ) :
    evalInfixExpression op (some l) (some r) h =
        .ok (some (.error h.nextAddr ("unknown operator: " ++ objectTypeToString l.type ++
          op ++ objectTypeToString r.type))) { h with nextAddr := h.nextAddr + 1 } ∧
      (∀ tok ∈ binaryOperatorTokens, tok.literal ≠ "==" → tok.literal ≠ "!=" →
        ∀ (la ra : Nat) (a b : Int),
          (evalInfixExpression tok.literal (some (.integer la a)) (some (.integer ra b))
            h).objectType ≠ some ObjectType.ERROR_OBJ) ∧
      (objectTypeToString ObjectType.INTEGER_OBJ = "INTEGER" ∧
        objectTypeToString ObjectType.BOOLEAN_OBJ = "BOOLEAN" ∧
        objectTypeToString ObjectType.NULL_OBJ = "NULL" ∧
        objectTypeToString ObjectType.RETURN_VALUE_OBJ = "RETURN_VALUE" ∧
        objectTypeToString ObjectType.ERROR_OBJ = "ERROR" ∧
        objectTypeToString ObjectType.FUNCTION_OBJ = "FUNCTION") ∧
      (run 50 "true + false").bind Result.inspect =
        some "ERROR: unknown operator: BOOLEAN+BOOLEAN" ∧
      (run 50 "fn(x) \x7b x \x7d - fn(y) \x7b y \x7d").bind Result.inspect =
        some "ERROR: unknown operator: FUNCTION-FUNCTION" ∧
      (run 50 "if (false) \x7b 1 \x7d * if (false) \x7b 1 \x7d").bind Result.inspect =
        some "ERROR: unknown operator: NULL*NULL" ∧
      (run 50 "true < false").bind Result.inspect =
        some "ERROR: unknown operator: BOOLEAN<BOOLEAN" := by
  refine ⟨?_, ?_, ⟨rfl, rfl, rfl, rfl, rfl, rfl⟩, by decide!, by decide!, by decide!,
    by decide!⟩
  · have rest : evalInfixRest op l (some r) h =
        .ok (some (.error h.nextAddr ("unknown operator: " ++ objectTypeToString l.type ++
          op ++ objectTypeToString r.type))) { h with nextAddr := h.nextAddr + 1 } := by
      simp only [evalInfixRest, if_neg heq, if_neg hne, ht, ne_eq, not_true_eq_false,
        if_false, newError]
    cases l <;> cases r <;> first
      | exact absurd rfl hi
      | exact rest
  · intro tok hmem h1 h2 la ra a b
    simp only [binaryOperatorTokens, List.mem_cons, List.mem_singleton, List.mem_nil_iff,
      or_false] at hmem
    rcases hmem with e | e | e | e | e | e | e | e <;> subst e
    · simp [evalInfixExpression, newInteger, Result.objectType, Object.type]
    · simp [evalInfixExpression, newInteger, Result.objectType, Object.type]
    · simp [evalInfixExpression, newInteger, Result.objectType, Object.type]
    · simp only [evalInfixExpression]
      simp only [show ("/" = "+") = False by decide, show ("/" = "-") = False by decide,
        show ("/" = "*") = False by decide, if_false, if_true]
      split
      · simp [Result.objectType]
      · split
        · simp [Result.objectType]
        · simp [newInteger, Result.objectType, Object.type]
    · exact absurd rfl h1
    · exact absurd rfl h2
    · simp only [evalInfixExpression]
      cases decide (a < b) <;>
        simp [nativeBoolToBooleanObject, Result.objectType, Object.type, TRUE, FALSE]
    · simp only [evalInfixExpression]
      cases decide (a > b) <;>
        simp [nativeBoolToBooleanObject, Result.objectType, Object.type, TRUE, FALSE]

/-- Witness of C13: the operator `+` between `TRUE` and `FALSE`, and between the null
object and itself. -/
theorem C13_unknown_operator_witness :
    "+" ≠ "==" ∧ "+" ≠ "!=" ∧ TRUE.type = FALSE.type ∧
      TRUE.type ≠ ObjectType.INTEGER_OBJ ∧
      evalInfixExpression "+" (some TRUE) (some FALSE) Heap.initial =
        .ok (some (.error 3 "unknown operator: BOOLEAN+BOOLEAN"))
          { nextAddr := 4, stores := [] } ∧
      NULL_OBJ.type = NULL_OBJ.type ∧ NULL_OBJ.type ≠ ObjectType.INTEGER_OBJ ∧
      evalInfixExpression "+" (some NULL_OBJ) (some NULL_OBJ) Heap.initial =
        .ok (some (.error 3 "unknown operator: NULL+NULL"))
          { nextAddr := 4, stores := [] } :=
  have h1 : "+" ≠ "==" := by decide
  have h2 : "+" ≠ "!=" := by decide
  have h3 : TRUE.type = FALSE.type := rfl
  have h4 : TRUE.type ≠ ObjectType.INTEGER_OBJ := by decide
  have h5 : NULL_OBJ.type ≠ ObjectType.INTEGER_OBJ := by decide
  ⟨h1, h2, h3, h4, (C13_unknown_operator "+" TRUE FALSE Heap.initial h1 h2 h3 h4).1,
    rfl, h5, (C13_unknown_operator "+" NULL_OBJ NULL_OBJ Heap.initial h1 h2 rfl h5).1⟩

end Spec
namespace evaluator

open ast object

/-- The operator `!` applied to the value of its operand, once the operand has been
evaluated to an object that is no Error. -/
theorem eval_bang (fuel : Nat) (tok : token.Token) (e : Option Expression)
    (env : Environment) (h h1 : Heap) (v : Option Object)
    (hev : eval fuel (exprNode e) env h = .ok v h1) (hne : isError v = false) :
    eval (fuel + 1) (some (.expression (.prefixExpression tok "!" e))) env h =
      .ok (some (if pointerEq v (some FALSE) then TRUE else FALSE)) h1 := by
  simp only [eval, hev, Result.bind, hne, evalPrefixExpression, if_true, Bool.false_eq_true,
    if_false]
  split <;> rfl

end evaluator

namespace Spec

open token ast object evaluator parser

/-- C15. When the operand of `!` evaluates to `v` and `v` is no Error, the expression
evaluates to the singleton `TRUE` if `v` is the object `FALSE` (the same address) and to
the singleton `FALSE` otherwise: for every Integer, which is an object other than
`FALSE`, and for `NULL_OBJ`. Hence `!` applied twice to an operand that evaluates to
`NULL_OBJ` gives `TRUE`, although `isTruthy` is false for `NULL_OBJ`. The programs `!0`,
`!5` and `!false` are printed as `false`, `false` and `true`; `!!if (false) { 1 }` is
printed as `true` and `if (if (false) { 1 }) { 1 } else { 2 }` as `2`. -/
theorem C15_logical_not (fuel : Nat) (tok tok1 : Token) (e : Option Expression)
    (env : Environment) (h h1 : Heap) (v : Option Object)
    (hev : eval fuel (exprNode e) env h = .ok v h1) (hne : isError v = false) :
    eval (fuel + 1) (some (.expression (.prefixExpression tok "!" e))) env h =
        .ok (some (if pointerEq v (some FALSE) then TRUE else FALSE)) h1 ∧
      (∀ (addr : Nat) (n : Int), v = some (.integer addr n) → addr ≠ FALSE.addr →
        eval (fuel + 1) (some (.expression (.prefixExpression tok "!" e))) env h =
          .ok (some FALSE) h1) ∧
      (v = some NULL_OBJ →
        eval (fuel + 1) (some (.expression (.prefixExpression tok "!" e))) env h =
            .ok (some FALSE) h1 ∧
          eval (fuel + 2) (some (.expression (.prefixExpression tok1 "!"
              (some (.prefixExpression tok "!" e))))) env h = .ok (some TRUE) h1 ∧
          isTruthy v = false) ∧
      (run 50 "!0").bind Result.inspect = some "false" ∧
      (run 50 "!5").bind Result.inspect = some "false" ∧
      (run 50 "!false").bind Result.inspect = some "true" ∧
      (run 50 "!!if (false) \x7b 1 \x7d").bind Result.inspect = some "true" ∧
      (run 50 "if (if (false) \x7b 1 \x7d) \x7b 1 \x7d else \x7b 2 \x7d").bind
        Result.inspect = some "2" := by
  have step := eval_bang fuel tok e env h h1 v hev hne
  refine ⟨step, ?_, ?_, by decide!, by decide!, by decide!, by decide!, by decide!⟩
  · intro addr n hv ha
    have hp : pointerEq (some (.integer addr n)) (some FALSE) = false := by
      show decide (addr = FALSE.addr) = false
      exact decide_eq_false ha
    rw [step, hv, hp]
    rfl
  · intro hv
    have s1 : eval (fuel + 1) (some (.expression (.prefixExpression tok "!" e))) env h =
        .ok (some FALSE) h1 := by
      rw [step, hv]
      rfl
    refine ⟨s1, ?_, ?_⟩
    · exact eval_bang (fuel + 1) tok1 (some (.prefixExpression tok "!" e)) env h h1
        (some FALSE) s1 rfl
    · rw [hv]
      rfl

/-- Witness of C15: the operand `5`, which evaluates to an Integer, and the operand
`if (false) { }`, which evaluates to `NULL_OBJ`. -/
theorem C15_logical_not_witness :
    eval 1 (exprNode (some (.integerLiteral (intToken "5") 5))) freshEnv.1 freshEnv.2 =
        .ok (some (.integer 3 5)) { nextAddr := 4, stores := [[]] } ∧
      isError (some (.integer 3 5)) = false ∧
      eval 2 (some (.expression (.prefixExpression bangToken "!"
          (some (.integerLiteral (intToken "5") 5))))) freshEnv.1 freshEnv.2 =
        .ok (some FALSE) { nextAddr := 4, stores := [[]] } ∧
      eval 2 (exprNode (some (.ifExpression ifToken (some (.boolean falseToken false))
          (some (.mk lbraceToken [])) none))) freshEnv.1 freshEnv.2 =
        .ok (some NULL_OBJ) freshEnv.2 ∧
      isError (some NULL_OBJ) = false ∧
      eval 4 (some (.expression (.prefixExpression bangToken "!"
          (some (.prefixExpression bangToken "!"
            (some (.ifExpression ifToken (some (.boolean falseToken false))
              (some (.mk lbraceToken [])) none))))))) freshEnv.1 freshEnv.2 =
        .ok (some TRUE) freshEnv.2 :=
  have e1 : eval 1 (exprNode (some (.integerLiteral (intToken "5") 5))) freshEnv.1
      freshEnv.2 = .ok (some (.integer 3 5)) { nextAddr := 4, stores := [[]] } := rfl
  have n1 : isError (some (.integer 3 5)) = false := rfl
  have e2 : eval 2 (exprNode (some (.ifExpression ifToken (some (.boolean falseToken false))
      (some (.mk lbraceToken [])) none))) freshEnv.1 freshEnv.2 =
      .ok (some NULL_OBJ) freshEnv.2 := rfl
  have n2 : isError (some NULL_OBJ) = false := rfl
  ⟨e1, n1,
    (C15_logical_not 1 bangToken bangToken _ freshEnv.1 freshEnv.2 _ _ e1 n1).2.1 3 5 rfl
      (by decide),
    e2, n2,
    ((C15_logical_not 2 bangToken bangToken _ freshEnv.1 freshEnv.2 _ _ e2 n2).2.2.1
      rfl).2.1⟩

end Spec
namespace Spec

open token ast object evaluator parser

/-- C16. When the condition of an if-expression evaluates to `v` and `v` is no Error,
the expression evaluates, from the memory the condition left, the alternative (or
returns the singleton `NULL_OBJ` when there is none) if `v` is the object `NULL_OBJ` or
the object `FALSE`, and the consequence otherwise: for every Integer, which is an object
other than these two. The result and the memory are those of that one branch, the other
branch is not evaluated. The program
`let a = 5; let b = a > 3; let c = a * 99; if (b) { 10 } else { 1 };` is printed as `10`,
and so is `if (0) { 10 } else { 1 }`. When `v` is the object `FALSE` or the object
`NULL_OBJ` the alternative is evaluated and the consequence is not:
`if (false) { 10 } else { 1 }`, `if (1 > 2) { 10 } else { 1 }` and, with a condition
that evaluates to `NULL_OBJ`, `if (if (false) { 1 }) { 10 } else { 1 }` are printed as
`1`, and `if (1 > 2) { 10 }` as `null`. -/
theorem C16_if_expression (fuel : Nat) (tok : Token) (condition : Option Expression)
    (consequence alternative : Option BlockStatement) (env : Environment) (h h1 : Heap)
    (v : Option Object)
    (hev : eval fuel (exprNode condition) env h = .ok v h1) (hne : isError v = false) :
    eval (fuel + 1)
        (some (.expression (.ifExpression tok condition consequence alternative))) env h =
        (if pointerEq v (some NULL_OBJ) || pointerEq v (some FALSE) then
          match alternative with
          | some alt => eval fuel (some (.blockStatement alt)) env h1
          | none => .ok (some NULL_OBJ) h1
        else eval fuel (consequence.map Node.blockStatement) env h1) ∧
      (∀ (addr : Nat) (n : Int), v = some (.integer addr n) → addr ≠ NULL_OBJ.addr →
        addr ≠ FALSE.addr →
        eval (fuel + 1)
            (some (.expression (.ifExpression tok condition consequence alternative))) env h =
          eval fuel (consequence.map Node.blockStatement) env h1) ∧
      (run 50 ("let a = 5; let b = a > 3; let c = a * 99; " ++
          "if (b) \x7b 10 \x7d else \x7b 1 \x7d;")).bind Result.inspect = some "10" ∧
      (run 50 "if (0) \x7b 10 \x7d else \x7b 1 \x7d").bind Result.inspect = some "10" ∧
      (∀ obj : Object, v = some obj → obj.addr = NULL_OBJ.addr ∨ obj.addr = FALSE.addr →
        eval (fuel + 1)
            (some (.expression (.ifExpression tok condition consequence alternative))) env h =
          match alternative with
          | some alt => eval fuel (some (.blockStatement alt)) env h1
          | none => .ok (some NULL_OBJ) h1) ∧
      (run 50 "if (false) \x7b 10 \x7d else \x7b 1 \x7d").bind Result.inspect = some "1" ∧
      (run 50 "if (1 > 2) \x7b 10 \x7d else \x7b 1 \x7d").bind Result.inspect = some "1" ∧
      (run 50 "if (if (false) \x7b 1 \x7d) \x7b 10 \x7d else \x7b 1 \x7d").bind
        Result.inspect = some "1" ∧
      (run 50 "if (1 > 2) \x7b 10 \x7d").bind Result.inspect = some "null" := by
  have step : eval (fuel + 1)
      (some (.expression (.ifExpression tok condition consequence alternative))) env h =
      (if pointerEq v (some NULL_OBJ) || pointerEq v (some FALSE) then
        match alternative with
        | some alt => eval fuel (some (.blockStatement alt)) env h1
        | none => .ok (some NULL_OBJ) h1
      else eval fuel (consequence.map Node.blockStatement) env h1) := by
    simp only [eval, evalIfExpressionWith, hev, Result.bind, hne, isTruthy,
      Bool.false_eq_true, if_false]
    by_cases hc : (pointerEq v (some NULL_OBJ) || pointerEq v (some FALSE)) = true
    · simp only [hc, if_true, Bool.false_eq_true, if_false]
    · simp only [hc, if_false, ite_self, if_true, Bool.false_eq_true]
  refine ⟨step, ?_, by decide!, by decide!, ?_, by decide!, by decide!, by decide!,
    by decide!⟩
  · intro addr n hv ha1 ha2
    have hp1 : pointerEq (some (.integer addr n)) (some NULL_OBJ) = false := by
      show decide (addr = NULL_OBJ.addr) = false
      exact decide_eq_false ha1
    have hp2 : pointerEq (some (.integer addr n)) (some FALSE) = false := by
      show decide (addr = FALSE.addr) = false
      exact decide_eq_false ha2
    rw [step, hv, hp1, hp2]
    rfl
  · intro obj hv ha
    have hp : (pointerEq (some obj) (some NULL_OBJ) || pointerEq (some obj) (some FALSE)) =
        true := by
      show (decide (obj.addr = NULL_OBJ.addr) || decide (obj.addr = FALSE.addr)) = true
      rcases ha with e | e
      · rw [decide_eq_true e]
        rfl
      · rw [decide_eq_true e, Bool.or_true]
    rw [step, hv, hp]
    rfl

/-- Witness of C16: the condition `0`, which evaluates to an Integer, with the
consequence `{ 10 }` and the alternative `{ 1 }`, and the condition `false`, which
evaluates to the object `FALSE`, with the same blocks. -/
theorem C16_if_expression_witness :
    eval 1 (exprNode (some (.integerLiteral (intToken "0") 0))) freshEnv.1 freshEnv.2 =
        .ok (some (.integer 3 0)) { nextAddr := 4, stores := [[]] } ∧
      isError (some (.integer 3 0)) = false ∧
      eval 2 (some (.expression (.ifExpression ifToken
          (some (.integerLiteral (intToken "0") 0))
          (some (.mk lbraceToken [.expressionStatement (intToken "10")
            (some (.integerLiteral (intToken "10") 10))]))
          (some (.mk lbraceToken [.expressionStatement (intToken "1")
            (some (.integerLiteral (intToken "1") 1))]))))) freshEnv.1 freshEnv.2 =
        eval 1 (some (.blockStatement (.mk lbraceToken [.expressionStatement (intToken "10")
          (some (.integerLiteral (intToken "10") 10))]))) freshEnv.1
          { nextAddr := 4, stores := [[]] } ∧
      eval 1 (exprNode (some (.boolean falseToken false))) freshEnv.1 freshEnv.2 =
        .ok (some FALSE) freshEnv.2 ∧
      isError (some FALSE) = false ∧
      eval 2 (some (.expression (.ifExpression ifToken
          (some (.boolean falseToken false))
          (some (.mk lbraceToken [.expressionStatement (intToken "10")
            (some (.integerLiteral (intToken "10") 10))]))
          (some (.mk lbraceToken [.expressionStatement (intToken "1")
            (some (.integerLiteral (intToken "1") 1))]))))) freshEnv.1 freshEnv.2 =
        eval 1 (some (.blockStatement (.mk lbraceToken [.expressionStatement (intToken "1")
          (some (.integerLiteral (intToken "1") 1))]))) freshEnv.1 freshEnv.2 :=
  have e1 : eval 1 (exprNode (some (.integerLiteral (intToken "0") 0))) freshEnv.1
      freshEnv.2 = .ok (some (.integer 3 0)) { nextAddr := 4, stores := [[]] } := rfl
  have n1 : isError (some (.integer 3 0)) = false := rfl
  have e2 : eval 1 (exprNode (some (.boolean falseToken false))) freshEnv.1 freshEnv.2 =
      .ok (some FALSE) freshEnv.2 := rfl
  have n2 : isError (some FALSE) = false := rfl
  ⟨e1, n1,
    (C16_if_expression 1 ifToken _ _ _ freshEnv.1 freshEnv.2 _ _ e1 n1).2.1 3 0 rfl
      (by decide) (by decide),
    e2, n2,
    (C16_if_expression 1 ifToken _ _
      (some (.mk lbraceToken [.expressionStatement (intToken "1")
        (some (.integerLiteral (intToken "1") 1))])) freshEnv.1 freshEnv.2 _ _ e2
      n2).2.2.2.2.1 FALSE rfl (Or.inr rfl)⟩

/-- C17. The operators `==` and `!=` compare the addresses of the two objects. For every
two integer literals `m` and `n`, equal or not, `m == n` evaluates to `FALSE` and
`m != n` to `TRUE`, because each literal evaluates to a new Integer; for every two
boolean literals `b1 == b2` evaluates to `TRUE` if the two have the same truth value and
to `FALSE` if not. The programs `5 == 5;`, `5 != 5;`, `true == true;` and
`true == false;` are printed as `false`, `true`, `true` and `false`. -/
theorem C17_equality_by_identity (fuel : Nat) (tok tok1 tok2 : Token) (m n : Int)
    (b1 b2 : Bool) (env : Environment) (h : Heap) :
    eval (fuel + 2) (some (.expression (.infixExpression tok
        (some (.integerLiteral tok1 m)) "==" (some (.integerLiteral tok2 n))))) env h =
        .ok (some FALSE) { h with nextAddr := h.nextAddr + 2 } ∧
      eval (fuel + 2) (some (.expression (.infixExpression tok
        (some (.integerLiteral tok1 m)) "!=" (some (.integerLiteral tok2 n))))) env h =
        .ok (some TRUE) { h with nextAddr := h.nextAddr + 2 } ∧
      eval (fuel + 2) (some (.expression (.infixExpression tok
        (some (.boolean tok1 b1)) "==" (some (.boolean tok2 b2))))) env h =
        .ok (some (if b1 = b2 then TRUE else FALSE)) h ∧
      (eval (fuel + 2) (some (.expression (.infixExpression tok
        (some (.boolean tok1 b1)) "==" (some (.boolean tok2 b2))))) env h =
        .ok (some TRUE) h ↔ b1 = b2) ∧
      (run 50 "5 == 5;").bind Result.inspect = some "false" ∧
      (run 50 "5 != 5;").bind Result.inspect = some "true" ∧
      (run 50 "true == true;").bind Result.inspect = some "true" ∧
      (run 50 "true == false;").bind Result.inspect = some "false" := by
  have hb : eval (fuel + 2) (some (.expression (.infixExpression tok
      (some (.boolean tok1 b1)) "==" (some (.boolean tok2 b2))))) env h =
      .ok (some (if b1 = b2 then TRUE else FALSE)) h := by
    cases b1 <;> cases b2 <;> rfl
  refine ⟨?_, ?_, hb, ?_, by decide!, by decide!, by decide!, by decide!⟩
  · simp [eval, exprNode, newInteger, Result.bind, isError, Object.type, evalInfixExpression,
      evalInfixRest, pointerEq, Object.addr, nativeBoolToBooleanObject]
  · simp [eval, exprNode, newInteger, Result.bind, isError, Object.type, evalInfixExpression,
      evalInfixRest, pointerEq, Object.addr, nativeBoolToBooleanObject]
  · rw [hb]
    cases b1 <;> cases b2 <;> simp [TRUE, FALSE]

end Spec
namespace object

open ast

theorem getD_updateAt_same {α : Type} (f : α → α) (d : α) : ∀ (i : Nat) (xs : List α),
    i < xs.length → (updateAt f i xs).getD i d = f (xs.getD i d)
  | _, [], hi => by simp at hi
  | 0, x :: xs, _ => rfl
  | i + 1, x :: xs, hi => by
    show (updateAt f i xs).getD i d = f (xs.getD i d)
    exact getD_updateAt_same f d i xs (by simpa using hi)

theorem getD_updateAt_ne {α : Type} (f : α → α) (d : α) : ∀ (i j : Nat) (xs : List α),
    i ≠ j → (updateAt f i xs).getD j d = xs.getD j d
  | i, _, [], _ => by cases i <;> rfl
  | 0, 0, _ :: _, hij => absurd rfl hij
  | 0, _ + 1, _ :: _, _ => rfl
  | _ + 1, 0, _ :: _, _ => rfl
  | i + 1, j + 1, x :: xs, hij => by
    show (updateAt f i xs).getD j d = xs.getD j d
    exact getD_updateAt_ne f d i j xs (by omega)

theorem Store.lookup_set_self (s : Store) (n : String) (v : Option Object) :
    List.lookup n (Store.set s n v) = some v := by
  simp only [Store.set, List.lookup, beq_self_eq_true]

/-- A `set` in one environment is not seen from an environment whose chain does not
hold the address of the store written. -/
theorem Environment.get_set_other (h : Heap) (E : Environment) (n k : String)
    (v : Option Object) :
    ∀ o : Environment, E.store ∉ o.chain → o.get (E.set h n v) k = o.get h k
  | .mk b none, hb => by
    have hne : E.store ≠ b := by
      intro e; exact hb (by simp [Environment.chain, e])
    simp only [Environment.get, Environment.set, getD_updateAt_ne _ _ _ _ _ hne]
  | .mk b (some o), hb => by
    have hne : E.store ≠ b := by
      intro e; exact hb (by simp [Environment.chain, e])
    have ho : E.store ∉ o.chain := by
      intro e; exact hb (by simp [Environment.chain, e])
    simp only [Environment.get, Environment.set, getD_updateAt_ne _ _ _ _ _ hne]
    rw [← Environment.set, Environment.get_set_other h E n k v o ho]

end object

namespace Spec

open token ast object evaluator parser

/-- C18. Evaluating the identifier `name` in the environment `env` returns the object
`env.get(name)` resolves when there is one, in the same memory: the object bound to
`name` in the store of `env` itself when that store has a binding, and what the outer
environment resolves when it has none. When `env.get(name)` resolves nothing it returns
a new Error whose message is `identifier not found: ` followed by the name; the program
`foobar;` is printed as `ERROR: identifier not found: foobar`. -/
theorem C18_identifier (fuel : Nat) (ident : Identifier) (env : Environment) (h : Heap) :
    (∀ v : Object, env.get h ident.value = some v →
      eval (fuel + 1) (some (.expression (.identifier ident))) env h = .ok (some v) h) ∧
    (env.get h ident.value = none →
      eval (fuel + 1) (some (.expression (.identifier ident))) env h =
        .ok (some (.error h.nextAddr ("identifier not found: " ++ ident.value)))
          { h with nextAddr := h.nextAddr + 1 }) ∧
    (∀ v : Object, (h.stores.getD env.store []).lookup ident.value = some (some v) →
      eval (fuel + 1) (some (.expression (.identifier ident))) env h = .ok (some v) h) ∧
    (∀ (a : Nat) (o : Environment), env = .mk a (some o) →
      (h.stores.getD a []).lookup ident.value = none →
      eval (fuel + 1) (some (.expression (.identifier ident))) env h =
        eval (fuel + 1) (some (.expression (.identifier ident))) o h) ∧
    (run 50 "foobar;").bind Result.inspect = some "ERROR: identifier not found: foobar" := by
  refine ⟨?_, ?_, ?_, ?_, by decide!⟩
  · intro v hv
    simp only [eval, evalIdentifier, hv]
  · intro hv
    simp only [eval, evalIdentifier, hv, newError]
  · intro v hv
    have hg : env.get h ident.value = some v := by
      cases env with
      | mk a o =>
        have hv1 : (h.stores.getD a []).lookup ident.value = some (some v) := hv
        cases o with
        | none => simp only [Environment.get, hv1]
        | some o => simp only [Environment.get, hv1]
    simp only [eval, evalIdentifier, hg]
  · intro a o he hv
    subst he
    simp only [eval, evalIdentifier, Environment.get, hv]

/-- Witness of C18: the name `x`, bound to the Integer 5 in the store of the outer
environment, and the name `y`, bound nowhere. -/
theorem C18_identifier_witness :
    (Environment.mk 1 (some (.mk 0 none))).get
        { nextAddr := 4, stores := [[("x", some (.integer 3 5))], []] } "x" =
        some (.integer 3 5) ∧
      eval 1 (some (.expression (.identifier { token := identToken "x", value := "x" })))
          (.mk 1 (some (.mk 0 none)))
          { nextAddr := 4, stores := [[("x", some (.integer 3 5))], []] } =
        .ok (some (.integer 3 5))
          { nextAddr := 4, stores := [[("x", some (.integer 3 5))], []] } ∧
      (Environment.mk 1 (some (.mk 0 none))).get
        { nextAddr := 4, stores := [[("x", some (.integer 3 5))], []] } "y" = none ∧
      eval 1 (some (.expression (.identifier { token := identToken "y", value := "y" })))
          (.mk 1 (some (.mk 0 none)))
          { nextAddr := 4, stores := [[("x", some (.integer 3 5))], []] } =
        .ok (some (.error 4 "identifier not found: y"))
          { nextAddr := 5, stores := [[("x", some (.integer 3 5))], []] } :=
  have h1 : (Environment.mk 1 (some (.mk 0 none))).get
      { nextAddr := 4, stores := [[("x", some (.integer 3 5))], []] } "x" =
      some (.integer 3 5) := rfl
  have h2 : (Environment.mk 1 (some (.mk 0 none))).get
      { nextAddr := 4, stores := [[("x", some (.integer 3 5))], []] } "y" = none := rfl
  ⟨h1, (C18_identifier 0 { token := identToken "x", value := "x" } _ _).1 _ h1,
    h2, (C18_identifier 0 { token := identToken "y", value := "y" } _ _).2.1 h2⟩

end Spec
namespace Spec

open token ast object evaluator parser

/-- C20. For every environment `E`, with or without an outer environment, whose store
exists and is not the store of an environment of its outer chain, every two names `n`,
`m`, every name `k` and every value `v`, null or not: after `E.set(n, v)`, `E.get(n)`
returns `v`, `E.get(m)` returns for `m` other than `n` what it returned before, and the
`get(k)` of the outer environment returns what it returned before. `E.get(n)` returns
what the store of `E` binds `n` to when it binds `n`, otherwise what the `get(n)` of the
outer environment returns, and null when there is no outer environment. -/
theorem C20_environment_contract (h : Heap) (a : Nat) (outer : Option Environment)
    (n m k : String) (v : Option Object)
    (hvalid : a < h.stores.length)
    (hfresh : ∀ o : Environment, outer = some o → a ∉ o.chain) :
    (Environment.mk a outer).get ((Environment.mk a outer).set h n v) n = v ∧
      (m ≠ n → (Environment.mk a outer).get ((Environment.mk a outer).set h n v) m =
        (Environment.mk a outer).get h m) ∧
      (∀ o : Environment, outer = some o →
        o.get ((Environment.mk a outer).set h n v) k = o.get h k) ∧
      (Environment.mk a outer).get h n =
        (match (h.stores.getD a []).lookup n with
        | some val => val
        | none =>
          match outer with
          | some o => o.get h n
          | none => none) := by
  have hst : ((Environment.mk a outer).set h n v).stores.getD a [] =
      Store.set (h.stores.getD a []) n v := by
    show (updateAt (fun s => Store.set s n v) a h.stores).getD a [] = _
    exact getD_updateAt_same _ _ a h.stores hvalid
  have hout : ∀ (o : Environment) (x : String), outer = some o →
      o.get ((Environment.mk a outer).set h n v) x = o.get h x := by
    intro o x ho
    exact Environment.get_set_other h (.mk a outer) n x v o (hfresh o ho)
  refine ⟨?_, ?_, ?_, ?_⟩
  · cases outer with
    | none => simp only [Environment.get, hst, Store.lookup_set_self]
    | some o => simp only [Environment.get, hst, Store.lookup_set_self]
  · intro hmn
    cases outer with
    | none => simp only [Environment.get, hst, Store.lookup_set_ne _ m n v (Ne.symm hmn)]
    | some o =>
      simp only [Environment.get, hst, Store.lookup_set_ne _ m n v (Ne.symm hmn),
        hout o m rfl]
  · intro o ho
    exact hout o k ho
  · cases outer with
    | none => simp only [Environment.get]
    | some o => simp only [Environment.get]

/-- Witness of C20: the environment with the store 1 and the outer environment with the
store 0, where the outer store binds `x`, and the names `x`, `y`, `z`. -/
theorem C20_environment_contract_witness :
    1 < ({ nextAddr := 5, stores := [[("x", some (.integer 3 5))], []] } : Heap).stores.length ∧
      (∀ o : Environment, some (Environment.mk 0 none) = some o → 1 ∉ o.chain) ∧
      (Environment.mk 1 (some (.mk 0 none))).get
        ((Environment.mk 1 (some (.mk 0 none))).set
          { nextAddr := 5, stores := [[("x", some (.integer 3 5))], []] } "x"
          (some (.integer 4 7))) "x" = some (.integer 4 7) ∧
      (Environment.mk 0 none).get
        ((Environment.mk 1 (some (.mk 0 none))).set
          { nextAddr := 5, stores := [[("x", some (.integer 3 5))], []] } "x"
          (some (.integer 4 7))) "x" = some (.integer 3 5) :=
  have h1 : 1 < ({ nextAddr := 5, stores := [[("x", some (.integer 3 5))], []] } :
      Heap).stores.length := by decide
  have h2 : ∀ o : Environment, some (Environment.mk 0 none) = some o → 1 ∉ o.chain := by
    intro o ho
    rw [← Option.some.inj ho]
    decide
  have key := C20_environment_contract
    { nextAddr := 5, stores := [[("x", some (.integer 3 5))], []] } 1 (some (.mk 0 none))
    "x" "y" "x" (some (.integer 4 7)) h1 h2
  ⟨h1, h2, key.1, key.2.2.1 _ rfl⟩

end Spec
namespace evaluator

open ast object parser

/-- The loop of `evalBlockStatement` returns the ReturnValue of the first statement that
evaluates to one, with the memory that statement left. -/
theorem evalBlockStatementWith_return (ev : Eval) (env : Environment) (s : Statement)
    (post pre : List Statement) (acc : Option Object) (h h1 h2 : Heap) (a : Nat)
    (v : Option Object) (hpre : StatementsPass ev pre env h h1)
    (hs : ev (some (.statement s)) env h1 = .ok (some (.returnValue a v)) h2) :
    evalBlockStatementWith ev (pre ++ s :: post) acc env h =
      .ok (some (.returnValue a v)) h2 := by
  rw [evalBlockStatementWith_pass ev env s post pre acc h h1 hpre, evalBlockStatementWith, hs]
  rfl

/-- Where the loop of `evalBlockStatement` returns a ReturnValue, the loop of
`evalProgram` over the same statements returns the value inside it. -/
theorem evalProgramWith_of_block (ev : Eval) (env : Environment) (a : Nat)
    (v : Option Object) (h2 : Heap) :
    ∀ (stmts : List Statement) (acc : Option Object) (h : Heap), stopsLoop acc = false →
      evalBlockStatementWith ev stmts acc env h = .ok (some (.returnValue a v)) h2 →
      evalProgramWith ev stmts acc env h = .ok v h2 := by
  intro stmts
  induction stmts with
  | nil =>
    intro acc h hacc hb
    simp only [evalBlockStatementWith, Result.ok.injEq] at hb
    rw [hb.1] at hacc
    simp [stopsLoop] at hacc
  | cons s rest ih =>
    intro acc h hacc hb
    rw [evalBlockStatementWith] at hb
    rw [evalProgramWith]
    cases hs : ev (some (.statement s)) env h with
    | timeout => rw [hs] at hb; simp [Result.bind] at hb
    | crash c => rw [hs] at hb; simp [Result.bind] at hb
    | ok r h1 =>
      rw [hs, Result.ok_bind] at hb
      rw [Result.ok_bind]
      cases r with
      | none => exact ih none h1 rfl hb
      | some o =>
        cases o with
        | returnValue a1 v1 =>
          simp only [Result.ok.injEq, Option.some.injEq, Object.returnValue.injEq] at hb
          simp only [Result.ok.injEq]
          exact ⟨hb.1.2, hb.2⟩
        | error a1 m => simp at hb
        | integer a1 n => exact ih _ h1 rfl hb
        | boolean a1 b => exact ih _ h1 rfl hb
        | null a1 => exact ih _ h1 rfl hb
        | function a1 ps b e => exact ih _ h1 rfl hb

/-- A block that reaches a return statement through blocks nested in statement position
evaluates to the ReturnValue object of that statement. -/
theorem evalBlockStatement_earlyReturn (env : Environment) (fuel : Nat)
    (block : BlockStatement) (h hf : Heap) (a : Nat) (v : Option Object)
    (hp : EarlyReturn env fuel block h a v hf) :
    evalBlockStatementWith (eval fuel) block.statements none env h =
      .ok (some (.returnValue a v)) hf := by
  induction hp with
  | executed fuel block h h1 h2 v pre post tok rv hst hpre hv hne =>
    rw [hst]
    apply evalBlockStatementWith_return _ env _ post pre none h h1 _ _ _ hpre
    show (eval fuel (exprNode rv) env h1).bind _ = _
    rw [hv, Result.ok_bind, hne]
    rfl
  | expressionStatement fuel block inner h h1 h2 hf a v c pre post tok ifTok condition
      consequence alternative hst hpre hc hne hbr _ ih =>
    rw [hst]
    apply evalBlockStatementWith_return _ env _ post pre none h h1 _ _ _ hpre
    show (eval (fuel + 1) (exprNode condition) env h1).bind _ = _
    rw [hc, Result.ok_bind, hne]
    rcases hbr with ⟨ht, hb⟩ | ⟨ht, hb⟩
    · rw [hb]
      simp only [ht, if_true, Bool.false_eq_true, if_false, Option.map]
      exact ih
    · rw [hb]
      simp only [ht, Bool.false_eq_true, if_false]
      exact ih
  | letStatement fuel block inner h h1 h2 hf a v c pre post tok ifTok name condition
      consequence alternative hst hpre hc hne hbr _ ih =>
    rw [hst]
    apply evalBlockStatementWith_return _ env _ post pre none h h1 _ _ _ hpre
    have hif : eval (fuel + 2) (exprNode (some (.ifExpression ifTok condition consequence
        alternative))) env h1 = .ok (some (.returnValue a v)) hf := by
      show (eval (fuel + 1) (exprNode condition) env h1).bind _ = _
      rw [hc, Result.ok_bind, hne]
      rcases hbr with ⟨ht, hb⟩ | ⟨ht, hb⟩
      · rw [hb]
        simp only [ht, if_true, Bool.false_eq_true, if_false, Option.map]
        exact ih
      · rw [hb]
        simp only [ht, Bool.false_eq_true, if_false]
        exact ih
    show (eval (fuel + 2) (exprNode (some (.ifExpression ifTok condition consequence
        alternative))) env h1).bind _ = _
    rw [hif, Result.ok_bind]
    rfl

end evaluator

namespace Spec

open token ast object evaluator parser

/-- C22, as stated, fails for blocks nested in a position other than that of a
statement: there the ReturnValue object of the inner block is used as the value of the
expression and is not passed on. As the right operand of `+` it gives a type mismatch
(`fn() { 1 + if (true) { return 10; } }()`, and the same inside a block and at top
level), as a call argument it is bound to the parameter and the call returns the value
of the body (`fn(x) { 2 }(if (true) { return 10; })` gives 2), as the operand of `!` it
gives `false` and as that of `-` an error, as the condition of an if-expression it is
truthy and the statements after it are evaluated, as a callee it is no function, and as
the value of a return statement it is wrapped once more, so that the call returns a
ReturnValue object. -/
theorem C22_return_value_as_operand :
    (run 50 ("fn() \x7b 1 + if (true) \x7b return 10; \x7d \x7d()")).bind Result.inspect =
        some "ERROR: type mismatch: INTEGER + INTEGER" ∧
      (run 50 ("if (true) \x7b 1 + if (true) \x7b return 10; \x7d \x7d")).bind
        Result.inspect = some "ERROR: type mismatch: INTEGER + INTEGER" ∧
      (run 50 ("1 + if (true) \x7b return 10; \x7d")).bind Result.inspect =
        some "ERROR: type mismatch: INTEGER + INTEGER" ∧
      (run 50 ("fn(x) \x7b 2 \x7d(if (true) \x7b return 10; \x7d)")).bind Result.inspect =
        some "2" ∧
      (run 50 ("if (true) \x7b !if (true) \x7b return 10; \x7d \x7d")).bind
        Result.inspect = some "false" ∧
      (run 50 ("if (true) \x7b -if (true) \x7b return 10; \x7d \x7d")).bind
        Result.inspect = some "ERROR: unknown operator: -RETURN_VALUE" ∧
      (run 50 ("if (true) \x7b if (if (true) \x7b return 10; \x7d) \x7b 1 \x7d; " ++
        "5 \x7d")).bind Result.inspect = some "5" ∧
      (run 50 ("if (true) \x7b return fn(x) \x7b x \x7d; \x7d(1)")).bind Result.inspect =
        some "ERROR: not a function: RETURN_VALUE" ∧
      (run 50 ("fn() \x7b return if (true) \x7b return 10; \x7d; \x7d() + 1")).bind
        Result.inspect = some "ERROR: type mismatch: RETURN_VALUE + RETURN_VALUE" := by
  refine ⟨by decide!, by decide!, by decide!, by decide!, by decide!, by decide!, by decide!,
    by decide!, by decide!⟩

/-- C22, amended. The loop of `evalBlockStatement` returns the ReturnValue of the first
statement that evaluates to one, as the object it is and with the memory that statement
left, whatever statements follow. Hence a block that reaches a return statement through
blocks nested in statement position, however deeply (`EarlyReturn`: at every level the
statements before pass, and the next one is an if-expression, as an expression statement
or as the value of a let statement, whose condition is no error and chooses the next
block, down to the return statement that is executed), evaluates to the ReturnValue
object of that return statement; a program made of the statements of the block, and the
call of a function with the block as body, evaluate to the value of that return
statement. The program `if (10 > 1) { if (10 > 1) { return 10; } return 1; }` is printed
as `10`, and so are programs in which the inner block is an alternative or the value of
a let statement; a function whose body returns from two blocks deep returns 10 to its
caller, which goes on. -/
theorem C22_early_return (fuel : Nat) (block : BlockStatement) (env : Environment)
    (h hf : Heap) (a : Nat) (v : Option Object)
    (hblock : EarlyReturn env fuel block h a v hf) :
    (∀ (ev : Eval) (pre post : List Statement) (s : Statement) (acc : Option Object)
        (h0 h1 h2 : Heap) (a1 : Nat) (v1 : Option Object), StatementsPass ev pre env h0 h1 →
        ev (some (.statement s)) env h1 = .ok (some (.returnValue a1 v1)) h2 →
        evalBlockStatementWith ev (pre ++ s :: post) acc env h0 =
          .ok (some (.returnValue a1 v1)) h2) ∧
      evalBlockStatement fuel block env h = .ok (some (.returnValue a v)) hf ∧
      evalProgram fuel block.statements env h = .ok v hf ∧
      (∀ (addr : Nat) (params : List Identifier) (fnEnv : Environment)
          (args : List (Option Object)) (h0 : Heap),
        extendFunctionEnv params fnEnv args h0 = some (env, h) →
        applyFunction (fuel + 1) (some (.function addr params (some block) fnEnv)) args h0 =
          .ok v hf) ∧
      (run 50 ("if (10 > 1) \x7b if (10 > 1) \x7b return 10; \x7d " ++
        "return 1; \x7d")).bind Result.inspect = some "10" ∧
      (run 50 ("if (true) \x7b if (false) \x7b 1 \x7d else \x7b return 10; \x7d " ++
        "5 \x7d")).bind Result.inspect = some "10" ∧
      (run 50 ("if (true) \x7b let x = if (true) \x7b return 10; \x7d; " ++
        "5 \x7d")).bind Result.inspect = some "10" ∧
      (run 50 ("let f = fn() \x7b if (10 > 1) \x7b if (10 > 1) \x7b return 10; \x7d " ++
        "return 1; \x7d 7 \x7d; f() + 1")).bind Result.inspect = some "11" := by
  have hnest : evalBlockStatementWith (eval fuel) block.statements none env h =
      .ok (some (.returnValue a v)) hf :=
    evalBlockStatement_earlyReturn env fuel block h hf a v hblock
  refine ⟨?_, hnest, ?_, ?_, by decide!, by decide!, by decide!, by decide!⟩
  · intro ev pre post s acc h0 h1 h2 a1 v1 hpre hs
    exact evalBlockStatementWith_return ev env s post pre acc h0 h1 h2 a1 v1 hpre hs
  · exact evalProgramWith_of_block _ env a v hf _ none h rfl hnest
  · intro addr params fnEnv args h0 hext
    have hb : eval (fuel + 1) (some (.blockStatement block)) env h =
        .ok (some (.returnValue a v)) hf := hnest
    simp only [applyFunction, applyFunctionWith, hext, Option.map, hb]
    rfl

/-- Witness of the amended C22: the program
`if (10 > 1) { if (10 > 1) { return 10; } return 1; }`, whose return statement is
executed two blocks deep. -/
theorem C22_early_return_witness :
    EarlyReturn freshEnv.1 8
        (.mk lbraceToken [.expressionStatement ifToken (some (.ifExpression ifToken
          (some (.infixExpression { type := TokenType.GT, literal := ">" }
            (some (.integerLiteral (intToken "10") 10)) ">"
            (some (.integerLiteral (intToken "1") 1))))
          (some (.mk lbraceToken [.expressionStatement ifToken (some (.ifExpression ifToken
            (some (.infixExpression { type := TokenType.GT, literal := ">" }
              (some (.integerLiteral (intToken "10") 10)) ">"
              (some (.integerLiteral (intToken "1") 1))))
            (some (.mk lbraceToken [.returnStatement returnToken
              (some (.integerLiteral (intToken "10") 10))])) none)),
            .returnStatement returnToken (some (.integerLiteral (intToken "1") 1))]))
          none))])
        freshEnv.2 8 (some (.integer 7 10)) { nextAddr := 9, stores := [[]] } ∧
      evalProgram 8
        [.expressionStatement ifToken (some (.ifExpression ifToken
          (some (.infixExpression { type := TokenType.GT, literal := ">" }
            (some (.integerLiteral (intToken "10") 10)) ">"
            (some (.integerLiteral (intToken "1") 1))))
          (some (.mk lbraceToken [.expressionStatement ifToken (some (.ifExpression ifToken
            (some (.infixExpression { type := TokenType.GT, literal := ">" }
              (some (.integerLiteral (intToken "10") 10)) ">"
              (some (.integerLiteral (intToken "1") 1))))
            (some (.mk lbraceToken [.returnStatement returnToken
              (some (.integerLiteral (intToken "10") 10))])) none)),
            .returnStatement returnToken (some (.integerLiteral (intToken "1") 1))]))
          none))] freshEnv.1 freshEnv.2 =
        .ok (some (.integer 7 10)) { nextAddr := 9, stores := [[]] } :=
  have h2 : EarlyReturn freshEnv.1 2 (.mk lbraceToken [.returnStatement returnToken
      (some (.integerLiteral (intToken "10") 10))]) { nextAddr := 7, stores := [[]] } 8
      (some (.integer 7 10)) { nextAddr := 9, stores := [[]] } :=
    EarlyReturn.executed 1 _ _ _ { nextAddr := 8, stores := [[]] } _ [] [] returnToken _
      rfl rfl rfl rfl
  have h5 := EarlyReturn.expressionStatement 2 (.mk lbraceToken [.expressionStatement ifToken
      (some (.ifExpression ifToken
        (some (.infixExpression { type := TokenType.GT, literal := ">" }
          (some (.integerLiteral (intToken "10") 10)) ">"
          (some (.integerLiteral (intToken "1") 1))))
        (some (.mk lbraceToken [.returnStatement returnToken
          (some (.integerLiteral (intToken "10") 10))])) none)),
      .returnStatement returnToken (some (.integerLiteral (intToken "1") 1))]) _
    { nextAddr := 5, stores := [[]] } _ _ _ _ _ (some TRUE) [] _ _ _ _ _ _ rfl rfl rfl rfl
    (Or.inl ⟨rfl, rfl⟩) h2
  have h8 := EarlyReturn.expressionStatement 5 (.mk lbraceToken [.expressionStatement ifToken
      (some (.ifExpression ifToken
        (some (.infixExpression { type := TokenType.GT, literal := ">" }
          (some (.integerLiteral (intToken "10") 10)) ">"
          (some (.integerLiteral (intToken "1") 1))))
        (some (.mk lbraceToken [.expressionStatement ifToken (some (.ifExpression ifToken
          (some (.infixExpression { type := TokenType.GT, literal := ">" }
            (some (.integerLiteral (intToken "10") 10)) ">"
            (some (.integerLiteral (intToken "1") 1))))
          (some (.mk lbraceToken [.returnStatement returnToken
            (some (.integerLiteral (intToken "10") 10))])) none)),
          .returnStatement returnToken (some (.integerLiteral (intToken "1") 1))]))
        none))]) _
    freshEnv.2 _ _ _ _ _ (some TRUE) [] _ _ _ _ _ _ rfl rfl rfl rfl
    (Or.inl ⟨rfl, rfl⟩) h5
  ⟨h8, (C22_early_return 8 _ freshEnv.1 freshEnv.2 _ 8 _ h8).2.2.1⟩

end Spec
namespace object

theorem length_updateAt {α : Type} (f : α → α) : ∀ (i : Nat) (xs : List α),
    (updateAt f i xs).length = xs.length
  | i, [] => by cases i <;> rfl
  | 0, _ :: _ => rfl
  | i + 1, x :: xs => by
    show (updateAt f i xs).length + 1 = xs.length + 1
    rw [length_updateAt f i xs]

theorem updateAt_of_length_le {α : Type} (f : α → α) : ∀ (i : Nat) (xs : List α),
    xs.length ≤ i → updateAt f i xs = xs
  | i, [], _ => by cases i <;> rfl
  | 0, _ :: _, hi => by simp at hi
  | i + 1, x :: xs, hi => by
    show x :: updateAt f i xs = x :: xs
    rw [updateAt_of_length_le f i xs (by simpa using hi)]

end object

namespace Spec

open token ast object evaluator parser

/-- C28. Evaluating `let name = value` in the environment `env` first evaluates `value`,
to `v` in the memory `h1`. If `v` is an Error the statement returns `v` and leaves `h1`:
nothing is bound. Otherwise the statement returns `v` and leaves `h1` with one change:
the store of `env` itself binds `name` to `v`, in place of what it bound `name` to
before; the other names of that store, the other stores and the next free address are
as in `h1`. -/
theorem C28_let_statement (fuel : Nat) (tok : Token) (name : Identifier)
    (value : Option Expression) (env : Environment) (h h1 : Heap) (v : Option Object)
    (hv : eval fuel (exprNode value) env h = .ok v h1) :
    (isError v = true →
      eval (fuel + 1) (some (.statement (.letStatement tok (some name) value))) env h =
        .ok v h1) ∧
    (isError v = false →
      eval (fuel + 1) (some (.statement (.letStatement tok (some name) value))) env h =
          .ok v (env.set h1 name.value v) ∧
        (env.set h1 name.value v).nextAddr = h1.nextAddr ∧
        (env.set h1 name.value v).stores.length = h1.stores.length ∧
        (env.store < h1.stores.length →
          List.lookup name.value ((env.set h1 name.value v).stores.getD env.store []) =
            some v) ∧
        (∀ m : String, m ≠ name.value →
          List.lookup m ((env.set h1 name.value v).stores.getD env.store []) =
            List.lookup m (h1.stores.getD env.store [])) ∧
        (∀ a : Nat, a ≠ env.store →
          (env.set h1 name.value v).stores.getD a [] = h1.stores.getD a [])) := by
  constructor
  · intro he
    simp only [eval, hv, Result.bind, he, if_true]
  · intro he
    refine ⟨?_, rfl, ?_, ?_, ?_, ?_⟩
    · simp only [eval, hv, Result.bind, he, Bool.false_eq_true, if_false]
    · exact length_updateAt _ _ _
    · intro hvalid
      show List.lookup name.value ((updateAt _ env.store h1.stores).getD env.store []) = _
      rw [getD_updateAt_same _ _ _ _ hvalid]
      exact Store.lookup_set_self _ _ _
    · intro m hm
      show List.lookup m ((updateAt _ env.store h1.stores).getD env.store []) = _
      by_cases hvalid : env.store < h1.stores.length
      · rw [getD_updateAt_same _ _ _ _ hvalid]
        exact Store.lookup_set_ne _ m name.value v (Ne.symm hm)
      · rw [updateAt_of_length_le _ _ _ (by omega)]
    · intro a ha
      exact getD_updateAt_ne _ _ _ _ _ (Ne.symm ha)

/-- Witness of C28: `let x = 5` in the top-level environment, which binds nothing
before, and `let x = y`, whose value is an Error. -/
theorem C28_let_statement_witness :
    eval 1 (exprNode (some (.integerLiteral (intToken "5") 5))) freshEnv.1 freshEnv.2 =
        .ok (some (.integer 3 5)) { nextAddr := 4, stores := [[]] } ∧
      isError (some (.integer 3 5)) = false ∧
      eval 2 (some (.statement (.letStatement letToken
          (some { token := identToken "x", value := "x" })
          (some (.integerLiteral (intToken "5") 5))))) freshEnv.1 freshEnv.2 =
        .ok (some (.integer 3 5)) { nextAddr := 4, stores := [[("x", some (.integer 3 5))]] } ∧
      eval 1 (exprNode (identNode "y")) freshEnv.1 freshEnv.2 =
        .ok (some (.error 3 "identifier not found: y")) { nextAddr := 4, stores := [[]] } ∧
      isError (some (.error 3 "identifier not found: y")) = true ∧
      eval 2 (some (.statement (.letStatement letToken
          (some { token := identToken "x", value := "x" }) (identNode "y"))))
          freshEnv.1 freshEnv.2 =
        .ok (some (.error 3 "identifier not found: y")) { nextAddr := 4, stores := [[]] } :=
  have e1 : eval 1 (exprNode (some (.integerLiteral (intToken "5") 5))) freshEnv.1
      freshEnv.2 = .ok (some (.integer 3 5)) { nextAddr := 4, stores := [[]] } := rfl
  have n1 : isError (some (.integer 3 5)) = false := rfl
  have e2 : eval 1 (exprNode (identNode "y")) freshEnv.1 freshEnv.2 =
      .ok (some (.error 3 "identifier not found: y")) { nextAddr := 4, stores := [[]] } := rfl
  have n2 : isError (some (.error 3 "identifier not found: y")) = true := rfl
  ⟨e1, n1,
    ((C28_let_statement 1 letToken { token := identToken "x", value := "x" } _ freshEnv.1
      freshEnv.2 _ _ e1).2 n1).1,
    e2, n2,
    (C28_let_statement 1 letToken { token := identToken "x", value := "x" } _ freshEnv.1
      freshEnv.2 _ _ e2).1 n2⟩

end Spec
namespace evaluator

open ast object

/-- Binding parameters of distinct names to as many arguments, in the store at the last
address, leaves a store that binds each parameter to the argument at its position. -/
theorem bindParameters_zip (S : List Store) (outer : Option Environment) (n : Nat) :
    ∀ (params : List Identifier) (args : List (Option Object)) (st : Store),
      params.length = args.length → (params.map fun p => p.value).Nodup →
      ∃ st1, bindParameters (Environment.mk S.length outer) params args
          { nextAddr := n, stores := S ++ [st] } = some { nextAddr := n, stores := S ++ [st1] } ∧
        ∀ pa ∈ params.zip args, List.lookup pa.1.value st1 = some pa.2 := by
  intro params
  induction params with
  | nil => intro args st _ _; exact ⟨st, rfl, fun pa hpa => by simp at hpa⟩
  | cons p params ih =>
    intro args st hlen hnd
    cases args with
    | nil => simp at hlen
    | cons arg args =>
      have hlen1 : params.length = args.length := by simpa using hlen
      rw [List.map_cons, List.nodup_cons] at hnd
      obtain ⟨st1, e1, e2⟩ := ih args (Store.set st p.value arg) hlen1 hnd.2
      obtain ⟨st2, f1, f2⟩ := bindParameters_last S outer n params args
        (Store.set st p.value arg) (le_of_eq hlen1)
      have hst : st2 = st1 := by
        rw [e1] at f1
        have := congrArg Heap.stores (Option.some.inj f1)
        exact (List.append_cancel_left this |> List.cons.inj |>.1).symm
      refine ⟨st1, ?_, ?_⟩
      · rw [bindParameters]
        simp only [Environment.set, Environment.store, updateAt_append_length]
        exact e1
      · intro pa hpa
        rw [List.zip_cons_cons, List.mem_cons] at hpa
        rcases hpa with rfl | hpa
        · rw [← hst, f2 p.value (fun q hq e => hnd.1 (List.mem_map.mpr ⟨q, hq, e⟩))]
          exact Store.lookup_set_self st p.value arg
        · exact e2 pa hpa

/-- The loop of `evalExpressions` returns the values of the expressions, evaluated from
left to right. -/
theorem evalExpressionsWith_yield (ev : Eval) (env : Environment) :
    ∀ (exps : List (Option Expression)) (acc vals : List (Option Object)) (h h1 : Heap),
      ExpressionsYield ev env exps h vals h1 →
      evalExpressionsWith ev exps acc env h = .ok (acc ++ vals) h1 := by
  intro exps
  induction exps with
  | nil =>
    intro acc vals h h1 hy
    obtain ⟨rfl, rfl⟩ := hy
    rw [evalExpressionsWith, List.append_nil]
  | cons e rest ih =>
    intro acc vals h h1 hy
    obtain ⟨v, h0, vs, e1, e2, rfl, e3⟩ := hy
    rw [evalExpressionsWith, e1, Result.ok_bind, e2]
    simp only [Bool.false_eq_true, if_false]
    rw [ih (acc ++ [v]) vs h0 h1 e3, List.append_assoc]
    rfl

/-- The values of expressions that were evaluated one after the other are no
errors. -/
theorem ExpressionsYield.no_error (ev : Eval) (env : Environment) :
    ∀ (exps : List (Option Expression)) (vals : List (Option Object)) (h h1 : Heap),
      ExpressionsYield ev env exps h vals h1 → ∀ v ∈ vals, isError v = false := by
  intro exps
  induction exps with
  | nil =>
    intro vals h h1 hy v hv
    rw [hy.1] at hv
    simp at hv
  | cons e rest ih =>
    intro vals h h1 hy v hv
    obtain ⟨v0, h0, vs, _, e2, rfl, e3⟩ := hy
    rw [List.mem_cons] at hv
    rcases hv with rfl | hv
    · exact e2
    · exact ih vs h0 h1 e3 v hv

end evaluator

namespace Spec

open token ast object evaluator parser

/-- C30. A Function with parameters of pairwise distinct names, applied to as many
argument values as it has parameters: `extendFunctionEnv` returns a new environment in
which every parameter resolves to the argument at the same position, and `applyFunction`
returns what the body evaluates to in that environment, unwrapped. In a call, the callee
is evaluated first and then the arguments from left to right in the environment of the
call, each in the memory the one before left. The program `fn(a, b) { a - b }(10, 3)`
is printed as `7`. -/
theorem C30_positional_binding (fuel : Nat) (addr : Nat) (params : List Identifier)
    (body : Option BlockStatement) (fnEnv : Environment) (args : List (Option Object))
    (h : Heap) (hlen : params.length = args.length)
    (hnodup : (params.map fun p => p.value).Nodup) :
    (∃ extendedEnv h1, extendFunctionEnv params fnEnv args h = some (extendedEnv, h1) ∧
        (∀ pa ∈ params.zip args, extendedEnv.get h1 pa.1.value = pa.2) ∧
        applyFunction fuel (some (.function addr params body fnEnv)) args h =
          (eval fuel (body.map Node.blockStatement) extendedEnv h1).bind unwrapReturnValue) ∧
      (∀ (tok : Token) (function : Option Expression) (arguments : List (Option Expression))
          (env : Environment) (h0 h1 : Heap),
        eval fuel (exprNode function) env h0 =
          .ok (some (.function addr params body fnEnv)) h1 →
        ExpressionsYield (eval fuel) env arguments h1 args h →
        eval (fuel + 1) (some (.expression (.callExpression tok function arguments))) env h0 =
          applyFunction fuel (some (.function addr params body fnEnv)) args h) ∧
      (run 50 "fn(a, b) \x7b a - b \x7d(10, 3)").bind Result.inspect = some "7" := by
  refine ⟨?_, ?_, by decide!⟩
  · obtain ⟨n, S⟩ := h
    obtain ⟨st1, e1, e2⟩ := bindParameters_zip S (some fnEnv) n params args [] hlen hnodup
    refine ⟨Environment.mk S.length (some fnEnv), { nextAddr := n, stores := S ++ [st1] },
      ?_, ?_, ?_⟩
    · simp only [extendFunctionEnv, newEnclosedEnvironment, e1]
    · intro pa hpa
      have hget : (S ++ [st1]).getD S.length [] = st1 := by
        simp [List.getD_eq_getElem?_getD]
      simp only [Environment.get, hget, e2 pa hpa]
    · simp only [applyFunction, applyFunctionWith, extendFunctionEnv, newEnclosedEnvironment,
        e1]
  · intro tok function arguments env h0 h1 hf hy
    have hargs := evalExpressionsWith_yield (eval fuel) env arguments [] args h1 h hy
    have hok := ExpressionsYield.no_error (eval fuel) env arguments args h1 h hy
    have hhead : ¬(args.length = 1 ∧ isError (args.headD none) = true) := by
      rintro ⟨hl, he⟩
      cases args with
      | nil => simp at hl
      | cons a rest =>
        have := hok a (List.mem_cons_self a rest)
        rw [List.headD_cons, this] at he
        exact Bool.false_ne_true he
    rw [List.nil_append] at hargs
    simp only [eval, hf, Result.bind, hargs, hhead, if_false, applyFunction]
    rfl

/-- Witness of C30: the function `fn(a, b) { }` applied to the Integers 10 and 3. -/
theorem C30_positional_binding_witness :
    [({ token := identToken "a", value := "a" } : Identifier),
        { token := identToken "b", value := "b" }].length =
        [some (Object.integer 4 10), some (Object.integer 5 3)].length ∧
      ([({ token := identToken "a", value := "a" } : Identifier),
        { token := identToken "b", value := "b" }].map fun p => p.value).Nodup ∧
      ∃ extendedEnv h1,
        extendFunctionEnv [{ token := identToken "a", value := "a" },
            { token := identToken "b", value := "b" }] freshEnv.1
          [some (Object.integer 4 10), some (Object.integer 5 3)]
          { nextAddr := 6, stores := [[]] } = some (extendedEnv, h1) ∧
        extendedEnv.get h1 "a" = some (Object.integer 4 10) ∧
        extendedEnv.get h1 "b" = some (Object.integer 5 3) :=
  have h1 : [({ token := identToken "a", value := "a" } : Identifier),
      { token := identToken "b", value := "b" }].length =
      [some (Object.integer 4 10), some (Object.integer 5 3)].length := rfl
  have h2 : ([({ token := identToken "a", value := "a" } : Identifier),
      { token := identToken "b", value := "b" }].map fun p => p.value).Nodup := by decide
  match (C30_positional_binding 0 3 _ none freshEnv.1 _ { nextAddr := 6, stores := [[]] }
    h1 h2).1 with
  | ⟨extendedEnv, hp, e1, e2, _⟩ =>
    ⟨h1, h2, extendedEnv, hp, e1,
      e2 ({ token := identToken "a", value := "a" }, some (Object.integer 4 10))
        (List.mem_cons_self _ _),
      e2 ({ token := identToken "b", value := "b" }, some (Object.integer 5 3))
        (List.mem_cons_of_mem _ (List.mem_cons_self _ _))⟩

end Spec
namespace evaluator

open ast object

theorem Result.bind_eq_ok {α β : Type} (r : Result α) (k : α → Heap → Result β) (v : β)
    (h1 : Heap) (e : r.bind k = .ok v h1) : ∃ a h0, r = .ok a h0 ∧ k a h0 = .ok v h1 := by
  cases r with
  | ok a h0 => exact ⟨a, h0, rfl, e⟩
  | crash c => simp [Result.bind] at e
  | timeout => simp [Result.bind] at e

theorem StoresKept.refl (n : Nat) (h : Heap) (hn : n ≤ h.stores.length) : StoresKept n h h :=
  ⟨hn, fun _ _ => rfl⟩

theorem StoresKept.trans {n : Nat} {h h1 h2 : Heap} (a : StoresKept n h h1)
    (b : StoresKept n h1 h2) : StoresKept n h h2 :=
  ⟨b.1, fun x hx => by rw [b.2 x hx, a.2 x hx]⟩

/-- A memory that differs in the next free address only. -/
theorem StoresKept.of_stores_eq (n : Nat) (h h1 : Heap) (hn : n ≤ h.stores.length)
    (e : h1.stores = h.stores) : StoresKept n h h1 :=
  ⟨by rw [e]; exact hn, fun _ _ => by rw [e]⟩

/-- A `set` in an environment whose store is at `n` or above. -/
theorem StoresKept.set (n : Nat) (h : Heap) (env : Environment) (name : String)
    (v : Option Object) (hn : n ≤ h.stores.length) (henv : n ≤ env.store) :
    StoresKept n h (env.set h name v) :=
  ⟨by show n ≤ (updateAt _ env.store h.stores).length; rw [length_updateAt]; exact hn,
    fun a ha => getD_updateAt_ne _ _ _ _ _ (by omega)⟩

theorem newInteger_stores (v : Int) (h h1 : Heap) (r : Option Object)
    (e : newInteger v h = .ok r h1) : h1.stores = h.stores := by
  simp only [newInteger, Result.ok.injEq] at e
  rw [← e.2]

theorem newError_stores (m : String) (h h1 : Heap) (r : Option Object)
    (e : newError m h = .ok r h1) : h1.stores = h.stores := by
  simp only [newError, Result.ok.injEq] at e
  rw [← e.2]

theorem evalPrefixExpression_stores (op : String) (right : Option Object) (h h1 : Heap)
    (r : Option Object) (e : evalPrefixExpression op right h = .ok r h1) :
    h1.stores = h.stores := by
  unfold evalPrefixExpression at e
  split at e
  · split at e <;> (simp only [Result.ok.injEq] at e; rw [← e.2])
  · split at e
    · simp at e
    · split at e
      · split at e
        · exact newInteger_stores _ _ _ _ e
        · exact newError_stores _ _ _ _ e
      · exact newError_stores _ _ _ _ e

theorem evalInfixRest_stores (op : String) (l : Object) (right : Option Object) (h h1 : Heap)
    (r : Option Object) (e : evalInfixRest op l right h = .ok r h1) :
    h1.stores = h.stores := by
  unfold evalInfixRest at e
  split at e
  · simp only [Result.ok.injEq] at e; rw [← e.2]
  · split at e
    · simp only [Result.ok.injEq] at e; rw [← e.2]
    · split at e
      · simp at e
      · split at e <;> exact newError_stores _ _ _ _ e

theorem evalInfixExpression_stores (op : String) (left right : Option Object) (h h1 : Heap)
    (r : Option Object) (e : evalInfixExpression op left right h = .ok r h1) :
    h1.stores = h.stores := by
  unfold evalInfixExpression at e
  split at e
  · simp at e
  · split at e
    · simp at e
    · repeat' split at e
      all_goals first
        | exact newInteger_stores _ _ _ _ e
        | exact evalInfixRest_stores _ _ _ _ _ _ e
        | (simp only [Result.ok.injEq] at e; rw [← e.2])
        | simp at e
    · exact evalInfixRest_stores _ _ _ _ _ _ e
  · exact evalInfixRest_stores _ _ _ _ _ _ e

theorem unwrapReturnValue_heap (obj : Option Object) (h h1 : Heap) (r : Option Object)
    (e : unwrapReturnValue obj h = .ok r h1) : h1 = h := by
  unfold unwrapReturnValue at e
  split at e
  · simp at e
  · simp only [Result.ok.injEq] at e; exact e.2.symm
  · simp only [Result.ok.injEq] at e; exact e.2.symm

/-- Binding the parameters in an environment whose store is at `n` or above. -/
theorem bindParameters_kept (n : Nat) (env : Environment) (henv : n ≤ env.store) :
    ∀ (params : List Identifier) (args : List (Option Object)) (h h1 : Heap),
      n ≤ h.stores.length → bindParameters env params args h = some h1 → StoresKept n h h1 := by
  intro params
  induction params with
  | nil =>
    intro args h h1 hn e
    simp only [bindParameters, Option.some.injEq] at e
    rw [← e]
    exact StoresKept.refl n h hn
  | cons p params ih =>
    intro args h h1 hn e
    cases args with
    | nil => simp [bindParameters] at e
    | cons arg args =>
      rw [bindParameters] at e
      have s1 := StoresKept.set n h env p.value arg hn henv
      exact s1.trans (ih args _ h1 s1.1 e)

end evaluator
namespace evaluator

open ast object

theorem evalProgramWith_kept (n : Nat) (ev : Eval) (hev : KeepsStores n ev)
    (env : Environment) (henv : n ≤ env.store) :
    ∀ (stmts : List Statement) (acc : Option Object) (h : Heap) (r : Option Object)
      (h1 : Heap), n ≤ h.stores.length → evalProgramWith ev stmts acc env h = .ok r h1 →
      StoresKept n h h1 := by
  intro stmts
  induction stmts with
  | nil =>
    intro acc h r h1 hn e
    simp only [evalProgramWith, Result.ok.injEq] at e
    rw [← e.2]
    exact StoresKept.refl n h hn
  | cons s rest ih =>
    intro acc h r h1 hn e
    rw [evalProgramWith] at e
    obtain ⟨v, h0, e1, e2⟩ := Result.bind_eq_ok _ _ _ _ e
    have k1 := hev _ env h v h0 hn henv e1
    split at e2
    · simp only [Result.ok.injEq] at e2; rw [← e2.2]; exact k1
    · simp only [Result.ok.injEq] at e2; rw [← e2.2]; exact k1
    · exact k1.trans (ih _ h0 r h1 k1.1 e2)

theorem evalBlockStatementWith_kept (n : Nat) (ev : Eval) (hev : KeepsStores n ev)
    (env : Environment) (henv : n ≤ env.store) :
    ∀ (stmts : List Statement) (acc : Option Object) (h : Heap) (r : Option Object)
      (h1 : Heap), n ≤ h.stores.length → evalBlockStatementWith ev stmts acc env h = .ok r h1 →
      StoresKept n h h1 := by
  intro stmts
  induction stmts with
  | nil =>
    intro acc h r h1 hn e
    simp only [evalBlockStatementWith, Result.ok.injEq] at e
    rw [← e.2]
    exact StoresKept.refl n h hn
  | cons s rest ih =>
    intro acc h r h1 hn e
    rw [evalBlockStatementWith] at e
    obtain ⟨v, h0, e1, e2⟩ := Result.bind_eq_ok _ _ _ _ e
    have k1 := hev _ env h v h0 hn henv e1
    split at e2
    · simp only [Result.ok.injEq] at e2; rw [← e2.2]; exact k1
    · simp only [Result.ok.injEq] at e2; rw [← e2.2]; exact k1
    · exact k1.trans (ih _ h0 r h1 k1.1 e2)

theorem evalExpressionsWith_kept (n : Nat) (ev : Eval) (hev : KeepsStores n ev)
    (env : Environment) (henv : n ≤ env.store) :
    ∀ (exps : List (Option Expression)) (acc : List (Option Object)) (h : Heap)
      (r : List (Option Object)) (h1 : Heap), n ≤ h.stores.length →
      evalExpressionsWith ev exps acc env h = .ok r h1 → StoresKept n h h1 := by
  intro exps
  induction exps with
  | nil =>
    intro acc h r h1 hn e
    simp only [evalExpressionsWith, Result.ok.injEq] at e
    rw [← e.2]
    exact StoresKept.refl n h hn
  | cons x rest ih =>
    intro acc h r h1 hn e
    rw [evalExpressionsWith] at e
    obtain ⟨v, h0, e1, e2⟩ := Result.bind_eq_ok _ _ _ _ e
    have k1 := hev _ env h v h0 hn henv e1
    split at e2
    · simp only [Result.ok.injEq] at e2; rw [← e2.2]; exact k1
    · exact k1.trans (ih _ h0 r h1 k1.1 e2)

theorem evalIfExpressionWith_kept (n : Nat) (ev : Eval) (hev : KeepsStores n ev)
    (env : Environment) (henv : n ≤ env.store) (condition : Option Expression)
    (consequence alternative : Option BlockStatement) (h : Heap) (r : Option Object)
    (h1 : Heap) (hn : n ≤ h.stores.length)
    (e : evalIfExpressionWith ev condition consequence alternative env h = .ok r h1) :
    StoresKept n h h1 := by
  rw [evalIfExpressionWith] at e
  obtain ⟨v, h0, e1, e2⟩ := Result.bind_eq_ok _ _ _ _ e
  have k1 := hev _ env h v h0 hn henv e1
  split at e2
  · simp only [Result.ok.injEq] at e2; rw [← e2.2]; exact k1
  · split at e2
    · exact k1.trans (hev _ env h0 r h1 k1.1 henv e2)
    · split at e2
      · exact k1.trans (hev _ env h0 r h1 k1.1 henv e2)
      · simp only [Result.ok.injEq] at e2; rw [← e2.2]; exact k1

/-- Applying a function keeps the stores below `n`, whatever the environment of the
function is: the parameters are bound and the body is evaluated in a new environment. -/
theorem applyFunctionWith_kept (n : Nat) (ev : Eval) (hev : KeepsStores n ev)
    (fn : Option Object) (args : List (Option Object)) (h : Heap) (r : Option Object)
    (h1 : Heap) (hn : n ≤ h.stores.length)
    (e : applyFunctionWith ev fn args h = .ok r h1) : StoresKept n h h1 := by
  cases fn with
  | none => simp [applyFunctionWith] at e
  | some f =>
    cases f with
    | function a parameters body fnEnv =>
      simp only [applyFunctionWith, extendFunctionEnv, newEnclosedEnvironment] at e
      cases hb : bindParameters (Environment.mk h.stores.length (some fnEnv)) parameters args
          { h with stores := h.stores ++ [[]] } with
      | none => rw [hb] at e; simp at e
      | some h2 =>
        rw [hb] at e
        simp only at e
        have k0 : StoresKept n h { h with stores := h.stores ++ [[]] } :=
          ⟨by simp only [List.length_append, List.length_singleton]; omega,
            fun a ha => by
              simp only [List.getD_eq_getElem?_getD]
              rw [List.getElem?_append_left (by omega)]⟩
        have k1 := bindParameters_kept n (Environment.mk h.stores.length (some fnEnv)) hn
          parameters args _ h2 k0.1 hb
        obtain ⟨v, h3, e1, e2⟩ := Result.bind_eq_ok _ _ _ _ e
        have k2 := hev _ (Environment.mk h.stores.length (some fnEnv)) h2 v h3 k1.1 hn e1
        rw [unwrapReturnValue_heap _ _ _ _ e2]
        exact k0.trans (k1.trans k2)
    | integer a v => exact StoresKept.of_stores_eq n _ h1 hn (newError_stores _ _ _ _ e)
    | boolean a v => exact StoresKept.of_stores_eq n _ h1 hn (newError_stores _ _ _ _ e)
    | null a => exact StoresKept.of_stores_eq n _ h1 hn (newError_stores _ _ _ _ e)
    | returnValue a v => exact StoresKept.of_stores_eq n _ h1 hn (newError_stores _ _ _ _ e)
    | error a m => exact StoresKept.of_stores_eq n _ h1 hn (newError_stores _ _ _ _ e)

/-- Evaluating in an environment whose store is at `n` or above keeps the stores
below `n`. -/
theorem eval_kept (n : Nat) : ∀ fuel : Nat, KeepsStores n (eval fuel) := by
  intro fuel
  induction fuel with
  | zero =>
    intro node env h r h1 _ _ e
    simp [eval] at e
  | succ fuel ih =>
    intro node env h r h1 hn henv e
    cases node with
    | none =>
      simp only [eval, Result.ok.injEq] at e
      rw [← e.2]; exact StoresKept.refl n h hn
    | some nd =>
      cases nd with
      | program p =>
        exact evalProgramWith_kept n _ ih env henv _ _ h r h1 hn e
      | blockStatement b =>
        exact evalBlockStatementWith_kept n _ ih env henv _ _ h r h1 hn e
      | statement s =>
        cases s with
        | expressionStatement tok x => exact ih _ env h r h1 hn henv e
        | returnStatement tok x =>
          simp only [eval] at e
          obtain ⟨v, h0, e1, e2⟩ := Result.bind_eq_ok _ _ _ _ e
          have k1 := ih _ env h v h0 hn henv e1
          split at e2
          · simp only [Result.ok.injEq] at e2; rw [← e2.2]; exact k1
          · simp only [Result.ok.injEq] at e2; rw [← e2.2]
            exact k1.trans (StoresKept.of_stores_eq n _ _ k1.1 rfl)
        | letStatement tok name x =>
          simp only [eval] at e
          obtain ⟨v, h0, e1, e2⟩ := Result.bind_eq_ok _ _ _ _ e
          have k1 := ih _ env h v h0 hn henv e1
          split at e2
          · simp only [Result.ok.injEq] at e2; rw [← e2.2]; exact k1
          · split at e2
            · simp at e2
            · simp only [Result.ok.injEq] at e2; rw [← e2.2]
              exact k1.trans (StoresKept.set n h0 env _ _ k1.1 henv)
      | expression x =>
        cases x with
        | identifier id =>
          simp only [eval, evalIdentifier] at e
          split at e
          · simp only [Result.ok.injEq] at e; rw [← e.2]; exact StoresKept.refl n h hn
          · exact StoresKept.of_stores_eq n _ h1 hn (newError_stores _ _ _ _ e)
        | integerLiteral tok v =>
          exact StoresKept.of_stores_eq n _ h1 hn (newInteger_stores _ _ _ _ e)
        | boolean tok v =>
          simp only [eval, Result.ok.injEq] at e
          rw [← e.2]; exact StoresKept.refl n h hn
        | prefixExpression tok op right =>
          simp only [eval] at e
          obtain ⟨v, h0, e1, e2⟩ := Result.bind_eq_ok _ _ _ _ e
          have k1 := ih _ env h v h0 hn henv e1
          split at e2
          · simp only [Result.ok.injEq] at e2; rw [← e2.2]; exact k1
          · exact k1.trans (StoresKept.of_stores_eq n _ h1 k1.1
              (evalPrefixExpression_stores _ _ _ _ _ e2))
        | infixExpression tok left op right =>
          simp only [eval] at e
          obtain ⟨v, h0, e1, e2⟩ := Result.bind_eq_ok _ _ _ _ e
          have k1 := ih _ env h v h0 hn henv e1
          split at e2
          · simp only [Result.ok.injEq] at e2; rw [← e2.2]; exact k1
          · obtain ⟨w, h2, f1, f2⟩ := Result.bind_eq_ok _ _ _ _ e2
            have k2 := ih _ env h0 w h2 k1.1 henv f1
            split at f2
            · simp only [Result.ok.injEq] at f2; rw [← f2.2]; exact k1.trans k2
            · exact k1.trans (k2.trans (StoresKept.of_stores_eq n _ h1 k2.1
                (evalInfixExpression_stores _ _ _ _ _ _ f2)))
        | ifExpression tok c a b =>
          exact evalIfExpressionWith_kept n _ ih env henv c a b h r h1 hn e
        | functionLiteral tok ps b =>
          simp only [eval, Result.ok.injEq] at e
          rw [← e.2]; exact StoresKept.of_stores_eq n _ _ hn rfl
        | callExpression tok f as =>
          simp only [eval] at e
          obtain ⟨v, h0, e1, e2⟩ := Result.bind_eq_ok _ _ _ _ e
          have k1 := ih _ env h v h0 hn henv e1
          split at e2
          · simp only [Result.ok.injEq] at e2; rw [← e2.2]; exact k1
          · obtain ⟨w, h2, f1, f2⟩ := Result.bind_eq_ok _ _ _ _ e2
            have k2 := evalExpressionsWith_kept n _ ih env henv _ _ h0 w h2 k1.1 f1
            split at f2
            · simp only [Result.ok.injEq] at f2; rw [← f2.2]; exact k1.trans k2
            · exact k1.trans (k2.trans (applyFunctionWith_kept n _ ih v w h2 r h1 k2.1 f2))

/-- What a valid environment resolves a name to depends on the stores at the addresses
of its chain only. -/
theorem Environment.get_of_kept (h h1 : Heap) (name : String)
    (hk : ∀ a : Nat, a < h.stores.length → h1.stores.getD a [] = h.stores.getD a []) :
    ∀ E : Environment, E.ValidIn h → E.get h1 name = E.get h name
  | .mk a none, hv => by
    have ha : a < h.stores.length := hv
    simp only [Environment.get, hk a ha]
  | .mk a (some o), hv => by
    have ha : a < h.stores.length := hv.1
    simp only [Environment.get, hk a ha, Environment.get_of_kept h h1 name hk o hv.2]

end evaluator
namespace Spec

open token ast object evaluator parser

/-- C29. Whatever `applyFunction` is applied to, when it returns, every store that
existed before the call binds the same names to the same values as before: the
bindings made during the call (of parameters, by let statements of the body, in nested
calls) are made in stores created during the call. Hence every environment that existed
before the call (the environment the function captured, the environment of the caller)
resolves every name as before. The program
`let x = 5; let f = fn(x) { let y = x; y }; f(10); x` is printed as `5`, and with `y`
in place of the last `x` as `ERROR: identifier not found: y`. -/
theorem C29_application_frame (fuel : Nat) (fn : Option Object)
    (args : List (Option Object)) (h h1 : Heap) (r : Option Object)
    (happ : applyFunction fuel fn args h = .ok r h1) :
    h.stores.length ≤ h1.stores.length ∧
      (∀ a : Nat, a < h.stores.length → h1.stores.getD a [] = h.stores.getD a []) ∧
      (∀ (E : Environment) (name : String), E.ValidIn h → E.get h1 name = E.get h name) ∧
      (run 50 ("let x = 5; let f = fn(x) \x7b let y = x; y \x7d; " ++
        "f(10); x")).bind Result.inspect = some "5" ∧
      (run 50 ("let x = 5; let f = fn(x) \x7b let y = x; y \x7d; " ++
        "f(10); y")).bind Result.inspect = some "ERROR: identifier not found: y" := by
  have k := applyFunctionWith_kept h.stores.length (eval fuel) (eval_kept _ fuel) fn args h r
    h1 (le_refl _) happ
  exact ⟨k.1, k.2, fun E name hE => Environment.get_of_kept h h1 name k.2 E hE,
    by decide!, by decide!⟩

/-- Witness of C29: the function `fn(x) { let y = x; y }`, which captured the top-level
environment where `x` is 5, applied to the Integer 10. -/
theorem C29_application_frame_witness :
    applyFunction 4 (some (.function 4 [{ token := identToken "x", value := "x" }]
        (some (.mk lbraceToken [.letStatement letToken
            (some { token := identToken "y", value := "y" }) (identNode "x"),
          .expressionStatement (identToken "y") (identNode "y")])) (.mk 0 none)))
        [some (.integer 5 10)] { nextAddr := 6, stores := [[("x", some (.integer 3 5))]] } =
        .ok (some (.integer 5 10))
          { nextAddr := 6, stores := [[("x", some (.integer 3 5))],
            [("y", some (.integer 5 10)), ("x", some (.integer 5 10))]] } ∧
      (Environment.mk 0 none).ValidIn
        { nextAddr := 6, stores := [[("x", some (.integer 3 5))]] } ∧
      (Environment.mk 0 none).get
        { nextAddr := 6, stores := [[("x", some (.integer 3 5))],
          [("y", some (.integer 5 10)), ("x", some (.integer 5 10))]] } "y" =
        (Environment.mk 0 none).get
          { nextAddr := 6, stores := [[("x", some (.integer 3 5))]] } "y" :=
  have e1 : applyFunction 4 (some (.function 4 [{ token := identToken "x", value := "x" }]
      (some (.mk lbraceToken [.letStatement letToken
          (some { token := identToken "y", value := "y" }) (identNode "x"),
        .expressionStatement (identToken "y") (identNode "y")])) (.mk 0 none)))
      [some (.integer 5 10)] { nextAddr := 6, stores := [[("x", some (.integer 3 5))]] } =
      .ok (some (.integer 5 10))
        { nextAddr := 6, stores := [[("x", some (.integer 3 5))],
          [("y", some (.integer 5 10)), ("x", some (.integer 5 10))]] } := rfl
  have v1 : (Environment.mk 0 none).ValidIn
      { nextAddr := 6, stores := [[("x", some (.integer 3 5))]] } := Nat.zero_lt_one
  ⟨e1, v1, (C29_application_frame 4 _ _ _ _ _ e1).2.2.1 (.mk 0 none) "y" v1⟩

end Spec
namespace lexer

open token

namespace Lexer

theorem dropWhile_head (pred : Char → Bool) : ∀ (l : List Char) (c : Char) (r : List Char),
    l.dropWhile pred = c :: r → pred c = false := by
  intro l
  induction l with
  | nil => intro c r h; simp at h
  | cons x xs ih =>
    intro c r h
    rw [List.dropWhile_cons] at h
    split at h
    · exact ih c r h
    · rename_i hx
      obtain ⟨rfl, _⟩ := List.cons.inj h
      simpa using hx

/-- A loop `while (pred(ch)) readChar();` stops right behind the longest run of
characters with `pred` that starts at the current character. -/
theorem readWhile_takeWhile (pred : Char → Bool) (hN : pred NUL = false) (s : List Char)
    (i : Nat) : readWhile pred (s.length + 1) (atPos s i) =
      atPos s (i + ((s.drop i).takeWhile pred).length) := by
  have hd : s.drop i = (s.drop i).takeWhile pred ++ (s.drop i).dropWhile pred :=
    (List.takeWhile_append_dropWhile pred (s.drop i)).symm
  refine readWhile_run pred hN s ((s.drop i).dropWhile pred) (dropWhile_head pred _) _ _ i hd
    (fun c hc => List.mem_takeWhile_imp hc) ?_
  have := length_le_of_drop s i _ _ hd
  omega

/-- The method `skipWhitespace` stops behind the white space at the current
position. -/
theorem skipWhitespace_atPos (s : List Char) (i : Nat) :
    skipWhitespace (atPos s i) = atPos s (i + ((s.drop i).takeWhile isSpace).length) :=
  readWhile_takeWhile isSpace isSpace_NUL s i

theorem drop_takeWhile_length (pred : Char → Bool) (s : List Char) (i : Nat) :
    s.drop (i + ((s.drop i).takeWhile pred).length) = (s.drop i).dropWhile pred := by
  have hd : s.drop i = (s.drop i).takeWhile pred ++ (s.drop i).dropWhile pred :=
    (List.takeWhile_append_dropWhile pred (s.drop i)).symm
  exact drop_add_of_append s i _ _ hd

/-- The character behind the white space is none. -/
theorem atPos_ch_after_space (s : List Char) (i : Nat) :
    isSpace (atPos s (i + ((s.drop i).takeWhile isSpace).length)).ch = false := by
  cases hr : (s.drop i).dropWhile isSpace with
  | nil =>
    rw [atPos_ch_nil s _ (by rw [drop_takeWhile_length, hr])]
    exact isSpace_NUL
  | cons c r =>
    rw [atPos_ch_cons s _ c r (by rw [drop_takeWhile_length, hr])]
    exact dropWhile_head isSpace _ c r hr

/-- A call of `nextToken` is the call made behind the white space at the current
position. -/
theorem nextToken_skip (s : List Char) (i : Nat) :
    nextToken (atPos s i) = nextToken (atPos s (i + ((s.drop i).takeWhile isSpace).length)) :=
  nextToken_congr _ _ (skipWhitespace_atPos s i)
    (skipWhitespace_none s _ (atPos_ch_after_space s i))

theorem isSpace_of_isDigit (c : Char) (h : isDigit c = true) : isSpace c = false := by
  simp only [isDigit, Bool.and_eq_true, decide_eq_true_eq] at h
  simp only [isSpace, Bool.or_eq_false_iff, decide_eq_false_iff_not, Bool.and_eq_false_iff,
    not_le]
  omega

theorem isLetter_of_isDigit (c : Char) (h : isDigit c = true) : isLetter c = false := by
  have h95 : c = '_' → c.toNat = 95 := by intro e; subst e; rfl
  simp only [isDigit, Bool.and_eq_true, decide_eq_true_eq] at h
  simp only [isLetter, isAlpha, Bool.or_eq_false_iff, Bool.and_eq_false_iff,
    decide_eq_false_iff_not, not_le]
  refine ⟨⟨by omega, by omega⟩, ?_⟩
  intro e
  have := h95 e
  omega

theorem lookupIdent_ne_eof (t : String) : lookupIdent t ≠ TokenType.EOF_TOKEN := by
  unfold lookupIdent
  repeat' split
  all_goals decide

end Lexer

end lexer
namespace lexer

open token

namespace Lexer

theorem take_takeWhile_length (pred : Char → Bool) : ∀ l : List Char,
    l.take (l.takeWhile pred).length = l.takeWhile pred := by
  intro l
  induction l with
  | nil => rfl
  | cons x xs ih =>
    rw [List.takeWhile_cons]
    split
    · rw [List.length_cons, List.take_succ_cons, ih]
    · rfl

theorem takeWhile_length_le (pred : Char → Bool) (s : List Char) (i : Nat) (c : Char)
    (rest : List Char) (hd : s.drop i = c :: rest) :
    i + ((s.drop i).takeWhile pred).length ≤ s.length := by
  have h1 : ((s.drop i).takeWhile pred).length ≤ (s.drop i).length := by
    have := congrArg List.length (List.takeWhile_append_dropWhile pred (s.drop i))
    rw [List.length_append] at this
    omega
  have h2 : i < s.length := by
    by_contra hge
    rw [List.drop_of_length_le (by omega)] at hd
    cases hd
  rw [List.length_drop] at h1
  omega

/-- The text and the lexer that `readIdentifier` returns at a letter. -/
theorem readIdentifier_atPos (s : List Char) (i : Nat) :
    readIdentifier (atPos s i) = (String.mk ((s.drop i).takeWhile isLetter),
      atPos s (i + ((s.drop i).takeWhile isLetter).length)) := by
  have hin : (atPos s i).input = s := rfl
  have hpos : (atPos s i).position = i := rfl
  have hpos2 : ∀ k, (atPos s k).position = k := fun _ => rfl
  simp only [readIdentifier, hin, hpos, readWhile_takeWhile isLetter isLetter_NUL s i, hpos2,
    Nat.add_sub_cancel_left, take_takeWhile_length]

/-- The text and the lexer that `readNumber` returns at a digit. -/
theorem readNumber_atPos (s : List Char) (i : Nat) :
    readNumber (atPos s i) = (String.mk ((s.drop i).takeWhile isDigit),
      atPos s (i + ((s.drop i).takeWhile isDigit).length)) := by
  have hin : (atPos s i).input = s := rfl
  have hpos : (atPos s i).position = i := rfl
  have hpos2 : ∀ k, (atPos s k).position = k := fun _ => rfl
  simp only [readNumber, hin, hpos, readWhile_takeWhile isDigit isDigit_NUL s i, hpos2,
    Nat.add_sub_cancel_left, take_takeWhile_length]

/-- At a character that is neither white space nor the byte 0, `nextToken` returns a
token other than `EOF` whose literal is the text of the input from the current position
to the position it stops at, a text without white space. -/
theorem nextToken_text (s : List Char) (j : Nat) (c : Char) (rest : List Char)
    (hd : s.drop j = c :: rest) (hs : isSpace c = false) (hn : c ≠ NUL) :
    (nextToken (atPos s j)).1.type ≠ TokenType.EOF_TOKEN ∧
      ∃ n, 1 ≤ n ∧ j + n ≤ s.length ∧ (nextToken (atPos s j)).2 = atPos s (j + n) ∧
        (nextToken (atPos s j)).1.literal.toList = (s.drop j).take n ∧
        ∀ x ∈ (s.drop j).take n, isSpace x = false := by
  have hch : (atPos s j).ch = c := atPos_ch_cons s j c rest hd
  have hskip : skipWhitespace (atPos s j) = atPos s j :=
    skipWhitespace_none s j (by rw [hch]; exact hs)
  have hlt : j < s.length := by
    by_contra hge
    rw [List.drop_of_length_le (by omega)] at hd
    cases hd
  have single : ∀ T : TokenType, T ≠ TokenType.EOF_TOKEN →
      (fun r : Token × Lexer => r.1.type ≠ TokenType.EOF_TOKEN ∧
        ∃ n, 1 ≤ n ∧ j + n ≤ s.length ∧ r.2 = atPos s (j + n) ∧
          r.1.literal.toList = (s.drop j).take n ∧ ∀ x ∈ (s.drop j).take n, isSpace x = false)
        (newToken T (atPos s j).ch, readChar (atPos s j)) := by
    intro T hT
    refine ⟨hT, 1, le_refl 1, by omega, rfl, ?_, ?_⟩
    · rw [hd, hch]; rfl
    · intro x hx
      rw [hd] at hx
      simp only [List.take_succ_cons, List.take_zero, List.mem_singleton] at hx
      rw [hx]; exact hs
  have two : ∀ T : TokenType, T ≠ TokenType.EOF_TOKEN → peekChar (atPos s j) = '=' →
      (fun r : Token × Lexer => r.1.type ≠ TokenType.EOF_TOKEN ∧
        ∃ n, 1 ≤ n ∧ j + n ≤ s.length ∧ r.2 = atPos s (j + n) ∧
          r.1.literal.toList = (s.drop j).take n ∧ ∀ x ∈ (s.drop j).take n, isSpace x = false)
        ({ type := T, literal := String.mk [(atPos s j).ch, (readChar (atPos s j)).ch] },
          readChar (readChar (atPos s j))) := by
    intro T hT hpk
    have hpk1 : (atPos s (j + 1)).ch = '=' := hpk
    obtain ⟨r1, hr⟩ : ∃ r1, rest = '=' :: r1 := by
      cases hrest : rest with
      | nil =>
        rw [atPos_ch_nil s (j + 1) (by rw [drop_succ_of_cons s j c rest hd, hrest])] at hpk1
        exact absurd hpk1 (by decide)
      | cons d r1 =>
        rw [atPos_ch_cons s (j + 1) d r1 (by rw [drop_succ_of_cons s j c rest hd, hrest])]
          at hpk1
        exact ⟨r1, by rw [hpk1]⟩
    have hlen : j + 2 ≤ s.length := by
      have := congrArg List.length hd
      rw [hr, List.length_drop] at this
      simp only [List.length_cons] at this
      omega
    refine ⟨hT, 2, by omega, hlen, rfl, ?_, ?_⟩
    · show [(atPos s j).ch, (atPos s (j + 1)).ch] = _
      rw [hd, hch, hpk1, hr]; rfl
    · intro x hx
      rw [hd, hr] at hx
      simp only [List.take_succ_cons, List.take_zero, List.mem_cons, List.mem_singleton,
        List.not_mem_nil, or_false] at hx
      rcases hx with rfl | rfl
      · exact hs
      · decide
  have ident : isLetter (atPos s j).ch = true →
      (fun r : Token × Lexer => r.1.type ≠ TokenType.EOF_TOKEN ∧
        ∃ n, 1 ≤ n ∧ j + n ≤ s.length ∧ r.2 = atPos s (j + n) ∧
          r.1.literal.toList = (s.drop j).take n ∧ ∀ x ∈ (s.drop j).take n, isSpace x = false)
        ({ type := lookupIdent (readIdentifier (atPos s j)).1,
           literal := (readIdentifier (atPos s j)).1 }, (readIdentifier (atPos s j)).2) := by
    intro hl
    rw [hch] at hl
    rw [readIdentifier_atPos]
    refine ⟨lookupIdent_ne_eof _, _, ?_, takeWhile_length_le isLetter s j c rest hd, rfl, ?_, ?_⟩
    · rw [hd, List.takeWhile_cons, hl]; simp
    · rw [take_takeWhile_length]
      rfl
    · intro x hx
      rw [take_takeWhile_length] at hx
      exact isSpace_of_isLetter x (List.mem_takeWhile_imp hx)
  have number : isDigit (atPos s j).ch = true →
      (fun r : Token × Lexer => r.1.type ≠ TokenType.EOF_TOKEN ∧
        ∃ n, 1 ≤ n ∧ j + n ≤ s.length ∧ r.2 = atPos s (j + n) ∧
          r.1.literal.toList = (s.drop j).take n ∧ ∀ x ∈ (s.drop j).take n, isSpace x = false)
        ({ type := TokenType.INT, literal := (readNumber (atPos s j)).1 },
          (readNumber (atPos s j)).2) := by
    intro hl
    rw [hch] at hl
    rw [readNumber_atPos]
    refine ⟨by show TokenType.INT ≠ TokenType.EOF_TOKEN; decide, _, ?_,
      takeWhile_length_le isDigit s j c rest hd, rfl, ?_, ?_⟩
    · rw [hd, List.takeWhile_cons, hl]; simp
    · rw [take_takeWhile_length]
      rfl
    · intro x hx
      rw [take_takeWhile_length] at hx
      exact isSpace_of_isDigit x (List.mem_takeWhile_imp hx)
  unfold nextToken
  simp only [hskip]
  repeat' first
    | apply ite_prop (fun r : Token × Lexer => r.1.type ≠ TokenType.EOF_TOKEN ∧
        ∃ n, 1 ≤ n ∧ j + n ≤ s.length ∧ r.2 = atPos s (j + n) ∧
          r.1.literal.toList = (s.drop j).take n ∧ ∀ x ∈ (s.drop j).take n, isSpace x = false)
    | intro _
  all_goals first
    | exact single _ (by decide)
    | exact two _ (by decide) (by assumption)
    | exact ident (by assumption)
    | exact number (by assumption)
    | exact absurd (hch ▸ (by assumption : (atPos s j).ch = NUL)) hn

end Lexer

end lexer
namespace lexer

open token

namespace Lexer

theorem ne_of_isDigit (c p : Char) (h : isDigit c = true) (hp : isDigit p = false) :
    c ≠ p := by
  intro e; subst e; rw [h] at hp; cases hp

/-- The digits at the current position are read as one token `INT`. -/
theorem nextToken_digits (s : List Char) (i : Nat) (c : Char) (rest : List Char)
    (hd : s.drop i = c :: rest) (hc : isDigit c = true) :
    nextToken (atPos s i) =
      ({ type := TokenType.INT, literal := String.mk ((s.drop i).takeWhile isDigit) },
        atPos s (i + ((s.drop i).takeWhile isDigit).length)) := by
  have hch : (atPos s i).ch = c := atPos_ch_cons s i c rest hd
  have hskip : skipWhitespace (atPos s i) = atPos s i :=
    skipWhitespace_none s i (by rw [hch]; exact isSpace_of_isDigit c hc)
  unfold nextToken
  simp only [hskip, hch]
  rw [if_neg (ne_of_isDigit c _ hc (by decide)), if_neg (ne_of_isDigit c _ hc (by decide)),
    if_neg (ne_of_isDigit c _ hc (by decide)), if_neg (ne_of_isDigit c _ hc (by decide)),
    if_neg (ne_of_isDigit c _ hc (by decide)), if_neg (ne_of_isDigit c _ hc (by decide)),
    if_neg (ne_of_isDigit c _ hc (by decide)), if_neg (ne_of_isDigit c _ hc (by decide)),
    if_neg (ne_of_isDigit c _ hc (by decide)), if_neg (ne_of_isDigit c _ hc (by decide)),
    if_neg (ne_of_isDigit c _ hc (by decide)), if_neg (ne_of_isDigit c _ hc (by decide)),
    if_neg (ne_of_isDigit c _ hc (by decide)), if_neg (ne_of_isDigit c _ hc (by decide)),
    if_neg (ne_of_isDigit c _ hc (by decide)), isLetter_of_isDigit c hc, if_neg (by decide),
    if_pos hc, readNumber_atPos]

/-- The letters and underscores at the current position are read as one token. -/
theorem nextToken_word (s : List Char) (i : Nat) (c : Char) (rest : List Char)
    (hd : s.drop i = c :: rest) (hc : isLetter c = true) :
    nextToken (atPos s i) =
      ({ type := lookupIdent (String.mk ((s.drop i).takeWhile isLetter)),
         literal := String.mk ((s.drop i).takeWhile isLetter) },
        atPos s (i + ((s.drop i).takeWhile isLetter).length)) := by
  refine nextToken_letters s i _ ((s.drop i).dropWhile isLetter)
    (List.takeWhile_append_dropWhile isLetter (s.drop i)).symm ?_
    (fun x hx => List.mem_takeWhile_imp hx) (dropWhile_head isLetter _)
  rw [hd, List.takeWhile_cons, hc]
  simp

/-- A character that is no white space and for which `nextToken` has no case is read as
the token `ILLEGAL`. -/
theorem nextToken_illegal (s : List Char) (i : Nat) (c : Char) (rest : List Char)
    (hd : s.drop i = c :: rest) (hs : isSpace c = false) (hp : c ∉ punctuation)
    (hl : isLetter c = false) (hdg : isDigit c = false) (hn : c ≠ NUL) :
    nextToken (atPos s i) = (newToken TokenType.ILLEGAL c, atPos s (i + 1)) := by
  have hch : (atPos s i).ch = c := atPos_ch_cons s i c rest hd
  have hskip : skipWhitespace (atPos s i) = atPos s i :=
    skipWhitespace_none s i (by rw [hch]; exact hs)
  simp only [punctuation, List.mem_cons, List.mem_singleton, List.not_mem_nil, or_false,
    not_or] at hp
  obtain ⟨p1, p2, p3, p4, p5, p6, p7, p8, p9, p10, p11, p12, p13, p14⟩ := hp
  unfold nextToken
  simp only [hskip, hch]
  rw [if_neg p1, if_neg p2, if_neg p3, if_neg p4, if_neg p5, if_neg p6, if_neg p7, if_neg p8,
    if_neg p9, if_neg p10, if_neg p11, if_neg p12, if_neg p13, if_neg p14, if_neg hn, hl,
    if_neg (by decide), hdg, if_neg (by decide)]
  rfl

theorem isSpace_iff (c : Char) : isSpace c = true ↔ c ∈ whitespace := by
  have key : ∀ n : Nat, c.toNat = n → c = Char.ofNat n := by
    intro n e
    rw [← e, Char.ofNat_toNat]
  simp only [isSpace, Bool.or_eq_true, decide_eq_true_eq, Bool.and_eq_true, whitespace,
    List.mem_cons, List.mem_singleton, List.not_mem_nil, or_false]
  constructor
  · intro h
    have : c.toNat = 32 ∨ c.toNat = 9 ∨ c.toNat = 10 ∨ c.toNat = 11 ∨ c.toNat = 12 ∨
        c.toNat = 13 := by omega
    rcases this with e | e | e | e | e | e
    · exact Or.inl (key _ e)
    · exact Or.inr (Or.inl (key _ e))
    · exact Or.inr (Or.inr (Or.inl (key _ e)))
    · exact Or.inr (Or.inr (Or.inr (Or.inl (key _ e))))
    · exact Or.inr (Or.inr (Or.inr (Or.inr (Or.inl (key _ e)))))
    · exact Or.inr (Or.inr (Or.inr (Or.inr (Or.inr (key _ e)))))
  · intro h
    rcases h with rfl | rfl | rfl | rfl | rfl | rfl <;> decide

theorem lookupIdent_of_not_keyword (t : String) (h : t ∉ keywords) :
    lookupIdent t = TokenType.IDENT := by
  simp only [keywords, List.mem_cons, List.mem_singleton, List.not_mem_nil, or_false,
    not_or] at h
  obtain ⟨h1, h2, h3, h4, h5, h6, h7⟩ := h
  simp only [lookupIdent, if_neg h1, if_neg h2, if_neg h3, if_neg h4, if_neg h5, if_neg h6,
    if_neg h7]

end Lexer

end lexer
namespace Spec

open token lexer

/-- C23. When the current character is a letter or an underscore, `nextToken` reads the
longest run of letters and underscores that starts there (a digit ends the run) and
returns a token whose literal is that text and whose kind is `lookupIdent` of the text:
`IDENT` for a text that is none of `fn`, `let`, `true`, `false`, `if`, `else`,
`return`, and the kind of the keyword for these seven. When the current character is a
digit it reads the longest run of digits and returns `INT` with that text. The input
`foo1` is read as `IDENT` `foo`, `INT` `1`, `EOF`. -/
theorem C23_identifiers_and_numbers (s : List Char) (i : Nat) (c : Char) (rest : List Char)
    (hd : s.drop i = c :: rest) :
    (isLetter c = true →
      Lexer.nextToken (Lexer.atPos s i) =
        ({ type := lookupIdent (String.mk ((s.drop i).takeWhile isLetter)),
           literal := String.mk ((s.drop i).takeWhile isLetter) },
          Lexer.atPos s (i + ((s.drop i).takeWhile isLetter).length))) ∧
    (isDigit c = true →
      Lexer.nextToken (Lexer.atPos s i) =
        ({ type := TokenType.INT, literal := String.mk ((s.drop i).takeWhile isDigit) },
          Lexer.atPos s (i + ((s.drop i).takeWhile isDigit).length))) ∧
    (∀ t : String, t ∉ keywords → lookupIdent t = TokenType.IDENT) ∧
    keywords.map lookupIdent =
      [TokenType.FUNCTION, TokenType.LET, TokenType.TRUE, TokenType.FALSE, TokenType.IF,
        TokenType.ELSE, TokenType.RETURN] ∧
    (∀ x : Char, isDigit x = true → isLetter x = false) ∧
    Lexer.tokens 3 (Lexer.new "foo1".toList) =
      [{ type := TokenType.IDENT, literal := "foo" }, { type := TokenType.INT, literal := "1" },
        { type := TokenType.EOF_TOKEN, literal := "" }] := by
  refine ⟨Lexer.nextToken_word s i c rest hd, Lexer.nextToken_digits s i c rest hd,
    Lexer.lookupIdent_of_not_keyword, by decide, Lexer.isLetter_of_isDigit, by decide!⟩

/-- Witness of C23: the input `let1 x`, read from its first character, and the input
`12ab`. -/
theorem C23_identifiers_and_numbers_witness :
    "let1 x".toList.drop 0 = 'l' :: "et1 x".toList ∧ isLetter 'l' = true ∧
      Lexer.nextToken (Lexer.atPos "let1 x".toList 0) =
        ({ type := TokenType.LET, literal := "let" }, Lexer.atPos "let1 x".toList 3) ∧
      "12ab".toList.drop 0 = '1' :: "2ab".toList ∧ isDigit '1' = true ∧
      Lexer.nextToken (Lexer.atPos "12ab".toList 0) =
        ({ type := TokenType.INT, literal := "12" }, Lexer.atPos "12ab".toList 2) :=
  have h1 : "let1 x".toList.drop 0 = 'l' :: "et1 x".toList := rfl
  have h2 : isLetter 'l' = true := by decide
  have h3 : "12ab".toList.drop 0 = '1' :: "2ab".toList := rfl
  have h4 : isDigit '1' = true := by decide
  ⟨h1, h2, (C23_identifiers_and_numbers _ 0 _ _ h1).1 h2,
    h3, h4, (C23_identifiers_and_numbers _ 0 _ _ h3).2.1 h4⟩

/-- C25, as stated, fails for form feed and vertical tab: neither is a punctuation
character, a letter, a digit or the byte 0, and yet `nextToken` skips both as white
space: the inputs made of a form feed or a vertical tab before `a` are read as `IDENT`
`a`, not as an `ILLEGAL` token. -/
theorem C25_form_feed_skipped :
    '\x0c' ∉ punctuation ∧ isLetter '\x0c' = false ∧ isDigit '\x0c' = false ∧ '\x0c' ≠ NUL ∧
      '\x0b' ∉ punctuation ∧ isLetter '\x0b' = false ∧ isDigit '\x0b' = false ∧ '\x0b' ≠ NUL ∧
      (Lexer.nextToken (Lexer.new ['\x0c', 'a'])).1 =
        { type := TokenType.IDENT, literal := "a" } ∧
      (Lexer.nextToken (Lexer.new ['\x0b', 'a'])).1 =
        { type := TokenType.IDENT, literal := "a" } := by
  decide

/-- C25, amended. The lexer skips the characters for which `std::isspace` holds, which
are six: space, tab, line feed, vertical tab, form feed and carriage return; `nextToken`
starts behind the longest run of them. For every other character `c` that is no
punctuation character, no letter or underscore, no digit and not the byte 0, when `c`
is the current character `nextToken` returns the token `ILLEGAL` whose literal is `c`
alone and moves on by one character. -/
theorem C25_whitespace_and_illegal (s : List Char) (i : Nat) (c : Char) (rest : List Char)
    (hd : s.drop i = c :: rest) (hs : c ∉ whitespace) (hp : c ∉ punctuation)
    (hl : isLetter c = false) (hdg : isDigit c = false) (hn : c ≠ NUL) :
    Lexer.nextToken (Lexer.atPos s i) =
        (newToken TokenType.ILLEGAL c, Lexer.atPos s (i + 1)) ∧
      (∀ x : Char, isSpace x = true ↔ x ∈ whitespace) ∧
      (∀ j : Nat, Lexer.skipWhitespace (Lexer.atPos s j) =
        Lexer.atPos s (j + ((s.drop j).takeWhile isSpace).length)) ∧
      (∀ j : Nat, Lexer.nextToken (Lexer.atPos s j) =
        Lexer.nextToken (Lexer.atPos s (j + ((s.drop j).takeWhile isSpace).length))) := by
  have hs1 : isSpace c = false := by
    cases h : isSpace c with
    | false => rfl
    | true => exact absurd ((Lexer.isSpace_iff c).mp h) hs
  exact ⟨Lexer.nextToken_illegal s i c rest hd hs1 hp hl hdg hn, Lexer.isSpace_iff,
    Lexer.skipWhitespace_atPos s, Lexer.nextToken_skip s⟩

/-- Witness of the amended C25: the character `@` in the input `a @`. -/
theorem C25_whitespace_and_illegal_witness :
    "a @".toList.drop 2 = '@' :: [] ∧ '@' ∉ whitespace ∧ '@' ∉ punctuation ∧
      isLetter '@' = false ∧ isDigit '@' = false ∧ '@' ≠ NUL ∧
      Lexer.nextToken (Lexer.atPos "a @".toList 2) =
        (newToken TokenType.ILLEGAL '@', Lexer.atPos "a @".toList 3) :=
  have h1 : "a @".toList.drop 2 = '@' :: [] := rfl
  have h2 : '@' ∉ whitespace := by decide
  have h3 : '@' ∉ punctuation := by decide
  have h4 : isLetter '@' = false := by decide
  have h5 : isDigit '@' = false := by decide
  have h6 : '@' ≠ NUL := by decide
  ⟨h1, h2, h3, h4, h5, h6, (C25_whitespace_and_illegal _ 2 '@' [] h1 h2 h3 h4 h5 h6).1⟩

end Spec
namespace lexer

open token

namespace Lexer

/-- What `nextToken` reads where only white space is left: `EOF`. -/
theorem nextToken_of_space (s : List Char) (i : Nat)
    (hsp : ∀ c ∈ s.drop i, isSpace c = true) :
    nextToken (atPos s i) =
      ({ type := TokenType.EOF_TOKEN, literal := "" }, atPos s (s.length + 1)) ∨
    nextToken (atPos s i) = ({ type := TokenType.EOF_TOKEN, literal := "" }, atPos s (i + 1)) := by
  have htw : (s.drop i).takeWhile isSpace = s.drop i := List.takeWhile_eq_self_iff.mpr hsp
  rw [nextToken_skip, htw, List.length_drop]
  by_cases hi : i ≤ s.length
  · left
    have e : i + (s.length - i) = s.length := by omega
    rw [e]
    exact nextToken_end s s.length (List.drop_length s)
  · right
    have e : i + (s.length - i) = i := by omega
    rw [e]
    exact nextToken_end s i (List.drop_of_length_le (by omega))

theorem eq_atPos_of_consistent (l : Lexer) (h : Consistent l) :
    l = atPos l.input l.position := by
  obtain ⟨input, position, readPosition, ch⟩ := l
  obtain ⟨h1, h2⟩ := h
  simp only at h1 h2
  simp only [atPos, h1, h2]

/-- Every lexer reached by calls of `nextToken` is the lexer at some position. -/
theorem afterCalls_atPos (s : List Char) (k i : Nat) :
    ∃ p, afterCalls k (atPos s i) = atPos s p ∧ i + k ≤ p := by
  obtain ⟨a, b, c⟩ := afterCalls_spec k (atPos s i) (by simp [Consistent, atPos])
  refine ⟨(afterCalls k (atPos s i)).position, ?_, c⟩
  have := eq_atPos_of_consistent _ a
  rw [b] at this
  exact this

theorem afterCalls_add (m : Nat) : ∀ (k : Nat) (l : Lexer),
    afterCalls (k + m) l = afterCalls m (afterCalls k l) := by
  intro k
  induction k with
  | zero => intro l; rw [Nat.zero_add]; rfl
  | succ k ih =>
    intro l
    have e : k + 1 + m = (k + m) + 1 := by omega
    rw [e, afterCalls, ih, afterCalls]

/-- In an input without the byte 0, `nextToken` returns `EOF` only where nothing but
white space is left. -/
theorem space_of_eof (s : List Char) (hnul : ∀ c ∈ s, c ≠ NUL) (i : Nat)
    (he : (nextToken (atPos s i)).1.type = TokenType.EOF_TOKEN) :
    ∀ c ∈ s.drop i, isSpace c = true := by
  have hd : s.drop i = (s.drop i).takeWhile isSpace ++ (s.drop i).dropWhile isSpace :=
    (List.takeWhile_append_dropWhile isSpace (s.drop i)).symm
  cases hr : (s.drop i).dropWhile isSpace with
  | nil =>
    intro c hc
    rw [hd, hr, List.append_nil] at hc
    exact List.mem_takeWhile_imp hc
  | cons c r =>
    exfalso
    have hdj := drop_takeWhile_length isSpace s i
    rw [hr] at hdj
    have hmem : c ∈ s := List.mem_of_mem_drop (by rw [hdj]; exact List.mem_cons_self c r)
    rw [nextToken_skip] at he
    exact (nextToken_text s _ c r hdj (dropWhile_head isSpace _ c r hr) (hnul c hmem)).1 he

theorem tokensBeforeEOF_succ (n : Nat) (l : Lexer) :
    tokensBeforeEOF (n + 1) l =
      if (nextToken l).1.type = TokenType.EOF_TOKEN then []
      else (nextToken l).1 :: tokensBeforeEOF n (nextToken l).2 := by
  unfold tokensBeforeEOF
  rw [tokens, List.takeWhile_cons]
  by_cases h : (nextToken l).1.type = TokenType.EOF_TOKEN
  · simp [h]
  · simp [h]

/-- The literals of the tokens read before the first `EOF` are the rest of the input
without its white space, in an input without the byte 0. -/
theorem literals_tokensBeforeEOF (s : List Char) (hnul : ∀ c ∈ s, c ≠ NUL) :
    ∀ (n i : Nat), s.length < i + n →
      literals (tokensBeforeEOF n (atPos s i)) = (s.drop i).filter (fun c => !isSpace c) := by
  intro n
  induction n with
  | zero =>
    intro i hlen
    rw [List.drop_of_length_le (by omega)]
    rfl
  | succ n ih =>
    intro i hlen
    have hd : s.drop i = (s.drop i).takeWhile isSpace ++ (s.drop i).dropWhile isSpace :=
      (List.takeWhile_append_dropWhile isSpace (s.drop i)).symm
    have hws : ((s.drop i).takeWhile isSpace).filter (fun c => !isSpace c) = [] := by
      rw [List.filter_eq_nil_iff]
      intro c hc
      simp [List.mem_takeWhile_imp hc]
    have hdj := drop_takeWhile_length isSpace s i
    cases hr : (s.drop i).dropWhile isSpace with
    | nil =>
      have he : (nextToken (atPos s i)).1.type = TokenType.EOF_TOKEN := by
        rw [nextToken_skip, nextToken_end s _ (by rw [hdj, hr])]
      rw [tokensBeforeEOF_succ, if_pos he, hd, hr, List.append_nil, hws]
      rfl
    | cons c r =>
      rw [hr] at hdj
      have hmem : c ∈ s := List.mem_of_mem_drop (by rw [hdj]; exact List.mem_cons_self c r)
      obtain ⟨h1, m, h2, h3, h4, h5, h6⟩ := nextToken_text s _ c r hdj
        (dropWhile_head isSpace _ c r hr) (hnul c hmem)
      rw [← nextToken_skip] at h1 h4 h5
      rw [tokensBeforeEOF_succ, if_neg h1, literals, h4, h5, ih _ (by omega)]
      rw [hr, ← hdj] at hd
      generalize (s.drop i).takeWhile isSpace = tw at hd hws h5 h6 ⊢
      have hsplit : s.drop (i + tw.length) =
          (s.drop (i + tw.length)).take m ++ s.drop (i + tw.length + m) := by
        have := (List.take_append_drop m (s.drop (i + tw.length))).symm
        rwa [List.drop_drop] at this
      have hkeep : ((s.drop (i + tw.length)).take m).filter (fun c => !isSpace c) =
          (s.drop (i + tw.length)).take m := by
        rw [List.filter_eq_self]
        intro x hx
        simp [h6 x hx]
      have e := congrArg (List.filter fun c => !isSpace c) hd
      rw [e, List.filter_append, hws, List.nil_append]
      have e2 := congrArg (List.filter fun c => !isSpace c) hsplit
      rw [e2, List.filter_append, hkeep]

/-- At the end of the input every call of `nextToken` moves the cursors by one. -/
theorem afterCalls_at_end (s : List Char) : ∀ (k i : Nat), s.drop i = [] →
    afterCalls k (atPos s i) = atPos s (i + k) := by
  intro k
  induction k with
  | zero => intro i _; rfl
  | succ k ih =>
    intro i hd
    rw [afterCalls, nextToken_end s i hd]
    show afterCalls k (atPos s (i + 1)) = _
    rw [ih (i + 1) (drop_succ_of_nil s i hd)]
    congr 1
    omega

/-- The cursors only grow: where they are values of an `int` after some calls of
`nextToken`, they were so after fewer calls. -/
theorem inRange_of_later (l : Lexer) (hc : Consistent l) (j d : Nat)
    (h : InRange (afterCalls (j + d) l)) : InRange (afterCalls j l) := by
  obtain ⟨a, _, _⟩ := afterCalls_spec j l hc
  obtain ⟨a1, _, c1⟩ := afterCalls_spec d (afterCalls j l) a
  rw [← afterCalls_add] at a1 c1
  have e1 := a.1
  have e2 := a1.1
  obtain ⟨h1, h2⟩ := h
  constructor <;> omega

end Lexer

end lexer
namespace Spec

open token lexer

/-- C24. For every input without the byte 0 (every ASCII text without it among them),
the literals of the tokens that `nextToken` returns before the first `EOF`, put one
after the other, are the input without its white space: no character is dropped,
doubled or changed. The first `EOF` comes with one of the first `length + 1` calls. The
input `a == b != c` gives `a==b!=c`. -/
theorem C24_literals_verbatim (s : List Char) (hnul : ∀ c ∈ s, c ≠ NUL) :
    literals (Lexer.tokensBeforeEOF (s.length + 1) (Lexer.new s)) =
        s.filter (fun c => !isSpace c) ∧
      Lexer.nthToken (Lexer.new s) s.length = { type := TokenType.EOF_TOKEN, literal := "" } ∧
      literals (Lexer.tokensBeforeEOF 12 (Lexer.new "a == b != c".toList)) =
        "a==b!=c".toList := by
  refine ⟨?_, ?_, by decide!⟩
  · exact Lexer.literals_tokensBeforeEOF s hnul (s.length + 1) 0 (by omega)
  · obtain ⟨a, b, c⟩ := Lexer.afterCalls_spec s.length (Lexer.new s) (Lexer.new_consistent s)
    apply Lexer.nextToken_at_end _ a
    rw [b]
    have : (Lexer.new s).input = s := rfl
    rw [this]
    omega

/-- Witness of C24: the input `x !=y`. -/
theorem C24_literals_verbatim_witness :
    (∀ c ∈ "x !=y".toList, c ≠ NUL) ∧
      literals (Lexer.tokensBeforeEOF ("x !=y".toList.length + 1) (Lexer.new "x !=y".toList)) =
        "x!=y".toList :=
  have h : ∀ c ∈ "x !=y".toList, c ≠ NUL := by decide
  ⟨h, (C24_literals_verbatim "x !=y".toList h).1⟩

/-- C26, as stated, fails for an input with the byte 0 before its end: of the input
`a`, byte 0, `b` the calls of `nextToken` return `IDENT` `a`, `EOF`, `IDENT` `b`, `EOF`:
the first `EOF` comes before the last token and the call after it returns no `EOF`. It
also fails for the calls beyond the range of the `int` cursors: on the input `a` the
second call returns `EOF`, every call moves `readPosition` by one, after 2147483646
calls it holds `INT_MAX`, and the next call increments it once more, to a value that is
none of an `int`. -/
theorem C26_eof_at_nul_byte :
    Lexer.tokens 4 (Lexer.new ['a', NUL, 'b']) =
      [{ type := TokenType.IDENT, literal := "a" }, { type := TokenType.EOF_TOKEN, literal := "" },
        { type := TokenType.IDENT, literal := "b" },
        { type := TokenType.EOF_TOKEN, literal := "" }] ∧
      Lexer.nthToken (Lexer.new ['a']) 1 = { type := TokenType.EOF_TOKEN, literal := "" } ∧
      (Lexer.afterCalls 2147483646 (Lexer.new ['a'])).readPosition = Lexer.INT_MAX ∧
      (Lexer.afterCalls 2147483647 (Lexer.new ['a'])).readPosition = Lexer.INT_MAX + 1 ∧
      ¬Lexer.InRange (Lexer.afterCalls 2147483647 (Lexer.new ['a'])) := by
  have h1 : Lexer.afterCalls 1 (Lexer.new ['a']) = Lexer.atPos ['a'] 1 := rfl
  have h2 : ∀ k, Lexer.afterCalls (1 + k) (Lexer.new ['a']) = Lexer.atPos ['a'] (1 + k) := by
    intro k
    rw [Lexer.afterCalls_add, h1]
    exact Lexer.afterCalls_at_end ['a'] k 1 rfl
  have e1 := h2 2147483645
  have e2 := h2 2147483646
  refine ⟨by decide, by decide, ?_, ?_, ?_⟩
  · rw [show (2147483646 : Nat) = 1 + 2147483645 from rfl, e1]
    rfl
  · rw [show (2147483647 : Nat) = 1 + 2147483646 from rfl, e2]
    rfl
  · rw [show (2147483647 : Nat) = 1 + 2147483646 from rfl, e2]
    intro h
    exact absurd h.2 (by decide)

/-- C26, amended. For every input without the byte 0: when a call of `nextToken`
returns `EOF`, nothing but white space is left in the input from the position of the
lexer before that call, and that call and every later call that leaves the cursors in
the range of `int` return `EOF` with the empty literal; the calls before such a call
leave the cursors in that range too. -/
theorem C26_eof_absorbing (s : List Char) (hnul : ∀ c ∈ s, c ≠ NUL) (k : Nat)
    (hk : (Lexer.nthToken (Lexer.new s) k).type = TokenType.EOF_TOKEN) :
    (∀ c ∈ s.drop (Lexer.afterCalls k (Lexer.new s)).position, isSpace c = true) ∧
      ∀ m : Nat, k ≤ m → Lexer.InRange (Lexer.afterCalls (m + 1) (Lexer.new s)) →
        Lexer.nthToken (Lexer.new s) m = { type := TokenType.EOF_TOKEN, literal := "" } ∧
          ∀ j, j ≤ m + 1 → Lexer.InRange (Lexer.afterCalls j (Lexer.new s)) := by
  obtain ⟨p, hp, _⟩ := Lexer.afterCalls_atPos s k 0
  rw [← Lexer.new_eq_atPos] at hp
  have hsp : ∀ c ∈ s.drop p, isSpace c = true := by
    apply Lexer.space_of_eof s hnul p
    rw [← hp]
    exact hk
  refine ⟨by rw [hp]; exact hsp, ?_⟩
  intro m hm hr
  refine ⟨?_, ?_⟩
  · obtain ⟨q, hq, hle⟩ := Lexer.afterCalls_atPos s (m - k) p
    have hm2 : Lexer.afterCalls m (Lexer.new s) = Lexer.atPos s q := by
      have e : m = k + (m - k) := by omega
      rw [e, Lexer.afterCalls_add, hp, hq]
    have hsq : ∀ c ∈ s.drop q, isSpace c = true := by
      intro c hc
      have e : s.drop q = (s.drop p).drop (q - p) := by
        rw [List.drop_drop]
        congr 1
        omega
      rw [e] at hc
      exact hsp c (List.mem_of_mem_drop hc)
    show (Lexer.nextToken (Lexer.afterCalls m (Lexer.new s))).1 = _
    rw [hm2]
    rcases Lexer.nextToken_of_space s q hsq with e | e <;> rw [e]
  · intro j hj
    have e : m + 1 = j + (m + 1 - j) := by omega
    rw [e] at hr
    exact Lexer.inRange_of_later _ (Lexer.new_consistent s) j _ hr

/-- Witness of the amended C26: the input `a ` and its second and third call of
`nextToken`. -/
theorem C26_eof_absorbing_witness :
    (∀ c ∈ "a ".toList, c ≠ NUL) ∧
      (Lexer.nthToken (Lexer.new "a ".toList) 1).type = TokenType.EOF_TOKEN ∧
      Lexer.InRange (Lexer.afterCalls 3 (Lexer.new "a ".toList)) ∧
      Lexer.nthToken (Lexer.new "a ".toList) 2 =
        { type := TokenType.EOF_TOKEN, literal := "" } :=
  have h : ∀ c ∈ "a ".toList, c ≠ NUL := by decide
  have hk : (Lexer.nthToken (Lexer.new "a ".toList) 1).type = TokenType.EOF_TOKEN := by decide
  have hr : Lexer.InRange (Lexer.afterCalls 3 (Lexer.new "a ".toList)) := by
    constructor <;> decide
  ⟨h, hk, hr, ((C26_eof_absorbing "a ".toList h 1 hk).2 2 (by decide) hr).1⟩

end Spec
namespace Spec

open token lexer

/-- C10, as stated, fails for the calls beyond the range of the `int` cursors: on the
empty input every call of `nextToken` returns `EOF` and moves `readPosition` by one;
after 2147483646 calls it holds `INT_MAX`, and call number 2147483647 increments it once
more, to a value that is none of an `int`, so that this call and the later ones have no
defined result in the source. -/
theorem C10_cursor_overflow :
    (Lexer.afterCalls 2147483646 (Lexer.new [])).readPosition = Lexer.INT_MAX ∧
      (Lexer.afterCalls 2147483647 (Lexer.new [])).readPosition = Lexer.INT_MAX + 1 ∧
      ¬Lexer.InRange (Lexer.afterCalls 2147483647 (Lexer.new [])) := by
  have h : ∀ k, Lexer.afterCalls k (Lexer.new []) = Lexer.atPos [] (0 + k) := fun k =>
    Lexer.afterCalls_at_end [] k 0 rfl
  refine ⟨?_, ?_, ?_⟩
  · rw [h]
    rfl
  · rw [h]
    rfl
  · rw [h]
    intro hr
    exact absurd hr.2 (by decide)

/-- C10, amended (lexer totality within the range of the cursors). For every input,
call number `input.length + 1` of `nextToken` and every later call that leaves the
cursors in the range of `int` return the `EOF` token with the empty literal
(`nthToken l m` is the token returned by call number `m + 1`); the calls before such a
call leave the cursors in that range too. -/
theorem C10_lexer_totality (input : List Char) (m : Nat) (hm : input.length ≤ m)
    (hr : Lexer.InRange (Lexer.afterCalls (m + 1) (Lexer.new input))) :
    Lexer.nthToken (Lexer.new input) m = { type := TokenType.EOF_TOKEN, literal := "" } ∧
      ∀ j, j ≤ m + 1 → Lexer.InRange (Lexer.afterCalls j (Lexer.new input)) := by
  refine ⟨?_, ?_⟩
  · obtain ⟨a, b, c⟩ := Lexer.afterCalls_spec m (Lexer.new input) (Lexer.new_consistent input)
    apply Lexer.nextToken_at_end _ a
    rw [b]
    have : (Lexer.new input).input = input := rfl
    rw [this]
    omega
  · intro j hj
    have e : m + 1 = j + (m + 1 - j) := by omega
    rw [e] at hr
    exact Lexer.inRange_of_later _ (Lexer.new_consistent input) j _ hr

/-- Witness of the amended C10: the input `ab` and its third and fifth call of
`nextToken`. -/
theorem C10_lexer_totality_witness :
    "ab".toList.length ≤ 2 ∧ Lexer.InRange (Lexer.afterCalls 3 (Lexer.new "ab".toList)) ∧
      Lexer.nthToken (Lexer.new "ab".toList) 2 =
        { type := TokenType.EOF_TOKEN, literal := "" } ∧
      Lexer.InRange (Lexer.afterCalls 5 (Lexer.new "ab".toList)) ∧
      Lexer.nthToken (Lexer.new "ab".toList) 4 =
        { type := TokenType.EOF_TOKEN, literal := "" } :=
  have h1 : "ab".toList.length ≤ 2 := by decide
  have h2 : Lexer.InRange (Lexer.afterCalls 3 (Lexer.new "ab".toList)) := by
    constructor <;> decide
  have h3 : Lexer.InRange (Lexer.afterCalls 5 (Lexer.new "ab".toList)) := by
    constructor <;> decide
  ⟨h1, h2, (C10_lexer_totality "ab".toList 2 h1 h2).1, h3,
    (C10_lexer_totality "ab".toList 4 (by decide) h3).1⟩

end Spec
namespace Spec

open token lexer ast parser

/-- C27 does not hold of the code: `fn(1) { 1 }` and `fn(true) { 1 }` parse with an
empty error list, and the parameter of the function literal is an Identifier built from
the token `INT` `1` and from the token `TRUE` `true`. A let statement whose name is no
`IDENT`, `let 1 = 1;`, is rejected with an error. -/
theorem C27_parameter_kind_unchecked :
    (parseSource 50 "fn(1) \x7b 1 \x7d").map
        (fun r => (firstFunctionParameters r.1, r.2.errors)) =
        some (some [{ token := { type := TokenType.INT, literal := "1" }, value := "1" }], []) ∧
      (parseSource 50 "fn(true) \x7b 1 \x7d").map
        (fun r => (firstFunctionParameters r.1, r.2.errors)) =
        some (some [{ token := { type := TokenType.TRUE, literal := "true" }, value := "true" }],
          []) ∧
      (parseSource 50 "let 1 = 1;").map (fun r => r.2.errors) =
        some ["expected next token to be IDENT, got INT instead.",
          "no prefix parse function found for ASSIGN"] := by
  decide!

end Spec
namespace lexer

open token

namespace Lexer

theorem ReadsAll.append : ∀ (ts us : List Token) (a b c : List Char),
    ReadsAll a ts b → ReadsAll b us c → ReadsAll a (ts ++ us) c := by
  intro ts
  induction ts with
  | nil =>
    intro us a b c h1 h2
    have e : a = b := h1
    rw [List.nil_append, e]
    exact h2
  | cons t ts ih =>
    intro us a b c h1 h2
    obtain ⟨mid, r1, r2⟩ := h1
    exact ⟨mid, r1, ih us mid b c r2 h2⟩

theorem ReadsAll.single (a b : List Char) (t : Token) (h : Reads a t b) : ReadsAll a [t] b :=
  ⟨b, h, rfl⟩

/-- A blank before the first of the tokens is skipped. -/
theorem ReadsAll.blank (c : Char) (m : List Char) (t : Token) (ts : List Token)
    (b : List Char) (hc : isSpace c = false) (h : ReadsAll (c :: m) (t :: ts) b) :
    ReadsAll (' ' :: c :: m) (t :: ts) b := by
  obtain ⟨mid, r1, r2⟩ := h
  exact ⟨mid, reads_blank c m t mid hc r1, r2⟩

theorem takeWhile_append_of (pred : Char → Bool) (w rest : List Char)
    (hw : ∀ c ∈ w, pred c = true) (hrest : ∀ c r, rest = c :: r → pred c = false) :
    (w ++ rest).takeWhile pred = w := by
  induction w with
  | nil =>
    cases rest with
    | nil => rfl
    | cons c r => rw [List.nil_append, List.takeWhile_cons, hrest c r rfl]; rfl
  | cons x w ih =>
    rw [List.cons_append, List.takeWhile_cons, hw x (List.mem_cons_self _ _)]
    simp only [if_true]
    rw [ih (fun c hc => hw c (List.mem_cons_of_mem _ hc))]

/-- A run of digits is read as one token `INT`. -/
theorem reads_digits (w rest : List Char) (hne : w ≠ []) (hw : ∀ c ∈ w, isDigit c = true)
    (hrest : ∀ c r, rest = c :: r → isDigit c = false) :
    Reads (w ++ rest) { type := TokenType.INT, literal := String.mk w } rest := by
  intro s i hd
  obtain ⟨c, w1, rfl⟩ : ∃ c w1, w = c :: w1 := by
    cases w with
    | nil => exact absurd rfl hne
    | cons c w1 => exact ⟨c, w1, rfl⟩
  have h := nextToken_digits s i c (w1 ++ rest) hd (hw c (List.mem_cons_self _ _))
  rw [hd, takeWhile_append_of isDigit (c :: w1) rest hw hrest] at h
  exact ⟨_, h, drop_add_of_append s i (c :: w1) rest hd⟩

/-- A run of letters is read as one token, of the kind `lookupIdent` gives. -/
theorem reads_letters (w rest : List Char) (hne : w ≠ []) (hw : ∀ c ∈ w, isLetter c = true)
    (hrest : ∀ c r, rest = c :: r → isLetter c = false) :
    Reads (w ++ rest) { type := lookupIdent (String.mk w), literal := String.mk w } rest := by
  intro s i hd
  exact ⟨_, nextToken_letters s i w rest hd hne hw hrest, drop_add_of_append s i w rest hd⟩

/-- The character `!` before a character other than `=` is read as `BANG`. -/
theorem reads_bang (c : Char) (r : List Char) (hc : c ≠ '=') :
    Reads ('!' :: c :: r) { type := TokenType.BANG, literal := "!" } (c :: r) := by
  intro s i hd
  exact ⟨i + 1, nextToken_bang s i c r hd hc, drop_succ_of_cons s i '!' _ hd⟩

end Lexer

end lexer
namespace ast

open token

theorem toString_prefixExpression (tok : Token) (op : String) (r : Expression) :
    (Expression.prefixExpression tok op (some r)).toString =
      match r.toString with
      | some x => some ("(" ++ op ++ x ++ ")")
      | none => none := rfl

theorem toString_infixExpression (tok : Token) (op : String) (l r : Expression) :
    (Expression.infixExpression tok (some l) op (some r)).toString =
      match l.toString, r.toString with
      | some x, some y => some ("(" ++ x ++ " " ++ op ++ " " ++ y ++ ")")
      | _, _ => none := rfl

theorem toString_callExpression (tok : Token) (f : Expression)
    (args : List (Option Expression)) :
    (Expression.callExpression tok (some f) args).toString =
      match f.toString, argumentsToString args with
      | some x, some ys => some (x ++ "(" ++ joinComma ys ++ ")")
      | _, _ => none := rfl

theorem argumentsToString_cons (a : Expression) (rest : List (Option Expression)) :
    argumentsToString (some a :: rest) =
      match a.toString, argumentsToString rest with
      | some s, some ss => some (s :: ss)
      | _, _ => none := rfl

end ast

namespace lexer

theorem StartsExpression.not_space {txt : List Char} (h : StartsExpression txt) :
    ∃ c r, txt = c :: r ∧ isSpace c = false ∧ c ≠ '=' := by
  obtain ⟨c, r, e, hc⟩ := h
  refine ⟨c, r, e, ?_, ?_⟩
  · rcases hc with h1 | h1 | h1
    · exact Lexer.isSpace_of_isLetter c h1
    · exact Lexer.isSpace_of_isDigit c h1
    · rw [h1]; decide
  · rcases hc with h1 | h1 | h1
    · exact Lexer.ne_of_isLetter c _ h1 (by decide)
    · exact Lexer.ne_of_isDigit c _ h1 (by decide)
    · rw [h1]; decide

theorem StartsExpression.append_right {a : List Char} (h : StartsExpression a) (b : List Char) :
    StartsExpression (a ++ b) := by
  obtain ⟨c, r, e, hc⟩ := h
  exact ⟨c, r ++ b, by rw [e]; rfl, hc⟩

theorem boundary_of_cons (c : Char) (r : List Char) (h1 : isLetter c = false)
    (h2 : isDigit c = false) : Boundary (c :: r) := by
  intro d r1 e
  obtain ⟨rfl, _⟩ := List.cons.inj e
  exact ⟨h1, h2⟩

end lexer

namespace parser

open token lexer ast

/-- The left parenthesis, the right parenthesis and the comma are tokens on their
own. -/
theorem reads_paren (rest : List Char) :
    Lexer.Reads ('(' :: rest) lparenToken rest ∧ Lexer.Reads (')' :: rest) rparenToken rest ∧
      Lexer.Reads (',' :: rest) commaToken rest :=
  ⟨Lexer.reads_singleChar '(' TokenType.LPAREN rest (by decide),
    Lexer.reads_singleChar ')' TokenType.RPAREN rest (by decide),
    Lexer.reads_singleChar ',' TokenType.COMMA rest (by decide)⟩

/-- A unary operator before the rendering of an expression. -/
theorem reads_prefixOperator_before (p : Token) (hp : p ∈ prefixOperatorTokens)
    (txt : List Char) (h : StartsExpression txt) :
    Lexer.Reads (p.literal.toList ++ txt) p txt := by
  obtain ⟨c, r, e, _, hne⟩ := h.not_space
  simp only [prefixOperatorTokens, List.mem_cons, List.mem_singleton, List.not_mem_nil,
    or_false] at hp
  rcases hp with h1 | h1 <;> subst h1
  · rw [e]
    exact Lexer.reads_bang c r hne
  · exact Lexer.reads_singleChar '-' TokenType.MINUS _ (by decide)

end parser
namespace parser

open token lexer ast

theorem boundary_rparen (rest : List Char) : Boundary (')' :: rest) :=
  boundary_of_cons ')' rest (by decide) (by decide)

theorem boundary_lparen (rest : List Char) : Boundary ('(' :: rest) :=
  boundary_of_cons '(' rest (by decide) (by decide)

theorem boundary_blank (rest : List Char) : Boundary (' ' :: rest) :=
  boundary_of_cons ' ' rest (by decide) (by decide)

theorem boundary_comma (rest : List Char) : Boundary (',' :: rest) :=
  boundary_of_cons ',' rest (by decide) (by decide)

theorem boundary_nil : Boundary [] := by
  intro c r e
  cases e

/-- The tokens of the rendering, read behind a blank. -/
theorem readsAll_blank (txt : List Char) (hs : StartsExpression txt) (rest : List Char)
    (ts : List Token) (hne : ts ≠ []) (b : List Char)
    (h : Lexer.ReadsAll (txt ++ rest) ts b) : Lexer.ReadsAll (' ' :: (txt ++ rest)) ts b := by
  obtain ⟨c, r, e, hc, _⟩ := hs.not_space
  obtain ⟨t, ts1, rfl⟩ : ∃ t ts1, ts = t :: ts1 := by
    cases ts with
    | nil => exact absurd rfl hne
    | cons t ts1 => exact ⟨t, ts1, rfl⟩
  rw [e] at h ⊢
  exact Lexer.ReadsAll.blank c (r ++ rest) t ts1 b hc h

mutual
/-- The rendering of an expression of the kind `Plain` is read as the tokens
`exprTokens`. -/
theorem plain_text : ∀ e : Expression, Plain e →
    ∃ txt : String, e.toString = some txt ∧ StartsExpression txt.toList ∧ exprTokens e ≠ [] ∧
      ∀ rest, Boundary rest → Lexer.ReadsAll (txt.toList ++ rest) (exprTokens e) rest
  | .identifier id, h => by
    obtain ⟨h1, h2⟩ : id.token = identToken id.value ∧ IsIdentifierName id.value := h
    refine ⟨id.value, rfl, ?_, by simp [exprTokens], ?_⟩
    · cases hn : id.value.toList with
      | nil => exact absurd hn h2.1
      | cons c w =>
        exact ⟨c, w, rfl, Or.inl (h2.2.1 c (by rw [hn]; exact List.mem_cons_self _ _))⟩
    · intro rest hb
      show Lexer.ReadsAll _ [id.token] rest
      rw [h1]
      exact Lexer.ReadsAll.single _ _ _
        (Lexer.reads_identifier id.value rest h2 (fun c r e => (hb c r e).1))
  | .integerLiteral tok v, h => by
    obtain ⟨h1, h2, h3, _⟩ : tok.type = TokenType.INT ∧ tok.literal.toList ≠ [] ∧
      (∀ c ∈ tok.literal.toList, isDigit c = true) ∧
      ∃ n, stoll tok.literal = some n ∧ v = toInt32 n := h
    refine ⟨tok.literal, rfl, ?_, by simp [exprTokens], ?_⟩
    · cases hn : tok.literal.toList with
      | nil => exact absurd hn h2
      | cons c w =>
        exact ⟨c, w, rfl, Or.inr (Or.inl (h3 c (by rw [hn]; exact List.mem_cons_self _ _)))⟩
    · intro rest hb
      show Lexer.ReadsAll _ [tok] rest
      have ht : tok = { type := TokenType.INT, literal := String.mk tok.literal.toList } := by
        obtain ⟨ty, lit⟩ := tok
        simp only at h1
        subst h1
        rfl
      rw [ht]
      exact Lexer.ReadsAll.single _ _ _
        (Lexer.reads_digits _ rest h2 h3 (fun c r e => (hb c r e).2))
  | .boolean tok v, h => by
    have h0 : (tok = trueToken ∧ v = true) ∨ (tok = falseToken ∧ v = false) := h
    refine ⟨tok.literal, rfl, ?_, by simp [exprTokens], ?_⟩
    · rcases h0 with ⟨rfl, _⟩ | ⟨rfl, _⟩
      · exact ⟨'t', "rue".toList, rfl, Or.inl (by decide)⟩
      · exact ⟨'f', "alse".toList, rfl, Or.inl (by decide)⟩
    · intro rest hb
      show Lexer.ReadsAll _ [tok] rest
      rcases h0 with ⟨rfl, _⟩ | ⟨rfl, _⟩
      · exact Lexer.ReadsAll.single _ _ _
          (Lexer.reads_letters "true".toList rest (by decide) (by decide)
            (fun c r e => (hb c r e).1))
      · exact Lexer.ReadsAll.single _ _ _
          (Lexer.reads_letters "false".toList rest (by decide) (by decide)
            (fun c r e => (hb c r e).1))
  | .prefixExpression tok op (some right), h => by
    obtain ⟨h1, h2, h3⟩ : tok ∈ prefixOperatorTokens ∧ op = tok.literal ∧ Plain right := h
    obtain ⟨rt, e1, s1, n1, r1⟩ := plain_text right h3
    refine ⟨"(" ++ op ++ rt ++ ")", by rw [toString_prefixExpression, e1],
      ⟨'(', _, by simp only [String.toList, String.data_append, List.append_assoc]; rfl,
        Or.inr (Or.inr rfl)⟩, by simp [exprTokens], ?_⟩
    intro rest _
    have htxt : ("(" ++ op ++ rt ++ ")").toList ++ rest =
        '(' :: (tok.literal.toList ++ (rt.toList ++ (')' :: rest))) := by
      simp only [String.toList, String.data_append, List.append_assoc, h2]
      rfl
    have htoks : exprTokens (.prefixExpression tok op (some right)) =
        lparenToken :: tok :: (exprTokens right ++ [rparenToken]) := by
      simp only [exprTokens, List.append_assoc, List.cons_append, List.nil_append]
    rw [htxt, htoks]
    refine ⟨_, (reads_paren _).1, _, reads_prefixOperator_before tok h1 _ (s1.append_right _), ?_⟩
    exact Lexer.ReadsAll.append _ _ _ _ _ (r1 _ (boundary_rparen rest))
      (Lexer.ReadsAll.single _ _ _ (reads_paren rest).2.1)
  | .prefixExpression _ _ none, h => False.elim h
  | .infixExpression tok (some left) op (some right), h => by
    obtain ⟨h1, h2, h3, h4⟩ :
      tok ∈ binaryOperatorTokens ∧ op = tok.literal ∧ Plain left ∧ Plain right := h
    obtain ⟨lt, e1, s1, n1, r1⟩ := plain_text left h3
    obtain ⟨rt, e2, s2, n2, r2⟩ := plain_text right h4
    refine ⟨"(" ++ lt ++ " " ++ op ++ " " ++ rt ++ ")",
      by rw [toString_infixExpression, e1, e2],
      ⟨'(', _, by simp only [String.toList, String.data_append, List.append_assoc]; rfl,
        Or.inr (Or.inr rfl)⟩, by simp [exprTokens], ?_⟩
    intro rest _
    have htxt : ("(" ++ lt ++ " " ++ op ++ " " ++ rt ++ ")").toList ++ rest =
        '(' :: (lt.toList ++ (' ' :: (tok.literal.toList ++
          (' ' :: (rt.toList ++ (')' :: rest)))))) := by
      simp only [String.toList, String.data_append, List.append_assoc, h2]
      rfl
    have htoks : exprTokens (.infixExpression tok (some left) op (some right)) =
        lparenToken :: (exprTokens left ++ (tok :: (exprTokens right ++ [rparenToken]))) := by
      simp only [exprTokens, List.append_assoc, List.cons_append, List.nil_append]
    rw [htxt, htoks]
    refine ⟨_, (reads_paren _).1, ?_⟩
    refine Lexer.ReadsAll.append _ _ _ _ _ (r1 _ (boundary_blank _)) ?_
    refine ⟨_, (reads_binaryOperator tok h1 _).2, ?_⟩
    exact Lexer.ReadsAll.append _ _ _ _ _
      (readsAll_blank _ s2 _ _ n2 _ (r2 _ (boundary_rparen rest)))
      (Lexer.ReadsAll.single _ _ _ (reads_paren rest).2.1)
  | .infixExpression _ none _ _, h => False.elim h
  | .infixExpression _ (some _) _ none, h => False.elim h
  | .ifExpression _ _ _ _, h => False.elim h
  | .functionLiteral _ _ _, h => False.elim h
  | .callExpression tok (some function) arguments, h => by
    obtain ⟨h1, h2, h3⟩ :
      tok = lparenToken ∧ Plain function ∧ PlainArguments arguments := h
    obtain ⟨ft, e1, s1, n1, r1⟩ := plain_text function h2
    obtain ⟨ats, e2, _, r2⟩ := plainArguments_text arguments h3
    refine ⟨ft ++ "(" ++ joinComma ats ++ ")", by rw [toString_callExpression, e1, e2],
      ?_, ?_, ?_⟩
    · have := (s1.append_right ("(" ++ joinComma ats ++ ")").toList)
      simpa only [String.toList, String.data_append, List.append_assoc] using this
    · obtain ⟨t, ts, e⟩ : ∃ t ts, exprTokens function = t :: ts := by
        cases hx : exprTokens function with
        | nil => exact absurd hx n1
        | cons t ts => exact ⟨t, ts, rfl⟩
      show exprTokens function ++ [lparenToken] ++ argumentsTokens arguments ++
        [rparenToken] ≠ []
      rw [e]
      simp
    · intro rest _
      have htxt : (ft ++ "(" ++ joinComma ats ++ ")").toList ++ rest =
          ft.toList ++ ('(' :: ((joinComma ats).toList ++ (')' :: rest))) := by
        simp only [String.toList, String.data_append, List.append_assoc]
        rfl
      have htoks : exprTokens (.callExpression tok (some function) arguments) =
          exprTokens function ++ (lparenToken :: (argumentsTokens arguments ++
            [rparenToken])) := by
        simp only [exprTokens, List.append_assoc, List.cons_append, List.nil_append]
      rw [htxt, htoks]
      refine Lexer.ReadsAll.append _ _ _ _ _ (r1 _ (boundary_lparen _)) ?_
      refine ⟨_, (reads_paren _).1, ?_⟩
      exact Lexer.ReadsAll.append _ _ _ _ _ (r2 rest)
        (Lexer.ReadsAll.single _ _ _ (reads_paren rest).2.1)
  | .callExpression _ none _, h => False.elim h
/-- The rendering of the arguments of a call is read as the tokens
`argumentsTokens`. -/
theorem plainArguments_text : ∀ args : List (Option Expression), PlainArguments args →
    ∃ txts : List String, argumentsToString args = some txts ∧
      (args ≠ [] → StartsExpression (joinComma txts).toList ∧ argumentsTokens args ≠ []) ∧
      ∀ rest, Lexer.ReadsAll ((joinComma txts).toList ++ ')' :: rest) (argumentsTokens args)
        (')' :: rest)
  | [], _ => ⟨[], rfl, fun h => absurd rfl h, fun _ => rfl⟩
  | some a :: rest, h => by
    obtain ⟨h1, h2⟩ : Plain a ∧ PlainArguments rest := h
    obtain ⟨at1, e1, s1, n1, r1⟩ := plain_text a h1
    obtain ⟨ats, e2, s2, r2⟩ := plainArguments_text rest h2
    refine ⟨at1 :: ats, by rw [argumentsToString_cons, e1, e2], ?_, ?_⟩
    · intro _
      cases rest with
      | nil =>
        have ha : ats = [] := by
          have : argumentsToString [] = some ats := e2
          cases this
          rfl
        rw [ha]
        exact ⟨s1, n1⟩
      | cons b rest1 =>
        obtain ⟨c, cs, hc⟩ : ∃ c cs, ats = c :: cs := by
          cases ats with
          | nil =>
            have h3 : PlainArguments (b :: rest1) := h2
            cases b with
            | none => exact False.elim h3
            | some b1 =>
              rw [argumentsToString_cons] at e2
              split at e2
              · cases e2
              · cases e2
          | cons c cs => exact ⟨c, cs, rfl⟩
        rw [hc]
        refine ⟨?_, ?_⟩
        · have := s1.append_right (", " ++ joinComma (c :: cs)).toList
          simpa only [joinComma, String.toList, String.data_append, List.append_assoc]
            using this
        · obtain ⟨t, ts, e⟩ : ∃ t ts, exprTokens a = t :: ts := by
            cases hx : exprTokens a with
            | nil => exact absurd hx n1
            | cons t ts => exact ⟨t, ts, rfl⟩
          show exprTokens a ++ [commaToken] ++ argumentsTokens (b :: rest1) ≠ []
          rw [e]
          simp
    · intro tail
      cases rest with
      | nil =>
        have ha : ats = [] := by
          have : argumentsToString [] = some ats := e2
          cases this
          rfl
        rw [ha]
        exact r1 _ (boundary_rparen tail)
      | cons b rest1 =>
        obtain ⟨s3, n3⟩ := s2 (by simp)
        obtain ⟨c, cs, hc⟩ : ∃ c cs, ats = c :: cs := by
          cases ats with
          | nil =>
            obtain ⟨x, y, hxy, _⟩ := s3
            exact absurd hxy (by simp [joinComma])
          | cons c cs => exact ⟨c, cs, rfl⟩
        rw [hc] at r2 s3 ⊢
        have htxt : (joinComma (at1 :: c :: cs)).toList ++ ')' :: tail =
            at1.toList ++ (',' :: ' ' :: ((joinComma (c :: cs)).toList ++ ')' :: tail)) := by
          simp only [joinComma, String.toList, String.data_append, List.append_assoc]
          rfl
        have htoks : argumentsTokens (some a :: b :: rest1) =
            exprTokens a ++ (commaToken :: argumentsTokens (b :: rest1)) := by
          simp only [argumentsTokens, List.append_assoc, List.cons_append, List.nil_append]
        rw [htxt, htoks]
        refine Lexer.ReadsAll.append _ _ _ _ _ (r1 _ (boundary_comma _)) ?_
        refine ⟨_, (reads_paren _).2.2, ?_⟩
        exact readsAll_blank _ s3 _ _ n3 _ (r2 tail)
  | none :: _, h => False.elim h
end

end parser
namespace parser

open token lexer ast

namespace Parser

theorem returns_of_succ {α : Type} (f : Nat → Option α) (r : α)
    (h : ∀ g, f (g + 1) = some r) : Returns f r :=
  ⟨1, fun G hG => by
    obtain ⟨g, rfl⟩ : ∃ g, G = g + 1 := ⟨G - 1, by omega⟩
    exact h g⟩

theorem returns_parseExpression (p : Parser) (prec : Nat) (fn : PrefixParseFn)
    (left : Option Expression) (p1 : Parser) (res : Option Expression × Parser)
    (hfn : prefixParseFns p.curToken.type = some fn)
    (h1 : Returns (fun F => callPrefixParseFn F fn p) (left, p1))
    (h2 : Returns (fun F => parseExpressionLoop F prec left p1) res) :
    Returns (fun F => parseExpression F prec p) res := by
  obtain ⟨F1, f1⟩ := h1
  obtain ⟨F2, f2⟩ := h2
  refine ⟨F1 + F2 + 1, fun G hG => ?_⟩
  obtain ⟨g, rfl⟩ : ∃ g, G = g + 1 := ⟨G - 1, by omega⟩
  have e1 := f1 g (by omega)
  have e2 := f2 g (by omega)
  simp only at e1 e2
  show parseExpression (g + 1) prec p = some res
  rw [parseExpression]
  simp only [hfn, e1, e2]

theorem returns_loop_step (p : Parser) (prec : Nat) (fn : InfixParseFn)
    (left left1 : Option Expression) (p1 : Parser) (res : Option Expression × Parser)
    (hs : p.peekToken.type ≠ TokenType.SEMICOLON) (hlt : prec < p.peekPrecedence)
    (hfn : infixParseFns p.peekToken.type = some fn)
    (h1 : Returns (fun F => callInfixParseFn F fn left p.nextToken) (left1, p1))
    (h2 : Returns (fun F => parseExpressionLoop F prec left1 p1) res) :
    Returns (fun F => parseExpressionLoop F prec left p) res := by
  obtain ⟨F1, f1⟩ := h1
  obtain ⟨F2, f2⟩ := h2
  refine ⟨F1 + F2 + 1, fun G hG => ?_⟩
  obtain ⟨g, rfl⟩ : ∃ g, G = g + 1 := ⟨G - 1, by omega⟩
  have e1 := f1 g (by omega)
  have e2 := f2 g (by omega)
  simp only at e1 e2
  have hcond : (!p.peekTokenIs TokenType.SEMICOLON &&
      decide (prec < p.peekPrecedence)) = true := by
    simp [peekTokenIs, hs, hlt]
  show parseExpressionLoop (g + 1) prec left p = some res
  rw [parseExpressionLoop, hcond]
  simp only [hfn, e1, e2, if_true]

theorem returns_loop_stop (p : Parser) (prec : Nat) (left : Option Expression)
    (hstop : p.peekToken.type = TokenType.SEMICOLON ∨ p.peekPrecedence ≤ prec) :
    Returns (fun F => parseExpressionLoop F prec left p) (left, p) :=
  returns_of_succ _ _ (fun g => parseExpressionLoop_stop g prec left p hstop)

theorem returns_parsePrefixExpression (p p1 : Parser) (right : Option Expression)
    (h1 : Returns (fun F => parseExpression F PREFIX p.nextToken) (right, p1)) :
    Returns (fun F => callPrefixParseFn F PrefixParseFn.parsePrefixExpression p)
      (some (Expression.prefixExpression p.curToken p.curToken.literal right), p1) := by
  obtain ⟨F1, f1⟩ := h1
  refine ⟨F1 + 2, fun G hG => ?_⟩
  obtain ⟨g, rfl⟩ : ∃ g, G = g + 2 := ⟨G - 2, by omega⟩
  have e1 := f1 g (by omega)
  simp only at e1
  simp only [callPrefixParseFn, parsePrefixExpression, e1]

theorem returns_parseGroupedExpression (p p1 : Parser) (exp : Option Expression)
    (h1 : Returns (fun F => parseExpression F LOWEST p.nextToken) (exp, p1))
    (hpk : p1.peekToken.type = TokenType.RPAREN) :
    Returns (fun F => callPrefixParseFn F PrefixParseFn.parseGroupedExpression p)
      (exp, p1.nextToken) := by
  obtain ⟨F1, f1⟩ := h1
  refine ⟨F1 + 2, fun G hG => ?_⟩
  obtain ⟨g, rfl⟩ : ∃ g, G = g + 2 := ⟨G - 2, by omega⟩
  have e1 := f1 g (by omega)
  simp only at e1
  have hx : p1.expectPeek TokenType.RPAREN = (true, p1.nextToken) := by
    simp [expectPeek, peekTokenIs, hpk]
  simp only [callPrefixParseFn, parseGroupedExpression, e1, hx, if_true]

theorem returns_parseInfixExpression (p p1 : Parser) (left right : Option Expression)
    (h1 : Returns (fun F => parseExpression F p.curPrecedence p.nextToken) (right, p1)) :
    Returns (fun F => callInfixParseFn F InfixParseFn.parseInfixExpression left p)
      (some (Expression.infixExpression p.curToken left p.curToken.literal right), p1) := by
  obtain ⟨F1, f1⟩ := h1
  refine ⟨F1 + 2, fun G hG => ?_⟩
  obtain ⟨g, rfl⟩ : ∃ g, G = g + 2 := ⟨G - 2, by omega⟩
  have e1 := f1 g (by omega)
  simp only at e1
  simp only [callInfixParseFn, parseInfixExpression, e1]

theorem returns_parseCallExpression (p p1 : Parser) (function : Option Expression)
    (args : List (Option Expression))
    (h1 : Returns (fun F => parseCallArguments F p) (args, p1)) :
    Returns (fun F => callInfixParseFn F InfixParseFn.parseCallExpression function p)
      (some (Expression.callExpression p.curToken function args), p1) := by
  obtain ⟨F1, f1⟩ := h1
  refine ⟨F1 + 2, fun G hG => ?_⟩
  obtain ⟨g, rfl⟩ : ∃ g, G = g + 2 := ⟨G - 2, by omega⟩
  have e1 := f1 g (by omega)
  simp only at e1
  simp only [callInfixParseFn, parseCallExpression, e1]

theorem returns_parseCallArguments_nil (p : Parser)
    (hpk : p.peekToken.type = TokenType.RPAREN) :
    Returns (fun F => parseCallArguments F p) ([], p.nextToken) :=
  returns_of_succ _ _ (fun g => by
    have hc : p.peekTokenIs TokenType.RPAREN = true := by simp [peekTokenIs, hpk]
    simp only [parseCallArguments, hc, if_true])

theorem returns_parseCallArguments_cons (p p1 p2 : Parser) (arg : Option Expression)
    (args : List (Option Expression)) (hpk : p.peekToken.type ≠ TokenType.RPAREN)
    (h1 : Returns (fun F => parseExpression F LOWEST p.nextToken) (arg, p1))
    (h2 : Returns (fun F => parseCallArgumentsLoop F [arg] p1) (args, p2))
    (hpk2 : p2.peekToken.type = TokenType.RPAREN) :
    Returns (fun F => parseCallArguments F p) (args, p2.nextToken) := by
  obtain ⟨F1, f1⟩ := h1
  obtain ⟨F2, f2⟩ := h2
  refine ⟨F1 + F2 + 1, fun G hG => ?_⟩
  obtain ⟨g, rfl⟩ : ∃ g, G = g + 1 := ⟨G - 1, by omega⟩
  have e1 := f1 g (by omega)
  have e2 := f2 g (by omega)
  simp only at e1 e2
  have hc : p.peekTokenIs TokenType.RPAREN = false := by simp [peekTokenIs, hpk]
  have hx : p2.expectPeek TokenType.RPAREN = (true, p2.nextToken) := by
    simp [expectPeek, peekTokenIs, hpk2]
  simp only [parseCallArguments, hc, e1, e2, hx, if_true, Bool.false_eq_true, if_false]

theorem returns_parseCallArgumentsLoop_step (p p1 : Parser) (arg : Option Expression)
    (acc : List (Option Expression)) (res : List (Option Expression) × Parser)
    (hpk : p.peekToken.type = TokenType.COMMA)
    (h1 : Returns (fun F => parseExpression F LOWEST p.nextToken.nextToken) (arg, p1))
    (h2 : Returns (fun F => parseCallArgumentsLoop F (acc ++ [arg]) p1) res) :
    Returns (fun F => parseCallArgumentsLoop F acc p) res := by
  obtain ⟨F1, f1⟩ := h1
  obtain ⟨F2, f2⟩ := h2
  refine ⟨F1 + F2 + 1, fun G hG => ?_⟩
  obtain ⟨g, rfl⟩ : ∃ g, G = g + 1 := ⟨G - 1, by omega⟩
  have e1 := f1 g (by omega)
  have e2 := f2 g (by omega)
  simp only at e1 e2
  have hc : p.peekTokenIs TokenType.COMMA = true := by simp [peekTokenIs, hpk]
  simp only [parseCallArgumentsLoop, hc, e1, e2, if_true]

theorem returns_parseCallArgumentsLoop_stop (p : Parser) (acc : List (Option Expression))
    (hpk : p.peekToken.type ≠ TokenType.COMMA) :
    Returns (fun F => parseCallArgumentsLoop F acc p) (acc, p) :=
  returns_of_succ _ _ (fun g => by
    have hc : p.peekTokenIs TokenType.COMMA = false := by simp [peekTokenIs, hpk]
    simp only [parseCallArgumentsLoop, hc, Bool.false_eq_true, if_false])

end Parser

end parser
namespace lexer

open token

namespace Lexer

theorem tokensAt_append (l : Lexer) : ∀ (A B : List Token) (k : Nat),
    TokensAt l k (A ++ B) ↔ TokensAt l k A ∧ TokensAt l (k + A.length) B := by
  intro A
  induction A with
  | nil =>
    intro B k
    show TokensAt l k B ↔ True ∧ TokensAt l (k + 0) B
    rw [Nat.add_zero, true_and]
  | cons a A ih =>
    intro B k
    show (nthToken l k = a ∧ TokensAt l (k + 1) (A ++ B)) ↔
      (nthToken l k = a ∧ TokensAt l (k + 1) A) ∧ TokensAt l (k + (A.length + 1)) B
    rw [ih B (k + 1), and_assoc]
    have e : k + 1 + A.length = k + (A.length + 1) := by omega
    rw [e]

theorem tokensAt_cons (l : Lexer) (t : Token) (ts : List Token) (k : Nat) :
    TokensAt l k (t :: ts) ↔ nthToken l k = t ∧ TokensAt l (k + 1) ts := Iff.rfl

/-- The tokens read one after the other from a position of the input are the tokens of
the lexer from the call that reaches this position. -/
theorem tokensAt_of_readsAll (s : List Char) (l : Lexer) :
    ∀ (ts : List Token) (i k : Nat) (b : List Char), afterCalls k l = atPos s i →
      ReadsAll (s.drop i) ts b →
      TokensAt l k ts ∧ ∃ j, afterCalls (k + ts.length) l = atPos s j ∧ s.drop j = b := by
  intro ts
  induction ts with
  | nil =>
    intro i k b hk hr
    exact ⟨trivial, i, hk, hr⟩
  | cons t ts ih =>
    intro i k b hk hr
    obtain ⟨mid, r1, r2⟩ := hr
    obtain ⟨j, hj, hd⟩ := r1 s i rfl
    have h1 : nthToken l k = t := by
      show (nextToken (afterCalls k l)).1 = t
      rw [hk, hj]
    have h2 : afterCalls (k + 1) l = atPos s j := by
      rw [afterCalls_succ, hk, hj]
    obtain ⟨h3, j2, h4, h5⟩ := ih j (k + 1) b h2 (by rw [hd]; exact r2)
    refine ⟨⟨h1, h3⟩, j2, ?_, h5⟩
    have e : k + (ts.length + 1) = k + 1 + ts.length := by omega
    rw [List.length_cons, e]
    exact h4

/-- The tokens of a whole input, and the token `EOF` after them. -/
theorem tokensAt_of_source (s : List Char) (ts : List Token) (h : ReadsAll s ts []) :
    TokensAt (Lexer.new s) 0 ts ∧
      nthToken (Lexer.new s) ts.length = { type := TokenType.EOF_TOKEN, literal := "" } := by
  obtain ⟨h1, j, h2, h3⟩ := tokensAt_of_readsAll s (Lexer.new s) ts 0 0 [] rfl h
  refine ⟨h1, ?_⟩
  rw [Nat.zero_add] at h2
  show (nextToken (afterCalls ts.length (Lexer.new s))).1 = _
  rw [h2, nextToken_end s j h3]

end Lexer

end lexer
namespace parser

open token lexer ast

namespace Parser

theorem argumentsTokens_cons : ∀ (rest : List (Option Expression)) (a : Expression),
    PlainArguments rest → argumentsTokens (some a :: rest) = exprTokens a ++ restTokens rest
  | [], a, _ => by
    show exprTokens a = exprTokens a ++ []
    rw [List.append_nil]
  | some b :: rest, a, h => by
    have h2 : Plain b ∧ PlainArguments rest := h
    have ih := argumentsTokens_cons rest b h2.2
    show exprTokens a ++ [commaToken] ++ argumentsTokens (some b :: rest) =
      exprTokens a ++ (commaToken :: (exprTokens b ++ restTokens rest))
    rw [ih, List.append_assoc]
    rfl
  | none :: _, _, h => False.elim h

/-- The first token of the rendering of an expression of the kind `Plain`. -/
theorem plain_head : ∀ e : Expression, Plain e →
    ∃ t ts, exprTokens e = t :: ts ∧ t.type ≠ TokenType.RPAREN ∧
      t.type ≠ TokenType.EOF_TOKEN ∧ t.type ≠ TokenType.LET ∧ t.type ≠ TokenType.RETURN
  | .identifier id, h => by
    have hP : id.token = identToken id.value ∧ IsIdentifierName id.value := h
    refine ⟨id.token, [], rfl, ?_, ?_, ?_, ?_⟩ <;> rw [hP.1] <;> simp [identToken]
  | .integerLiteral tok v, h => by
    have hP : tok.type = TokenType.INT ∧ _ := h
    refine ⟨tok, [], rfl, ?_, ?_, ?_, ?_⟩ <;> rw [hP.1] <;> decide
  | .boolean tok v, h => by
    have hP : (tok = trueToken ∧ v = true) ∨ (tok = falseToken ∧ v = false) := h
    refine ⟨tok, [], rfl, ?_⟩
    rcases hP with ⟨h1, _⟩ | ⟨h1, _⟩ <;> rw [h1] <;> decide
  | .prefixExpression tok op (some right), _ =>
    ⟨lparenToken, tok :: (exprTokens right ++ [rparenToken]), rfl, by decide⟩
  | .prefixExpression _ _ none, h => False.elim h
  | .infixExpression tok (some left) op (some right), _ =>
    ⟨lparenToken, exprTokens left ++ [tok] ++ exprTokens right ++ [rparenToken], rfl,
      by decide⟩
  | .infixExpression _ none _ _, h => False.elim h
  | .infixExpression _ (some _) _ none, h => False.elim h
  | .ifExpression _ _ _ _, h => False.elim h
  | .functionLiteral _ _ _, h => False.elim h
  | .callExpression tok (some function) arguments, h => by
    have hP : tok = lparenToken ∧ Plain function ∧ PlainArguments arguments := h
    obtain ⟨t, ts, e1, e2⟩ := plain_head function hP.2.1
    refine ⟨t, ts ++ [lparenToken] ++ argumentsTokens arguments ++ [rparenToken], ?_, e2⟩
    show exprTokens function ++ [lparenToken] ++ argumentsTokens arguments ++ [rparenToken] = _
    rw [e1]
    rfl
  | .callExpression _ none _, h => False.elim h

theorem plain_length (e : Expression) (h : Plain e) : ∃ n, (exprTokens e).length = n + 1 := by
  obtain ⟨t, ts, e1, _⟩ := plain_head e h
  exact ⟨ts.length, by rw [e1]; rfl⟩

theorem returns_stop_at (l : Lexer) (k prec : Nat) (left : Option Expression) (t : Token)
    (h : Lexer.nthToken l (k + 1) = t) (ht : precedenceOf t ≤ prec) :
    Returns (fun F => parseExpressionLoop F prec left (atToken l k)) (left, atToken l k) :=
  returns_loop_stop _ _ _ (Or.inr (by rw [atToken_peekPrecedence, h]; exact ht))

/-- The first token after the tokens of the later arguments of a call and the closing
parenthesis is a comma or the parenthesis. -/
theorem restTokens_head (l : Lexer) (k : Nat) : ∀ (rest : List (Option Expression)),
    PlainArguments rest → Lexer.TokensAt l k (restTokens rest ++ [rparenToken]) →
    Lexer.nthToken l k = commaToken ∨ Lexer.nthToken l k = rparenToken
  | [], _, h => Or.inr h.1
  | some _ :: _, _, h => Or.inl h.1
  | none :: _, h, _ => False.elim h

end Parser

end parser
namespace parser

open token lexer ast

namespace Parser

theorem returns_stop_before (l : Lexer) (k prec : Nat) (left : Option Expression)
    (h : Lexer.nthToken l (k + 1) = commaToken ∨ Lexer.nthToken l (k + 1) = rparenToken) :
    Returns (fun F => parseExpressionLoop F prec left (atToken l k)) (left, atToken l k) := by
  refine returns_loop_stop _ _ _ (Or.inr ?_)
  rw [atToken_peekPrecedence]
  rcases h with h | h <;> rw [h] <;> exact Nat.zero_le _

/-- An expression in parentheses. -/
theorem returns_grouped (l : Lexer) (k m prec : Nat) (e : Option Expression)
    (res : Option Expression × Parser) (h0 : Lexer.nthToken l k = lparenToken)
    (hin : Returns (fun F => parseExpression F LOWEST (atToken l (k + 1))) (e, atToken l m))
    (hr : Lexer.nthToken l (m + 1) = rparenToken)
    (hk : Returns (fun F => parseExpressionLoop F prec e (atToken l (m + 1))) res) :
    Returns (fun F => parseExpression F prec (atToken l k)) res := by
  have hG := returns_parseGroupedExpression (atToken l k) (atToken l m) e
    (by rw [atToken_nextToken]; exact hin)
    (show (Lexer.nthToken l (m + 1)).type = TokenType.RPAREN by rw [hr]; rfl)
  rw [atToken_nextToken] at hG
  refine returns_parseExpression (atToken l k) prec PrefixParseFn.parseGroupedExpression e
    (atToken l (m + 1)) res ?_ hG hk
  show prefixParseFns (Lexer.nthToken l k).type = _
  rw [h0]
  rfl

mutual
/-- Parsing the tokens of the rendering of an expression of the kind `Plain` gives the
expression back, as the left operand of what follows. -/
theorem plain_parse : ∀ (e : Expression), Plain e → ∀ (l : Lexer) (k n prec : Nat)
    (res : Option Expression × Parser), (exprTokens e).length = n + 1 → prec < CALL →
    Lexer.TokensAt l k (exprTokens e) →
    Returns (fun F => parseExpressionLoop F prec (some e) (atToken l (k + n))) res →
    Returns (fun F => parseExpression F prec (atToken l k)) res
  | .identifier id, h, l, k, n, prec, res, hlen, _, htok, hk => by
    have hP : id.token = identToken id.value ∧ IsIdentifierName id.value := h
    have hn : n = 0 := by
      have : (1 : Nat) = n + 1 := hlen
      omega
    subst hn
    have hcur : Lexer.nthToken l k = id.token := htok.1
    refine returns_parseExpression (atToken l k) prec PrefixParseFn.parseIdentifier
      (some (.identifier id)) (atToken l k) res ?_ (returns_of_succ _ _ (fun g => ?_)) hk
    · show prefixParseFns (Lexer.nthToken l k).type = _
      rw [hcur, hP.1]
      rfl
    · show some (some (Expression.identifier
        { token := Lexer.nthToken l k, value := (Lexer.nthToken l k).literal }), _) = _
      have hv : id.token.literal = id.value := by rw [hP.1]; rfl
      rw [hcur, hv]
  | .integerLiteral tok v, h, l, k, n, prec, res, hlen, _, htok, hk => by
    have hP : tok.type = TokenType.INT ∧ tok.literal.toList ≠ [] ∧
      (∀ c ∈ tok.literal.toList, isDigit c = true) ∧
      ∃ m, stoll tok.literal = some m ∧ v = toInt32 m := h
    obtain ⟨h1, _, _, m, h4, h5⟩ := hP
    have hn : n = 0 := by
      have : (1 : Nat) = n + 1 := hlen
      omega
    subst hn
    have hcur : Lexer.nthToken l k = tok := htok.1
    have hc : (atToken l k).curToken = tok := hcur
    refine returns_parseExpression (atToken l k) prec PrefixParseFn.parseIntegerLiteral
      (some (.integerLiteral tok v)) (atToken l k) res ?_ (returns_of_succ _ _ (fun g => ?_)) hk
    · show prefixParseFns (Lexer.nthToken l k).type = _
      rw [hcur, h1]
      rfl
    · show some (atToken l k).parseIntegerLiteral = _
      simp only [parseIntegerLiteral, hc, h4, IntegerLiteral.new, h5]
  | .boolean tok v, h, l, k, n, prec, res, hlen, _, htok, hk => by
    have hP : (tok = trueToken ∧ v = true) ∨ (tok = falseToken ∧ v = false) := h
    have hn : n = 0 := by
      have : (1 : Nat) = n + 1 := hlen
      omega
    subst hn
    have hcur : Lexer.nthToken l k = tok := htok.1
    have hc : (atToken l k).curToken = tok := hcur
    refine returns_parseExpression (atToken l k) prec PrefixParseFn.parseBoolean
      (some (.boolean tok v)) (atToken l k) res ?_ (returns_of_succ _ _ (fun g => ?_)) hk
    · show prefixParseFns (Lexer.nthToken l k).type = _
      rw [hcur]
      rcases hP with ⟨h1, _⟩ | ⟨h1, _⟩ <;> rw [h1] <;> rfl
    · show some (atToken l k).parseBoolean = _
      rcases hP with ⟨h1, h2⟩ | ⟨h1, h2⟩ <;>
        simp only [parseBoolean, curTokenIs, hc, h1, h2] <;> rfl
  | .prefixExpression tok op (some right), h, l, k, n, prec, res, hlen, _, htok, hk => by
    have hP : tok ∈ prefixOperatorTokens ∧ op = tok.literal ∧ Plain right := h
    obtain ⟨h1, h2, h3⟩ := hP
    subst h2
    obtain ⟨nr, hnr⟩ := plain_length right h3
    have htoks : exprTokens (.prefixExpression tok tok.literal (some right)) =
        lparenToken :: tok :: (exprTokens right ++ [rparenToken]) := rfl
    rw [htoks] at hlen htok
    have hn : n = nr + 3 := by
      simp only [List.length_cons, List.length_append, List.length_nil, hnr] at hlen
      omega
    subst hn
    obtain ⟨t0, t1, t2⟩ := htok
    obtain ⟨t3, t4⟩ := (Lexer.tokensAt_append l _ _ _).1 t2
    have t5 : Lexer.nthToken l (k + 2 + nr + 1) = rparenToken := by
      have := t4.1
      rw [hnr] at this
      rw [← this]
      congr 1
    have hR := plain_parse right h3 l (k + 2) nr PREFIX (some right, atToken l (k + 2 + nr))
      hnr (by decide) t3 (returns_stop_before l (k + 2 + nr) PREFIX (some right) (Or.inr t5))
    have hPre := returns_parsePrefixExpression (atToken l (k + 1)) (atToken l (k + 2 + nr))
      (some right) (by rw [atToken_nextToken]; exact hR)
    rw [show (atToken l (k + 1)).curToken = tok from t1] at hPre
    have hin := returns_parseExpression (atToken l (k + 1)) LOWEST
      PrefixParseFn.parsePrefixExpression _ _ _
      (show prefixParseFns (Lexer.nthToken l (k + 1)).type = _ by
        rw [t1]; exact (prefixOperator_facts tok h1).1)
      hPre (returns_stop_before l (k + 2 + nr) LOWEST _ (Or.inr t5))
    refine returns_grouped l k (k + 2 + nr) prec _ res t0 hin t5 ?_
    have e : k + 2 + nr + 1 = k + (nr + 3) := by omega
    rw [e]
    exact hk
  | .prefixExpression _ _ none, h, _, _, _, _, _, _, _, _, _ => False.elim h
  | .infixExpression tok (some left) op (some right), h, l, k, n, prec, res, hlen, _, htok,
      hk => by
    have hP : tok ∈ binaryOperatorTokens ∧ op = tok.literal ∧ Plain left ∧ Plain right := h
    obtain ⟨h1, h2, hL, hR⟩ := hP
    subst h2
    obtain ⟨nl, hnl⟩ := plain_length left hL
    obtain ⟨nr, hnr⟩ := plain_length right hR
    obtain ⟨f1, f2, f3, f4, f5⟩ := binaryOperator_facts tok h1
    have htoks : exprTokens (.infixExpression tok (some left) tok.literal (some right)) =
        lparenToken :: (exprTokens left ++ (tok :: (exprTokens right ++ [rparenToken]))) := by
      simp only [exprTokens, List.append_assoc, List.cons_append, List.nil_append]
    rw [htoks] at hlen htok
    have hn : n = nl + nr + 4 := by
      simp only [List.length_cons, List.length_append, List.length_nil, hnl, hnr] at hlen
      omega
    subst hn
    obtain ⟨t0, t1⟩ := htok
    obtain ⟨tL, t2⟩ := (Lexer.tokensAt_append l _ _ _).1 t1
    rw [hnl] at t2
    obtain ⟨tT, t3⟩ := t2
    obtain ⟨tR, t4⟩ := (Lexer.tokensAt_append l _ _ _).1 t3
    rw [hnr] at t4
    have tT1 : Lexer.nthToken l (k + 1 + nl + 1) = tok := tT
    have tR1 : Lexer.TokensAt l (k + 1 + nl + 2) (exprTokens right) := tR
    have t5 : Lexer.nthToken l (k + 1 + nl + 2 + nr + 1) = rparenToken := t4.1
    have hRight := plain_parse right hR l (k + 1 + nl + 2) nr (precedenceOf tok)
      (some right, atToken l (k + 1 + nl + 2 + nr)) hnr (Nat.lt_trans f5 (by decide)) tR1
      (returns_stop_before l _ _ (some right) (Or.inr t5))
    have hInf := returns_parseInfixExpression (atToken l (k + 1 + nl + 1))
      (atToken l (k + 1 + nl + 2 + nr)) (some left) (some right) (by
        rw [atToken_nextToken]
        show Returns (fun F => parseExpression F
          (precedenceOf (Lexer.nthToken l (k + 1 + nl + 1))) _) _
        rw [tT1]
        exact hRight)
    rw [show (atToken l (k + 1 + nl + 1)).curToken = tok from tT1] at hInf
    have hLoop := returns_loop_step (atToken l (k + 1 + nl)) LOWEST
      InfixParseFn.parseInfixExpression (some left) _ _ _
      (show (Lexer.nthToken l (k + 1 + nl + 1)).type ≠ _ by rw [tT1]; exact f2)
      (show LOWEST < precedenceOf (Lexer.nthToken l (k + 1 + nl + 1)) by rw [tT1]; exact f4)
      (show infixParseFns (Lexer.nthToken l (k + 1 + nl + 1)).type = _ by rw [tT1]; exact f1)
      (by rw [atToken_nextToken]; exact hInf)
      (returns_stop_before l _ LOWEST _ (Or.inr t5))
    have hin := plain_parse left hL l (k + 1) nl LOWEST _ hnl (by decide) tL hLoop
    refine returns_grouped l k (k + 1 + nl + 2 + nr) prec _ res t0 hin t5 ?_
    have e : k + 1 + nl + 2 + nr + 1 = k + (nl + nr + 4) := by omega
    rw [e]
    exact hk
  | .infixExpression _ none _ _, h, _, _, _, _, _, _, _, _, _ => False.elim h
  | .infixExpression _ (some _) _ none, h, _, _, _, _, _, _, _, _, _ => False.elim h
  | .ifExpression _ _ _ _, h, _, _, _, _, _, _, _, _, _ => False.elim h
  | .functionLiteral _ _ _, h, _, _, _, _, _, _, _, _, _ => False.elim h
  | .callExpression tok (some function) arguments, h, l, k, n, prec, res, hlen, hprec, htok,
      hk => by
    have hP : tok = lparenToken ∧ Plain function ∧ PlainArguments arguments := h
    obtain ⟨h1, hF, hA⟩ := hP
    subst h1
    obtain ⟨nf, hnf⟩ := plain_length function hF
    have htoks : exprTokens (.callExpression lparenToken (some function) arguments) =
        exprTokens function ++ (lparenToken :: (argumentsTokens arguments ++ [rparenToken])) := by
      simp only [exprTokens, List.append_assoc, List.cons_append, List.nil_append]
    rw [htoks] at hlen htok
    have hn : n = nf + (argumentsTokens arguments).length + 2 := by
      simp only [List.length_cons, List.length_append, List.length_nil, hnf] at hlen
      omega
    subst hn
    obtain ⟨tF, t1⟩ := (Lexer.tokensAt_append l _ _ _).1 htok
    rw [hnf] at t1
    obtain ⟨tP, tA⟩ := t1
    have tP1 : Lexer.nthToken l (k + nf + 1) = lparenToken := tP
    have tA1 : Lexer.TokensAt l (k + nf + 1 + 1) (argumentsTokens arguments ++ [rparenToken]) :=
      tA
    have hArgs := plainCallArguments_parse arguments hA l (k + nf + 1) tA1
    have hCall := returns_parseCallExpression (atToken l (k + nf + 1)) _ (some function)
      arguments hArgs
    rw [show (atToken l (k + nf + 1)).curToken = lparenToken from tP1] at hCall
    refine plain_parse function hF l k nf prec res hnf hprec tF ?_
    refine returns_loop_step (atToken l (k + nf)) prec InfixParseFn.parseCallExpression
      (some function) _ _ res
      (show (Lexer.nthToken l (k + nf + 1)).type ≠ _ by rw [tP1]; decide)
      (show prec < precedenceOf (Lexer.nthToken l (k + nf + 1)) by rw [tP1]; exact hprec)
      (show infixParseFns (Lexer.nthToken l (k + nf + 1)).type = _ by rw [tP1]; rfl)
      (by rw [atToken_nextToken]; exact hCall) ?_
    have e : k + nf + 1 + (argumentsTokens arguments).length + 1 =
        k + (nf + (argumentsTokens arguments).length + 2) := by omega
    rw [e]
    exact hk
  | .callExpression _ none _, h, _, _, _, _, _, _, _, _, _ => False.elim h
/-- The arguments of a call after the opening parenthesis, up to the closing one. -/
theorem plainCallArguments_parse : ∀ (args : List (Option Expression)), PlainArguments args →
    ∀ (l : Lexer) (k : Nat),
    Lexer.TokensAt l (k + 1) (argumentsTokens args ++ [rparenToken]) →
    Returns (fun F => parseCallArguments F (atToken l k))
      (args, atToken l (k + (argumentsTokens args).length + 1))
  | [], _, l, k, htok => by
    have := returns_parseCallArguments_nil (atToken l k)
      (show (Lexer.nthToken l (k + 1)).type = TokenType.RPAREN by rw [htok.1]; rfl)
    rw [atToken_nextToken] at this
    exact this
  | some a :: rest, h, l, k, htok => by
    have hP : Plain a ∧ PlainArguments rest := h
    rw [argumentsTokens_cons rest a hP.2] at htok ⊢
    obtain ⟨na, hna⟩ := plain_length a hP.1
    rw [List.append_assoc] at htok
    obtain ⟨tA, tR⟩ := (Lexer.tokensAt_append l _ _ _).1 htok
    rw [hna] at tR
    have tR1 : Lexer.TokensAt l (k + 1 + na + 1) (restTokens rest ++ [rparenToken]) := tR
    obtain ⟨t, ts, e1, e2, _⟩ := plain_head a hP.1
    have hpk : (atToken l k).peekToken.type ≠ TokenType.RPAREN := by
      show (Lexer.nthToken l (k + 1)).type ≠ _
      rw [e1] at tA
      rw [tA.1]
      exact e2
    have h1 := plain_parse a hP.1 l (k + 1) na LOWEST (some a, atToken l (k + 1 + na)) hna
      (by decide) tA
      (returns_stop_before l _ _ (some a) (restTokens_head l _ rest hP.2 tR1))
    have h2 := plainArguments_parse rest hP.2 l (k + 1 + na) [some a] tR1
    obtain ⟨_, tE⟩ := (Lexer.tokensAt_append l _ _ _).1 tR1
    have tE1 : Lexer.nthToken l (k + 1 + na + (restTokens rest).length + 1) = rparenToken := by
      rw [← tE.1]
      congr 1
      omega
    have := returns_parseCallArguments_cons (atToken l k) (atToken l (k + 1 + na))
      (atToken l (k + 1 + na + (restTokens rest).length)) (some a) (some a :: rest) hpk
      (by rw [atToken_nextToken]; exact h1) h2
      (show (Lexer.nthToken l (k + 1 + na + (restTokens rest).length + 1)).type = _ by
        rw [tE1]; rfl)
    rw [atToken_nextToken] at this
    have e : k + (exprTokens a ++ restTokens rest).length + 1 =
        k + 1 + na + (restTokens rest).length + 1 := by
      rw [List.length_append, hna]
      omega
    rw [e]
    exact this
  | none :: _, h, _, _, _ => False.elim h
/-- The second and the later arguments of a call, each after its comma. -/
theorem plainArguments_parse : ∀ (args : List (Option Expression)), PlainArguments args →
    ∀ (l : Lexer) (k : Nat) (acc : List (Option Expression)),
    Lexer.TokensAt l (k + 1) (restTokens args ++ [rparenToken]) →
    Returns (fun F => parseCallArgumentsLoop F acc (atToken l k))
      (acc ++ args, atToken l (k + (restTokens args).length))
  | [], _, l, k, acc, htok => by
    have := returns_parseCallArgumentsLoop_stop (atToken l k) acc
      (show (Lexer.nthToken l (k + 1)).type ≠ TokenType.COMMA by rw [htok.1]; decide)
    rw [List.append_nil]
    exact this
  | some a :: rest, h, l, k, acc, htok => by
    have hP : Plain a ∧ PlainArguments rest := h
    obtain ⟨na, hna⟩ := plain_length a hP.1
    have htoks : restTokens (some a :: rest) ++ [rparenToken] =
        commaToken :: (exprTokens a ++ (restTokens rest ++ [rparenToken])) := by
      show commaToken :: (exprTokens a ++ restTokens rest) ++ [rparenToken] = _
      rw [List.cons_append, List.append_assoc]
    rw [htoks] at htok
    obtain ⟨tC, t1⟩ := htok
    obtain ⟨tA, tR⟩ := (Lexer.tokensAt_append l _ _ _).1 t1
    rw [hna] at tR
    have tA1 : Lexer.TokensAt l (k + 2) (exprTokens a) := tA
    have tR1 : Lexer.TokensAt l (k + 2 + na + 1) (restTokens rest ++ [rparenToken]) := tR
    have h1 := plain_parse a hP.1 l (k + 2) na LOWEST (some a, atToken l (k + 2 + na)) hna
      (by decide) tA1
      (returns_stop_before l _ _ (some a) (restTokens_head l _ rest hP.2 tR1))
    have h2 := plainArguments_parse rest hP.2 l (k + 2 + na) (acc ++ [some a]) tR1
    have := returns_parseCallArgumentsLoop_step (atToken l k) (atToken l (k + 2 + na))
      (some a) acc _
      (show (Lexer.nthToken l (k + 1)).type = TokenType.COMMA by rw [tC]; rfl)
      (by rw [atToken_nextToken, atToken_nextToken]; exact h1) h2
    have e1 : acc ++ [some a] ++ rest = acc ++ some a :: rest := by
      rw [List.append_assoc]
      rfl
    have e2 : k + (restTokens (some a :: rest)).length =
        k + 2 + na + (restTokens rest).length := by
      show k + (commaToken :: (exprTokens a ++ restTokens rest)).length = _
      rw [List.length_cons, List.length_append, hna]
      omega
    rw [e1] at this
    rw [e2]
    exact this
  | none :: _, h, _, _, _, _ => False.elim h
end

end Parser

end parser
namespace parser

open token lexer ast

namespace Parser

/-- The rendering of an expression of the kind `Plain` parses, without error, to the
program whose one statement is this expression. -/
theorem plain_round_trip (e : Expression) (h : Plain e) :
    ∃ txt : String, e.toString = some txt ∧ ∃ tok F, ∀ G, F ≤ G → ∃ p,
      parseSource G txt = some ({ statements := [Statement.expressionStatement tok (some e)] }, p) ∧
        p.errors = [] := by
  obtain ⟨txt, h1, _, _, h4⟩ := plain_text e h
  have hr := h4 [] boundary_nil
  rw [List.append_nil] at hr
  obtain ⟨htok, heof⟩ := Lexer.tokensAt_of_source txt.toList (exprTokens e) hr
  obtain ⟨n, hn⟩ := plain_length e h
  obtain ⟨t, ts, e1, _, e3, e4, e5⟩ := plain_head e h
  have hcur : Lexer.nthToken (Lexer.new txt.toList) 0 = t := by
    rw [e1] at htok
    exact htok.1
  rw [hn] at heof
  have hstop : Returns (fun F => parseExpressionLoop F LOWEST (some e)
      (atToken (Lexer.new txt.toList) (0 + n))) (some e, atToken (Lexer.new txt.toList) (0 + n)) := by
    refine returns_loop_stop _ _ _ (Or.inr ?_)
    rw [atToken_peekPrecedence, Nat.zero_add, heof]
    exact Nat.le_refl _
  obtain ⟨F, hF⟩ := plain_parse e h (Lexer.new txt.toList) 0 n LOWEST _ hn (by decide) htok hstop
  refine ⟨txt, h1, t, F + 3, fun G hG => ?_⟩
  obtain ⟨g, rfl⟩ : ∃ g, G = g + 3 := ⟨G - 3, by omega⟩
  have hp := hF g (by omega)
  simp only at hp
  have := parseProgram_expression g (atToken (Lexer.new txt.toList) 0) _ (some e)
    (show (Lexer.nthToken (Lexer.new txt.toList) 0).type ≠ _ by rw [hcur]; exact e3)
    (show (Lexer.nthToken (Lexer.new txt.toList) 0).type ≠ _ by rw [hcur]; exact e4)
    (show (Lexer.nthToken (Lexer.new txt.toList) 0).type ≠ _ by rw [hcur]; exact e5)
    hp (show (Lexer.nthToken (Lexer.new txt.toList) (0 + n + 1)).type = _ by
      rw [Nat.zero_add, heof])
  rw [show (atToken (Lexer.new txt.toList) 0).curToken = t from hcur] at this
  exact ⟨(atToken (Lexer.new txt.toList) (0 + n)).nextToken, this, rfl⟩

end Parser

end parser
namespace lexer

open token

namespace Lexer

theorem lexerToken_of_fixed (t : Token) (h1 : t.type ≠ TokenType.IDENT)
    (h2 : t.type ≠ TokenType.INT) (h3 : ∀ lit, fixedLiteral t.type = some lit → t.literal = lit) :
    LexerToken t :=
  ⟨fun h => absurd h h1, fun h => absurd h h2, h3⟩

theorem lookupIdent_ne_int (t : String) : lookupIdent t ≠ TokenType.INT := by
  unfold lookupIdent
  split_ifs <;> decide

theorem lookupIdent_fixed (t lit : String) (h : fixedLiteral (lookupIdent t) = some lit) :
    t = lit := by
  unfold lookupIdent at h
  split_ifs at h with h1 h2 h3 h4 h5 h6 h7
  · cases h
  · cases h
  · cases h; exact h3
  · cases h; exact h4
  · cases h
  · cases h
  · cases h
  · cases h

/-- Where the lexer stands on a character for which `pred` holds, the characters that
`pred` takes from there are at least one. -/
theorem takeWhile_ne_nil (pred : Char → Bool) (hN : pred NUL = false) (s : List Char) (j : Nat)
    (h : pred (atPos s j).ch = true) : (s.drop j).takeWhile pred ≠ [] := by
  cases hd : s.drop j with
  | nil =>
    rw [atPos_ch_nil s j hd, hN] at h
    cases h
  | cons c rest =>
    rw [atPos_ch_cons s j c rest hd] at h
    rw [List.takeWhile_cons, h]
    exact List.cons_ne_nil _ _

/-- Every token that `nextToken` returns is a token of the kind `LexerToken`. -/
theorem lexerToken_atPos (s : List Char) (i : Nat) : LexerToken (nextToken (atPos s i)).1 := by
  rw [nextToken_skip]
  have hns := atPos_ch_after_space s i
  generalize i + ((s.drop i).takeWhile isSpace).length = j at hns ⊢
  have hskip : skipWhitespace (atPos s j) = atPos s j := skipWhitespace_none s j hns
  have single : ∀ (T : TokenType) (c : Char), (atPos s j).ch = c → T ≠ TokenType.IDENT →
      T ≠ TokenType.INT → (∀ lit, fixedLiteral T = some lit → String.mk [c] = lit) →
      (fun r : Token × Lexer => LexerToken r.1)
        (newToken T (atPos s j).ch, readChar (atPos s j)) := by
    intro T c hc h1 h2 h3
    show LexerToken (newToken T (atPos s j).ch)
    rw [hc]
    exact lexerToken_of_fixed _ h1 h2 h3
  have two : ∀ (T : TokenType) (c : Char), (atPos s j).ch = c →
      peekChar (atPos s j) = '=' → T ≠ TokenType.IDENT → T ≠ TokenType.INT →
      (∀ lit, fixedLiteral T = some lit → String.mk [c, '='] = lit) →
      (fun r : Token × Lexer => LexerToken r.1)
        ({ type := T, literal := String.mk [(atPos s j).ch, (readChar (atPos s j)).ch] },
          readChar (readChar (atPos s j))) := by
    intro T c hc hpk h1 h2 h3
    have hpk1 : (readChar (atPos s j)).ch = '=' := hpk
    show LexerToken { type := T, literal := String.mk [(atPos s j).ch, (readChar (atPos s j)).ch] }
    rw [hc, hpk1]
    exact lexerToken_of_fixed _ h1 h2 h3
  have ident : isLetter (atPos s j).ch = true →
      (fun r : Token × Lexer => LexerToken r.1)
        ({ type := lookupIdent (readIdentifier (atPos s j)).1,
           literal := (readIdentifier (atPos s j)).1 }, (readIdentifier (atPos s j)).2) := by
    intro hl
    rw [readIdentifier_atPos]
    refine ⟨fun h => ⟨takeWhile_ne_nil isLetter isLetter_NUL s j hl,
      fun c hc => List.mem_takeWhile_imp hc, h⟩, fun h => absurd h (lookupIdent_ne_int _),
      fun lit h => lookupIdent_fixed _ lit h⟩
  have number : isDigit (atPos s j).ch = true →
      (fun r : Token × Lexer => LexerToken r.1)
        ({ type := TokenType.INT, literal := (readNumber (atPos s j)).1 },
          (readNumber (atPos s j)).2) := by
    intro hl
    rw [readNumber_atPos]
    refine ⟨fun h => (nomatch h), fun _ => ⟨takeWhile_ne_nil isDigit isDigit_NUL s j hl,
      fun c hc => List.mem_takeWhile_imp hc⟩, fun lit h => nomatch h⟩
  unfold nextToken
  simp only [hskip]
  repeat' first
    | apply ite_prop (fun r : Token × Lexer => LexerToken r.1)
    | intro _
  all_goals first
    | exact two _ _ (by assumption) (by assumption) (by decide) (by decide)
        (fun lit h => by cases h; rfl)
    | exact single _ _ (by assumption) (by decide) (by decide)
        (fun lit h => by first | (cases h; rfl) | cases h)
    | exact ident (by assumption)
    | exact number (by assumption)
    | exact lexerToken_of_fixed { type := TokenType.EOF_TOKEN, literal := "" } (by decide)
        (by decide) (fun lit h => by cases h)
    | exact single _ _ rfl (by decide) (by decide) (fun lit h => by cases h)

theorem lexerToken_nextToken (l : Lexer) (h : Consistent l) : LexerToken (nextToken l).1 := by
  rw [eq_atPos_of_consistent l h]
  exact lexerToken_atPos _ _

end Lexer

end lexer
namespace parser

open token lexer ast

namespace Parser

theorem readsLexer_nextToken (p : Parser) (h : ReadsLexer p) : ReadsLexer p.nextToken :=
  ⟨(Lexer.nextToken_step p.l h.1).1, h.2.2, Lexer.lexerToken_nextToken p.l h.1⟩

theorem readsLexer_error (p : Parser) (m : String) (h : ReadsLexer p) :
    ReadsLexer { p with errorMessages := p.errorMessages ++ [m] } := h

theorem readsLexer_new (s : List Char) : ReadsLexer (Parser.new (Lexer.new s)) := by
  have h0 : LexerToken {} :=
    Lexer.lexerToken_of_fixed _ (by decide) (by decide) (fun lit h => by cases h)
  exact readsLexer_nextToken _ (readsLexer_nextToken _ ⟨Lexer.new_consistent s, h0, h0⟩)

theorem expectPeek_true (p : Parser) (t : TokenType) (h : (p.expectPeek t).1 = true) :
    (p.expectPeek t).2.errorMessages = p.errorMessages := by
  unfold expectPeek at h ⊢
  split
  · rfl
  · rename_i hc
    rw [if_neg hc] at h
    cases h

theorem expectPeek_false (p : Parser) (t : TokenType) (h : ¬(p.expectPeek t).1 = true) :
    (p.expectPeek t).2.errorMessages ≠ [] := by
  unfold expectPeek at h ⊢
  split
  · rename_i hc
    rw [if_pos hc] at h
    exact absurd rfl h
  · simp [peekError]

/-- A parsing method that ends with an empty error list began with an empty error
list. -/
theorem errors_back (fuel : Nat) :
    (∀ prec left p r, parseExpressionLoop fuel prec left p = some r →
      r.2.errorMessages = [] → p.errorMessages = []) ∧
    (∀ args p r, parseCallArgumentsLoop fuel args p = some r →
      r.2.errorMessages = [] → p.errorMessages = []) ∧
    (∀ p r, skipToSemicolon fuel p = some r → r.errorMessages = [] → p.errorMessages = []) ∧
    (∀ stmts p r, parseProgramLoop fuel stmts p = some r →
      r.2.errorMessages = [] → p.errorMessages = []) := by
  have hnext : ∀ p : Parser, p.errorMessages ≠ [] → p.nextToken.errorMessages ≠ [] :=
    fun p hp => hp
  have herr : ∀ (p : Parser) (m : String), p.errorMessages ≠ [] →
      ({ p with errorMessages := p.errorMessages ++ [m] } : Parser).errorMessages ≠ [] := by
    intro p m _
    simp
  have h := preserves (fun q => q.errorMessages ≠ []) hnext herr fuel
  refine ⟨?_, ?_, ?_, ?_⟩
  · intro prec left p r hr he
    by_contra hne
    exact h.2.2.1 prec left p r hne hr he
  · intro args p r hr he
    by_contra hne
    exact h.2.2.2.2.2.2.2.2.2.2.2.2.2.1 args p r hne hr he
  · intro p r hr he
    by_contra hne
    exact skipToSemicolon_preserves (fun q => q.errorMessages ≠ []) hnext fuel p r hne hr he
  · intro stmts p r hr he
    by_contra hne
    exact parseProgramLoop_preserves (fun q => q.errorMessages ≠ []) hnext herr fuel stmts p r
      hne hr he

theorem ident_of_prefixParseFn (t : Token)
    (hfn : prefixParseFns t.type = some PrefixParseFn.parseIdentifier) :
    t.type = TokenType.IDENT := by
  obtain ⟨ty, lit⟩ := t
  cases ty <;> first | rfl | cases hfn

theorem int_of_prefixParseFn (t : Token)
    (hfn : prefixParseFns t.type = some PrefixParseFn.parseIntegerLiteral) :
    t.type = TokenType.INT := by
  obtain ⟨ty, lit⟩ := t
  cases ty <;> first | rfl | cases hfn

theorem boolean_of_lexerToken (t : Token) (h : LexerToken t)
    (hfn : prefixParseFns t.type = some PrefixParseFn.parseBoolean) :
    (t = trueToken ∧ (decide (t.type = TokenType.TRUE)) = true) ∨
      (t = falseToken ∧ (decide (t.type = TokenType.TRUE)) = false) := by
  obtain ⟨ty, lit⟩ := t
  have h3 := h.2.2
  cases ty <;> first
    | (have hl := h3 _ rfl; subst hl; first | exact Or.inl ⟨rfl, rfl⟩ | exact Or.inr ⟨rfl, rfl⟩)
    | cases hfn

theorem prefix_of_lexerToken (t : Token) (h : LexerToken t)
    (hfn : prefixParseFns t.type = some PrefixParseFn.parsePrefixExpression) :
    t ∈ prefixOperatorTokens := by
  obtain ⟨ty, lit⟩ := t
  have h3 := h.2.2
  cases ty <;> first
    | (have hl := h3 _ rfl; subst hl; decide)
    | cases hfn

theorem binary_of_lexerToken (t : Token) (h : LexerToken t)
    (hfn : infixParseFns t.type = some InfixParseFn.parseInfixExpression) :
    t ∈ binaryOperatorTokens := by
  obtain ⟨ty, lit⟩ := t
  have h3 := h.2.2
  cases ty <;> first
    | (have hl := h3 _ rfl; subst hl; decide)
    | cases hfn

theorem lparen_of_lexerToken (t : Token) (h : LexerToken t)
    (hfn : infixParseFns t.type = some InfixParseFn.parseCallExpression) :
    t = lparenToken := by
  obtain ⟨ty, lit⟩ := t
  have h3 := h.2.2
  cases ty <;> first
    | (have hl := h3 _ rfl; subst hl; rfl)
    | cases hfn

theorem plainArguments_of_forall : ∀ args : List (Option Expression),
    (∀ a ∈ args, PlainIfFree a) → IfFreeArguments args → PlainArguments args
  | [], _, _ => trivial
  | some a :: rest, h, hf => by
    have hf2 : IfFree a ∧ IfFreeArguments rest := hf
    obtain ⟨e, he, hg⟩ := h (some a) (List.mem_cons_self _ _)
    cases he
    exact ⟨hg hf2.1,
      plainArguments_of_forall rest (fun x hx => h x (List.mem_cons_of_mem _ hx)) hf2.2⟩
  | none :: rest, h, _ => by
    obtain ⟨e, he, _⟩ := h none (List.mem_cons_self _ _)
    cases he

theorem plainIfFree_if (p : Parser) (fuel : Nat) (r : Option Expression × Parser)
    (h : parseIfExpression fuel p = some r) (he : r.2.errorMessages = []) : PlainIfFree r.1 := by
  cases fuel with
  | zero => simp [parseIfExpression] at h
  | succ n =>
    rw [parseIfExpression] at h
    split at h
    · split at h
      · cases h
      · split at h
        · try simp only at h
          split at h
          · split at h
            · cases h
            · split at h
              · try simp only at h
                split at h
                · split at h
                  · cases h
                  · cases h
                    exact ⟨_, rfl, fun hf => False.elim hf⟩
                · rename_i hc
                  cases h
                  exact absurd he (expectPeek_false _ _ hc)
              · cases h
                exact ⟨_, rfl, fun hf => False.elim hf⟩
          · rename_i hc
            cases h
            exact absurd he (expectPeek_false _ _ hc)
        · rename_i hc
          cases h
          exact absurd he (expectPeek_false _ _ hc)
    · rename_i hc
      cases h
      exact absurd he (expectPeek_false _ _ hc)

theorem plainIfFree_fn (p : Parser) (fuel : Nat) (r : Option Expression × Parser)
    (h : parseFunctionLiteral fuel p = some r) (he : r.2.errorMessages = []) :
    PlainIfFree r.1 := by
  cases fuel with
  | zero => simp [parseFunctionLiteral] at h
  | succ n =>
    rw [parseFunctionLiteral] at h
    split at h
    · split at h
      · cases h
      · split at h
        · split at h
          · cases h
          · cases h
            exact ⟨_, rfl, fun hf => False.elim hf⟩
        · rename_i hc
          cases h
          exact absurd he (expectPeek_false _ _ hc)
    · rename_i hc
      cases h
      exact absurd he (expectPeek_false _ _ hc)

end Parser

end parser
namespace parser

open token lexer ast

namespace Parser

/-- What a parsing method returns when it ends with an empty error list: a node that is
present and, without if-expression and function literal in it, of the kind `Plain`. -/
theorem parsed_plain (fuel : Nat) :
    (∀ prec p r, ReadsLexer p → parseExpression fuel prec p = some r →
      r.2.errorMessages = [] → PlainIfFree r.1) ∧
    (∀ fn p r, ReadsLexer p → prefixParseFns p.curToken.type = some fn →
      callPrefixParseFn fuel fn p = some r → r.2.errorMessages = [] → PlainIfFree r.1) ∧
    (∀ prec left p r, ReadsLexer p → PlainIfFree left →
      parseExpressionLoop fuel prec left p = some r → r.2.errorMessages = [] →
      PlainIfFree r.1) ∧
    (∀ fn left p r, ReadsLexer p → infixParseFns p.curToken.type = some fn →
      PlainIfFree left → callInfixParseFn fuel fn left p = some r →
      r.2.errorMessages = [] → PlainIfFree r.1) ∧
    (∀ p r, ReadsLexer p →
      prefixParseFns p.curToken.type = some PrefixParseFn.parsePrefixExpression →
      parsePrefixExpression fuel p = some r → r.2.errorMessages = [] → PlainIfFree r.1) ∧
    (∀ left p r, ReadsLexer p →
      infixParseFns p.curToken.type = some InfixParseFn.parseInfixExpression →
      PlainIfFree left → parseInfixExpression fuel left p = some r →
      r.2.errorMessages = [] → PlainIfFree r.1) ∧
    (∀ p r, ReadsLexer p → parseGroupedExpression fuel p = some r →
      r.2.errorMessages = [] → PlainIfFree r.1) ∧
    (∀ f p r, ReadsLexer p →
      infixParseFns p.curToken.type = some InfixParseFn.parseCallExpression →
      PlainIfFree f → parseCallExpression fuel f p = some r →
      r.2.errorMessages = [] → PlainIfFree r.1) ∧
    (∀ p r, ReadsLexer p → parseCallArguments fuel p = some r →
      r.2.errorMessages = [] → ∀ a ∈ r.1, PlainIfFree a) ∧
    (∀ args p r, ReadsLexer p → (∀ a ∈ args, PlainIfFree a) →
      parseCallArgumentsLoop fuel args p = some r → r.2.errorMessages = [] →
      ∀ a ∈ r.1, PlainIfFree a) ∧
    (∀ p r, ReadsLexer p → parseStatement fuel p = some r → r.2.errorMessages = [] →
      ∀ s, r.1 = some s → PlainIfFree (statementExpression s)) ∧
    (∀ p r, ReadsLexer p → parseLetStatement fuel p = some r → r.2.errorMessages = [] →
      ∀ s, r.1 = some s → PlainIfFree (statementExpression s)) ∧
    (∀ p r, ReadsLexer p → parseReturnStatement fuel p = some r → r.2.errorMessages = [] →
      ∀ s, r.1 = some s → PlainIfFree (statementExpression s)) ∧
    (∀ p r, ReadsLexer p → parseExpressionStatement fuel p = some r →
      r.2.errorMessages = [] → ∀ s, r.1 = some s → PlainIfFree (statementExpression s)) := by
  have hnext := readsLexer_nextToken
  have herr := readsLexer_error
  have hexp := fun p t hp => expectPeek_preserves ReadsLexer hnext herr p t hp
  induction fuel with
  | zero =>
    refine ⟨?_, ?_, ?_, ?_, ?_, ?_, ?_, ?_, ?_, ?_, ?_, ?_, ?_, ?_⟩
    · intro _ _ _ _ h; simp [parseExpression] at h
    · intro _ _ _ _ _ h; simp [callPrefixParseFn] at h
    · intro _ _ _ _ _ _ h; simp [parseExpressionLoop] at h
    · intro _ _ _ _ _ _ _ h; simp [callInfixParseFn] at h
    · intro _ _ _ _ h; simp [parsePrefixExpression] at h
    · intro _ _ _ _ _ _ h; simp [parseInfixExpression] at h
    · intro _ _ _ h; simp [parseGroupedExpression] at h
    · intro _ _ _ _ _ _ h; simp [parseCallExpression] at h
    · intro _ _ _ h; simp [parseCallArguments] at h
    · intro _ _ _ _ _ h; simp [parseCallArgumentsLoop] at h
    · intro _ _ _ h; simp [parseStatement] at h
    · intro _ _ _ h; simp [parseLetStatement] at h
    · intro _ _ _ h; simp [parseReturnStatement] at h
    · intro _ _ _ h; simp [parseExpressionStatement] at h
  | succ n ih =>
    obtain ⟨ihE, ihCP, ihL, ihCI, ihPre, ihInf, ihG, ihCall, ihArgs, ihArgsL, ihS, ihLet, ihRet,
      ihES⟩ := ih
    obtain ⟨pE, pCP, pL, pCI, pPre, pInf, pG, pIf, pB, pBL, pF, pCall, pArgs, pArgsL, pS, pLet,
      pRet, pES⟩ := preserves ReadsLexer hnext herr n
    obtain ⟨bL, bArgsL, bSkip, _⟩ := errors_back n
    refine ⟨?_, ?_, ?_, ?_, ?_, ?_, ?_, ?_, ?_, ?_, ?_, ?_, ?_, ?_⟩
    · intro prec p r hp h he
      rw [parseExpression] at h
      split at h
      · cases h
        simp [noPrefixParseFnError] at he
      · rename_i fn hfn
        split at h
        · cases h
        · rename_i left p1 heq
          have e1 := bL _ _ _ _ h he
          exact ihL _ _ _ _ (pCP _ _ _ hp heq) (ihCP _ _ _ hp hfn heq e1) h he
    · intro fn p r hp hfn h he
      cases fn <;> simp only [callPrefixParseFn] at h
      · cases h
        refine ⟨_, rfl, fun _ => ?_⟩
        have hty := ident_of_prefixParseFn _ hfn
        have hname := hp.2.1.1 hty
        show p.curToken = identToken p.curToken.literal ∧ IsIdentifierName p.curToken.literal
        refine ⟨?_, hname⟩
        have key : ∀ t : Token, t.type = TokenType.IDENT → t = identToken t.literal := by
          rintro ⟨ty, lit⟩ ht
          simp only at ht
          subst ht
          rfl
        exact key _ hty
      · have hty := int_of_prefixParseFn _ hfn
        obtain ⟨d1, d2⟩ := hp.2.1.2.1 hty
        cases h
        cases hs : stoll p.curToken.literal with
        | none =>
          simp [parseIntegerLiteral, hs] at he
        | some v =>
          simp only [parseIntegerLiteral, hs]
          exact ⟨_, rfl, fun _ => ⟨hty, d1, d2, v, hs, rfl⟩⟩
      · exact ihPre _ _ hp hfn h he
      · cases h
        refine ⟨_, rfl, fun _ => ?_⟩
        exact boolean_of_lexerToken _ hp.2.1 hfn
      · exact ihG _ _ hp h he
      · exact plainIfFree_if _ _ _ h he
      · exact plainIfFree_fn _ _ _ h he
    · intro prec left p r hp hleft h he
      rw [parseExpressionLoop] at h
      split at h
      · split at h
        · cases h; exact hleft
        · rename_i fn hfn
          split at h
          · cases h
          · rename_i left1 p1 heq
            have e1 := bL _ _ _ _ h he
            exact ihL _ _ _ _ (pCI _ _ _ _ (hnext p hp) heq)
              (ihCI _ _ _ _ (hnext p hp) hfn hleft heq e1) h he
      · cases h; exact hleft
    · intro fn left p r hp hfn hleft h he
      cases fn <;> simp only [callInfixParseFn] at h
      · exact ihInf _ _ _ hp hfn hleft h he
      · exact ihCall _ _ _ hp hfn hleft h he
    · intro p r hp hfn h he
      rw [parsePrefixExpression] at h
      split at h
      · cases h
      · rename_i right p1 heq
        cases h
        obtain ⟨e, h1, h2⟩ := ihE _ _ _ (hnext p hp) heq he
        simp only at h1
        subst h1
        exact ⟨_, rfl, fun hf => ⟨prefix_of_lexerToken _ hp.2.1 hfn, rfl, h2 hf⟩⟩
    · intro left p r hp hfn hleft h he
      rw [parseInfixExpression] at h
      split at h
      · cases h
      · rename_i right p1 heq
        cases h
        obtain ⟨e, h1, h2⟩ := ihE _ _ _ (hnext p hp) heq he
        obtain ⟨l, h3, h4⟩ := hleft
        simp only at h1
        subst h1
        subst h3
        exact ⟨_, rfl, fun hf => ⟨binary_of_lexerToken _ hp.2.1 hfn, rfl, h4 hf.1, h2 hf.2⟩⟩
    · intro p r hp h he
      rw [parseGroupedExpression] at h
      split at h
      · cases h
      · rename_i exp p1 heq
        split at h
        · rename_i hc
          cases h
          rw [expectPeek_true _ _ hc] at he
          exact ihE _ _ (exp, p1) (hnext p hp) heq he
        · rename_i hc
          cases h
          exact absurd he (expectPeek_false _ _ hc)
    · intro f p r hp hfn hf h he
      rw [parseCallExpression] at h
      split at h
      · cases h
      · rename_i args p1 heq
        cases h
        have hargs := ihArgs _ _ hp heq he
        obtain ⟨fe, h3, h4⟩ := hf
        subst h3
        exact ⟨_, rfl, fun hfree => ⟨lparen_of_lexerToken _ hp.2.1 hfn, h4 hfree.1,
          plainArguments_of_forall _ hargs hfree.2⟩⟩
    · intro p r hp h he
      rw [parseCallArguments] at h
      split at h
      · cases h
        intro a ha
        cases ha
      · split at h
        · cases h
        · rename_i arg p1 heq
          split at h
          · cases h
          · rename_i args p2 heq2
            split at h
            · rename_i hc
              cases h
              rw [expectPeek_true _ _ hc] at he
              have e1 := bArgsL _ _ _ heq2 he
              have harg := ihE _ _ _ (hnext p hp) heq e1
              refine ihArgsL _ _ (args, p2) (pE _ _ _ (hnext p hp) heq) ?_ heq2 he
              intro a ha
              rw [List.mem_singleton] at ha
              rw [ha]
              exact harg
            · cases h
              intro a ha
              cases ha
    · intro args p r hp hargs h he
      rw [parseCallArgumentsLoop] at h
      split at h
      · split at h
        · cases h
        · rename_i arg p1 heq
          have e1 := bArgsL _ _ _ h he
          have harg := ihE _ _ _ (hnext _ (hnext p hp)) heq e1
          refine ihArgsL _ _ _ (pE _ _ _ (hnext _ (hnext p hp)) heq) ?_ h he
          intro a ha
          rw [List.mem_append, List.mem_singleton] at ha
          rcases ha with ha | ha
          · exact hargs a ha
          · rw [ha]
            exact harg
      · cases h; exact hargs
    · intro p r hp h he
      rw [parseStatement] at h
      split at h
      · exact ihLet _ _ hp h he
      · split at h
        · exact ihRet _ _ hp h he
        · exact ihES _ _ hp h he
    · intro p r hp h he
      rw [parseLetStatement] at h
      split at h
      · try simp only at h
        split at h
        · split at h
          · cases h
          · rename_i value p2 heq
            split at h
            · cases h
            · rename_i p3 heq2
              cases h
              have e1 := bSkip _ _ heq2 he
              intro s hs
              cases hs
              exact ihE _ _ _ (hnext _ (hexp _ _ (hexp p _ hp))) heq e1
        · cases h
          intro s hs
          cases hs
      · cases h
        intro s hs
        cases hs
    · intro p r hp h he
      rw [parseReturnStatement] at h
      split at h
      · cases h
      · rename_i value p1 heq
        split at h
        · cases h
        · rename_i p2 heq2
          cases h
          have e1 := bSkip _ _ heq2 he
          intro s hs
          cases hs
          exact ihE _ _ _ (hnext p hp) heq e1
    · intro p r hp h he
      rw [parseExpressionStatement] at h
      split at h
      · cases h
      · rename_i expression p1 heq
        split at h
        · cases h
          intro s hs
          cases hs
          exact ihE _ _ _ hp heq he
        · cases h
          intro s hs
          cases hs
          exact ihE _ _ _ hp heq he

/-- The statements of a program parsed with an empty error list hold expressions that
are present and, without if-expression and function literal, of the kind `Plain`. -/
theorem parseProgramLoop_plain (fuel : Nat) : ∀ stmts p r, ReadsLexer p →
    (∀ s ∈ stmts, PlainIfFree (statementExpression s)) →
    parseProgramLoop fuel stmts p = some r → r.2.errorMessages = [] →
    ∀ s ∈ r.1.statements, PlainIfFree (statementExpression s) := by
  induction fuel with
  | zero => intro stmts p r _ _ h; simp [parseProgramLoop] at h
  | succ n ih =>
    intro stmts p r hp hst h he
    have hS := (preserves ReadsLexer readsLexer_nextToken readsLexer_error
      n).2.2.2.2.2.2.2.2.2.2.2.2.2.2.1
    have gS := (parsed_plain n).2.2.2.2.2.2.2.2.2.2.1
    have back := (errors_back n).2.2.2
    rw [parseProgramLoop] at h
    split at h
    · split at h
      · cases h
      · rename_i stmt p1 heq
        have e1 : p1.errorMessages = [] := back _ p1.nextToken _ h he
        refine ih _ _ _ (readsLexer_nextToken _ (hS _ _ hp heq)) ?_ h he
        intro s hs
        rw [List.mem_append, List.mem_singleton] at hs
        rcases hs with hs | hs
        · exact hst s hs
        · rw [hs]
          exact gS _ _ hp heq e1 stmt rfl
      · rename_i p1 heq
        exact ih _ _ _ (readsLexer_nextToken _ (hS _ _ hp heq)) hst h he
    · cases h; exact hst

end Parser

end parser
namespace Spec

open token lexer ast parser

/-- C21 does not hold of the code. The source `if (x) { y }` parses with an empty error
list into one statement, an if-expression whose `toString` is `ifx y`: the rendering
drops the parentheses of the condition and the braces of the block. The text `ifx y`
parses with an empty error list into two statements, the first of them the identifier
`ifx`. The source `fn(x) { x }` parses with an empty error list into a function literal
whose `toString` is `fn(x) x`, and parsing `fn(x) x` records an error. -/
theorem C21_if_and_fn_do_not_round_trip :
    (parseSource 50 "if (x) \x7b y \x7d").map (fun r => (r.2.errors, r.1.statements.length,
        (firstExpression r.1).bind Expression.toString)) = some ([], 1, some "ifx y") ∧
      (parseSource 50 "ifx y").map (fun r => (r.2.errors, r.1.statements.length,
        (firstExpression r.1).bind Expression.toString)) = some ([], 2, some "ifx") ∧
      (parseSource 50 "fn(x) \x7b x \x7d").map (fun r => (r.2.errors, r.1.statements.length,
        (firstExpression r.1).bind Expression.toString)) = some ([], 1, some "fn(x) x") ∧
      (parseSource 50 "fn(x) x").map (fun r => r.2.errors) =
        some ["expected next token to be LBRACE, got IDENT instead."] := by
  decide!

/-- C21, for the expressions without if-expression and function literal. Let a source
parse with an empty error list, and let `e` be the expression of one of the statements
of the program (the expression of an expression statement, the value of a let or of a
return statement). If `e` holds no if-expression and no function literal, then
`e.toString()` is a text, and parsing this text returns, with enough fuel, with an empty
error list the program whose one statement is the expression statement of `e` itself. -/
theorem C21_round_trip_without_if_and_fn (fuel : Nat) (src : String) (prog : Program)
    (p : Parser) (hparse : parseSource fuel src = some (prog, p)) (herr : p.errors = [])
    (s : Statement) (hs : s ∈ prog.statements) (e : Expression)
    (he : statementExpression s = some e) (hfree : IfFree e) :
    ∃ txt : String, e.toString = some txt ∧ ∃ tok F, ∀ G, F ≤ G → ∃ p1,
      parseSource G txt =
          some ({ statements := [Statement.expressionStatement tok (some e)] }, p1) ∧
        p1.errors = [] := by
  obtain ⟨e1, h1, h2⟩ := Parser.parseProgramLoop_plain fuel [] _ (prog, p)
    (Parser.readsLexer_new src.toList) (fun _ h => nomatch h) hparse herr s hs
  rw [he] at h1
  cases h1
  exact Parser.plain_round_trip e (h2 hfree)

/-- Witness of C21: the source `f(1, -a) + !true` parses with an empty error list into
one expression statement, whose expression holds a call, an integer literal, two unary
operators, an identifier and a boolean literal; its rendering is
`(f(1, (-a)) + (!true))`. -/
theorem C21_round_trip_without_if_and_fn_witness :
    parseSource 30 "f(1, -a) + !true" =
        some ({ statements := [Statement.expressionStatement (identToken "f")
          (infixNode (callNode (identNode "f")
            [some (Expression.integerLiteral (intToken "1") 1),
              prefixNode minusToken (identNode "a")]) plusToken
            (prefixNode bangToken (some (Expression.boolean trueToken true))))] },
          Parser.atToken (Lexer.new "f(1, -a) + !true".toList) 10) ∧
      ∃ txt : String, txt = "(f(1, (-a)) + (!true))" ∧ ∃ tok F, ∀ G, F ≤ G → ∃ p1,
        parseSource G txt =
            some ({ statements := [Statement.expressionStatement tok
              (infixNode (callNode (identNode "f")
                [some (Expression.integerLiteral (intToken "1") 1),
                  prefixNode minusToken (identNode "a")]) plusToken
                (prefixNode bangToken (some (Expression.boolean trueToken true))))] }, p1) ∧
          p1.errors = [] := by
  have hparse : parseSource 30 "f(1, -a) + !true" =
      some ({ statements := [Statement.expressionStatement (identToken "f")
        (infixNode (callNode (identNode "f")
          [some (Expression.integerLiteral (intToken "1") 1),
            prefixNode minusToken (identNode "a")]) plusToken
          (prefixNode bangToken (some (Expression.boolean trueToken true))))] },
        Parser.atToken (Lexer.new "f(1, -a) + !true".toList) 10) := rfl
  obtain ⟨txt, h1, h2⟩ := C21_round_trip_without_if_and_fn 30 "f(1, -a) + !true" _ _ hparse
    rfl _ (List.Mem.head _) _ rfl ⟨⟨trivial, trivial, trivial, trivial⟩, trivial⟩
  have e1 : txt = "(f(1, (-a)) + (!true))" := by
    have h3 : some "(f(1, (-a)) + (!true))" = some txt := h1
    cases h3
    rfl
  exact ⟨hparse, txt, e1, h2⟩

end Spec
namespace Spec

open token lexer ast parser

end Spec
namespace Spec

open token ast object evaluator parser

/-- C32. The blocks of an if-expression are evaluated in the environment `env` of the
if-expression itself, from the memory the condition left: the if-expression returns what
`evalBlockStatement` returns for the consequence in `env` when the condition is truthy,
and for the alternative in `env` when it is not. So a let statement that is the
consequence binds in the store of `env`: the if-expression returns the value `v` of the
let statement, no store is added to the memory, and in the memory it leaves `env` itself
resolves the name to `v`, as does the evaluation of the identifier in `env` after the
block. The program `if (true) { let y = 1; }; y` is printed as `1`. -/
theorem C32_no_block_scoping (fuel : Nat) (tok btok ltok : Token)
    (condition : Option Expression) (consequence : BlockStatement)
    (alternative : Option BlockStatement) (name : Identifier) (value : Option Expression)
    (env : Environment) (h h1 h2 : Heap) (c v : Option Object)
    (hc : eval (fuel + 2) (exprNode condition) env h = .ok c h1) (hce : isError c = false)
    (hv : eval fuel (exprNode value) env h1 = .ok v h2) (hve : isError v = false)
    (hstore : env.store < h2.stores.length) :
    (isTruthy c = true →
      eval (fuel + 3) (some (.expression (.ifExpression tok condition (some consequence)
          alternative))) env h = evalBlockStatement (fuel + 1) consequence env h1) ∧
    (isTruthy c = false → ∀ alt, alternative = some alt →
      eval (fuel + 3) (some (.expression (.ifExpression tok condition (some consequence)
          alternative))) env h = evalBlockStatement (fuel + 1) alt env h1) ∧
    (isTruthy c = true →
      eval (fuel + 3) (some (.expression (.ifExpression tok condition
          (some (BlockStatement.mk btok [Statement.letStatement ltok (some name) value]))
          alternative))) env h = .ok v (env.set h2 name.value v) ∧
        (env.set h2 name.value v).stores.length = h2.stores.length ∧
        env.get (env.set h2 name.value v) name.value = v ∧
        ∀ obj, v = some obj →
          eval (fuel + 1) (some (.expression (.identifier name))) env
              (env.set h2 name.value v) = .ok (some obj) (env.set h2 name.value v)) ∧
    (run 30 "if (true) \x7b let y = 1; \x7d; y").bind Result.inspect = some "1" := by
  have hif : ∀ (cons : BlockStatement), isTruthy c = true →
      eval (fuel + 3) (some (.expression (.ifExpression tok condition (some cons)
        alternative))) env h = evalBlockStatement (fuel + 1) cons env h1 := by
    intro cons ht
    simp only [eval, evalIfExpressionWith, hc, Result.bind, hce, ht, Bool.false_eq_true,
      if_false, if_true, Option.map, evalBlockStatement]
  have hget : env.get (env.set h2 name.value v) name.value = v := by
    have hl : List.lookup name.value ((env.set h2 name.value v).stores.getD env.store []) =
        some v := by
      show List.lookup name.value ((updateAt _ env.store h2.stores).getD env.store []) = _
      rw [getD_updateAt_same _ _ _ _ hstore]
      exact Store.lookup_set_self _ _ _
    cases env with
    | mk a o =>
      have hl1 : List.lookup name.value ((Environment.set h2 (.mk a o) name.value
          v).stores.getD a []) = some v := hl
      cases o with
      | none => simp only [Environment.get, hl1]
      | some o => simp only [Environment.get, hl1]
  refine ⟨hif consequence, ?_, ?_, by decide!⟩
  · intro ht alt halt
    subst halt
    simp only [eval, evalIfExpressionWith, hc, Result.bind, hce, ht, Bool.false_eq_true,
      if_false, evalBlockStatement]
  · intro ht
    refine ⟨?_, length_updateAt _ _ _, hget, ?_⟩
    · rw [hif _ ht]
      have hlet : eval (fuel + 1) (some (.statement (.letStatement ltok (some name) value)))
          env h1 = .ok v (env.set h2 name.value v) := by
        simp only [eval, hv, Result.bind, hve, Bool.false_eq_true, if_false]
      simp only [evalBlockStatement, BlockStatement.statements, evalBlockStatementWith, hlet,
        Result.bind]
      cases v with
      | none => rfl
      | some o => cases o <;> rfl
    · intro obj hobj
      subst hobj
      simp only [eval, evalIdentifier, hget]

/-- Witness of C32: the if-expression `if (true) { let y = 1; }` in the top-level
environment, which binds nothing before. -/
theorem C32_no_block_scoping_witness :
    eval 3 (exprNode (some (.boolean trueToken true))) freshEnv.1 freshEnv.2 =
        .ok (some TRUE) freshEnv.2 ∧
      isError (some TRUE) = false ∧ isTruthy (some TRUE) = true ∧
      eval 1 (exprNode (some (.integerLiteral (intToken "1") 1))) freshEnv.1 freshEnv.2 =
        .ok (some (.integer 3 1)) { nextAddr := 4, stores := [[]] } ∧
      isError (some (.integer 3 1)) = false ∧
      freshEnv.1.store < ({ nextAddr := 4, stores := [[]] } : Heap).stores.length ∧
      eval 4 (some (.expression (.ifExpression ifToken (some (.boolean trueToken true))
          (some (BlockStatement.mk lbraceToken [Statement.letStatement letToken
            (some { token := identToken "y", value := "y" })
            (some (.integerLiteral (intToken "1") 1))])) none))) freshEnv.1 freshEnv.2 =
        .ok (some (.integer 3 1)) { nextAddr := 4, stores := [[("y", some (.integer 3 1))]] } ∧
      freshEnv.1.get { nextAddr := 4, stores := [[("y", some (.integer 3 1))]] } "y" =
        some (.integer 3 1) :=
  have hc : eval 3 (exprNode (some (.boolean trueToken true))) freshEnv.1 freshEnv.2 =
      .ok (some TRUE) freshEnv.2 := rfl
  have hv : eval 1 (exprNode (some (.integerLiteral (intToken "1") 1))) freshEnv.1
      freshEnv.2 = .ok (some (.integer 3 1)) { nextAddr := 4, stores := [[]] } := rfl
  have w := (C32_no_block_scoping 1 ifToken lbraceToken letToken
    (some (.boolean trueToken true)) (BlockStatement.mk lbraceToken []) none
    { token := identToken "y", value := "y" } (some (.integerLiteral (intToken "1") 1))
    freshEnv.1 freshEnv.2 freshEnv.2 { nextAddr := 4, stores := [[]] } (some TRUE)
    (some (.integer 3 1)) hc rfl hv rfl Nat.zero_lt_one).2.2.1 rfl
  ⟨hc, rfl, rfl, hv, rfl, Nat.zero_lt_one, w.1, w.2.2.1⟩

end Spec
namespace parser

open token lexer ast

namespace Parser

theorem wellFormedArguments_append : ∀ (args : List (Option Expression)) (a : Expression),
    WellFormedArguments args → WellFormed a → WellFormedArguments (args ++ [some a])
  | [], _, _, ha => ⟨ha, trivial⟩
  | some b :: rest, a, h, ha => by
    have h2 : WellFormed b ∧ WellFormedArguments rest := h
    exact ⟨h2.1, wellFormedArguments_append rest a h2.2 ha⟩
  | none :: _, _, h, _ => False.elim h

theorem wellFormedStatements_append : ∀ (stmts : List Statement) (s : Statement),
    WellFormedStatements stmts → WellFormedStatement s → WellFormedStatements (stmts ++ [s])
  | [], _, _, hs => ⟨hs, trivial⟩
  | t :: rest, s, h, hs => by
    have h2 : WellFormedStatement t ∧ WellFormedStatements rest := h
    exact ⟨h2.1, wellFormedStatements_append rest s h2.2 hs⟩

theorem wellFormedStatements_mem : ∀ (stmts : List Statement), WellFormedStatements stmts →
    ∀ s ∈ stmts, WellFormedStatement s
  | [], _, _, hs => nomatch hs
  | t :: rest, h, s, hs => by
    have h2 : WellFormedStatement t ∧ WellFormedStatements rest := h
    rcases List.mem_cons.1 hs with e | e
    · rw [e]; exact h2.1
    · exact wellFormedStatements_mem rest h2.2 s e

theorem expectPeek_back (p : Parser) (t : TokenType)
    (h : (p.expectPeek t).2.errorMessages = []) :
    (p.expectPeek t).1 = true ∧ p.errorMessages = [] := by
  by_cases hc : (p.expectPeek t).1 = true
  · exact ⟨hc, by rw [← expectPeek_true p t hc]; exact h⟩
  · exact absurd h (expectPeek_false p t hc)

/-- Every parsing method that ends with an empty error list began with an empty error
list. -/
theorem errors_back_all (fuel : Nat) :
    (∀ prec p r, parseExpression fuel prec p = some r → r.2.errorMessages = [] →
      p.errorMessages = []) ∧
    (∀ p r, parseBlockStatement fuel p = some r → r.2.errorMessages = [] →
      p.errorMessages = []) ∧
    (∀ tok stmts p r, parseBlockStatementLoop fuel tok stmts p = some r →
      r.2.errorMessages = [] → p.errorMessages = []) ∧
    (∀ p r, parseStatement fuel p = some r → r.2.errorMessages = [] →
      p.errorMessages = []) ∧
    (∀ p r, parseFunctionParameters fuel p = some r → r.2.errorMessages = [] →
      p.errorMessages = []) := by
  have hnext : ∀ p : Parser, p.errorMessages ≠ [] → p.nextToken.errorMessages ≠ [] :=
    fun p hp => hp
  have herr : ∀ (p : Parser) (m : String), p.errorMessages ≠ [] →
      ({ p with errorMessages := p.errorMessages ++ [m] } : Parser).errorMessages ≠ [] := by
    intro p m _
    simp
  have h := preserves (fun q => q.errorMessages ≠ []) hnext herr fuel
  refine ⟨?_, ?_, ?_, ?_, ?_⟩
  · intro prec p r hr he
    by_contra hne
    exact h.1 prec p r hne hr he
  · intro p r hr he
    by_contra hne
    exact h.2.2.2.2.2.2.2.2.1 p r hne hr he
  · intro tok stmts p r hr he
    by_contra hne
    exact h.2.2.2.2.2.2.2.2.2.1 tok stmts p r hne hr he
  · intro p r hr he
    by_contra hne
    exact h.2.2.2.2.2.2.2.2.2.2.2.2.2.2.1 p r hne hr he
  · intro p r hr he
    by_contra hne
    exact parseFunctionParameters_preserves (fun q => q.errorMessages ≠ []) hnext herr fuel p r
      hne hr he

/-- What a parsing method returns when it ends with an empty error list is present and
well formed. -/
theorem parsed_wellFormed (fuel : Nat) :
    (∀ prec p r, parseExpression fuel prec p = some r → r.2.errorMessages = [] →
      Present r.1) ∧
    (∀ fn p r, callPrefixParseFn fuel fn p = some r → r.2.errorMessages = [] →
      Present r.1) ∧
    (∀ prec left p r, Present left → parseExpressionLoop fuel prec left p = some r →
      r.2.errorMessages = [] → Present r.1) ∧
    (∀ fn left p r, Present left → callInfixParseFn fuel fn left p = some r →
      r.2.errorMessages = [] → Present r.1) ∧
    (∀ p r, parsePrefixExpression fuel p = some r → r.2.errorMessages = [] →
      Present r.1) ∧
    (∀ left p r, Present left → parseInfixExpression fuel left p = some r →
      r.2.errorMessages = [] → Present r.1) ∧
    (∀ p r, parseGroupedExpression fuel p = some r → r.2.errorMessages = [] →
      Present r.1) ∧
    (∀ p r, parseIfExpression fuel p = some r → r.2.errorMessages = [] → Present r.1) ∧
    (∀ p r, parseBlockStatement fuel p = some r → r.2.errorMessages = [] →
      WellFormedBlock r.1) ∧
    (∀ tok stmts p r, WellFormedStatements stmts →
      parseBlockStatementLoop fuel tok stmts p = some r → r.2.errorMessages = [] →
      WellFormedBlock r.1) ∧
    (∀ p r, parseFunctionLiteral fuel p = some r → r.2.errorMessages = [] →
      Present r.1) ∧
    (∀ f p r, Present f → parseCallExpression fuel f p = some r →
      r.2.errorMessages = [] → Present r.1) ∧
    (∀ p r, parseCallArguments fuel p = some r → r.2.errorMessages = [] →
      WellFormedArguments r.1) ∧
    (∀ args p r, WellFormedArguments args → parseCallArgumentsLoop fuel args p = some r →
      r.2.errorMessages = [] → WellFormedArguments r.1) ∧
    (∀ p r, parseStatement fuel p = some r → r.2.errorMessages = [] →
      ∀ s, r.1 = some s → WellFormedStatement s) ∧
    (∀ p r, parseLetStatement fuel p = some r → r.2.errorMessages = [] →
      ∀ s, r.1 = some s → WellFormedStatement s) ∧
    (∀ p r, parseReturnStatement fuel p = some r → r.2.errorMessages = [] →
      ∀ s, r.1 = some s → WellFormedStatement s) ∧
    (∀ p r, parseExpressionStatement fuel p = some r → r.2.errorMessages = [] →
      ∀ s, r.1 = some s → WellFormedStatement s) := by
  induction fuel with
  | zero =>
    refine ⟨?_, ?_, ?_, ?_, ?_, ?_, ?_, ?_, ?_, ?_, ?_, ?_, ?_, ?_, ?_, ?_, ?_, ?_⟩
    · intro _ _ _ h; simp [parseExpression] at h
    · intro _ _ _ h; simp [callPrefixParseFn] at h
    · intro _ _ _ _ _ h; simp [parseExpressionLoop] at h
    · intro _ _ _ _ _ h; simp [callInfixParseFn] at h
    · intro _ _ h; simp [parsePrefixExpression] at h
    · intro _ _ _ _ h; simp [parseInfixExpression] at h
    · intro _ _ h; simp [parseGroupedExpression] at h
    · intro _ _ h; simp [parseIfExpression] at h
    · intro _ _ h; simp [parseBlockStatement] at h
    · intro _ _ _ _ _ h; simp [parseBlockStatementLoop] at h
    · intro _ _ h; simp [parseFunctionLiteral] at h
    · intro _ _ _ _ h; simp [parseCallExpression] at h
    · intro _ _ h; simp [parseCallArguments] at h
    · intro _ _ _ _ h; simp [parseCallArgumentsLoop] at h
    · intro _ _ h; simp [parseStatement] at h
    · intro _ _ h; simp [parseLetStatement] at h
    · intro _ _ h; simp [parseReturnStatement] at h
    · intro _ _ h; simp [parseExpressionStatement] at h
  | succ n ih =>
    obtain ⟨ihE, ihCP, ihL, ihCI, ihPre, ihInf, ihG, ihIf, ihB, ihBL, ihF, ihCall, ihArgs,
      ihArgsL, ihS, ihLet, ihRet, ihES⟩ := ih
    obtain ⟨bL, bArgsL, bSkip, _⟩ := errors_back n
    obtain ⟨bE, bB, bBL, bS, bFP⟩ := errors_back_all n
    refine ⟨?_, ?_, ?_, ?_, ?_, ?_, ?_, ?_, ?_, ?_, ?_, ?_, ?_, ?_, ?_, ?_, ?_, ?_⟩
    · intro prec p r h he
      rw [parseExpression] at h
      split at h
      · cases h
        simp [noPrefixParseFnError] at he
      · split at h
        · cases h
        · rename_i left p1 heq
          have e1 := bL _ _ _ _ h he
          exact ihL _ _ _ _ (ihCP _ _ (left, p1) heq e1) h he
    · intro fn p r h he
      cases fn <;> simp only [callPrefixParseFn] at h
      · cases h
        exact ⟨_, rfl, trivial⟩
      · cases h
        cases hs : stoll p.curToken.literal with
        | none => simp [parseIntegerLiteral, hs] at he
        | some v =>
          simp only [parseIntegerLiteral, hs]
          exact ⟨_, rfl, trivial⟩
      · exact ihPre _ _ h he
      · cases h
        exact ⟨_, rfl, trivial⟩
      · exact ihG _ _ h he
      · exact ihIf _ _ h he
      · exact ihF _ _ h he
    · intro prec left p r hleft h he
      rw [parseExpressionLoop] at h
      split at h
      · split at h
        · cases h; exact hleft
        · split at h
          · cases h
          · rename_i left1 p1 heq
            have e1 := bL _ _ _ _ h he
            exact ihL _ _ _ _ (ihCI _ _ _ (left1, p1) hleft heq e1) h he
      · cases h; exact hleft
    · intro fn left p r hleft h he
      cases fn <;> simp only [callInfixParseFn] at h
      · exact ihInf _ _ _ hleft h he
      · exact ihCall _ _ _ hleft h he
    · intro p r h he
      rw [parsePrefixExpression] at h
      split at h
      · cases h
      · rename_i right p1 heq
        cases h
        obtain ⟨e, h1, h2⟩ := ihE _ _ (right, p1) heq he
        simp only at h1
        subst h1
        exact ⟨_, rfl, h2⟩
    · intro left p r hleft h he
      rw [parseInfixExpression] at h
      split at h
      · cases h
      · rename_i right p1 heq
        cases h
        obtain ⟨e, h1, h2⟩ := ihE _ _ (right, p1) heq he
        obtain ⟨l, h3, h4⟩ := hleft
        simp only at h1
        subst h1
        subst h3
        exact ⟨_, rfl, h4, h2⟩
    · intro p r h he
      rw [parseGroupedExpression] at h
      split at h
      · cases h
      · rename_i exp p1 heq
        split at h
        · cases h
          exact ihE _ _ (exp, p1) heq (expectPeek_back _ _ he).2
        · rename_i hc
          cases h
          exact absurd he (expectPeek_false _ _ hc)
    · intro p r h he
      rw [parseIfExpression] at h
      split at h
      · split at h
        · cases h
        · rename_i condition p1 heq
          split at h
          · try simp only at h
            split at h
            · split at h
              · cases h
              · rename_i consequence p3 heq2
                split at h
                · try simp only at h
                  split at h
                  · split at h
                    · cases h
                    · rename_i alternative p5 heq3
                      cases h
                      have e4 := (expectPeek_back _ _ (bB _ _ heq3 he)).2
                      have e3 : p3.errorMessages = [] := e4
                      have e2 := (expectPeek_back _ _ (bB _ _ heq2 e3)).2
                      have e1 := (expectPeek_back _ _ e2).2
                      obtain ⟨c, h1, h2⟩ := ihE _ _ (condition, p1) heq e1
                      simp only at h1
                      subst h1
                      exact ⟨_, rfl, h2, ihB _ (consequence, p3) heq2 e3,
                        ihB _ (alternative, p5) heq3 he⟩
                  · rename_i hc
                    cases h
                    exact absurd he (expectPeek_false _ _ hc)
                · cases h
                  have e2 := (expectPeek_back _ _ (bB _ _ heq2 he)).2
                  have e1 := (expectPeek_back _ _ e2).2
                  obtain ⟨c, h1, h2⟩ := ihE _ _ (condition, p1) heq e1
                  simp only at h1
                  subst h1
                  exact ⟨_, rfl, h2, ihB _ (consequence, p3) heq2 he⟩
            · rename_i hc
              cases h
              exact absurd he (expectPeek_false _ _ hc)
          · rename_i hc
            cases h
            exact absurd he (expectPeek_false _ _ hc)
      · rename_i hc
        cases h
        exact absurd he (expectPeek_false _ _ hc)
    · intro p r h he
      rw [parseBlockStatement] at h
      exact ihBL _ [] _ _ trivial h he
    · intro tok stmts p r hst h he
      rw [parseBlockStatementLoop] at h
      split at h
      · split at h
        · cases h
        · rename_i stmt p1 heq
          have e1 : p1.errorMessages = [] := bBL _ _ p1.nextToken _ h he
          exact ihBL _ _ _ _
            (wellFormedStatements_append _ _ hst (ihS _ (some stmt, p1) heq e1 stmt rfl)) h he
        · exact ihBL _ _ _ _ hst h he
      · cases h; exact hst
    · intro p r h he
      rw [parseFunctionLiteral] at h
      split at h
      · split at h
        · cases h
        · split at h
          · split at h
            · cases h
            · rename_i body p2 heq2
              cases h
              exact ⟨_, rfl, ihB _ (body, p2) heq2 he⟩
          · rename_i hc
            cases h
            exact absurd he (expectPeek_false _ _ hc)
      · rename_i hc
        cases h
        exact absurd he (expectPeek_false _ _ hc)
    · intro f p r hf h he
      rw [parseCallExpression] at h
      split at h
      · cases h
      · rename_i args p1 heq
        cases h
        obtain ⟨fe, h3, h4⟩ := hf
        subst h3
        exact ⟨_, rfl, h4, ihArgs _ (args, p1) heq he⟩
    · intro p r h he
      rw [parseCallArguments] at h
      split at h
      · cases h
        trivial
      · split at h
        · cases h
        · rename_i arg p1 heq
          split at h
          · cases h
          · rename_i args p2 heq2
            split at h
            · cases h
              have e2 := (expectPeek_back _ _ he).2
              have e1 := bArgsL _ _ _ heq2 e2
              obtain ⟨a, h1, h2⟩ := ihE _ _ (arg, p1) heq e1
              simp only at h1
              subst h1
              exact ihArgsL [some a] _ (args, p2) ⟨h2, trivial⟩ heq2 e2
            · cases h
              trivial
    · intro args p r hargs h he
      rw [parseCallArgumentsLoop] at h
      split at h
      · split at h
        · cases h
        · rename_i arg p1 heq
          have e1 := bArgsL _ _ _ h he
          obtain ⟨a, h1, h2⟩ := ihE _ _ (arg, p1) heq e1
          simp only at h1
          subst h1
          exact ihArgsL _ _ _ (wellFormedArguments_append _ _ hargs h2) h he
      · cases h; exact hargs
    · intro p r h he
      rw [parseStatement] at h
      split at h
      · exact ihLet _ _ h he
      · split at h
        · exact ihRet _ _ h he
        · exact ihES _ _ h he
    · intro p r h he
      rw [parseLetStatement] at h
      split at h
      · try simp only at h
        split at h
        · split at h
          · cases h
          · rename_i value p2 heq
            split at h
            · cases h
            · rename_i p3 heq2
              cases h
              have e1 := bSkip _ _ heq2 he
              intro s hs
              cases hs
              obtain ⟨v, h1, h2⟩ := ihE _ _ (value, p2) heq e1
              simp only at h1
              subst h1
              exact h2
        · cases h
          intro s hs
          cases hs
      · cases h
        intro s hs
        cases hs
    · intro p r h he
      rw [parseReturnStatement] at h
      split at h
      · cases h
      · rename_i value p1 heq
        split at h
        · cases h
        · rename_i p2 heq2
          cases h
          have e1 := bSkip _ _ heq2 he
          intro s hs
          cases hs
          obtain ⟨v, h1, h2⟩ := ihE _ _ (value, p1) heq e1
          simp only at h1
          subst h1
          exact h2
    · intro p r h he
      rw [parseExpressionStatement] at h
      split at h
      · cases h
      · rename_i expression p1 heq
        split at h
        · cases h
          intro s hs
          cases hs
          obtain ⟨v, h1, h2⟩ := ihE _ _ (expression, p1) heq he
          simp only at h1
          subst h1
          exact h2
        · cases h
          intro s hs
          cases hs
          obtain ⟨v, h1, h2⟩ := ihE _ _ (expression, p1) heq he
          simp only at h1
          subst h1
          exact h2

/-- The statements of a program parsed with an empty error list are well formed. -/
theorem parseProgramLoop_wellFormed (fuel : Nat) : ∀ stmts p r, WellFormedStatements stmts →
    parseProgramLoop fuel stmts p = some r → r.2.errorMessages = [] →
    WellFormedStatements r.1.statements := by
  induction fuel with
  | zero => intro stmts p r _ h; simp [parseProgramLoop] at h
  | succ n ih =>
    intro stmts p r hst h he
    have gS := (parsed_wellFormed n).2.2.2.2.2.2.2.2.2.2.2.2.2.2.1
    have back := (errors_back n).2.2.2
    rw [parseProgramLoop] at h
    split at h
    · split at h
      · cases h
      · rename_i stmt p1 heq
        have e1 : p1.errorMessages = [] := back _ p1.nextToken _ h he
        exact ih _ _ _ (wellFormedStatements_append _ _ hst
          (gS _ (some stmt, p1) heq e1 stmt rfl)) h he
      · exact ih _ _ _ hst h he
    · cases h; exact hst

end Parser

end parser
namespace Spec

open token lexer ast parser

/-- C33. Whenever `parseProgram` returns with an empty error list, the statements of
the program are well formed: every expression statement has its expression, every let
statement its name and its value, every return statement its return value, every prefix
expression its right operand, every infix expression both operands, every if-expression
its condition and its consequence, every function literal its body, every call its
callee and only arguments that are present, at every depth of the tree. -/
theorem C33_well_formed_tree (fuel : Nat) (src : String) (prog : Program) (p : Parser)
    (hparse : parseSource fuel src = some (prog, p)) (herr : p.errors = []) :
    WellFormedStatements prog.statements ∧ ∀ s ∈ prog.statements, WellFormedStatement s := by
  have h := Parser.parseProgramLoop_wellFormed fuel [] _ (prog, p) trivial hparse herr
  exact ⟨h, Parser.wellFormedStatements_mem _ h⟩

/-- Witness of C33: a source with a let statement, a function literal, an if-expression
with alternative, a return statement, prefix and infix expressions and a call, which
parses with an empty error list. -/
theorem C33_well_formed_tree_witness :
    ∃ prog p, parseSource 60 ("let f = fn(x) \x7b if (x < 1) \x7b return -x; \x7d else " ++
        "\x7b !x \x7d \x7d; f(1 + 2, g);") = some (prog, p) ∧ p.errors = [] ∧
      prog.toString = some "let f = fn(x) if(x < 1) return (-x);else(!x);f((1 + 2), g)" ∧
      WellFormedStatements prog.statements := by
  have h : (parseSource 60 ("let f = fn(x) \x7b if (x < 1) \x7b return -x; \x7d else " ++
      "\x7b !x \x7d \x7d; f(1 + 2, g);")).map (fun r => (r.2.errors, r.1.toString)) =
      some ([], some "let f = fn(x) if(x < 1) return (-x);else(!x);f((1 + 2), g)") := by
    decide!
  cases hq : parseSource 60 ("let f = fn(x) \x7b if (x < 1) \x7b return -x; \x7d else " ++
      "\x7b !x \x7d \x7d; f(1 + 2, g);") with
  | none =>
    rw [hq] at h
    cases h
  | some r =>
    rw [hq] at h
    have h1 : (r.2.errors, r.1.toString) =
        ([], some "let f = fn(x) if(x < 1) return (-x);else(!x);f((1 + 2), g)") :=
      Option.some.inj h
    have herr : r.2.errors = [] := congrArg Prod.fst h1
    have hstr := congrArg Prod.snd h1
    exact ⟨r.1, r.2, rfl, herr, hstr, (C33_well_formed_tree 60 _ r.1 r.2 hq herr).1⟩

end Spec
namespace parser

open token lexer ast

namespace Parser

theorem clean_append (l : Lexer) (a b c : Nat) (h1 : Clean l a b) (h2 : Clean l (b + 1) c) :
    Clean l a c := by
  intro i hi1 hi2 ht
  by_cases h : i ≤ b
  · exact h1 i hi1 h ht
  · exact h2 i (by omega) hi2 ht

theorem clean_cons (l : Lexer) (a b : Nat)
    (h1 : (Lexer.nthToken l a).type ≠ TokenType.ILLEGAL) (h2 : Clean l (a + 1) b) :
    Clean l a b := by
  intro i hi1 hi2 ht
  by_cases h : i = a
  · rw [h] at ht
    exact absurd ht h1
  · exact h2 i (by omega) hi2 ht

theorem clean_snoc (l : Lexer) (a b : Nat) (h1 : Clean l a b)
    (h2 : (Lexer.nthToken l (b + 1)).type ≠ TokenType.ILLEGAL) : Clean l a (b + 1) := by
  intro i hi1 hi2 ht
  by_cases h : i = b + 1
  · rw [h] at ht
    exact absurd ht h2
  · exact h1 i hi1 (by omega) ht

theorem clean_empty (l : Lexer) (a b : Nat) (h : b < a) : Clean l a b := by
  intro i hi1 hi2 _
  omega

theorem clean_self (l : Lexer) (a : Nat)
    (h1 : (Lexer.nthToken l a).type ≠ TokenType.ILLEGAL) : Clean l a a :=
  clean_cons l a a h1 (clean_empty l _ _ (by omega))

theorem prefix_ne_illegal (t : TokenType) (fn : PrefixParseFn)
    (h : prefixParseFns t = some fn) : t ≠ TokenType.ILLEGAL := by
  intro e
  rw [e] at h
  cases h

theorem infix_ne_illegal (t : TokenType) (fn : InfixParseFn)
    (h : infixParseFns t = some fn) : t ≠ TokenType.ILLEGAL := by
  intro e
  rw [e] at h
  cases h

theorem prefix_function (t : TokenType)
    (h : prefixParseFns t = some .parseFunctionLiteral) : t = TokenType.FUNCTION := by
  cases t <;> first | rfl | cases h

/-- A successful `expectPeek` at index `k` found its token type at index `k + 1` and
moved there. -/
theorem expectPeek_eq (l : Lexer) (k : Nat) (t : TokenType)
    (h : ((atToken l k).expectPeek t).1 = true) :
    ((atToken l k).expectPeek t).2 = atToken l (k + 1) ∧ (Lexer.nthToken l (k + 1)).type = t := by
  unfold expectPeek at h ⊢
  by_cases hc : (atToken l k).peekTokenIs t = true
  · rw [if_pos hc]
    refine ⟨atToken_nextToken l k, ?_⟩
    exact of_decide_eq_true hc
  · rw [if_neg hc] at h
    cases h

theorem peekTokenIs_atToken (l : Lexer) (k : Nat) (t : TokenType)
    (h : (atToken l k).peekTokenIs t = true) : (Lexer.nthToken l (k + 1)).type = t :=
  of_decide_eq_true h

/-- The skip loop stops at the first semicolon from where it starts. -/
theorem skipToSemicolon_index (l : Lexer) (fuel : Nat) : ∀ (e : Nat) (p : Parser),
    skipToSemicolon fuel (atToken l e) = some p →
    ∃ s, p = atToken l s ∧ e ≤ s ∧ (Lexer.nthToken l s).type = TokenType.SEMICOLON ∧
      ∀ j, e ≤ j → j < s → (Lexer.nthToken l j).type ≠ TokenType.SEMICOLON := by
  induction fuel with
  | zero => intro e p h; simp [skipToSemicolon] at h
  | succ n ih =>
    intro e p h
    rw [skipToSemicolon] at h
    by_cases hc : (atToken l e).curTokenIs TokenType.SEMICOLON = true
    · simp only [hc, Bool.not_true, Bool.false_eq_true, if_false, Option.some.injEq] at h
      exact ⟨e, h.symm, le_refl _, of_decide_eq_true hc, fun j h1 h2 => by omega⟩
    · have hc2 : (atToken l e).curTokenIs TokenType.SEMICOLON = false := by
        simpa using hc
      simp only [hc2, Bool.not_false, if_true, atToken_nextToken] at h
      obtain ⟨s, h1, h2, h3, h4⟩ := ih (e + 1) p h
      refine ⟨s, h1, by omega, h3, ?_⟩
      intro j hj1 hj2
      by_cases hj : j = e
      · rw [hj]
        intro ht
        apply hc
        exact decide_eq_true ht
      · exact h4 j (by omega) hj2

theorem parseFunctionParametersLoop_index (l : Lexer) (fuel : Nat) :
    ∀ (ids : List Identifier) (q : Nat) (r : List Identifier × Parser),
    parseFunctionParametersLoop fuel ids (atToken l q) = some r →
    ∃ m, r.2 = atToken l (q + 2 * m) ∧
      ∀ j, j < m → (Lexer.nthToken l (q + 1 + 2 * j)).type = TokenType.COMMA := by
  induction fuel with
  | zero => intro ids q r h; simp [parseFunctionParametersLoop] at h
  | succ n ih =>
    intro ids q r h
    rw [parseFunctionParametersLoop] at h
    split at h
    · rename_i hc
      simp only [atToken_nextToken] at h
      obtain ⟨m, h1, h2⟩ := ih _ (q + 1 + 1) r h
      refine ⟨m + 1, ?_, ?_⟩
      · rw [h1]
        congr 1
        omega
      · intro j hj
        rcases j with _ | j
        · exact peekTokenIs_atToken l q _ hc
        · have := h2 j (by omega)
          have e : q + 1 + 2 * (j + 1) = q + 1 + 1 + 1 + 2 * j := by omega
          rw [e]
          exact this
    · cases h
      exact ⟨0, rfl, fun j hj => by omega⟩

/-- Where a function literal ends its parameter list without an error, every ILLEGAL
token of the list stands in the place of a parameter. -/
theorem parseFunctionParameters_clean (l : Lexer) (fuel k : Nat)
    (r : List Identifier × Parser)
    (hf : (Lexer.nthToken l k).type = TokenType.FUNCTION)
    (hl : (Lexer.nthToken l (k + 1)).type = TokenType.LPAREN)
    (h : parseFunctionParameters fuel (atToken l (k + 1)) = some r)
    (he : r.2.errorMessages = []) :
    ∃ q, r.2 = atToken l q ∧ k + 1 ≤ q ∧ Clean l (k + 1) q := by
  have hl2 : (Lexer.nthToken l (k + 1)).type ≠ TokenType.ILLEGAL := by rw [hl]; decide
  unfold parseFunctionParameters at h
  split at h
  · rename_i hc
    cases h
    have hr := peekTokenIs_atToken l (k + 1) _ hc
    refine ⟨k + 1 + 1, atToken_nextToken l (k + 1), by omega, ?_⟩
    apply clean_snoc l _ _ (clean_self l _ hl2)
    rw [hr]
    decide
  · rename_i hc
    have hnr : (Lexer.nthToken l (k + 2)).type ≠ TokenType.RPAREN := by
      intro ht
      apply hc
      exact decide_eq_true ht
    simp only [atToken_nextToken] at h
    split at h
    · cases h
    · rename_i ids p2 heq
      obtain ⟨m, h1, h2⟩ := parseFunctionParametersLoop_index l fuel _ _ (ids, p2) heq
      simp only at h1
      subst h1
      split at h
      · rename_i hc2
        cases h
        obtain ⟨a1, a2⟩ := expectPeek_eq l _ _ hc2
        refine ⟨k + 1 + 1 + 2 * m + 1, a1, by omega, ?_⟩
        intro i hi1 hi2 ht
        right
        by_cases hi : i = k + 1
        · rw [hi] at ht
          exact absurd ht hl2
        · rcases Nat.even_or_odd' (i - (k + 2)) with ⟨c, hc3 | hc3⟩
          · refine ⟨k, c, hf, hl, hnr, by omega, ?_⟩
            intro j hj
            have := h2 j (by omega)
            have e : k + 3 + 2 * j = k + 1 + 1 + 1 + 2 * j := by omega
            rw [e]
            exact this
          · exfalso
            by_cases hcm : c < m
            · have := h2 c hcm
              have e : i = k + 1 + 1 + 1 + 2 * c := by omega
              rw [e, this] at ht
              cases ht
            · have e : i = k + 1 + 1 + 2 * m + 1 := by omega
              rw [e, a2] at ht
              cases ht
      · rename_i hc2
        cases h
        exact absurd he (expectPeek_false _ _ hc2)

end Parser

end parser
namespace parser

open token lexer ast

namespace Parser

/-- A parsing method that starts at a token index and ends with an empty error list
ends at a token index, and every ILLEGAL token it passed is one that a skip loop passes
or one in the place of a parameter. -/
theorem parsed_clean (l : Lexer) (fuel : Nat) :
    (∀ prec k r, parseExpression fuel prec (atToken l k) = some r → r.2.errorMessages = [] →
      ∃ k1, r.2 = atToken l k1 ∧ k ≤ k1 ∧ Clean l k k1) ∧
    (∀ fn k r, prefixParseFns (Lexer.nthToken l k).type = some fn →
      callPrefixParseFn fuel fn (atToken l k) = some r → r.2.errorMessages = [] →
      ∃ k1, r.2 = atToken l k1 ∧ k ≤ k1 ∧ Clean l k k1) ∧
    (∀ prec left k r, parseExpressionLoop fuel prec left (atToken l k) = some r →
      r.2.errorMessages = [] → ∃ k1, r.2 = atToken l k1 ∧ k ≤ k1 ∧ Clean l (k + 1) k1) ∧
    (∀ fn left k r, infixParseFns (Lexer.nthToken l k).type = some fn →
      callInfixParseFn fuel fn left (atToken l k) = some r → r.2.errorMessages = [] →
      ∃ k1, r.2 = atToken l k1 ∧ k ≤ k1 ∧ Clean l k k1) ∧
    (∀ k r, parsePrefixExpression fuel (atToken l k) = some r → r.2.errorMessages = [] →
      ∃ k1, r.2 = atToken l k1 ∧ k ≤ k1 ∧ Clean l (k + 1) k1) ∧
    (∀ left k r, parseInfixExpression fuel left (atToken l k) = some r →
      r.2.errorMessages = [] → ∃ k1, r.2 = atToken l k1 ∧ k ≤ k1 ∧ Clean l (k + 1) k1) ∧
    (∀ k r, parseGroupedExpression fuel (atToken l k) = some r → r.2.errorMessages = [] →
      ∃ k1, r.2 = atToken l k1 ∧ k ≤ k1 ∧ Clean l (k + 1) k1) ∧
    (∀ k r, parseIfExpression fuel (atToken l k) = some r → r.2.errorMessages = [] →
      ∃ k1, r.2 = atToken l k1 ∧ k ≤ k1 ∧ Clean l (k + 1) k1) ∧
    (∀ k r, parseBlockStatement fuel (atToken l k) = some r → r.2.errorMessages = [] →
      ∃ k1, r.2 = atToken l k1 ∧ k ≤ k1 ∧ Clean l (k + 1) k1) ∧
    (∀ tok stmts k r, parseBlockStatementLoop fuel tok stmts (atToken l k) = some r →
      r.2.errorMessages = [] → ∃ k1, r.2 = atToken l k1 ∧ k ≤ k1 ∧ Clean l k k1) ∧
    (∀ k r, (Lexer.nthToken l k).type = TokenType.FUNCTION →
      parseFunctionLiteral fuel (atToken l k) = some r → r.2.errorMessages = [] →
      ∃ k1, r.2 = atToken l k1 ∧ k ≤ k1 ∧ Clean l (k + 1) k1) ∧
    (∀ f k r, parseCallExpression fuel f (atToken l k) = some r → r.2.errorMessages = [] →
      ∃ k1, r.2 = atToken l k1 ∧ k ≤ k1 ∧ Clean l (k + 1) k1) ∧
    (∀ k r, parseCallArguments fuel (atToken l k) = some r → r.2.errorMessages = [] →
      ∃ k1, r.2 = atToken l k1 ∧ k ≤ k1 ∧ Clean l (k + 1) k1) ∧
    (∀ args k r, parseCallArgumentsLoop fuel args (atToken l k) = some r →
      r.2.errorMessages = [] → ∃ k1, r.2 = atToken l k1 ∧ k ≤ k1 ∧ Clean l (k + 1) k1) ∧
    (∀ k r, parseStatement fuel (atToken l k) = some r → r.2.errorMessages = [] →
      ∃ k1, r.2 = atToken l k1 ∧ k ≤ k1 ∧ Clean l k k1) ∧
    (∀ k r, (Lexer.nthToken l k).type = TokenType.LET →
      parseLetStatement fuel (atToken l k) = some r → r.2.errorMessages = [] →
      ∃ k1, r.2 = atToken l k1 ∧ k ≤ k1 ∧ Clean l (k + 1) k1) ∧
    (∀ k r, (Lexer.nthToken l k).type = TokenType.RETURN →
      parseReturnStatement fuel (atToken l k) = some r → r.2.errorMessages = [] →
      ∃ k1, r.2 = atToken l k1 ∧ k ≤ k1 ∧ Clean l (k + 1) k1) ∧
    (∀ k r, parseExpressionStatement fuel (atToken l k) = some r → r.2.errorMessages = [] →
      ∃ k1, r.2 = atToken l k1 ∧ k ≤ k1 ∧ Clean l k k1) := by
  induction fuel with
  | zero =>
    refine ⟨?_, ?_, ?_, ?_, ?_, ?_, ?_, ?_, ?_, ?_, ?_, ?_, ?_, ?_, ?_, ?_, ?_, ?_⟩
    · intro _ _ _ h; simp [parseExpression] at h
    · intro _ _ _ _ h; simp [callPrefixParseFn] at h
    · intro _ _ _ _ h; simp [parseExpressionLoop] at h
    · intro _ _ _ _ _ h; simp [callInfixParseFn] at h
    · intro _ _ h; simp [parsePrefixExpression] at h
    · intro _ _ _ h; simp [parseInfixExpression] at h
    · intro _ _ h; simp [parseGroupedExpression] at h
    · intro _ _ h; simp [parseIfExpression] at h
    · intro _ _ h; simp [parseBlockStatement] at h
    · intro _ _ _ _ h; simp [parseBlockStatementLoop] at h
    · intro _ _ _ h; simp [parseFunctionLiteral] at h
    · intro _ _ _ h; simp [parseCallExpression] at h
    · intro _ _ h; simp [parseCallArguments] at h
    · intro _ _ _ h; simp [parseCallArgumentsLoop] at h
    · intro _ _ h; simp [parseStatement] at h
    · intro _ _ _ h; simp [parseLetStatement] at h
    · intro _ _ _ h; simp [parseReturnStatement] at h
    · intro _ _ h; simp [parseExpressionStatement] at h
  | succ n ih =>
    obtain ⟨ihE, ihCP, ihL, ihCI, ihPre, ihInf, ihG, ihIf, ihB, ihBL, ihF, ihCall, ihArgs,
      ihArgsL, ihS, ihLet, ihRet, ihES⟩ := ih
    obtain ⟨bL, bArgsL, bSkip, _⟩ := errors_back n
    obtain ⟨bE, bB, bBL, bS, bFP⟩ := errors_back_all n
    refine ⟨?_, ?_, ?_, ?_, ?_, ?_, ?_, ?_, ?_, ?_, ?_, ?_, ?_, ?_, ?_, ?_, ?_, ?_⟩
    · intro prec k r h he
      rw [parseExpression] at h
      split at h
      · cases h
        simp [noPrefixParseFnError] at he
      · rename_i fn hfn
        split at h
        · cases h
        · rename_i left p1 heq
          have e1 := bL _ _ _ _ h he
          obtain ⟨k1, hk1, hle1, hc1⟩ := ihCP fn k (left, p1) hfn heq e1
          simp only at hk1
          subst hk1
          obtain ⟨k2, hk2, hle2, hc2⟩ := ihL prec left k1 r h he
          exact ⟨k2, hk2, by omega, clean_append l _ _ _ hc1 hc2⟩
    · intro fn k r hfn h he
      have hni := prefix_ne_illegal _ _ hfn
      cases fn <;> simp only [callPrefixParseFn] at h
      · cases h
        exact ⟨k, rfl, le_refl _, clean_self l k hni⟩
      · cases h
        cases hs : stoll (atToken l k).curToken.literal with
        | none => simp [parseIntegerLiteral, hs] at he
        | some v =>
          simp only [parseIntegerLiteral, hs]
          exact ⟨k, rfl, le_refl _, clean_self l k hni⟩
      · obtain ⟨k1, h1, h2, h3⟩ := ihPre k r h he
        exact ⟨k1, h1, h2, clean_cons l _ _ hni h3⟩
      · cases h
        exact ⟨k, rfl, le_refl _, clean_self l k hni⟩
      · obtain ⟨k1, h1, h2, h3⟩ := ihG k r h he
        exact ⟨k1, h1, h2, clean_cons l _ _ hni h3⟩
      · obtain ⟨k1, h1, h2, h3⟩ := ihIf k r h he
        exact ⟨k1, h1, h2, clean_cons l _ _ hni h3⟩
      · obtain ⟨k1, h1, h2, h3⟩ := ihF k r (prefix_function _ hfn) h he
        exact ⟨k1, h1, h2, clean_cons l _ _ hni h3⟩
    · intro prec left k r h he
      rw [parseExpressionLoop] at h
      split at h
      · split at h
        · cases h
          exact ⟨k, rfl, le_refl _, clean_empty l _ _ (by omega)⟩
        · rename_i fn hfn
          split at h
          · cases h
          · rename_i left1 p1 heq
            have e1 := bL _ _ _ _ h he
            rw [atToken_nextToken] at heq
            obtain ⟨k1, hk1, hle1, hc1⟩ := ihCI fn left (k + 1) (left1, p1) hfn heq e1
            simp only at hk1
            subst hk1
            obtain ⟨k2, hk2, hle2, hc2⟩ := ihL prec left1 k1 r h he
            exact ⟨k2, hk2, by omega, clean_append l _ _ _ hc1 hc2⟩
      · cases h
        exact ⟨k, rfl, le_refl _, clean_empty l _ _ (by omega)⟩
    · intro fn left k r hfn h he
      have hni := infix_ne_illegal _ _ hfn
      cases fn <;> simp only [callInfixParseFn] at h
      · obtain ⟨k1, h1, h2, h3⟩ := ihInf left k r h he
        exact ⟨k1, h1, h2, clean_cons l _ _ hni h3⟩
      · obtain ⟨k1, h1, h2, h3⟩ := ihCall left k r h he
        exact ⟨k1, h1, h2, clean_cons l _ _ hni h3⟩
    · intro k r h he
      rw [parsePrefixExpression] at h
      split at h
      · cases h
      · rename_i right p1 heq
        cases h
        rw [atToken_nextToken] at heq
        obtain ⟨k1, h1, h2, h3⟩ := ihE PREFIX (k + 1) (right, p1) heq he
        exact ⟨k1, h1, by omega, h3⟩
    · intro left k r h he
      rw [parseInfixExpression] at h
      split at h
      · cases h
      · rename_i right p1 heq
        cases h
        rw [atToken_nextToken] at heq
        obtain ⟨k1, h1, h2, h3⟩ := ihE _ (k + 1) (right, p1) heq he
        exact ⟨k1, h1, by omega, h3⟩
    · intro k r h he
      rw [parseGroupedExpression] at h
      split at h
      · cases h
      · rename_i exp p1 heq
        split at h
        · rename_i hc
          cases h
          have e1 := (expectPeek_back _ _ he).2
          rw [atToken_nextToken] at heq
          obtain ⟨k1, h1, h2, h3⟩ := ihE LOWEST (k + 1) (exp, p1) heq e1
          simp only at h1
          subst h1
          obtain ⟨a1, a2⟩ := expectPeek_eq l k1 _ hc
          refine ⟨k1 + 1, a1, by omega, clean_snoc l _ _ h3 ?_⟩
          rw [a2]
          decide
        · rename_i hc
          cases h
          exact absurd he (expectPeek_false _ _ hc)
    · intro k r h he
      rw [parseIfExpression] at h
      split at h
      · rename_i hc1
        obtain ⟨a1, t1⟩ := expectPeek_eq l k _ hc1
        rw [a1, atToken_nextToken] at h
        split at h
        · cases h
        · rename_i condition p1 heq
          split at h
          · rename_i hc2
            try simp only at h
            split at h
            · rename_i hc3
              split at h
              · cases h
              · rename_i consequence p3 heq2
                split at h
                · rename_i hElse
                  try simp only at h
                  split at h
                  · rename_i hc4
                    split at h
                    · cases h
                    · rename_i alternative p5 heq3
                      cases h
                      have e4 := (expectPeek_back _ _ (bB _ _ heq3 he)).2
                      have e3 : p3.errorMessages = [] := e4
                      have e2 := (expectPeek_back _ _ (bB _ _ heq2 e3)).2
                      have e1 := (expectPeek_back _ _ e2).2
                      obtain ⟨k1, h1, h2, h3⟩ := ihE LOWEST (k + 1 + 1) (condition, p1) heq e1
                      simp only at h1
                      subst h1
                      obtain ⟨a2, t2⟩ := expectPeek_eq l k1 _ hc2
                      rw [a2] at hc3 heq2
                      obtain ⟨a3, t3⟩ := expectPeek_eq l (k1 + 1) _ hc3
                      rw [a3] at heq2
                      obtain ⟨k3, h4, h5, h6⟩ := ihB (k1 + 1 + 1) (consequence, p3) heq2 e3
                      simp only at h4
                      subst h4
                      have t4 := peekTokenIs_atToken l k3 _ hElse
                      rw [atToken_nextToken] at hc4 heq3
                      obtain ⟨a5, t5⟩ := expectPeek_eq l (k3 + 1) _ hc4
                      rw [a5] at heq3
                      obtain ⟨k5, h7, h8, h9⟩ := ihB (k3 + 1 + 1) (alternative, p5) heq3 he
                      refine ⟨k5, h7, by omega, ?_⟩
                      have c1 : Clean l (k + 1) (k + 1) := clean_self l _ (by rw [t1]; decide)
                      have c2 : Clean l (k + 1) k1 := clean_append l _ _ _ c1 h3
                      have c3 : Clean l (k + 1) (k1 + 1) :=
                        clean_snoc l _ _ c2 (by rw [t2]; decide)
                      have c4 : Clean l (k + 1) (k1 + 1 + 1) :=
                        clean_snoc l _ _ c3 (by rw [t3]; decide)
                      have c5 : Clean l (k + 1) k3 := clean_append l _ _ _ c4 h6
                      have c6 : Clean l (k + 1) (k3 + 1) :=
                        clean_snoc l _ _ c5 (by rw [t4]; decide)
                      have c7 : Clean l (k + 1) (k3 + 1 + 1) :=
                        clean_snoc l _ _ c6 (by rw [t5]; decide)
                      exact clean_append l _ _ _ c7 h9
                  · rename_i hc4
                    cases h
                    exact absurd he (expectPeek_false _ _ hc4)
                · cases h
                  have e2 := (expectPeek_back _ _ (bB _ _ heq2 he)).2
                  have e1 := (expectPeek_back _ _ e2).2
                  obtain ⟨k1, h1, h2, h3⟩ := ihE LOWEST (k + 1 + 1) (condition, p1) heq e1
                  simp only at h1
                  subst h1
                  obtain ⟨a2, t2⟩ := expectPeek_eq l k1 _ hc2
                  rw [a2] at hc3 heq2
                  obtain ⟨a3, t3⟩ := expectPeek_eq l (k1 + 1) _ hc3
                  rw [a3] at heq2
                  obtain ⟨k3, h4, h5, h6⟩ := ihB (k1 + 1 + 1) (consequence, p3) heq2 he
                  refine ⟨k3, h4, by omega, ?_⟩
                  have c1 : Clean l (k + 1) (k + 1) := clean_self l _ (by rw [t1]; decide)
                  have c2 : Clean l (k + 1) k1 := clean_append l _ _ _ c1 h3
                  have c3 : Clean l (k + 1) (k1 + 1) :=
                    clean_snoc l _ _ c2 (by rw [t2]; decide)
                  have c4 : Clean l (k + 1) (k1 + 1 + 1) :=
                    clean_snoc l _ _ c3 (by rw [t3]; decide)
                  exact clean_append l _ _ _ c4 h6
            · rename_i hc3
              cases h
              exact absurd he (expectPeek_false _ _ hc3)
          · rename_i hc2
            cases h
            exact absurd he (expectPeek_false _ _ hc2)
      · rename_i hc
        cases h
        exact absurd he (expectPeek_false _ _ hc)
    · intro k r h he
      rw [parseBlockStatement, atToken_nextToken] at h
      obtain ⟨k1, h1, h2, h3⟩ := ihBL _ [] (k + 1) r h he
      exact ⟨k1, h1, by omega, h3⟩
    · intro tok stmts k r h he
      rw [parseBlockStatementLoop] at h
      split at h
      · split at h
        · cases h
        · rename_i stmt p1 heq
          have e1 : p1.errorMessages = [] := bBL _ _ p1.nextToken _ h he
          obtain ⟨k1, h1, h2, h3⟩ := ihS k (some stmt, p1) heq e1
          simp only at h1
          subst h1
          rw [atToken_nextToken] at h
          obtain ⟨k2, h4, h5, h6⟩ := ihBL _ _ (k1 + 1) r h he
          exact ⟨k2, h4, by omega, clean_append l _ _ _ h3 h6⟩
        · rename_i p1 heq
          have e1 : p1.errorMessages = [] := bBL _ _ p1.nextToken _ h he
          obtain ⟨k1, h1, h2, h3⟩ := ihS k (none, p1) heq e1
          simp only at h1
          subst h1
          rw [atToken_nextToken] at h
          obtain ⟨k2, h4, h5, h6⟩ := ihBL _ _ (k1 + 1) r h he
          exact ⟨k2, h4, by omega, clean_append l _ _ _ h3 h6⟩
      · rename_i hc
        cases h
        refine ⟨k, rfl, le_refl _, clean_self l k ?_⟩
        intro ht
        apply hc
        have e : (atToken l k).curToken.type = TokenType.ILLEGAL := ht
        simp [curTokenIs, e]
    · intro k r hT h he
      rw [parseFunctionLiteral] at h
      split at h
      · rename_i hc1
        obtain ⟨a1, t1⟩ := expectPeek_eq l k _ hc1
        rw [a1] at h
        split at h
        · cases h
        · rename_i parameters p1 heq
          split at h
          · rename_i hc2
            split at h
            · cases h
            · rename_i body p2 heq2
              cases h
              have e2 := bB _ _ heq2 he
              have e1 := (expectPeek_back _ _ e2).2
              obtain ⟨q, h1, h2, h3⟩ :=
                parseFunctionParameters_clean l n k (parameters, p1) hT t1 heq e1
              simp only at h1
              subst h1
              obtain ⟨a2, t2⟩ := expectPeek_eq l q _ hc2
              rw [a2] at heq2
              obtain ⟨k2, h4, h5, h6⟩ := ihB (q + 1) (body, p2) heq2 he
              refine ⟨k2, h4, by omega, ?_⟩
              have c1 : Clean l (k + 1) (q + 1) := clean_snoc l _ _ h3 (by rw [t2]; decide)
              exact clean_append l _ _ _ c1 h6
          · rename_i hc2
            cases h
            exact absurd he (expectPeek_false _ _ hc2)
      · rename_i hc
        cases h
        exact absurd he (expectPeek_false _ _ hc)
    · intro f k r h he
      rw [parseCallExpression] at h
      split at h
      · cases h
      · rename_i args p1 heq
        cases h
        exact ihArgs k (args, p1) heq he
    · intro k r h he
      rw [parseCallArguments] at h
      split at h
      · rename_i hc
        cases h
        have t1 := peekTokenIs_atToken l k _ hc
        exact ⟨k + 1, atToken_nextToken l k, by omega,
          clean_self l _ (by rw [t1]; decide)⟩
      · rw [atToken_nextToken] at h
        split at h
        · cases h
        · rename_i arg p1 heq
          split at h
          · cases h
          · rename_i args p2 heq2
            split at h
            · rename_i hc2
              cases h
              have e2 := (expectPeek_back _ _ he).2
              have e1 := bArgsL _ _ _ heq2 e2
              obtain ⟨k1, h1, h2, h3⟩ := ihE LOWEST (k + 1) (arg, p1) heq e1
              simp only at h1
              subst h1
              obtain ⟨k2, h4, h5, h6⟩ := ihArgsL [arg] k1 (args, p2) heq2 e2
              simp only at h4
              subst h4
              obtain ⟨a2, t2⟩ := expectPeek_eq l k2 _ hc2
              refine ⟨k2 + 1, a2, by omega, ?_⟩
              exact clean_snoc l _ _ (clean_append l _ _ _ h3 h6) (by rw [t2]; decide)
            · rename_i hc2
              cases h
              exact absurd he (expectPeek_false _ _ hc2)
    · intro args k r h he
      rw [parseCallArgumentsLoop] at h
      split at h
      · rename_i hc
        have t1 := peekTokenIs_atToken l k _ hc
        simp only [atToken_nextToken] at h
        split at h
        · cases h
        · rename_i arg p1 heq
          have e1 := bArgsL _ _ _ h he
          obtain ⟨k1, h1, h2, h3⟩ := ihE LOWEST (k + 1 + 1) (arg, p1) heq e1
          simp only at h1
          subst h1
          obtain ⟨k2, h4, h5, h6⟩ := ihArgsL _ k1 r h he
          refine ⟨k2, h4, by omega, ?_⟩
          have c1 : Clean l (k + 1) k1 := clean_cons l _ _ (by rw [t1]; decide) h3
          exact clean_append l _ _ _ c1 h6
      · cases h
        exact ⟨k, rfl, le_refl _, clean_empty l _ _ (by omega)⟩
    · intro k r h he
      rw [parseStatement] at h
      split at h
      · rename_i hLet
        obtain ⟨k1, h1, h2, h3⟩ := ihLet k r hLet h he
        exact ⟨k1, h1, h2, clean_cons l _ _ (by rw [show (Lexer.nthToken l k).type = _ from hLet]; decide) h3⟩
      · split at h
        · rename_i hRet
          obtain ⟨k1, h1, h2, h3⟩ := ihRet k r hRet h he
          exact ⟨k1, h1, h2, clean_cons l _ _ (by rw [show (Lexer.nthToken l k).type = _ from hRet]; decide) h3⟩
        · exact ihES k r h he
    · intro k r hT h he
      rw [parseLetStatement] at h
      split at h
      · rename_i hc1
        obtain ⟨a1, t1⟩ := expectPeek_eq l k _ hc1
        try simp only at h
        rw [a1] at h
        split at h
        · rename_i hc2
          obtain ⟨a2, t2⟩ := expectPeek_eq l (k + 1) _ hc2
          rw [a2, atToken_nextToken] at h
          split at h
          · cases h
          · rename_i value p2 heq
            split at h
            · cases h
            · rename_i p3 heq2
              cases h
              have e1 := bSkip _ _ heq2 he
              obtain ⟨e, h1, h2, h3⟩ := ihE LOWEST (k + 1 + 1 + 1) (value, p2) heq e1
              simp only at h1
              subst h1
              obtain ⟨s, s1, s2, s3, s4⟩ := skipToSemicolon_index l n e p3 heq2
              refine ⟨s, s1, by omega, ?_⟩
              intro i hi1 hi2 ht
              by_cases c1 : i = k + 1
              · rw [c1, t1] at ht
                cases ht
              by_cases c2 : i = k + 1 + 1
              · rw [c2, t2] at ht
                cases ht
              by_cases c3 : i ≤ e
              · exact h3 i (by omega) c3 ht
              by_cases c4 : i = s
              · rw [c4, s3] at ht
                cases ht
              left
              exact ⟨k, e, n, value, by omega, by omega, Or.inl ⟨hT, t1, t2, heq⟩,
                fun j hj1 hj2 => s4 j hj1 (by omega)⟩
        · rename_i hc2
          cases h
          exact absurd he (expectPeek_false _ _ hc2)
      · rename_i hc
        cases h
        exact absurd he (expectPeek_false _ _ hc)
    · intro k r hT h he
      rw [parseReturnStatement, atToken_nextToken] at h
      split at h
      · cases h
      · rename_i value p1 heq
        split at h
        · cases h
        · rename_i p2 heq2
          cases h
          have e1 := bSkip _ _ heq2 he
          obtain ⟨e, h1, h2, h3⟩ := ihE LOWEST (k + 1) (value, p1) heq e1
          simp only at h1
          subst h1
          obtain ⟨s, s1, s2, s3, s4⟩ := skipToSemicolon_index l n e p2 heq2
          refine ⟨s, s1, by omega, ?_⟩
          intro i hi1 hi2 ht
          by_cases c3 : i ≤ e
          · exact h3 i (by omega) c3 ht
          by_cases c4 : i = s
          · rw [c4, s3] at ht
            cases ht
          left
          exact ⟨k, e, n, value, by omega, by omega, Or.inr ⟨hT, heq⟩,
            fun j hj1 hj2 => s4 j hj1 (by omega)⟩
    · intro k r h he
      rw [parseExpressionStatement] at h
      split at h
      · cases h
      · rename_i expression p1 heq
        split at h
        · rename_i hc
          cases h
          obtain ⟨k1, h1, h2, h3⟩ := ihE LOWEST k (expression, p1) heq he
          simp only at h1
          subst h1
          have t1 := peekTokenIs_atToken l k1 _ hc
          exact ⟨k1 + 1, atToken_nextToken l k1, by omega,
            clean_snoc l _ _ h3 (by rw [t1]; decide)⟩
        · cases h
          exact ihE LOWEST k (expression, p1) heq he

/-- A parse of a program that ends with an empty error list ends at an `EOF` token, and
every ILLEGAL token before it is one that a skip loop passes or one in the place of a
parameter. -/
theorem parseProgramLoop_clean (l : Lexer) (fuel : Nat) : ∀ stmts k r,
    parseProgramLoop fuel stmts (atToken l k) = some r → r.2.errorMessages = [] →
    ∃ k1, r.2 = atToken l k1 ∧ k ≤ k1 ∧
      (Lexer.nthToken l k1).type = TokenType.EOF_TOKEN ∧ Clean l k k1 := by
  induction fuel with
  | zero => intro stmts k r h; simp [parseProgramLoop] at h
  | succ n ih =>
    intro stmts k r h he
    have gS := (parsed_clean l n).2.2.2.2.2.2.2.2.2.2.2.2.2.2.1
    have back := (errors_back n).2.2.2
    rw [parseProgramLoop] at h
    split at h
    · split at h
      · cases h
      · rename_i stmt p1 heq
        have e1 : p1.errorMessages = [] := back _ p1.nextToken _ h he
        obtain ⟨k1, h1, h2, h3⟩ := gS k (some stmt, p1) heq e1
        simp only at h1
        subst h1
        rw [atToken_nextToken] at h
        obtain ⟨k2, h4, h5, h6, h7⟩ := ih _ (k1 + 1) r h he
        exact ⟨k2, h4, by omega, h6, clean_append l _ _ _ h3 h7⟩
      · rename_i p1 heq
        have e1 : p1.errorMessages = [] := back _ p1.nextToken _ h he
        obtain ⟨k1, h1, h2, h3⟩ := gS k (none, p1) heq e1
        simp only at h1
        subst h1
        rw [atToken_nextToken] at h
        obtain ⟨k2, h4, h5, h6, h7⟩ := ih _ (k1 + 1) r h he
        exact ⟨k2, h4, by omega, h6, clean_append l _ _ _ h3 h7⟩
    · rename_i hc
      cases h
      have t : (Lexer.nthToken l k).type = TokenType.EOF_TOKEN := by
        by_contra hne
        exact hc hne
      exact ⟨k, rfl, le_refl _, t, clean_self l k (by rw [t]; decide)⟩

end Parser

end parser
namespace parser

open token lexer ast

namespace Parser

theorem skipToSemicolon_errors (fuel : Nat) :
    ∀ p p1 : Parser, skipToSemicolon fuel p = some p1 → p1.errors = p.errors := by
  intro p p1 h
  exact skipToSemicolon_preserves (fun q => q.errors = p.errors) (fun _ hq => hq)
    fuel p p1 rfl h

/-- With an ILLEGAL current token `parseExpression` records
`no prefix parse function found for ILLEGAL` and returns no node. -/
theorem parseExpression_illegal (fuel precedence : Nat) (p : Parser)
    (hill : p.curToken.type = TokenType.ILLEGAL) :
    parseExpression (fuel + 1) precedence p =
      some (none, { p with errorMessages := p.errorMessages ++
        ["no prefix parse function found for ILLEGAL"] }) := by
  rw [parseExpression, hill]
  rfl

end Parser

end parser

namespace Spec

open token lexer ast parser

/-- C9, as stated, fails. In `let x = 5 @;` and in `return 5 @;` the token `@` is
ILLEGAL, the parse terminates, and the error list is empty: the loop that skips to the
semicolon passes it. In `fn(@) { 1 }` the ILLEGAL token stands in the place of a
parameter, which `parseFunctionParameters` takes without a test of its type: the parse
terminates with an empty error list and a function literal whose parameter is `@`; the
same holds of a parameter after a comma, as in `fn(a, @) { a }`. In the input `1`, byte
0, `@` the ILLEGAL token comes after the `EOF` token that the byte 0 gives, where the
parse has stopped: the error list is empty. -/
theorem C9_illegal_token_unreported :
    (Lexer.tokens 6 (Lexer.new "let x = 5 @;".toList)).map (fun t => t.type) =
        [TokenType.LET, TokenType.IDENT, TokenType.ASSIGN, TokenType.INT, TokenType.ILLEGAL,
          TokenType.SEMICOLON] ∧
      (parseSource 20 "let x = 5 @;").map (fun r => r.2.errors) = some [] ∧
      (Lexer.tokens 4 (Lexer.new "return 5 @;".toList)).map (fun t => t.type) =
        [TokenType.RETURN, TokenType.INT, TokenType.ILLEGAL, TokenType.SEMICOLON] ∧
      (parseSource 20 "return 5 @;").map (fun r => r.2.errors) = some [] ∧
      (Lexer.tokens 8 (Lexer.new "fn(@) \x7b 1 \x7d".toList)).map (fun t => t.type) =
        [TokenType.FUNCTION, TokenType.LPAREN, TokenType.ILLEGAL, TokenType.RPAREN,
          TokenType.LBRACE, TokenType.INT, TokenType.RBRACE, TokenType.EOF_TOKEN] ∧
      (parseSource 20 "fn(@) \x7b 1 \x7d").map (fun r => (r.2.errors, r.1.toString)) =
        some ([], some "fn(@) 1") ∧
      (parseSource 30 "fn(a, @) \x7b a \x7d").map (fun r => (r.2.errors, r.1.toString)) =
        some ([], some "fn(a, @) a") ∧
      (Lexer.tokens 4 (Lexer.new "1\x00@".toList)).map (fun t => t.type) =
        [TokenType.INT, TokenType.EOF_TOKEN, TokenType.ILLEGAL, TokenType.EOF_TOKEN] ∧
      (parseSource 20 "1\x00@").map (fun r => r.2.errors) = some [] := by
  refine ⟨by decide!, by decide!, by decide!, by decide!, by decide!, by decide!, by decide!,
    by decide!, by decide!⟩

/-- C9, amended. For every input on which `parseProgram` terminates: if the token
stream has, before its first `EOF` token, an ILLEGAL token that is neither one that the
loop of a let or return statement passes on its way to the semicolon (`InSkip`) nor one
in the place of a parameter of a function literal (`InParams`), then the error list is
non-empty afterwards. Put the other way: a parse that ends with an empty error list
ends at an `EOF` token, and every ILLEGAL token up to it is of one of these two kinds.
Where the parser looks for an expression and the current token is ILLEGAL,
`parseExpression` records exactly `no prefix parse function found for ILLEGAL` and
yields no node, and the loop that skips to the semicolon records no error, whatever
tokens it passes. The inputs `1 + @` and `(1 @)` are parsed with errors. -/
theorem C9_illegal_token_amended (fuel : Nat) (src : String) (prog : Program) (p : Parser)
    (hparse : parseSource fuel src = some (prog, p)) :
    (∀ i, (Lexer.nthToken (Lexer.new src.toList) i).type = TokenType.ILLEGAL →
        (∀ j, j < i →
          (Lexer.nthToken (Lexer.new src.toList) j).type ≠ TokenType.EOF_TOKEN) →
        ¬InSkip (Lexer.new src.toList) i → ¬InParams (Lexer.new src.toList) i →
        p.errors ≠ []) ∧
      (p.errors = [] → ∃ k, p = Parser.atToken (Lexer.new src.toList) k ∧
        (Lexer.nthToken (Lexer.new src.toList) k).type = TokenType.EOF_TOKEN ∧
        ∀ i, i ≤ k → (Lexer.nthToken (Lexer.new src.toList) i).type = TokenType.ILLEGAL →
          InSkip (Lexer.new src.toList) i ∨ InParams (Lexer.new src.toList) i) ∧
      (∀ (fuel1 precedence : Nat) (q : Parser), q.curToken.type = TokenType.ILLEGAL →
        Parser.parseExpression (fuel1 + 1) precedence q =
          some (none, { q with errorMessages := q.errorMessages ++
            ["no prefix parse function found for ILLEGAL"] })) ∧
      (∀ (fuel2 : Nat) (s s1 : Parser), Parser.skipToSemicolon fuel2 s = some s1 →
        s1.errors = s.errors) ∧
      (parseSource 20 "1 + @").map (fun r => r.2.errors) =
        some ["no prefix parse function found for ILLEGAL"] ∧
      (parseSource 20 "(1 @)").map (fun r => r.2.errors) =
        some ["expected next token to be RPAREN, got ILLEGAL instead.",
          "no prefix parse function found for ILLEGAL",
          "no prefix parse function found for RPAREN"] := by
  have key : p.errors = [] → ∃ k, p = Parser.atToken (Lexer.new src.toList) k ∧
      (Lexer.nthToken (Lexer.new src.toList) k).type = TokenType.EOF_TOKEN ∧
      ∀ i, i ≤ k → (Lexer.nthToken (Lexer.new src.toList) i).type = TokenType.ILLEGAL →
        InSkip (Lexer.new src.toList) i ∨ InParams (Lexer.new src.toList) i := by
    intro he
    have h : Parser.parseProgramLoop fuel [] (Parser.atToken (Lexer.new src.toList) 0) =
        some (prog, p) := hparse
    obtain ⟨k, h1, _, h3, h4⟩ := Parser.parseProgramLoop_clean _ fuel [] 0 (prog, p) h he
    exact ⟨k, h1, h3, fun i hi ht => h4 i (Nat.zero_le i) hi ht⟩
  refine ⟨?_, key, ?_, ?_, by decide!, by decide!⟩
  · intro i hill heof hskip hparams he
    obtain ⟨k, _, h2, h3⟩ := key he
    by_cases hik : i ≤ k
    · rcases h3 i hik hill with h | h
      · exact hskip h
      · exact hparams h
    · exact heof k (by omega) h2
  · intro fuel1 precedence q hill
    exact Parser.parseExpression_illegal fuel1 precedence q hill
  · intro fuel2 s s1 hs
    exact Parser.skipToSemicolon_errors fuel2 s s1 hs

/-- Witness of the amended C9: in `let x = 5; @` the ILLEGAL token at index 5 follows
the semicolon of the let statement, so no skip loop passes it, and it stands in the
place of no parameter; the parse terminates and reports an error. -/
theorem C9_illegal_token_amended_witness :
    (Lexer.nthToken (Lexer.new "let x = 5; @".toList) 5).type = TokenType.ILLEGAL ∧
      ¬InSkip (Lexer.new "let x = 5; @".toList) 5 ∧
      ¬InParams (Lexer.new "let x = 5; @".toList) 5 ∧
      ∃ prog p, parseSource 20 "let x = 5; @" = some (prog, p) ∧ p.errors ≠ [] := by
  have hill : (Lexer.nthToken (Lexer.new "let x = 5; @".toList) 5).type =
      TokenType.ILLEGAL := by decide
  have heof : ∀ j, j < 5 →
      (Lexer.nthToken (Lexer.new "let x = 5; @".toList) j).type ≠ TokenType.EOF_TOKEN := by
    decide
  have hskip : ¬InSkip (Lexer.new "let x = 5; @".toList) 5 := by
    rintro ⟨k, e, f, value, _, he, _, hs⟩
    exact hs 4 (by omega) (by omega) (by decide)
  have hparams : ¬InParams (Lexer.new "let x = 5; @".toList) 5 := by
    rintro ⟨k, n, hf, _, _, hi, _⟩
    have hk : k = 1 ∨ k = 3 := by omega
    rcases hk with hk | hk
    · rw [hk] at hf
      revert hf
      decide
    · rw [hk] at hf
      revert hf
      decide
  cases hq : parseSource 20 "let x = 5; @" with
  | none =>
    have hsome : (parseSource 20 "let x = 5; @").isSome = true := by decide!
    rw [hq] at hsome
    cases hsome
  | some r =>
    obtain ⟨prog, p⟩ := r
    exact ⟨hill, hskip, hparams, prog, p, rfl,
      (C9_illegal_token_amended 20 "let x = 5; @" prog p hq).1 5 hill heof hskip hparams⟩

end Spec
namespace object

theorem Environment.validIn_of_length (h h1 : Heap) (hl : h1.stores.length = h.stores.length) :
    ∀ E : Environment, E.ValidIn h → E.ValidIn h1
  | .mk a none, hv => by
    have ha : a < h.stores.length := hv
    show a < h1.stores.length
    omega
  | .mk a (some o), hv => by
    have ha : a < h.stores.length ∧ o.ValidIn h := hv
    exact ⟨by rw [hl]; exact ha.1, Environment.validIn_of_length h h1 hl o ha.2⟩

theorem Environment.store_lt_of_validIn (h : Heap) :
    ∀ E : Environment, E.ValidIn h → E.store < h.stores.length
  | .mk _ none, hv => hv
  | .mk _ (some _), hv => hv.1

/-- What `set` binds in an environment is what `get` resolves in it afterwards. -/
theorem Environment.get_set_self (h : Heap) (name : String) (v : Option Object) :
    ∀ E : Environment, E.store < h.stores.length → E.get (E.set h name v) name = v := by
  intro E hstore
  have hl : List.lookup name ((E.set h name v).stores.getD E.store []) = some v := by
    show List.lookup name ((updateAt _ E.store h.stores).getD E.store []) = _
    rw [getD_updateAt_same _ _ _ _ hstore]
    exact Store.lookup_set_self _ _ _
  cases E with
  | mk a o =>
    have hl1 : List.lookup name ((Environment.set h (.mk a o) name v).stores.getD a []) =
        some v := hl
    cases o with
    | none => simp only [Environment.get, hl1]
    | some o => simp only [Environment.get, hl1]

end object

namespace evaluator

open ast object

/-- Applying a function object that holds the environment `E`, in whatever memory `h`
in which `E` is valid: the body runs in a new environment whose outer is `E`, where a
name that is no parameter resolves to what `E` resolves it to in `h`. -/
theorem extendFunctionEnv_get (params : List Identifier) (E : Environment)
    (args : List (Option Object)) (h : Heap) (name : String) (hE : E.ValidIn h)
    (hargs : params.length ≤ args.length) (hname : ∀ p ∈ params, p.value ≠ name) :
    ∃ h1, extendFunctionEnv params E args h =
        some (Environment.mk h.stores.length (some E), h1) ∧
      (∀ (fuel addr : Nat) (body : BlockStatement),
        applyFunction fuel (some (.function addr params (some body) E)) args h =
          (eval fuel (some (.blockStatement body)) (Environment.mk h.stores.length (some E))
            h1).bind unwrapReturnValue) ∧
      (Environment.mk h.stores.length (some E)).get h1 name = E.get h name := by
  obtain ⟨n, S⟩ := h
  obtain ⟨st1, e1, e2⟩ := bindParameters_last S (some E) n params args [] hargs
  refine ⟨{ nextAddr := n, stores := S ++ [st1] }, ?_, ?_, ?_⟩
  · simp only [extendFunctionEnv, newEnclosedEnvironment, e1]
  · intro fuel addr body
    simp only [applyFunction, applyFunctionWith, extendFunctionEnv, newEnclosedEnvironment, e1,
      Option.map]
  · have hl : List.lookup name st1 = none := by rw [e2 name hname]; rfl
    simp only [Environment.get, List.getD_eq_getElem?_getD, List.getElem?_concat_length,
      Option.getD_some, hl]
    exact Environment.get_append S [st1] n n name E hE

end evaluator

namespace Spec

open token ast object evaluator parser

/-- C34. A Function object holds the environment `E` it was created in by reference: a
let statement `let f = fn(params) body` in `E` first creates the Function object `F`
that holds `E` and then binds `f` to `F` in the store of `E`, and when `F` is applied
later, the body runs in a new environment whose outer is `E`, in which `f` (no
parameter) resolves to `F` itself: the function can call itself by name. In general, for
a Function object that holds `E`, whatever is bound to a name in `E` after the object
was created, in whatever later memory, is what the name (no parameter) resolves to in
the environment of an application made after it. The program
`let fact = fn(n) { if (n < 1) { 1 } else { n * fact(n - 1) } }; fact(5);` evaluates
to the Integer 120. -/
theorem C34_late_binding (fuel : Nat) (ltok ftok : Token) (fname : Identifier)
    (params : List Identifier) (body : BlockStatement) (E : Environment) (h : Heap)
    (args : List (Option Object)) (hE : E.ValidIn h) (hargs : params.length ≤ args.length)
    (hname : ∀ p ∈ params, p.value ≠ fname.value) :
    eval (fuel + 2) (some (.statement (.letStatement ltok (some fname)
        (some (.functionLiteral ftok params (some body)))))) E h =
        .ok (some (.function h.nextAddr params (some body) E))
          (E.set { h with nextAddr := h.nextAddr + 1 } fname.value
            (some (.function h.nextAddr params (some body) E))) ∧
      E.get (E.set { h with nextAddr := h.nextAddr + 1 } fname.value
          (some (.function h.nextAddr params (some body) E))) fname.value =
        some (.function h.nextAddr params (some body) E) ∧
      (∃ h1, extendFunctionEnv params E args
            (E.set { h with nextAddr := h.nextAddr + 1 } fname.value
              (some (.function h.nextAddr params (some body) E))) =
          some (Environment.mk h.stores.length (some E), h1) ∧
        applyFunction fuel (some (.function h.nextAddr params (some body) E)) args
            (E.set { h with nextAddr := h.nextAddr + 1 } fname.value
              (some (.function h.nextAddr params (some body) E))) =
          (eval fuel (some (.blockStatement body)) (Environment.mk h.stores.length (some E))
            h1).bind unwrapReturnValue ∧
        (Environment.mk h.stores.length (some E)).get h1 fname.value =
          some (.function h.nextAddr params (some body) E)) ∧
      (∀ (h2 : Heap) (name : String) (v : Option Object) (addr : Nat), E.ValidIn h2 →
        (∀ p ∈ params, p.value ≠ name) →
        ∃ h1, extendFunctionEnv params E args (E.set h2 name v) =
            some (Environment.mk h2.stores.length (some E), h1) ∧
          applyFunction fuel (some (.function addr params (some body) E)) args
              (E.set h2 name v) =
            (eval fuel (some (.blockStatement body))
              (Environment.mk h2.stores.length (some E)) h1).bind unwrapReturnValue ∧
          (Environment.mk h2.stores.length (some E)).get h1 name = v) ∧
      (run 60 ("let fact = fn(n) \x7b if (n < 1) \x7b 1 \x7d else " ++
        "\x7b n * fact(n - 1) \x7d \x7d; fact(5);")).bind Result.integerValue = some 120 := by
  have late : ∀ (h2 : Heap) (name : String) (v : Option Object) (addr : Nat), E.ValidIn h2 →
      (∀ p ∈ params, p.value ≠ name) →
      ∃ h1, extendFunctionEnv params E args (E.set h2 name v) =
          some (Environment.mk h2.stores.length (some E), h1) ∧
        applyFunction fuel (some (.function addr params (some body) E)) args
            (E.set h2 name v) =
          (eval fuel (some (.blockStatement body))
            (Environment.mk h2.stores.length (some E)) h1).bind unwrapReturnValue ∧
        (Environment.mk h2.stores.length (some E)).get h1 name = v := by
    intro h2 name v addr hE2 hn
    have hlen : (E.set h2 name v).stores.length = h2.stores.length := length_updateAt _ _ _
    have hE3 : E.ValidIn (E.set h2 name v) := Environment.validIn_of_length h2 _ hlen E hE2
    obtain ⟨h1, e1, e2, e3⟩ := extendFunctionEnv_get params E args (E.set h2 name v) name hE3
      hargs hn
    rw [hlen] at e1 e2 e3
    refine ⟨h1, e1, e2 fuel addr body, ?_⟩
    rw [e3]
    exact Environment.get_set_self h2 name v E (Environment.store_lt_of_validIn h2 E hE2)
  have hE1 : E.ValidIn { h with nextAddr := h.nextAddr + 1 } :=
    Environment.validIn_of_length h { h with nextAddr := h.nextAddr + 1 } rfl E hE
  refine ⟨?_, ?_, ?_, late, by decide!⟩
  · simp only [eval, exprNode, Option.map, Result.bind, isError, Object.type]
    rfl
  · exact Environment.get_set_self _ _ _ E (Environment.store_lt_of_validIn _ E hE1)
  · exact late { h with nextAddr := h.nextAddr + 1 } fname.value _ h.nextAddr hE1 hname

/-- Witness of C34: `let f = fn(x) { f }` in the top-level environment, and the
application of the function to the Integer 2. -/
theorem C34_late_binding_witness :
    freshEnv.1.ValidIn freshEnv.2 ∧
      [({ token := identToken "x", value := "x" } : Identifier)].length ≤
        [some (Object.integer 4 2)].length ∧
      (∀ p ∈ [({ token := identToken "x", value := "x" } : Identifier)], p.value ≠ "f") ∧
      eval 2 (some (.statement (.letStatement letToken
          (some { token := identToken "f", value := "f" })
          (some (.functionLiteral { type := TokenType.FUNCTION, literal := "fn" }
            [{ token := identToken "x", value := "x" }]
            (some (.mk lbraceToken
              [.expressionStatement (identToken "f") (identNode "f")])))))))
          freshEnv.1 freshEnv.2 =
        .ok (some (.function 3 [{ token := identToken "x", value := "x" }]
            (some (.mk lbraceToken [.expressionStatement (identToken "f") (identNode "f")]))
            freshEnv.1))
          { nextAddr := 4, stores := [[("f", some (.function 3
            [{ token := identToken "x", value := "x" }]
            (some (.mk lbraceToken [.expressionStatement (identToken "f") (identNode "f")]))
            freshEnv.1))]] } ∧
      (applyFunction 3 (some (.function 3 [{ token := identToken "x", value := "x" }]
            (some (.mk lbraceToken [.expressionStatement (identToken "f") (identNode "f")]))
            freshEnv.1)) [some (Object.integer 4 2)]
          { nextAddr := 5, stores := [[("f", some (.function 3
            [{ token := identToken "x", value := "x" }]
            (some (.mk lbraceToken [.expressionStatement (identToken "f") (identNode "f")]))
            freshEnv.1))]] }).objectType = some ObjectType.FUNCTION_OBJ :=
  have hv : freshEnv.1.ValidIn freshEnv.2 := Nat.zero_lt_one
  have hn : ∀ p ∈ [({ token := identToken "x", value := "x" } : Identifier)],
      p.value ≠ "f" := by
    intro p hp
    rw [List.mem_singleton] at hp
    subst hp
    decide
  ⟨hv, Nat.le_refl 1, hn,
    (C34_late_binding 0 letToken { type := TokenType.FUNCTION, literal := "fn" }
      { token := identToken "f", value := "f" } [{ token := identToken "x", value := "x" }]
      (.mk lbraceToken [.expressionStatement (identToken "f") (identNode "f")])
      freshEnv.1 freshEnv.2 [some (Object.integer 4 2)] hv (Nat.le_refl 1) hn).1,
    rfl⟩

end Spec
